import Mathlib

/-!
# GatorTaxi: a red-black tree and a position-tracked min-heap kept in sync

Shallow embedding of `rbNode.cpp`, `rbTree.cpp`, `heapNode.cpp`, `minHeap.cpp` and the
coordinator functions of `main.cpp`.

Modelling conventions.

* A pointer to an `rbNode` is an address `Nat` into a node store `Mem`; address `0` is the
  static sentinel `rbNode::NIL`.  `new rbNode(..)` takes the next unused address (the program
  never frees a node, so no address is ever reused).
* A pointer to a heap cell `&heap[i]` is the index `i`; `nullptr` is `none`.
* C++ `int` values are integers (`Int`); array indices and `size` are `Nat` (the index
  arithmetic of the heap stays below 2 * 2005 + 2).  The program does arithmetic on record
  fields in two places, both in `UpdateTrip` (twice the current duration, and the cost plus
  the surcharge): there the result must lie in the 32-bit range of `int`, and a signed
  overflow, which is undefined behaviour in the source, yields `none`.
* The heap buffer has the 2005 cells that the constructor of `minHeap` reserves and that
  are never extended: `minHeap::insert` at `size = 2005` would write past the buffer, which
  is undefined behaviour in the source and yields `none`.
* Loops and recursions take a fuel argument and return `none` when it runs out; dereferencing
  `nullptr` also yields `none`.
* A C++ exception is an `Except` error that carries the message together with the object
  state at the throw.
-/

namespace GatorTaxi

/-! ## rbNode -/

/-- Colour tag of a tree node (the enum class nodeColor). -/
inductive nodeColor
  | RED
  | BLACK
deriving DecidableEq, Repr

/-- The class rbNode: record data, the three tree links (addresses), the back-reference to a
heap cell (an index, none for nullptr) and the colour. -/
structure rbNode where
  rideNumber : Int
  rideCost : Int
  tripDuration : Int
  left : Nat
  right : Nat
  parent : Nat
  heapNodeRef : Option Nat
  color : nodeColor
deriving DecidableEq, Repr

/-- Address of the static sentinel rbNode::NIL. -/
@[reducible] def NIL : Nat := 0

/-- The constructor rbNode::rbNode: links to NIL, null back-reference, colour BLACK exactly
when the ride number is -1 and RED otherwise. -/
def rbNode.init (rideNumber rideCost tripDuration : Int) : rbNode :=
  { rideNumber := rideNumber, rideCost := rideCost, tripDuration := tripDuration,
    left := NIL, right := NIL, parent := NIL, heapNodeRef := none,
    color := if rideNumber = -1 then nodeColor.BLACK else nodeColor.RED }

/-- The node store: the contents of every rbNode object by address. -/
abbrev Mem := Nat → rbNode

/-- Overwrite the object at address a. -/
def Mem.write (m : Mem) (a : Nat) (v : rbNode) : Mem :=
  fun b => if b = a then v else m b

/-! ## rbTree -/

/-- The class rbTree: the root pointer, together with the node store it points into
(the member nil is the constant NIL). -/
structure rbTree where
  mem : Mem
  root : Nat

namespace rbTree

def getColor (t : rbTree) (a : Nat) : nodeColor := (t.mem a).color
def getLeft (t : rbTree) (a : Nat) : Nat := (t.mem a).left
def getRight (t : rbTree) (a : Nat) : Nat := (t.mem a).right
def getParent (t : rbTree) (a : Nat) : Nat := (t.mem a).parent
def getHeapNodeRef (t : rbTree) (a : Nat) : Option Nat := (t.mem a).heapNodeRef

def setColor (t : rbTree) (a : Nat) (c : nodeColor) : rbTree :=
  { t with mem := Mem.write t.mem a { t.mem a with color := c } }
def setLeft (t : rbTree) (a v : Nat) : rbTree :=
  { t with mem := Mem.write t.mem a { t.mem a with left := v } }
def setRight (t : rbTree) (a v : Nat) : rbTree :=
  { t with mem := Mem.write t.mem a { t.mem a with right := v } }
def setParent (t : rbTree) (a v : Nat) : rbTree :=
  { t with mem := Mem.write t.mem a { t.mem a with parent := v } }
def setHeapNodeRef (t : rbTree) (a : Nat) (r : Option Nat) : rbTree :=
  { t with mem := Mem.write t.mem a { t.mem a with heapNodeRef := r } }

/-- The function rbTree::isLeftChild. -/
def isLeftChild (t : rbTree) (node : Nat) : Bool :=
  decide (node = t.getLeft (t.getParent node))

/-- The function rbTree::isRightChild. -/
def isRightChild (t : rbTree) (node : Nat) : Bool :=
  decide (node = t.getRight (t.getParent node))

/-- The function rbTree::UpdateParentChildLink. -/
def UpdateParentChildLink (t : rbTree) (parent oldChild newChild : Nat) : rbTree :=
  let t := t.setParent newChild parent
  if parent = NIL then { t with root := newChild }
  else if t.isLeftChild oldChild then t.setLeft parent newChild
  else t.setRight parent newChild

/-- The function rbTree::rotateRight. -/
def rotateRight (t : rbTree) (node : Nat) : rbTree :=
  let Y_Node := t.getLeft node
  let t := t.setLeft node (t.getRight Y_Node)
  let t := if t.getRight Y_Node ≠ NIL then t.setParent (t.getRight Y_Node) node else t
  let t := t.UpdateParentChildLink (t.getParent node) node Y_Node
  let t := t.setRight Y_Node node
  t.setParent node Y_Node

/-- The function rbTree::rotateLeft. -/
def rotateLeft (t : rbTree) (node : Nat) : rbTree :=
  let Y_Node := t.getRight node
  let t := t.setRight node (t.getLeft Y_Node)
  let t := if t.getLeft Y_Node ≠ NIL then t.setParent (t.getLeft Y_Node) node else t
  let t := t.UpdateParentChildLink (t.getParent node) node Y_Node
  let t := t.setLeft Y_Node node
  t.setParent node Y_Node

/-- One pass through the body of the while loop of rbTree::insertionRebalance, entered
with the parent of node RED; returns the tree and the new value of node. -/
def insertionRebalanceBody (t : rbTree) (node : Nat) : rbTree × Nat :=
  if t.isLeftChild (t.getParent node) then
    let Y_Node := t.getRight (t.getParent (t.getParent node))
    if t.getColor Y_Node = nodeColor.RED then
      let t := t.setColor (t.getParent node) nodeColor.BLACK
      let t := t.setColor Y_Node nodeColor.BLACK
      let t := t.setColor (t.getParent (t.getParent node)) nodeColor.RED
      (t, t.getParent (t.getParent node))
    else
      let tn : rbTree × Nat :=
        if t.isRightChild node then
          let node := t.getParent node
          (t.rotateLeft node, node)
        else (t, node)
      let t := tn.1
      let node := tn.2
      let t := t.setColor (t.getParent node) nodeColor.BLACK
      let t := t.setColor (t.getParent (t.getParent node)) nodeColor.RED
      (t.rotateRight (t.getParent (t.getParent node)), node)
  else
    let Y_Node := t.getLeft (t.getParent (t.getParent node))
    if t.getColor Y_Node = nodeColor.RED then
      let t := t.setColor (t.getParent node) nodeColor.BLACK
      let t := t.setColor Y_Node nodeColor.BLACK
      let t := t.setColor (t.getParent (t.getParent node)) nodeColor.RED
      (t, t.getParent (t.getParent node))
    else
      let tn : rbTree × Nat :=
        if t.isLeftChild node then
          let node := t.getParent node
          (t.rotateRight node, node)
        else (t, node)
      let t := tn.1
      let node := tn.2
      let t := t.setColor (t.getParent node) nodeColor.BLACK
      let t := t.setColor (t.getParent (t.getParent node)) nodeColor.RED
      (t.rotateLeft (t.getParent (t.getParent node)), node)

/-- The function rbTree::insertionRebalance: loop while the parent is RED, then colour the
root BLACK. -/
def insertionRebalance : Nat → rbTree → Nat → Option rbTree
  | 0, _, _ => none
  | fuel + 1, t, node =>
    if t.getColor (t.getParent node) = nodeColor.RED then
      insertionRebalance fuel (t.insertionRebalanceBody node).1 (t.insertionRebalanceBody node).2
    else
      some (t.setColor t.root nodeColor.BLACK)

/-- The descent loop of rbTree::insert: returns the last visited node Y_Node, or the
duplicate-key exception. -/
def insertDescend : Nat → rbTree → Int → Nat → Nat → Option (Except String Nat)
  | 0, _, _, _, _ => none
  | fuel + 1, t, key, X_Node, Y_Node =>
    if X_Node ≠ NIL then
      if key < (t.mem X_Node).rideNumber then
        insertDescend fuel t key (t.getLeft X_Node) X_Node
      else if key > (t.mem X_Node).rideNumber then
        insertDescend fuel t key (t.getRight X_Node) X_Node
      else
        some (Except.error "Duplicate RideNumber\n")
    else
      some (Except.ok Y_Node)

/-- The function rbTree::insert.  The argument is none for a null pointer.  An exception
carries the tree as it is at the throw. -/
def insert (fuel : Nat) (t : rbTree) (node : Option Nat) :
    Option (Except (String × rbTree) rbTree) :=
  match node with
  | none => some (Except.error ("The node isn't a valid node\n", t))
  | some node =>
    match insertDescend fuel t (t.mem node).rideNumber t.root NIL with
    | none => none
    | some (Except.error msg) => some (Except.error (msg, t))
    | some (Except.ok Y_Node) =>
      let t := t.setParent node Y_Node
      if Y_Node = NIL then
        (insertionRebalance fuel { t with root := node } node).map Except.ok
      else if (t.mem node).rideNumber < (t.mem Y_Node).rideNumber then
        (insertionRebalance fuel (t.setLeft Y_Node node) node).map Except.ok
      else if (t.mem node).rideNumber > (t.mem Y_Node).rideNumber then
        (insertionRebalance fuel (t.setRight Y_Node node) node).map Except.ok
      else if (t.mem node).rideNumber = (t.mem Y_Node).rideNumber then
        some (Except.error ("Duplicate RideNumber\n", t))
      else
        (insertionRebalance fuel t node).map Except.ok

/-- The function rbTree::getMinimumNode. -/
def getMinimumNode : Nat → rbTree → Nat → Option Nat
  | 0, _, _ => none
  | fuel + 1, t, node =>
    if t.getLeft node ≠ NIL then getMinimumNode fuel t (t.getLeft node) else some node

/-- One pass through the body of the while loop of rbTree::DeletionRebalance; returns the
tree and the new value of node. -/
def DeletionRebalanceBody (t : rbTree) (node : Nat) : rbTree × Nat :=
  if t.isLeftChild node then
    let sibling := t.getRight (t.getParent node)
    let ts : rbTree × Nat :=
      if t.getColor sibling = nodeColor.RED then
        let t := t.setColor sibling nodeColor.BLACK
        let t := t.setColor (t.getParent node) nodeColor.RED
        let t := t.rotateLeft (t.getParent node)
        (t, t.getRight (t.getParent node))
      else (t, sibling)
    let t := ts.1
    let sibling := ts.2
    if t.getColor (t.getLeft sibling) = nodeColor.BLACK ∧
        t.getColor (t.getRight sibling) = nodeColor.BLACK then
      let t := t.setColor sibling nodeColor.RED
      (t, t.getParent node)
    else
      let ts : rbTree × Nat :=
        if t.getColor (t.getRight sibling) = nodeColor.BLACK then
          let t := t.setColor (t.getLeft sibling) nodeColor.BLACK
          let t := t.setColor sibling nodeColor.RED
          let t := t.rotateRight sibling
          (t, t.getRight (t.getParent node))
        else (t, sibling)
      let t := ts.1
      let sibling := ts.2
      let t := t.setColor sibling (t.getColor (t.getParent node))
      let t := t.setColor (t.getParent node) nodeColor.BLACK
      let t := t.setColor (t.getRight sibling) nodeColor.BLACK
      let t := t.rotateLeft (t.getParent node)
      (t, t.root)
  else
    let sibling := t.getLeft (t.getParent node)
    let ts : rbTree × Nat :=
      if t.getColor sibling = nodeColor.RED then
        let t := t.setColor sibling nodeColor.BLACK
        let t := t.setColor (t.getParent node) nodeColor.RED
        let t := t.rotateRight (t.getParent node)
        (t, t.getLeft (t.getParent node))
      else (t, sibling)
    let t := ts.1
    let sibling := ts.2
    if t.getColor (t.getRight sibling) = nodeColor.BLACK ∧
        t.getColor (t.getLeft sibling) = nodeColor.BLACK then
      let t := t.setColor sibling nodeColor.RED
      (t, t.getParent node)
    else
      let ts : rbTree × Nat :=
        if t.getColor (t.getLeft sibling) = nodeColor.BLACK then
          let t := t.setColor (t.getRight sibling) nodeColor.BLACK
          let t := t.setColor sibling nodeColor.RED
          let t := t.rotateLeft sibling
          (t, t.getLeft (t.getParent node))
        else (t, sibling)
      let t := ts.1
      let sibling := ts.2
      let t := t.setColor sibling (t.getColor (t.getParent node))
      let t := t.setColor (t.getParent node) nodeColor.BLACK
      let t := t.setColor (t.getLeft sibling) nodeColor.BLACK
      let t := t.rotateRight (t.getParent node)
      (t, t.root)

/-- The function rbTree::DeletionRebalance: loop while node is not the root and is BLACK,
then colour node BLACK. -/
def DeletionRebalance : Nat → rbTree → Nat → Option rbTree
  | 0, _, _ => none
  | fuel + 1, t, node =>
    if node ≠ t.root ∧ t.getColor node = nodeColor.BLACK then
      DeletionRebalance fuel (t.DeletionRebalanceBody node).1 (t.DeletionRebalanceBody node).2
    else
      some (t.setColor node nodeColor.BLACK)

/-- The function rbTree::deleteNode.  The argument is none for a null pointer. -/
def deleteNode (fuel : Nat) (t : rbTree) (node : Option Nat) :
    Option (Except (String × rbTree) rbTree) :=
  match node with
  | none => some (Except.error ("The node isn't a valid node\n", t))
  | some node =>
    if t.getLeft node = NIL then
      let X_Node := t.getRight node
      let NodeColor := t.getColor node
      let t := t.UpdateParentChildLink (t.getParent node) node (t.getRight node)
      if NodeColor = nodeColor.BLACK then (DeletionRebalance fuel t X_Node).map Except.ok
      else some (Except.ok t)
    else if t.getRight node = NIL then
      let X_Node := t.getLeft node
      let NodeColor := t.getColor node
      let t := t.UpdateParentChildLink (t.getParent node) node (t.getLeft node)
      if NodeColor = nodeColor.BLACK then (DeletionRebalance fuel t X_Node).map Except.ok
      else some (Except.ok t)
    else
      match getMinimumNode fuel t (t.getRight node) with
      | none => none
      | some Y_Node =>
        let NodeColor := t.getColor Y_Node
        let X_Node := t.getRight Y_Node
        let t :=
          if t.getParent Y_Node = node then t.setParent X_Node Y_Node
          else
            let t := t.UpdateParentChildLink (t.getParent Y_Node) Y_Node (t.getRight Y_Node)
            let t := t.setRight Y_Node (t.getRight node)
            t.setParent (t.getRight Y_Node) Y_Node
        let t := t.UpdateParentChildLink (t.getParent node) node Y_Node
        let t := t.setLeft Y_Node (t.getLeft node)
        let t := t.setParent (t.getLeft Y_Node) Y_Node
        let t := t.setColor Y_Node (t.getColor node)
        if NodeColor = nodeColor.BLACK then (DeletionRebalance fuel t X_Node).map Except.ok
        else some (Except.ok t)

/-- The function rbTree::searchRecursive; the inner option is none for nullptr. -/
def searchRecursive : Nat → rbTree → Nat → Int → Option (Option Nat)
  | 0, _, _, _ => none
  | fuel + 1, t, root, rideNumber =>
    if root = NIL then some none
    else if (t.mem root).rideNumber = rideNumber then some (some root)
    else if (t.mem root).rideNumber > rideNumber then
      searchRecursive fuel t (t.getLeft root) rideNumber
    else searchRecursive fuel t (t.getRight root) rideNumber

/-- The function rbTree::search. -/
def search (fuel : Nat) (t : rbTree) (rideNumber : Int) : Option (Option Nat) :=
  searchRecursive fuel t t.root rideNumber

/-- The function rbTree::searchInRangeRecursive; the vector it appends to is threaded
through, and each pushed element is a copy of the node object. -/
def searchInRangeRecursive : Nat → rbTree → Nat → Int → Int → List rbNode →
    Option (List rbNode)
  | 0, _, _, _, _, _ => none
  | fuel + 1, t, root, rideNumber1, rideNumber2, vec =>
    if root = NIL then some vec
    else
      let r1 : Option (List rbNode) :=
        if (t.mem root).rideNumber > rideNumber1 then
          searchInRangeRecursive fuel t (t.getLeft root) rideNumber1 rideNumber2 vec
        else some vec
      match r1 with
      | none => none
      | some vec =>
        let vec :=
          if (t.mem root).rideNumber ≥ rideNumber1 ∧ (t.mem root).rideNumber ≤ rideNumber2
          then vec ++ [t.mem root] else vec
        if (t.mem root).rideNumber < rideNumber2 then
          searchInRangeRecursive fuel t (t.getRight root) rideNumber1 rideNumber2 vec
        else some vec

/-- The function rbTree::searchInRange. -/
def searchInRange (fuel : Nat) (t : rbTree) (rideNumber1 rideNumber2 : Int) :
    Option (List rbNode) :=
  searchInRangeRecursive fuel t t.root rideNumber1 rideNumber2 []

end rbTree

/-! ## heapNode and minHeap -/

/-- The class heapNode: record data, the back-reference to the tree node (an address, none
for nullptr) and the position field pos. -/
structure heapNode where
  rideNumber : Int
  rideCost : Int
  tripDuration : Int
  rbNodeRef : Option Nat
  pos : Nat
deriving DecidableEq, Repr

/-- The constructor heapNode::heapNode: null back-reference, pos 0. -/
def heapNode.init (rideNumber rideCost tripDuration : Int) : heapNode :=
  { rideNumber := rideNumber, rideCost := rideCost, tripDuration := tripDuration,
    rbNodeRef := none, pos := 0 }

/-- The comparison heapNode::operator<. -/
def heapNode.lt (a other : heapNode) : Bool :=
  if a.rideCost = other.rideCost then decide (a.tripDuration < other.tripDuration)
  else decide (a.rideCost < other.rideCost)

/-- The stream output of a heapNode. -/
def heapNode.print (n : heapNode) : String :=
  "(" ++ toString n.rideNumber ++ "," ++ toString n.rideCost ++ "," ++
    toString n.tripDuration ++ ")"

/-- The stream output of an rbNode. -/
def rbNode.print (n : rbNode) : String :=
  "(" ++ toString n.rideNumber ++ "," ++ toString n.rideCost ++ "," ++
    toString n.tripDuration ++ ")"

/-- The least value of the C++ type int (32 bits). -/
def INT_MIN : Int := -2147483648

/-- The greatest value of the C++ type int (32 bits). -/
def INT_MAX : Int := 2147483647

/-- The result of an arithmetic operation on int values is representable in int. -/
def inInt (x : Int) : Bool := decide (INT_MIN ≤ x ∧ x ≤ INT_MAX)

/-- The class minHeap: the cell buffer and the size counter (which counts the guard
cell 0, so the live cells are 1 .. size - 1). -/
structure minHeap where
  heap : Nat → heapNode
  size : Nat

namespace minHeap

/-- Overwrite cell i of the buffer. -/
def put (h : minHeap) (i : Nat) (v : heapNode) : minHeap :=
  { h with heap := fun j => if j = i then v else h.heap j }

/-- The number of cells of the buffer: the constructor reserves 2005 cells, and no function
of the class extends the buffer. -/
def capacity : Nat := 2005

def isEmpty (h : minHeap) : Bool := decide (h.size ≤ 1)
def getParent (index : Nat) : Nat := index / 2
def getLeftChild (index : Nat) : Nat := 2 * index
def getRightChild (index : Nat) : Nat := 2 * index + 1
def isValidIndex (h : minHeap) (index : Nat) : Bool := decide (index ≥ 1 ∧ index < h.size)

/-- The function minHeap::getAddress: the address of cell size. -/
def getAddress (h : minHeap) : Nat := h.size

/-- The function minHeap::swap.  It redirects the back-references of the two tree nodes
(in the node store), exchanges the two cells and rewrites their pos fields. -/
def swap (h : minHeap) (m : Mem) (index1 index2 : Nat) : Option (minHeap × Mem) :=
  match (h.heap index1).rbNodeRef, (h.heap index2).rbNodeRef with
  | some rb1, some rb2 =>
    let m := Mem.write m rb1 { m rb1 with heapNodeRef := some index2 }
    let m := Mem.write m rb2 { m rb2 with heapNodeRef := some index1 }
    let temp := h.heap index1
    let h := h.put index1 (h.heap index2)
    let h := h.put index2 temp
    let h := h.put index1 { h.heap index1 with pos := index1 }
    let h := h.put index2 { h.heap index2 with pos := index2 }
    some (h, m)
  | _, _ => none

/-- The function minHeap::heapifyUp. -/
def heapifyUp : Nat → minHeap → Mem → Nat → Option (minHeap × Mem)
  | 0, _, _, _ => none
  | fuel + 1, h, m, position =>
    if (h.heap position).lt (h.heap (getParent position)) then
      match h.swap m position (getParent position) with
      | none => none
      | some (h, m) => heapifyUp fuel h m (getParent position)
    else some (h, m)

/-- The function minHeap::insert.  The cell heap[size] exists only while size is below the
reserved capacity; the write past the buffer has no result.  The recursion of heapifyUp
halves the position each time, so position + 1 calls are enough. -/
def insert (h : minHeap) (m : Mem) (node : heapNode) : Option (minHeap × Mem) :=
  if h.size < capacity then
    let h := h.put h.size node
    let h := h.put h.size { h.heap h.size with pos := h.size }
    match heapifyUp (h.size + 1) h m h.size with
    | none => none
    | some (h, m) => some ({ h with size := h.size + 1 }, m)
  else none

/-- The function minHeap::heapifyDown. -/
def heapifyDown : Nat → minHeap → Mem → Nat → Option (minHeap × Mem)
  | 0, _, _, _ => none
  | fuel + 1, h, m, position =>
    if h.isValidIndex (getLeftChild position) then
      let leftChild := getLeftChild position
      let rightChild :=
        if h.isValidIndex (getRightChild position) then getRightChild position else leftChild
      let minChild := if (h.heap leftChild).lt (h.heap rightChild) then leftChild else rightChild
      if (h.heap minChild).lt (h.heap position) then
        match h.swap m position minChild with
        | none => none
        | some (h, m) => heapifyDown fuel h m minChild
      else some (h, m)
    else some (h, m)

/-- The function minHeap::removeMin; returns the removed cell contents.  The recursion of
heapifyDown moves to a larger valid index each time, so size + 1 calls are enough. -/
def removeMin (h : minHeap) (m : Mem) :
    Option (Except (String × minHeap) (heapNode × minHeap × Mem)) :=
  if h.isEmpty then some (Except.error ("No active ride requests", h))
  else
    let minNode := h.heap 1
    match h.swap m 1 (h.size - 1) with
    | none => none
    | some (h, m) =>
      let h := { h with size := h.size - 1 }
      match heapifyDown (h.size + 1) h m 1 with
      | none => none
      | some (h, m) => some (Except.ok (minNode, h, m))

/-- The function minHeap::remove. -/
def remove (h : minHeap) (m : Mem) (index : Nat) : Option (minHeap × Mem) :=
  match h.swap m index (h.size - 1) with
  | none => none
  | some (h, m) =>
    let h := { h with size := h.size - 1 }
    heapifyDown (h.size + 1) h m index

end minHeap

/-! ## The coordinator (main.cpp) -/

/-- The program state: the globals myTree and myHeap, and the allocator position (the
address the next new rbNode will get). -/
structure State where
  myTree : rbTree
  myHeap : minHeap
  next : Nat

/-- The state at program start: the sentinel at address 0, an empty tree, the guard entry
(-1,-1,-1) in cell 0 and size 1. -/
def State.empty : State :=
  { myTree := { mem := fun _ => rbNode.init (-1) (-1) (-1), root := NIL },
    myHeap := { heap := fun _ => heapNode.init (-1) (-1) (-1), size := 1 },
    next := 1 }

/-- Fuel handed to the tree loops by the coordinator: every node address is below next, so
no root-to-leaf path is longer than next. -/
def State.fuel (s : State) : Nat := s.next + 2

/-- The object allocation new rbNode(..): the node is built at address next. -/
def State.newNode (s : State) (rideNumber rideCost tripDuration : Int) : State :=
  { s with
    myTree := { s.myTree with
      mem := Mem.write s.myTree.mem s.next (rbNode.init rideNumber rideCost tripDuration) },
    next := s.next + 1 }

/-- The steps shared by Insert and UpdateTrip after the two node objects are created:
tree insert, link the back-references, heap insert. -/
def State.insertBoth (s : State) (rbnode : Nat) (heapnode : heapNode) :
    Option (Except (String × State) State) :=
  match s.myTree.insert s.fuel (some rbnode) with
  | none => none
  | some (Except.error (msg, t)) => some (Except.error (msg, { s with myTree := t }))
  | some (Except.ok t) =>
    let adr := s.myHeap.getAddress
    let t := t.setHeapNodeRef rbnode (some adr)
    let heapnode := { heapnode with rbNodeRef := some rbnode }
    match s.myHeap.insert t.mem heapnode with
    | none => none
    | some (h, m) => some (Except.ok { s with myTree := { t with mem := m }, myHeap := h })

/-- The function Insert.  An error result is the message written to the output before
exit(1), with the state at that moment. -/
def Insert (s : State) (rideNumber rideCost tripDuration : Int) :
    Option (Except (String × State) State) :=
  let rbnode := s.next
  let s := s.newNode rideNumber rideCost tripDuration
  let heapnode := heapNode.init rideNumber rideCost tripDuration
  s.insertBoth rbnode heapnode

/-- The function GetNextRide: the new state and the line written to the output (the
record, or the message of the caught exception). -/
def GetNextRide (s : State) : Option (State × String) :=
  match s.myHeap.removeMin s.myTree.mem with
  | none => none
  | some (Except.error (msg, h)) => some ({ s with myHeap := h }, msg)
  | some (Except.ok (nextRide, h, m)) =>
    let s := { s with myTree := { s.myTree with mem := m }, myHeap := h }
    match s.myTree.deleteNode s.fuel nextRide.rbNodeRef with
    | none => none
    | some (Except.error (msg, t)) => some ({ s with myTree := t }, msg)
    | some (Except.ok t) => some ({ s with myTree := t }, nextRide.print)

/-- The function Print with one ride number: the line written. -/
def Print (s : State) (rideNumber : Int) : Option String :=
  match s.myTree.search s.fuel rideNumber with
  | none => none
  | some none => some "(0,0,0)"
  | some (some ride) => some (s.myTree.mem ride).print

/-- The loop of the range Print: element i is followed by the character at index
(i == size - 1) of the literal ", ", that is a comma, or a blank after the last one. -/
def printRange : List rbNode → String
  | [] => ""
  | [r] => r.print ++ " "
  | r :: rs => r.print ++ "," ++ printRange rs

/-- The function Print with two ride numbers: the line written. -/
def PrintRange (s : State) (rideNumber1 rideNumer2 : Int) : Option String :=
  match s.myTree.searchInRange s.fuel rideNumber1 rideNumer2 with
  | none => none
  | some res => if res.isEmpty then some "(0,0,0)" else some (printRange res)

/-- The function CancelRide.  An error is an exception that leaves the function. -/
def CancelRide (s : State) (rideNumber : Int) : Option (Except (String × State) State) :=
  match s.myTree.search s.fuel rideNumber with
  | none => none
  | some none => some (Except.ok s)
  | some (some ride) =>
    match s.myTree.getHeapNodeRef ride with
    | none => none
    | some ref =>
      let idx := (s.myHeap.heap ref).pos
      match s.myTree.deleteNode s.fuel (some ride) with
      | none => none
      | some (Except.error (msg, t)) => some (Except.error (msg, { s with myTree := t }))
      | some (Except.ok t) =>
        match s.myHeap.remove t.mem idx with
        | none => none
        | some (h, m) => some (Except.ok { s with myTree := { t with mem := m }, myHeap := h })

/-- The function UpdateTrip.  The product 2 * currTripDuration and the sum of the cost and
the surcharge are computed in int: when one of them leaves the range of int the call has no
result. -/
def UpdateTrip (s : State) (rideNumber newTripDuration : Int) :
    Option (Except (String × State) State) :=
  match s.myTree.search s.fuel rideNumber with
  | none => none
  | some none => some (Except.ok s)
  | some (some ride) =>
    match s.myTree.getHeapNodeRef ride with
    | none => none
    | some ref =>
      let idx := (s.myHeap.heap ref).pos
      match s.myTree.deleteNode s.fuel (some ride) with
      | none => none
      | some (Except.error (msg, t)) => some (Except.error (msg, { s with myTree := t }))
      | some (Except.ok t) =>
        match s.myHeap.remove t.mem idx with
        | none => none
        | some (h, m) =>
          let s := { s with myTree := { t with mem := m }, myHeap := h }
          let currTripDuration := (s.myTree.mem ride).tripDuration
          if inInt (2 * currTripDuration) then
            if newTripDuration ≤ 2 * currTripDuration then
              let rideCost := (s.myTree.mem ride).rideCost +
                (if newTripDuration ≤ currTripDuration then 0 else 10)
              if inInt rideCost then
                let rbnode := s.next
                let s := s.newNode rideNumber rideCost newTripDuration
                let heapnode := heapNode.init rideNumber rideCost newTripDuration
                s.insertBoth rbnode heapnode
              else none
            else some (Except.ok s)
          else none

/-! ## Specification vocabulary -/

/-! ### Shapes, layouts and the red-black predicates -/

/-- The shape of a pointer tree: which node address sits where, and the colour of each
node.  A leaf stands for the sentinel. -/
inductive Shape
  | leaf
  | node (l : Shape) (a : Nat) (c : nodeColor) (r : Shape)
deriving DecidableEq, Repr

/-- The pointer that designates a subtree: NIL for a leaf, the node address otherwise. -/
def Shape.ptr : Shape → Nat
  | leaf => NIL
  | node _ a _ _ => a

/-- The node addresses in in-order (left subtree, node, right subtree). -/
def Shape.addrs : Shape → List Nat
  | leaf => []
  | node l a _ r => l.addrs ++ a :: r.addrs

/-- Number of nodes on the longest path from the root down to a leaf. -/
def Shape.height : Shape → Nat
  | leaf => 0
  | node l _ _ r => max l.height r.height + 1

/-- The node store lays out the shape below a node whose parent pointer is par: every node
is a real object (not the sentinel), its parent pointer designates the node above it, its
child pointers designate its two subtrees, and its colour is the one recorded in the
shape. -/
def Layout (m : Mem) : Nat → Shape → Prop
  | _, Shape.leaf => True
  | par, Shape.node l a c r =>
    a ≠ NIL ∧ (m a).parent = par ∧ (m a).left = l.ptr ∧ (m a).right = r.ptr ∧
      (m a).color = c ∧ Layout m a l ∧ Layout m a r

/-- The tree object t is the pointer tree of shape sh: the root pointer designates sh, the
parent of the root is the sentinel, the links and colours follow sh, and no node occurs
twice. -/
structure IsTree (t : rbTree) (sh : Shape) : Prop where
  root : t.root = sh.ptr
  layout : Layout t.mem NIL sh
  nodup : sh.addrs.Nodup

/-- The ride numbers in in-order. -/
def keys (m : Mem) (sh : Shape) : List Int := sh.addrs.map (fun a => (m a).rideNumber)

/-- Key ordering: the in-order sequence of ride numbers is strictly increasing, that is
every node is larger than all of its left subtree and smaller than all of its right one. -/
def KeyOrdered (m : Mem) (sh : Shape) : Prop := (keys m sh).Pairwise (fun x y => x < y)

/-- Colour of the root of a subtree; a leaf (the sentinel) counts as BLACK. -/
def rootColor : Shape → nodeColor
  | Shape.leaf => nodeColor.BLACK
  | Shape.node _ _ c _ => c

/-- Number of BLACK nodes on the leftmost path from the root of the subtree to a leaf. -/
def bheight : Shape → Nat
  | Shape.leaf => 0
  | Shape.node l _ c _ => bheight l + (if c = nodeColor.BLACK then 1 else 0)

/-- Every path from a node down to a leaf passes the same number of BLACK nodes. -/
def Balanced : Shape → Prop
  | Shape.leaf => True
  | Shape.node l _ _ r => bheight l = bheight r ∧ Balanced l ∧ Balanced r

/-- No RED node has a RED child. -/
def NoRedRed : Shape → Prop
  | Shape.leaf => True
  | Shape.node l _ c r =>
    (c = nodeColor.RED → rootColor l = nodeColor.BLACK ∧ rootColor r = nodeColor.BLACK) ∧
    NoRedRed l ∧ NoRedRed r

/-- The balance discipline of a red-black tree of shape sh (the colours in sh are those of
the node store, see IsTree): the sentinel is BLACK, the root is BLACK, no RED node has a RED
child, and all paths from a node to a leaf carry the same number of BLACK nodes. -/
structure RedBlack (t : rbTree) (sh : Shape) : Prop where
  sentinel : (t.mem NIL).color = nodeColor.BLACK
  rootBlack : rootColor sh = nodeColor.BLACK
  noRedRed : NoRedRed sh
  balanced : Balanced sh

/-- The record data carried by a node: id, cost, duration and heap back-reference. -/
def rbNode.data (n : rbNode) : Int × Int × Int × Option Nat :=
  (n.rideNumber, n.rideCost, n.tripDuration, n.heapNodeRef)

/-- One step of a path from a subtree up to the root: the parent address, on which side
the subtree hangs, and the sibling subtree. -/
inductive Frame
  | L (a : Nat) (c : nodeColor) (sib : Shape)
  | R (sib : Shape) (a : Nat) (c : nodeColor)
deriving Repr

/-- Address of the parent node of the frame. -/
def Frame.addr : Frame → Nat
  | L a _ _ => a
  | R _ a _ => a

/-- Colour of the parent node of the frame. -/
def Frame.color : Frame → nodeColor
  | L _ c _ => c
  | R _ _ c => c

/-- The sibling subtree of the frame. -/
def Frame.sibling : Frame → Shape
  | L _ _ s => s
  | R s _ _ => s

/-- The subtree obtained by hanging s below the frame. -/
def Frame.fill : Frame → Shape → Shape
  | L a c sib, s => Shape.node s a c sib
  | R sib a c, s => Shape.node sib a c s

/-- Hang a subtree into a path of frames (innermost frame first). -/
def plug : List Frame → Shape → Shape
  | [], s => s
  | f :: rest, s => plug rest (f.fill s)

/-- Address of the parent of the hole of a path. -/
def ctxPar : List Frame → Nat
  | [] => NIL
  | f :: _ => f.addr

/-! ### Paths and frame lemmas -/

/-- Layout of a path of frames above a hole designated by pointer p. -/
def LayoutCtx (m : Mem) : List Frame → Nat → Prop
  | [], _ => True
  | Frame.L a c sib :: rest, p =>
    a ≠ NIL ∧ (m a).parent = ctxPar rest ∧ (m a).left = p ∧ (m a).right = sib.ptr ∧
      (m a).color = c ∧ Layout m a sib ∧ LayoutCtx m rest a
  | Frame.R sib a c :: rest, p =>
    a ≠ NIL ∧ (m a).parent = ctxPar rest ∧ (m a).left = sib.ptr ∧ (m a).right = p ∧
      (m a).color = c ∧ Layout m a sib ∧ LayoutCtx m rest a

/-- The root pointer of a plugged path. -/
def ctxRoot : List Frame → Nat → Nat
  | [], p => p
  | f :: rest, _ => ctxRoot rest f.addr

/-- In-order addresses to the left of the hole. -/
def ctxLeft : List Frame → List Nat
  | [] => []
  | Frame.L _ _ _ :: rest => ctxLeft rest
  | Frame.R sib a _ :: rest => ctxLeft rest ++ (sib.addrs ++ [a])

/-- In-order addresses to the right of the hole. -/
def ctxRight : List Frame → List Nat
  | [] => []
  | Frame.L a _ sib :: rest => (a :: sib.addrs) ++ ctxRight rest
  | Frame.R _ _ _ :: rest => ctxRight rest

/-- All addresses of a path. -/
def ctxAddrs (ctx : List Frame) : List Nat := ctxLeft ctx ++ ctxRight ctx

/-- Links of a node object. -/
def rbNode.links (n : rbNode) : Nat × Nat × Nat := (n.left, n.right, n.parent)

open rbTree

/-! ### Colour bookkeeping along a path -/

/-- Colour of the innermost frame of a path, if there is one. -/
def parColor : List Frame → Option nodeColor
  | [] => none
  | f :: _ => some f.color

/-- The no-red-red discipline along a path: siblings obey it, a RED frame has a BLACK
sibling and a BLACK frame above it (so the root is BLACK). -/
def CtxNRR : List Frame → Prop
  | [] => True
  | f :: rest =>
    NoRedRed f.sibling ∧
    (f.color = nodeColor.RED →
      rootColor f.sibling = nodeColor.BLACK ∧ parColor rest = some nodeColor.BLACK) ∧
    CtxNRR rest

/-- Black-height bookkeeping along a path whose hole has black height h. -/
def CtxBal : List Frame → Nat → Prop
  | [], _ => True
  | f :: rest, h =>
    bheight f.sibling = h ∧ Balanced f.sibling ∧
    CtxBal rest (h + (if f.color = nodeColor.BLACK then 1 else 0))

/-! ### The insert fix-up -/

/-- What insertionRebalance guarantees about its result, relative to the tree it starts
from. -/
def InsPost (guard : Prop) (t : rbTree) (sh : Shape) (t' : rbTree) : Prop :=
  ∃ sh', IsTree t' sh' ∧ sh'.addrs = sh.addrs ∧ (∀ a, (t'.mem a).data = (t.mem a).data) ∧
    t'.mem NIL = t.mem NIL ∧ rootColor sh' = nodeColor.BLACK ∧ NoRedRed sh' ∧
    (guard → Balanced sh → Balanced sh')

/-! ### The function rbTree::insert -/

/-- Parent address of the hole of a path that hangs below a node at address par. -/
def ctxParFrom (par : Nat) : List Frame → Nat
  | [] => par
  | f :: _ => f.addr

/-- The key of the node at an address. -/
def keyAt (m : Mem) (a : Nat) : Int := (m a).rideNumber

/-- The tree after the attach step of insert, by the kind of the innermost frame. -/
def attach (t : rbTree) (n : Nat) : List Frame → rbTree
  | [] => { t.setParent n NIL with root := n }
  | Frame.L a _ _ :: _ => (t.setParent n a).setLeft a n
  | Frame.R _ a _ :: _ => (t.setParent n a).setRight a n

/-! ### The cases of the delete fix-up -/

/-- Case 1 of DeletionRebalance for a left child: a RED sibling is rotated away. -/
def delCase1L (t : rbTree) (node : Nat) : rbTree × Nat :=
  if t.getColor (t.getRight (t.getParent node)) = nodeColor.RED then
    let sibling := t.getRight (t.getParent node)
    let t := t.setColor sibling nodeColor.BLACK
    let t := t.setColor (t.getParent node) nodeColor.RED
    let t := t.rotateLeft (t.getParent node)
    (t, t.getRight (t.getParent node))
  else (t, t.getRight (t.getParent node))

/-- Subcase 3.1 of DeletionRebalance for a left child: the far nephew is BLACK. -/
def delCase3L (t : rbTree) (node sibling : Nat) : rbTree × Nat :=
  if t.getColor (t.getRight sibling) = nodeColor.BLACK then
    let t := t.setColor (t.getLeft sibling) nodeColor.BLACK
    let t := t.setColor sibling nodeColor.RED
    let t := t.rotateRight sibling
    (t, t.getRight (t.getParent node))
  else (t, sibling)

/-- The final recolouring and rotation of case 3 for a left child. -/
def delCase4L (t : rbTree) (node sibling : Nat) : rbTree × Nat :=
  let t := t.setColor sibling (t.getColor (t.getParent node))
  let t := t.setColor (t.getParent node) nodeColor.BLACK
  let t := t.setColor (t.getRight sibling) nodeColor.BLACK
  let t := t.rotateLeft (t.getParent node)
  (t, t.root)

/-- Cases 2 and 3 of DeletionRebalance for a left child with the sibling known. -/
def delRestL (t : rbTree) (node sibling : Nat) : rbTree × Nat :=
  if t.getColor (t.getLeft sibling) = nodeColor.BLACK ∧
      t.getColor (t.getRight sibling) = nodeColor.BLACK then
    ((t.setColor sibling nodeColor.RED), (t.setColor sibling nodeColor.RED).getParent node)
  else delCase4L (delCase3L t node sibling).1 node (delCase3L t node sibling).2

/-- Case 1 of DeletionRebalance for a right child. -/
def delCase1R (t : rbTree) (node : Nat) : rbTree × Nat :=
  if t.getColor (t.getLeft (t.getParent node)) = nodeColor.RED then
    let sibling := t.getLeft (t.getParent node)
    let t := t.setColor sibling nodeColor.BLACK
    let t := t.setColor (t.getParent node) nodeColor.RED
    let t := t.rotateRight (t.getParent node)
    (t, t.getLeft (t.getParent node))
  else (t, t.getLeft (t.getParent node))

/-- Subcase 3.1 of DeletionRebalance for a right child. -/
def delCase3R (t : rbTree) (node sibling : Nat) : rbTree × Nat :=
  if t.getColor (t.getLeft sibling) = nodeColor.BLACK then
    let t := t.setColor (t.getRight sibling) nodeColor.BLACK
    let t := t.setColor sibling nodeColor.RED
    let t := t.rotateLeft sibling
    (t, t.getLeft (t.getParent node))
  else (t, sibling)

/-- The final recolouring and rotation of case 3 for a right child. -/
def delCase4R (t : rbTree) (node sibling : Nat) : rbTree × Nat :=
  let t := t.setColor sibling (t.getColor (t.getParent node))
  let t := t.setColor (t.getParent node) nodeColor.BLACK
  let t := t.setColor (t.getLeft sibling) nodeColor.BLACK
  let t := t.rotateRight (t.getParent node)
  (t, t.root)

/-- Cases 2 and 3 of DeletionRebalance for a right child with the sibling known. -/
def delRestR (t : rbTree) (node sibling : Nat) : rbTree × Nat :=
  if t.getColor (t.getRight sibling) = nodeColor.BLACK ∧
      t.getColor (t.getLeft sibling) = nodeColor.BLACK then
    ((t.setColor sibling nodeColor.RED), (t.setColor sibling nodeColor.RED).getParent node)
  else delCase4R (delCase3R t node sibling).1 node (delCase3R t node sibling).2

/-- The no-red-red discipline of everything strictly below the root of a subtree. -/
def NoRedRedBelow : Shape → Prop
  | Shape.leaf => True
  | Shape.node l _ _ r => NoRedRed l ∧ NoRedRed r

/-- The state of the delete fix-up loop: the subtree s hangs in the path ctx, its black
height is one less than the path expects, and the parent pointer of its root (of the
sentinel, when s is a leaf) designates the innermost frame. -/
structure DelState (t : rbTree) (ctx : List Frame) (s : Shape) : Prop where
  tree : IsTree t (plug ctx s)
  par : (t.mem s.ptr).parent = ctxPar ctx
  sentinel : (t.mem NIL).color = nodeColor.BLACK
  nrrS : NoRedRedBelow s
  nrrC : CtxNRR ctx
  balS : Balanced s
  balC : CtxBal ctx (bheight s + 1)

/-- What the delete fix-up guarantees about its result. -/
def DelPost (t : rbTree) (sh : Shape) (t' : rbTree) : Prop :=
  ∃ sh', IsTree t' sh' ∧ sh'.addrs = sh.addrs ∧ (∀ a, (t'.mem a).data = (t.mem a).data) ∧
    (t'.mem NIL).color = nodeColor.BLACK ∧ rootColor sh' = nodeColor.BLACK ∧ NoRedRed sh' ∧
    Balanced sh'

/-! ### The function rbTree::deleteNode -/

/-- The last four statements of the two-children case of rbTree::deleteNode: the node
Y_Node takes the place, the left subtree and the colour of node. -/
def replaceTail (t : rbTree) (z y : Nat) : rbTree :=
  let t := t.UpdateParentChildLink (t.getParent z) z y
  let t := t.setLeft y (t.getLeft z)
  let t := t.setParent (t.getLeft y) y
  t.setColor y (t.getColor z)

/-- The statements of the two-children case of rbTree::deleteNode that follow the
splicing out of Y_Node when Y_Node is not the right child of node. -/
def replaceSteps (t : rbTree) (z y : Nat) : rbTree :=
  let t := t.setRight y (t.getRight z)
  let t := t.setParent (t.getRight y) y
  replaceTail t z y

/-- The statements of the two-children case of rbTree::deleteNode that detach Y_Node from
its place. -/
def deleteNodeDetach (t : rbTree) (z y : Nat) : rbTree :=
  if t.getParent y = z then t.setParent (t.getRight y) y
  else
    let t := t.UpdateParentChildLink (t.getParent y) y (t.getRight y)
    let t := t.setRight y (t.getRight z)
    t.setParent (t.getRight y) y

/-- What rbTree::deleteNode guarantees about its result tree t2 of shape sh2, given the
tree t before. -/
def DelResult (t t2 : rbTree) (sh2 : Shape) : Prop :=
  IsTree t2 sh2 ∧ (∀ a, (t2.mem a).data = (t.mem a).data) ∧
    (t2.mem NIL).color = nodeColor.BLACK ∧ rootColor sh2 = nodeColor.BLACK ∧ NoRedRed sh2 ∧
    Balanced sh2

/-! ### The heap: swap, heapifyUp, heapifyDown, insert and remove -/

/-- Everything in a tree node except the heap back-reference. -/
def rbNode.core (n : rbNode) : Int × Int × Int × Nat × Nat × Nat × nodeColor :=
  (n.rideNumber, n.rideCost, n.tripDuration, n.left, n.right, n.parent, n.color)

/-- Two node stores differ at most in heap back-references. -/
def SameCore (m m' : Mem) : Prop := ∀ a, (m' a).core = (m a).core

/-- Heap cell i and the tree node it refers to are linked both ways and carry the same
record; the position field is accurate and the cost is not negative. -/
def Linked (h : minHeap) (m : Mem) (i : Nat) : Prop :=
  (h.heap i).pos = i ∧ 0 ≤ (h.heap i).rideCost ∧ ∃ a, (h.heap i).rbNodeRef = some a ∧
    (m a).data = ((h.heap i).rideNumber, (h.heap i).rideCost, (h.heap i).tripDuration, some i)

/-- The cells 1 .. n - 1 are linked with tree nodes, and cell 0 is the guard entry. -/
def HeapSync (h : minHeap) (m : Mem) (n : Nat) : Prop :=
  (h.heap 0).rideCost = -1 ∧ ∀ i, 1 ≤ i → i < n → Linked h m i

/-- The tree node a is referred to by one of the cells 1 .. n - 1. -/
def Ref (h : minHeap) (n : Nat) (a : Nat) : Prop :=
  ∃ i, 1 ≤ i ∧ i < n ∧ (h.heap i).rbNodeRef = some a

/-- What a sequence of swaps among the cells 1 .. n - 1 does. -/
def HeapStep (n : Nat) (h : minHeap) (m : Mem) (h' : minHeap) (m' : Mem) : Prop :=
  HeapSync h' m' n ∧ h'.size = h.size ∧ SameCore m m' ∧ (∀ a, Ref h' n a ↔ Ref h n a) ∧
    (∀ j, n ≤ j → h'.heap j = h.heap j)

/-! ### The invariant of the coordinator state -/

/-- The record (ride number, cost, duration) stored in a tree node. -/
def rbNode.record (n : rbNode) : Int × Int × Int := (n.rideNumber, n.rideCost, n.tripDuration)

/-- The invariant of the coordinator state, for a tree of shape sh: the tree is a
key-ordered red-black tree whose nodes lie below the allocator position, the live heap
cells are linked with exactly the tree nodes, and the two structures have the same number
of elements, which fit into the heap buffer. -/
structure InvSh (s : State) (sh : Shape) : Prop where
  tree : IsTree s.myTree sh
  ordered : KeyOrdered s.myTree.mem sh
  sentinel : (s.myTree.mem NIL).color = nodeColor.BLACK
  rootBlack : rootColor sh = nodeColor.BLACK
  noRedRed : NoRedRed sh
  balanced : Balanced sh
  nextPos : 1 ≤ s.next
  below : ∀ a ∈ sh.addrs, a < s.next
  keyNe : ∀ a ∈ sh.addrs, (s.myTree.mem a).rideNumber ≠ -1
  sizePos : 1 ≤ s.myHeap.size
  sync : HeapSync s.myHeap s.myTree.mem s.myHeap.size
  refs : ∀ a, Ref s.myHeap s.myHeap.size a ↔ a ∈ sh.addrs
  count : sh.addrs.length + 1 = s.myHeap.size
  cap : s.myHeap.size ≤ minHeap.capacity

/-! ### Lookup, Insert, CancelRide and UpdateTrip -/

/-- The lookup of a ride number, as the single-argument Print does it: the record of the
node that rbTree::search returns, or none for the null pointer (printed as (0,0,0)). -/
def State.lookup (s : State) (id : Int) : Option (Option (Int × Int × Int)) :=
  match s.myTree.search s.fuel id with
  | none => none
  | some none => some none
  | some (some a) => some (some (s.myTree.mem a).record)

/-- The ride number is absent: the lookup returns the null pointer. -/
def Absent (s : State) (id : Int) : Prop := s.lookup id = some none

/-- The lookup of the ride number id returns a node that holds the record (id, c, d). -/
def Lookup (s : State) (id c d : Int) : Prop := s.lookup id = some (some (id, c, d))

instance (s : State) (id : Int) : Decidable (Absent s id) := by
  unfold Absent; infer_instance

instance (s : State) (id c d : Int) : Decidable (Lookup s id c d) := by
  unfold Lookup; infer_instance

/-! ### Reachable states -/

/-- The states reachable from the state at program start by Insert (with a ride number
that is allowed by okId and is absent, and a non-negative cost and duration), GetNextRide,
CancelRide and UpdateTrip; an operation that stops the program with an error makes no
step, and neither does one without a result: an Insert that finds the heap buffer full, or
an UpdateTrip whose arithmetic leaves the range of int. -/
inductive ReachableIf (okId : Int → Prop) : State → Prop
  | start : ReachableIf okId State.empty
  | insert {s s' : State} (id c d : Int) : ReachableIf okId s → okId id → 0 ≤ c → 0 ≤ d →
      Absent s id → Insert s id c d = some (Except.ok s') → ReachableIf okId s'
  | getNextRide {s s' : State} {out : String} : ReachableIf okId s →
      GetNextRide s = some (s', out) → ReachableIf okId s'
  | cancelRide {s s' : State} (id : Int) : ReachableIf okId s →
      CancelRide s id = some (Except.ok s') → ReachableIf okId s'
  | updateTrip {s s' : State} (id n : Int) : ReachableIf okId s →
      UpdateTrip s id n = some (Except.ok s') → ReachableIf okId s'

/-- Reachable states, ride number -1 (the ride number of the sentinel) being excluded. -/
def Reachable : State → Prop := ReachableIf (fun id => id ≠ -1)

/-! ### Position accuracy, duplicate insert and sequences of inserts -/

/-- Position accuracy: every live cell i in 1 .. size - 1 has pos = i. -/
def PosAcc (h : minHeap) : Prop := ∀ i, 1 ≤ i → i < h.size → (h.heap i).pos = i

/-- The child that minHeap::heapifyDown compares the cell at position p with. -/
def minChildOf (h : minHeap) (p : Nat) : Nat :=
  if (h.heap (minHeap.getLeftChild p)).lt
      (h.heap (if h.isValidIndex (minHeap.getRightChild p) = true
        then minHeap.getRightChild p else minHeap.getLeftChild p)) = true
  then minHeap.getLeftChild p
  else (if h.isValidIndex (minHeap.getRightChild p) = true
    then minHeap.getRightChild p else minHeap.getLeftChild p)

/-- A sequence of object creations new rbNode(id, 0, 0), each followed by rbTree::insert;
next is the address at which the next node object is built. -/
def insertAll : List Int → rbTree → Nat → Option (rbTree × Nat)
  | [], t, next => some (t, next)
  | id :: ids, t, next =>
    match ({ t with mem := Mem.write t.mem next (rbNode.init id 0 0) } : rbTree).insert
        (next + 2) (some next) with
    | some (Except.ok t) => insertAll ids t (next + 1)
    | _ => none

/-- The invariant of a tree that is built by inserts alone. -/
structure TreeInv (t : rbTree) (sh : Shape) (next : Nat) : Prop where
  tree : IsTree t sh
  ordered : KeyOrdered t.mem sh
  sentinel : (t.mem NIL).color = nodeColor.BLACK
  rootBlack : rootColor sh = nodeColor.BLACK
  noRedRed : NoRedRed sh
  nextPos : 1 ≤ next
  below : ∀ a ∈ sh.addrs, a < next

/-! ### Command sequences and the properties C1 to C10 -/

/-- A command of the input file that changes the state. -/
inductive Cmd
  | insert (id c d : Int)
  | getNextRide
  | cancelRide (id : Int)
  | updateTrip (id n : Int)

/-- One command applied to a state.  The result is none when the program stops with an
error or the call has no result (a fault, a full heap buffer, an int overflow), and when
Insert is called with a negative cost or duration or with a ride number that is not
absent. -/
def step (s : State) : Cmd → Option State
  | Cmd.insert id c d =>
    if 0 ≤ c ∧ 0 ≤ d ∧ Absent s id then
      match Insert s id c d with
      | some (Except.ok s') => some s'
      | _ => none
    else none
  | Cmd.getNextRide =>
    match GetNextRide s with
    | some (s', _) => some s'
    | none => none
  | Cmd.cancelRide id =>
    match CancelRide s id with
    | some (Except.ok s') => some s'
    | _ => none
  | Cmd.updateTrip id n =>
    match UpdateTrip s id n with
    | some (Except.ok s') => some s'
    | _ => none

/-- A sequence of commands applied to a state. -/
def run : List Cmd → State → Option State
  | [], s => some s
  | c :: cs, s =>
    match step s c with
    | some s' => run cs s'
    | none => none

/-- The state after a sequence of commands from program start (the start state itself if
the sequence does not run through). -/
def stateAfter (cmds : List Cmd) : State := (run cmds State.empty).getD State.empty

/-- No Insert of the sequence uses the ride number -1. -/
def idsOk : List Cmd → Bool
  | [] => true
  | Cmd.insert id _ _ :: cs => decide (id ≠ -1) && idsOk cs
  | _ :: cs => idsOk cs

/-- The bijection between the tree and the heap: the tree has shape sh for some sh with as
many nodes as there are live heap cells, and the back-reference of every tree node
designates a live heap cell that holds the same record and refers back to the node. -/
def Bijection (s : State) : Prop :=
  ∃ sh, IsTree s.myTree sh ∧ sh.addrs.length + 1 = s.myHeap.size ∧
    ∀ a ∈ sh.addrs, ∃ i, 1 ≤ i ∧ i < s.myHeap.size ∧
      s.myTree.getHeapNodeRef a = some i ∧
      ((s.myHeap.heap i).rideNumber, (s.myHeap.heap i).rideCost,
        (s.myHeap.heap i).tripDuration) = (s.myTree.mem a).record ∧
      (s.myHeap.heap i).rbNodeRef = some a

/-- The commands that lead out of the bijection when the ride number -1 is used. -/
def sentinelIdRun : List Cmd :=
  [Cmd.insert 1 0 0, Cmd.insert (-1) 0 0, Cmd.insert 2 0 0, Cmd.cancelRide (-1),
    Cmd.insert (-1) 0 0, Cmd.cancelRide 1]

/-- A run with positive ride numbers, used to instantiate the theorems on reachable states. -/
def demoRun : List Cmd :=
  [Cmd.insert 1 5 10, Cmd.insert 2 3 20, Cmd.insert 3 3 5, Cmd.getNextRide]

instance Layout.dec (m : Mem) : (par : Nat) → (s : Shape) → Decidable (Layout m par s)
  | _, Shape.leaf => isTrue trivial
  | par, Shape.node l a c r =>
    have := Layout.dec m a l
    have := Layout.dec m a r
    inferInstanceAs (Decidable (a ≠ NIL ∧ (m a).parent = par ∧ (m a).left = l.ptr ∧
      (m a).right = r.ptr ∧ (m a).color = c ∧ Layout m a l ∧ Layout m a r))

instance IsTree.dec (t : rbTree) (sh : Shape) : Decidable (IsTree t sh) :=
  if h : t.root = sh.ptr ∧ Layout t.mem NIL sh ∧ sh.addrs.Nodup then
    isTrue ⟨h.1, h.2.1, h.2.2⟩
  else isFalse (fun k => h ⟨k.root, k.layout, k.nodup⟩)

instance NoRedRed.dec : (s : Shape) → Decidable (NoRedRed s)
  | Shape.leaf => isTrue trivial
  | Shape.node l _ c r =>
    have := NoRedRed.dec l
    have := NoRedRed.dec r
    inferInstanceAs (Decidable ((c = nodeColor.RED →
      rootColor l = nodeColor.BLACK ∧ rootColor r = nodeColor.BLACK) ∧ NoRedRed l ∧ NoRedRed r))

instance Balanced.dec : (s : Shape) → Decidable (Balanced s)
  | Shape.leaf => isTrue trivial
  | Shape.node l _ _ r =>
    have := Balanced.dec l
    have := Balanced.dec r
    inferInstanceAs (Decidable (bheight l = bheight r ∧ Balanced l ∧ Balanced r))

instance RedBlack.dec (t : rbTree) (sh : Shape) : Decidable (RedBlack t sh) :=
  if h : (t.mem NIL).color = nodeColor.BLACK ∧ rootColor sh = nodeColor.BLACK ∧
      NoRedRed sh ∧ Balanced sh then
    isTrue ⟨h.1, h.2.1, h.2.2.1, h.2.2.2⟩
  else isFalse (fun k => h ⟨k.sentinel, k.rootBlack, k.noRedRed, k.balanced⟩)

instance KeyOrdered.dec (m : Mem) (sh : Shape) : Decidable (KeyOrdered m sh) :=
  inferInstanceAs (Decidable ((keys m sh).Pairwise (fun x y => x < y)))

/-- Repeated GetNextRide until the store is empty, at most k times: the lines written. -/
def drain : Nat → State → List String
  | 0, _ => []
  | k + 1, s =>
    if s.myHeap.isEmpty then []
    else
      match GetNextRide s with
      | some (s', out) => out :: drain k s'
      | none => []

/-- A heap whose 2005 cells are all in use: the guard cell and the live cells 1 .. 2004, the
cell at position i holding the record (i, 0, 0) and pos = i. -/
def fullHeap : minHeap :=
  { heap := fun i =>
      if 1 ≤ i ∧ i < 2005 then { heapNode.init (i : Int) 0 0 with pos := i }
      else heapNode.init (-1) (-1) (-1),
    size := 2005 }

/-- A run after which the duration of ride 1 is more than half of the largest int. -/
def overflowRun : List Cmd := [Cmd.insert 1 0 1500000000]

/-- A run after which the cost of ride 1 is the largest int. -/
def costRun : List Cmd := [Cmd.insert 1 2147483647 10]

/-- A run that leaves four records, used to instantiate the UpdateTrip rule. -/
def tripRun : List Cmd :=
  [Cmd.insert 1 5 10, Cmd.insert 2 3 20, Cmd.insert 3 3 5, Cmd.insert 4 8 8]

/-- The tree after the inserts of the ride numbers 2, 1, 3, 4, with a further node object
(ride number 5) built at address 5. -/
def fourTree : rbTree :=
  ((stateAfter [Cmd.insert 2 0 0, Cmd.insert 1 0 0, Cmd.insert 3 0 0,
    Cmd.insert 4 0 0]).newNode 5 0 0).myTree

/-- The shape of fourTree: the root is ride 2 (address 1, BLACK); its children are ride 1
(address 2, BLACK) and ride 3 (address 3, BLACK), whose right child is ride 4 (address 4,
RED). -/
def fourShape : Shape :=
  Shape.node (Shape.node Shape.leaf 2 nodeColor.BLACK Shape.leaf) 1 nodeColor.BLACK
    (Shape.node Shape.leaf 3 nodeColor.BLACK
      (Shape.node Shape.leaf 4 nodeColor.RED Shape.leaf))

/-- Seven inserts with distinct positive ride numbers and non-negative fields, followed by
the cancellation of ride 11. -/
def cancelRun : List Cmd :=
  [Cmd.insert 1 1 0, Cmd.insert 10 10 0, Cmd.insert 2 2 0, Cmd.insert 11 11 0,
    Cmd.insert 12 12 0, Cmd.insert 30 30 0, Cmd.insert 5 5 0, Cmd.cancelRide 11]

/-- The tree after the inserts of the ride numbers 2, 1, 3. -/
def threeTree : rbTree :=
  (stateAfter [Cmd.insert 2 0 0, Cmd.insert 1 0 0, Cmd.insert 3 0 0]).myTree

/-- The shape of threeTree: the node at address 1 (ride 2) is the BLACK root, the nodes at
the addresses 2 (ride 1) and 3 (ride 3) are its RED children. -/
def threeShape : Shape :=
  Shape.node (Shape.node Shape.leaf 2 nodeColor.RED Shape.leaf) 1 nodeColor.BLACK
    (Shape.node Shape.leaf 3 nodeColor.RED Shape.leaf)

instance PosAcc.dec (h : minHeap) : Decidable (PosAcc h) :=
  decidable_of_iff (∀ i, i < h.size → 1 ≤ i → (h.heap i).pos = i)
    ⟨fun k i h1 h2 => k i h2 h1, fun k i h2 h1 => k i h1 h2⟩

/-- A run in which UpdateTrip stores a negative duration. -/
def negativeRun : List Cmd := [Cmd.insert 1 0 3, Cmd.updateTrip 1 (-5)]

/-! ### The heap ordering: sift-up and sift-down -/

/-- The priority of a heap cell: the pair (rideCost, tripDuration) that operator< compares. -/
def heapNode.key (x : heapNode) : Int × Int := (x.rideCost, x.tripDuration)

/-- Lexicographic less-or-equal on (cost, duration) pairs. -/
def kle (x y : Int × Int) : Prop := x.1 < y.1 ∨ (x.1 = y.1 ∧ x.2 ≤ y.2)

/-- The (cost, duration) of a is lexicographically less than or equal to that of b. -/
def heapNode.le (a b : heapNode) : Prop :=
  a.rideCost < b.rideCost ∨ (a.rideCost = b.rideCost ∧ a.tripDuration ≤ b.tripDuration)

/-- The heap ordering over the cells 1 .. n - 1: every cell other than the root (cell 1) is
not less than its parent, in the sense of operator<. -/
def HeapOrderedTo (h : minHeap) (n : Nat) : Prop :=
  ∀ i, 2 ≤ i → i < n → (h.heap i).lt (h.heap (minHeap.getParent i)) = false

/-- The heap ordering over the live cells 1 .. size - 1. -/
def HeapOrdered (h : minHeap) : Prop := HeapOrderedTo h h.size

/-- Every live cell has a non-negative cost. -/
def CostsNonneg (h : minHeap) : Prop := ∀ i, 1 ≤ i → i < h.size → 0 ≤ (h.heap i).rideCost

/-- The array of priorities of a heap buffer. -/
def keyArray (h : minHeap) : Nat → Int × Int := fun j => (h.heap j).key

/-- The ordering of an array of priorities over the indices 1 .. n - 1. -/
def KOrd (K : Nat → Int × Int) (n : Nat) : Prop :=
  ∀ i, 2 ≤ i → i < n → kle (K (i / 2)) (K i)

/-- The state of the sift-up loop at position p: the ordering may fail only between p and
its parent, and the children of p are not less than the parent of p. -/
def UpInv (K : Nat → Int × Int) (n p : Nat) : Prop :=
  (∀ i, 2 ≤ i → i < n → i ≠ p → kle (K (i / 2)) (K i)) ∧
  (∀ i, 2 ≤ i → i < n → i / 2 = p → 2 ≤ p → kle (K (p / 2)) (K i))

/-- The state of the sift-down loop at position p: the ordering may fail only between p and
its children, and the children of p are not less than the parent of p. -/
def DownInv (K : Nat → Int × Int) (n p : Nat) : Prop :=
  (∀ i, 2 ≤ i → i < n → i / 2 ≠ p → kle (K (i / 2)) (K i)) ∧
  (∀ i, 2 ≤ i → i < n → i / 2 = p → 2 ≤ p → kle (K (p / 2)) (K i))

/-! ### Heap ordering of insert and removeMin, the range search, GetNextRide -/

/-- The nodes of the tree in in-order, as node objects. -/
def inorder (m : Mem) (sh : Shape) : List rbNode := sh.addrs.map m

/-- The ride number of the node lies in the closed range from lo to hi. -/
def inRange (lo hi : Int) (n : rbNode) : Bool :=
  decide (lo ≤ n.rideNumber ∧ n.rideNumber ≤ hi)

instance HeapOrdered.dec (h : minHeap) : Decidable (HeapOrdered h) :=
  decidable_of_iff
    (∀ i, i < h.size → 2 ≤ i → (h.heap i).lt (h.heap (minHeap.getParent i)) = false)
    ⟨fun k i h1 h2 => k i h2 h1, fun k i h2 h1 => k i h1 h2⟩

/-! ### The properties C11 to C20 -/

/-- The state returned by a completed call of Insert, CancelRide or UpdateTrip (the start
state if the call did not complete). -/
def okState (o : Option (Except (String × State) State)) : State :=
  match o with
  | some (Except.ok s) => s
  | _ => State.empty

/-- The call completed without an error. -/
def isOk (o : Option (Except (String × State) State)) : Bool :=
  match o with
  | some (Except.ok _) => true
  | _ => false

/-- The state after a call of GetNextRide (the state itself if the call did not return). -/
def nextState (s : State) : State :=
  match GetNextRide s with
  | some (s', _) => s'
  | none => s

/-- The line written by a call of GetNextRide. -/
def nextLine (s : State) : Option String :=
  match GetNextRide s with
  | some (_, out) => some out
  | none => none

/-- The inserts of the scenario with three records. -/
def threeRun : List Cmd := [Cmd.insert 1 5 10, Cmd.insert 2 3 20, Cmd.insert 3 3 5]

/-- Seven inserts with distinct positive ride numbers and non-negative fields; the costs of
the heap cells 1 to 7 are then 1, 10, 2, 11, 12, 30, 5. -/
def sevenRun : List Cmd :=
  [Cmd.insert 1 1 0, Cmd.insert 10 10 0, Cmd.insert 2 2 0, Cmd.insert 11 11 0,
    Cmd.insert 12 12 0, Cmd.insert 30 30 0, Cmd.insert 5 5 0]

/-- The tree after the inserts of the ride numbers 5, 1, 9, 3, 7. -/
def fiveTree : rbTree :=
  (stateAfter [Cmd.insert 5 0 0, Cmd.insert 1 0 0, Cmd.insert 9 0 0, Cmd.insert 3 0 0,
    Cmd.insert 7 0 0]).myTree

/-- The shape of fiveTree: the node at address 1 (ride 5) is the root, its children are the
nodes at the addresses 2 (ride 1) and 3 (ride 9), the node at address 4 (ride 3) is the
right child of ride 1 and the node at address 5 (ride 7) the left child of ride 9. -/
def fiveShape : Shape :=
  Shape.node
    (Shape.node Shape.leaf 2 nodeColor.BLACK (Shape.node Shape.leaf 4 nodeColor.RED Shape.leaf))
    1 nodeColor.BLACK
    (Shape.node (Shape.node Shape.leaf 5 nodeColor.RED Shape.leaf) 3 nodeColor.BLACK Shape.leaf)

instance CostsNonneg.dec (h : minHeap) : Decidable (CostsNonneg h) :=
  decidable_of_iff (∀ i, i < h.size → 1 ≤ i → 0 ≤ (h.heap i).rideCost)
    ⟨fun k i h1 h2 => k i h2 h1, fun k i h2 h1 => k i h1 h2⟩

instance heapNode.le.dec (a b : heapNode) : Decidable (a.le b) :=
  inferInstanceAs (Decidable (a.rideCost < b.rideCost ∨
    (a.rideCost = b.rideCost ∧ a.tripDuration ≤ b.tripDuration)))

/-! ### Print formats, the comparison of heap nodes and remove outside the bounds (C21 to C24) -/

/-- Items joined by a separator: the separator stands between two neighbours, and nothing
follows the last item. -/
def joinWith (sep : String) : List String → String
  | [] => ""
  | [a] => a
  | a :: as => a ++ sep ++ joinWith sep as

/-- The line of the range print as the specification words it: the records joined by a
comma followed by a blank, or (0,0,0) when there is no record. -/
def rangeLineSpec (res : List rbNode) : String :=
  if res.isEmpty then "(0,0,0)" else joinWith ", " (res.map rbNode.print)

/-- The inserts of the range scenario: the ride numbers 5, 1, 9, 3, 7. -/
def fiveRun : List Cmd :=
  [Cmd.insert 5 0 0, Cmd.insert 1 0 0, Cmd.insert 9 0 0, Cmd.insert 3 0 0, Cmd.insert 7 0 0]

/-- One insert of the record (0,0,0). -/
def zeroRun : List Cmd := [Cmd.insert 0 0 0]

/-! ### Rearrangements of the heap cells and the properties C25, C27 and C29 -/

/-- The contents of a heap cell apart from the position field: id, cost, duration and the
back-reference to the tree node. -/
def heapNode.slot (x : heapNode) : Int × Int × Int × Option Nat :=
  (x.rideNumber, x.rideCost, x.tripDuration, x.rbNodeRef)

/-- The live slots of the heap, listed by position 1 .. size - 1. -/
def minHeap.slots (h : minHeap) : List (Int × Int × Int × Option Nat) :=
  (List.range' 1 (h.size - 1)).map (fun i => (h.heap i).slot)

/-- The buffer h2 is the buffer h with the cells 1 .. n - 1 rearranged (position fields
apart); the cells outside are untouched. -/
def Rearr (n : Nat) (h h2 : minHeap) : Prop :=
  h2.size = h.size ∧ (∀ j, ¬ (1 ≤ j ∧ j < n) → h2.heap j = h.heap j) ∧
    ∃ σ : Equiv.Perm Nat, (∀ j, ¬ (1 ≤ j ∧ j < n) → σ j = j) ∧
      ∀ j, (h2.heap j).slot = (h.heap (σ j)).slot

/-- The heaps that arise from the constructor by sequences of minHeap::insert (of records
with non-negative cost and duration), minHeap::removeMin and minHeap::remove (with a valid
index); the node store is the one of the caller at each call. -/
inductive HeapReachable : minHeap → Prop
  | init : HeapReachable State.empty.myHeap
  | insert {h h2 : minHeap} {m m2 : Mem} {node : heapNode} :
      HeapReachable h → 0 ≤ node.rideCost → 0 ≤ node.tripDuration →
      h.insert m node = some (h2, m2) → HeapReachable h2
  | removeMin {h h2 : minHeap} {m m2 : Mem} {x : heapNode} :
      HeapReachable h → h.removeMin m = some (Except.ok (x, h2, m2)) → HeapReachable h2
  | remove {h h2 : minHeap} {m m2 : Mem} {p : Nat} :
      HeapReachable h → h.isValidIndex p = true → h.remove m p = some (h2, m2) →
      HeapReachable h2

/-- A call of the heap interface. -/
inductive HeapCmd
  | insert (node : heapNode)
  | removeMin
  | remove (p : Nat)

/-- One call applied to a heap and the node store of the caller.  The result is none when
the call has no result, when insert is given a negative cost or duration, when removeMin
finds the heap empty, and when remove is given an index that is not valid. -/
def heapStep (hm : minHeap × Mem) : HeapCmd → Option (minHeap × Mem)
  | HeapCmd.insert node =>
    if 0 ≤ node.rideCost ∧ 0 ≤ node.tripDuration then hm.1.insert hm.2 node else none
  | HeapCmd.removeMin =>
    match hm.1.removeMin hm.2 with
    | some (Except.ok (_, h, m)) => some (h, m)
    | _ => none
  | HeapCmd.remove p => if hm.1.isValidIndex p = true then hm.1.remove hm.2 p else none

/-- A sequence of calls applied to a heap and a node store. -/
def heapRun : List HeapCmd → minHeap × Mem → Option (minHeap × Mem)
  | [], hm => some hm
  | c :: cs, hm =>
    match heapStep hm c with
    | some hm2 => heapRun cs hm2
    | none => none

/-- The heap after a sequence of calls from the constructed heap (the constructed heap
itself if the sequence does not run through). -/
def heapAfter (cmds : List HeapCmd) : minHeap :=
  ((heapRun cmds (State.empty.myHeap, State.empty.myTree.mem)).getD
    (State.empty.myHeap, State.empty.myTree.mem)).1

/-- Five inserts of records that refer to the tree nodes 1 .. 5 (the fourth, of cost 0,
sifts up to position 1, the fifth stops at position 2), then removeMin and remove(2). -/
def guardRun : List HeapCmd :=
  [HeapCmd.insert { heapNode.init 1 5 10 with rbNodeRef := some 1 },
    HeapCmd.insert { heapNode.init 2 3 20 with rbNodeRef := some 2 },
    HeapCmd.insert { heapNode.init 3 3 5 with rbNodeRef := some 3 },
    HeapCmd.insert { heapNode.init 4 0 0 with rbNodeRef := some 4 },
    HeapCmd.insert { heapNode.init 5 1 7 with rbNodeRef := some 5 },
    HeapCmd.removeMin, HeapCmd.remove 2]

/-! ### Counting the rotations of the delete fix-up (C26) -/

/-- One pass through the body of the while loop of rbTree::DeletionRebalance with a
counter: the tree and the new value of node as in DeletionRebalanceBody, and the number of
calls of rotateLeft and rotateRight made in the pass. -/
def rbTree.DeletionRebalanceBodyCount (t : rbTree) (node : Nat) : rbTree × Nat × Nat :=
  if t.isLeftChild node then
    let sibling := t.getRight (t.getParent node)
    let ts : rbTree × Nat × Nat :=
      if t.getColor sibling = nodeColor.RED then
        let t := t.setColor sibling nodeColor.BLACK
        let t := t.setColor (t.getParent node) nodeColor.RED
        let t := t.rotateLeft (t.getParent node)
        (t, t.getRight (t.getParent node), 1)
      else (t, sibling, 0)
    let t := ts.1
    let sibling := ts.2.1
    let k := ts.2.2
    if t.getColor (t.getLeft sibling) = nodeColor.BLACK ∧
        t.getColor (t.getRight sibling) = nodeColor.BLACK then
      let t := t.setColor sibling nodeColor.RED
      (t, t.getParent node, k)
    else
      let ts : rbTree × Nat × Nat :=
        if t.getColor (t.getRight sibling) = nodeColor.BLACK then
          let t := t.setColor (t.getLeft sibling) nodeColor.BLACK
          let t := t.setColor sibling nodeColor.RED
          let t := t.rotateRight sibling
          (t, t.getRight (t.getParent node), k + 1)
        else (t, sibling, k)
      let t := ts.1
      let sibling := ts.2.1
      let k := ts.2.2
      let t := t.setColor sibling (t.getColor (t.getParent node))
      let t := t.setColor (t.getParent node) nodeColor.BLACK
      let t := t.setColor (t.getRight sibling) nodeColor.BLACK
      let t := t.rotateLeft (t.getParent node)
      (t, t.root, k + 1)
  else
    let sibling := t.getLeft (t.getParent node)
    let ts : rbTree × Nat × Nat :=
      if t.getColor sibling = nodeColor.RED then
        let t := t.setColor sibling nodeColor.BLACK
        let t := t.setColor (t.getParent node) nodeColor.RED
        let t := t.rotateRight (t.getParent node)
        (t, t.getLeft (t.getParent node), 1)
      else (t, sibling, 0)
    let t := ts.1
    let sibling := ts.2.1
    let k := ts.2.2
    if t.getColor (t.getRight sibling) = nodeColor.BLACK ∧
        t.getColor (t.getLeft sibling) = nodeColor.BLACK then
      let t := t.setColor sibling nodeColor.RED
      (t, t.getParent node, k)
    else
      let ts : rbTree × Nat × Nat :=
        if t.getColor (t.getLeft sibling) = nodeColor.BLACK then
          let t := t.setColor (t.getRight sibling) nodeColor.BLACK
          let t := t.setColor sibling nodeColor.RED
          let t := t.rotateLeft sibling
          (t, t.getLeft (t.getParent node), k + 1)
        else (t, sibling, k)
      let t := ts.1
      let sibling := ts.2.1
      let k := ts.2.2
      let t := t.setColor sibling (t.getColor (t.getParent node))
      let t := t.setColor (t.getParent node) nodeColor.BLACK
      let t := t.setColor (t.getLeft sibling) nodeColor.BLACK
      let t := t.rotateRight (t.getParent node)
      (t, t.root, k + 1)

/-- The function rbTree::DeletionRebalance with a counter: the resulting tree and the
number of rotations made by all passes of the loop. -/
def rbTree.DeletionRebalanceCount : Nat → rbTree → Nat → Option (rbTree × Nat)
  | 0, _, _ => none
  | fuel + 1, t, node =>
    if node ≠ t.root ∧ t.getColor node = nodeColor.BLACK then
      match rbTree.DeletionRebalanceCount fuel (t.DeletionRebalanceBodyCount node).1
          (t.DeletionRebalanceBodyCount node).2.1 with
      | none => none
      | some (t2, k) => some (t2, (t.DeletionRebalanceBodyCount node).2.2 + k)
    else
      some (t.setColor node nodeColor.BLACK, 0)

/-- The function rbTree::deleteNode with a counter: the resulting tree and the number of
rotations made by the call of DeletionRebalance (0 when it is not called). -/
def rbTree.deleteNodeCount (fuel : Nat) (t : rbTree) (node : Option Nat) :
    Option (Except (String × rbTree) (rbTree × Nat)) :=
  match node with
  | none => some (Except.error ("The node isn't a valid node\n", t))
  | some node =>
    if t.getLeft node = NIL then
      let X_Node := t.getRight node
      let NodeColor := t.getColor node
      let t := t.UpdateParentChildLink (t.getParent node) node (t.getRight node)
      if NodeColor = nodeColor.BLACK then
        (rbTree.DeletionRebalanceCount fuel t X_Node).map Except.ok
      else some (Except.ok (t, 0))
    else if t.getRight node = NIL then
      let X_Node := t.getLeft node
      let NodeColor := t.getColor node
      let t := t.UpdateParentChildLink (t.getParent node) node (t.getLeft node)
      if NodeColor = nodeColor.BLACK then
        (rbTree.DeletionRebalanceCount fuel t X_Node).map Except.ok
      else some (Except.ok (t, 0))
    else
      match getMinimumNode fuel t (t.getRight node) with
      | none => none
      | some Y_Node =>
        let NodeColor := t.getColor Y_Node
        let X_Node := t.getRight Y_Node
        let t :=
          if t.getParent Y_Node = node then t.setParent X_Node Y_Node
          else
            let t := t.UpdateParentChildLink (t.getParent Y_Node) Y_Node (t.getRight Y_Node)
            let t := t.setRight Y_Node (t.getRight node)
            t.setParent (t.getRight Y_Node) Y_Node
        let t := t.UpdateParentChildLink (t.getParent node) node Y_Node
        let t := t.setLeft Y_Node (t.getLeft node)
        let t := t.setParent (t.getLeft Y_Node) Y_Node
        let t := t.setColor Y_Node (t.getColor node)
        if NodeColor = nodeColor.BLACK then
          (rbTree.DeletionRebalanceCount fuel t X_Node).map Except.ok
        else some (Except.ok (t, 0))

/-- Rotations of case 1 of the delete fix-up for a left child. -/
def rotCase1L (t : rbTree) (node : Nat) : Nat :=
  if t.getColor (t.getRight (t.getParent node)) = nodeColor.RED then 1 else 0

/-- Rotations of the cases 2 and 3 of the delete fix-up for a left child. -/
def rotRestL (t : rbTree) (sibling : Nat) : Nat :=
  if t.getColor (t.getLeft sibling) = nodeColor.BLACK ∧
      t.getColor (t.getRight sibling) = nodeColor.BLACK then 0
  else (if t.getColor (t.getRight sibling) = nodeColor.BLACK then 1 else 0) + 1

/-- Rotations of case 1 of the delete fix-up for a right child. -/
def rotCase1R (t : rbTree) (node : Nat) : Nat :=
  if t.getColor (t.getLeft (t.getParent node)) = nodeColor.RED then 1 else 0

/-- Rotations of the cases 2 and 3 of the delete fix-up for a right child. -/
def rotRestR (t : rbTree) (sibling : Nat) : Nat :=
  if t.getColor (t.getRight sibling) = nodeColor.BLACK ∧
      t.getColor (t.getLeft sibling) = nodeColor.BLACK then 0
  else (if t.getColor (t.getLeft sibling) = nodeColor.BLACK then 1 else 0) + 1

/-- The six-node tree of the rotation example: the ride numbers 6, 1, 5, 2, 3, 4 inserted
in this order (node addresses 1 to 6). -/
def sixTree : rbTree :=
  (stateAfter [Cmd.insert 6 0 0, Cmd.insert 1 0 0, Cmd.insert 5 0 0, Cmd.insert 2 0 0,
    Cmd.insert 3 0 0, Cmd.insert 4 0 0]).myTree

/-- The shape of sixTree: the root is ride 5 (address 3, BLACK); its left child is ride 2
(address 4, RED) with the children ride 1 (address 2, BLACK) and ride 3 (address 5, BLACK),
whose right child is ride 4 (address 6, RED); its right child is ride 6 (address 1,
BLACK). -/
def sixShape : Shape :=
  Shape.node
    (Shape.node (Shape.node Shape.leaf 2 nodeColor.BLACK Shape.leaf) 4 nodeColor.RED
      (Shape.node Shape.leaf 5 nodeColor.BLACK
        (Shape.node Shape.leaf 6 nodeColor.RED Shape.leaf)))
    3 nodeColor.BLACK
    (Shape.node Shape.leaf 1 nodeColor.BLACK Shape.leaf)

/-! ### Reachable trees and the properties C28, C30, C31 and C32 -/

/-- The trees that arise from the empty tree by sequences of rbTree::insert (each of a
newly constructed node whose positive ride number is not in the tree) and
rbTree::deleteNode (of a node of the tree).  The second argument is the address at which
the next node object is built. -/
inductive TreeReachable : rbTree → Nat → Prop
  | empty : TreeReachable State.empty.myTree 1
  | insert {t t2 : rbTree} {next : Nat} {id c d : Int} :
      TreeReachable t next → 0 < id → (∀ sh, IsTree t sh → id ∉ keys t.mem sh) →
      rbTree.insert (next + 2)
        { t with mem := Mem.write t.mem next (rbNode.init id c d) } (some next) =
        some (Except.ok t2) →
      TreeReachable t2 (next + 1)
  | delete {t t2 : rbTree} {next z : Nat} :
      TreeReachable t next → (∀ sh, IsTree t sh → z ∈ sh.addrs) →
      deleteNode (next + 2) t (some z) = some (Except.ok t2) →
      TreeReachable t2 next

/-- The invariant of the reachable trees. -/
structure RBInv (t : rbTree) (sh : Shape) (next : Nat) : Prop where
  tree : IsTree t sh
  ordered : KeyOrdered t.mem sh
  rb : RedBlack t sh
  nextPos : 1 ≤ next
  below : ∀ a ∈ sh.addrs, a < next
  emptyPar : t.root = NIL → (t.mem NIL).parent = NIL

/-- The parent and child links of the nodes of a tree are consistent: a node is not the
sentinel, a child that is not the sentinel is a node of the tree and has the node as its
parent, and the node is the root or is the left or the right child of its parent. -/
def LinksConsistent (t : rbTree) (sh : Shape) : Prop :=
  ∀ x ∈ sh.addrs, x ≠ NIL ∧
    (t.getLeft x ≠ NIL → t.getLeft x ∈ sh.addrs ∧ t.getParent (t.getLeft x) = x) ∧
    (t.getRight x ≠ NIL → t.getRight x ∈ sh.addrs ∧ t.getParent (t.getRight x) = x) ∧
    (x = t.root ∨ (t.getParent x ∈ sh.addrs ∧
      (t.getLeft (t.getParent x) = x ∨ t.getRight (t.getParent x) = x)))

/-- The state in which a node with the ride number -1 is inserted: one record with the
ride number 1 in the tree, and the new node object built at address 2. -/
def sentinelIdTree : rbTree := ((stateAfter [Cmd.insert 1 0 0]).newNode (-1) 0 0).myTree

/-- The tree after one insert, with a second node object (ride number 2) built at
address 2. -/
def twoNodeTree : rbTree := ((stateAfter [Cmd.insert 1 0 0]).newNode 2 0 0).myTree

/-- A call of the tree interface: the insert of a newly constructed node, or deleteNode on
the node that search finds for a ride number. -/
inductive TreeCmd
  | insert (id c d : Int)
  | delete (id : Int)

/-- One call applied to a tree and the allocator position.  The result is none when the
call has no result or throws, when the ride number of an insert is not positive or is
found by search, and when the ride number of a delete is not found by search. -/
def treeStep (tn : rbTree × Nat) : TreeCmd → Option (rbTree × Nat)
  | TreeCmd.insert id c d =>
    if 0 < id then
      match search (tn.2 + 2) tn.1 id with
      | some none =>
        match rbTree.insert (tn.2 + 2)
          { tn.1 with mem := Mem.write tn.1.mem tn.2 (rbNode.init id c d) } (some tn.2) with
        | some (Except.ok t2) => some (t2, tn.2 + 1)
        | _ => none
      | _ => none
    else none
  | TreeCmd.delete id =>
    match search (tn.2 + 2) tn.1 id with
    | some (some z) =>
      match deleteNode (tn.2 + 2) tn.1 (some z) with
      | some (Except.ok t2) => some (t2, tn.2)
      | _ => none
    | _ => none

/-- A sequence of calls applied to a tree and the allocator position. -/
def treeRun : List TreeCmd → rbTree × Nat → Option (rbTree × Nat)
  | [], tn => some tn
  | c :: cs, tn =>
    match treeStep tn c with
    | some tn2 => treeRun cs tn2
    | none => none

/-- The tree and the allocator position after a sequence of calls from the empty tree (the
empty tree itself if the sequence does not run through). -/
def treeAfter (cmds : List TreeCmd) : rbTree × Nat :=
  (treeRun cmds (State.empty.myTree, 1)).getD (State.empty.myTree, 1)

/-- The inserts of the ride numbers 1 .. 10 in increasing order, then the deletes of the
rides 4 and 1. -/
def heightRun : List TreeCmd :=
  [TreeCmd.insert 1 0 0, TreeCmd.insert 2 0 0, TreeCmd.insert 3 0 0, TreeCmd.insert 4 0 0,
    TreeCmd.insert 5 0 0, TreeCmd.insert 6 0 0, TreeCmd.insert 7 0 0, TreeCmd.insert 8 0 0,
    TreeCmd.insert 9 0 0, TreeCmd.insert 10 0 0, TreeCmd.delete 4, TreeCmd.delete 1]

/-- The shape of the tree after heightRun: the root is ride 5 (address 5, BLACK); its left
child is ride 2 (address 2, BLACK) with the right child ride 3 (address 3, RED); its right
child is ride 8 (address 8, RED) with the children ride 6 (address 6, BLACK), whose right
child is ride 7 (address 7, RED), and ride 9 (address 9, BLACK), whose right child is
ride 10 (address 10, RED). -/
def heightShape : Shape :=
  Shape.node
    (Shape.node Shape.leaf 2 nodeColor.BLACK (Shape.node Shape.leaf 3 nodeColor.RED Shape.leaf))
    5 nodeColor.BLACK
    (Shape.node
      (Shape.node Shape.leaf 6 nodeColor.BLACK (Shape.node Shape.leaf 7 nodeColor.RED Shape.leaf))
      8 nodeColor.RED
      (Shape.node Shape.leaf 9 nodeColor.BLACK
        (Shape.node Shape.leaf 10 nodeColor.RED Shape.leaf)))

/-- The inserts of the ride numbers 6, 1, 5, 2, 3, 4, then the deletes of the rides 5 and
2. -/
def linkRun : List TreeCmd :=
  [TreeCmd.insert 6 0 0, TreeCmd.insert 1 0 0, TreeCmd.insert 5 0 0, TreeCmd.insert 2 0 0,
    TreeCmd.insert 3 0 0, TreeCmd.insert 4 0 0, TreeCmd.delete 5, TreeCmd.delete 2]

/-- The shape of the tree after linkRun: the root is ride 3 (address 5, BLACK); its left
child is ride 1 (address 2, BLACK); its right child is ride 4 (address 6, BLACK) with the
right child ride 6 (address 1, RED). -/
def linkShape : Shape :=
  Shape.node (Shape.node Shape.leaf 2 nodeColor.BLACK Shape.leaf) 5 nodeColor.BLACK
    (Shape.node Shape.leaf 6 nodeColor.BLACK (Shape.node Shape.leaf 1 nodeColor.RED Shape.leaf))

/-! ## Lemmas and theorems -/

/-! ### Paths and frame lemmas -/

@[simp] theorem Mem.write_same (m : Mem) (a : Nat) (v : rbNode) : Mem.write m a v a = v := by
  simp [Mem.write]

@[simp] theorem Mem.write_ne (m : Mem) {a b : Nat} (v : rbNode) (h : b ≠ a) :
    Mem.write m a v b = m b := by
  simp [Mem.write, h]

theorem Mem.write_apply (m : Mem) (a b : Nat) (v : rbNode) :
    Mem.write m a v b = if b = a then v else m b := rfl

@[simp] theorem Shape.ptr_leaf : Shape.leaf.ptr = 0 := rfl

@[simp] theorem Shape.ptr_node (l r : Shape) (a : Nat) (c : nodeColor) :
    (Shape.node l a c r).ptr = a := rfl

@[simp] theorem Shape.addrs_leaf : Shape.leaf.addrs = [] := rfl

@[simp] theorem Shape.addrs_node (l r : Shape) (a : Nat) (c : nodeColor) :
    (Shape.node l a c r).addrs = l.addrs ++ a :: r.addrs := rfl

@[simp] theorem plug_nil (s : Shape) : plug [] s = s := rfl

@[simp] theorem plug_cons (f : Frame) (rest : List Frame) (s : Shape) :
    plug (f :: rest) s = plug rest (f.fill s) := rfl

@[simp] theorem fill_L (a : Nat) (c : nodeColor) (sib s : Shape) :
    (Frame.L a c sib).fill s = Shape.node s a c sib := rfl

@[simp] theorem fill_R (a : Nat) (c : nodeColor) (sib s : Shape) :
    (Frame.R sib a c).fill s = Shape.node sib a c s := rfl

theorem plug_append (c1 c2 : List Frame) (s : Shape) :
    plug (c1 ++ c2) s = plug c2 (plug c1 s) := by
  induction c1 generalizing s with
  | nil => rfl
  | cons f rest ih => simp [ih]

theorem plug_ptr (ctx : List Frame) (s : Shape) : (plug ctx s).ptr = ctxRoot ctx s.ptr := by
  induction ctx generalizing s with
  | nil => rfl
  | cons f rest ih =>
    cases f <;> (rw [plug_cons, ih]; rfl)

theorem plug_addrs (ctx : List Frame) (s : Shape) :
    (plug ctx s).addrs = ctxLeft ctx ++ s.addrs ++ ctxRight ctx := by
  induction ctx generalizing s with
  | nil => simp [ctxLeft, ctxRight]
  | cons f rest ih =>
    cases f <;> simp [ih, ctxLeft, ctxRight, Shape.addrs]

theorem layout_plug (m : Mem) (ctx : List Frame) (s : Shape) :
    Layout m NIL (plug ctx s) ↔ LayoutCtx m ctx s.ptr ∧ Layout m (ctxPar ctx) s := by
  induction ctx generalizing s with
  | nil => simp [LayoutCtx, ctxPar]
  | cons f rest ih =>
    cases f with
    | L a c sib =>
      simp only [plug_cons, fill_L, ih, Layout, LayoutCtx, Shape.ptr, ctxPar, Frame.addr]
      constructor
      · rintro ⟨h1, h2, h3, h4, h5, h6, h7, h8⟩
        exact ⟨⟨h2, h3, h4, h5, h6, h8, h1⟩, h7⟩
      · rintro ⟨⟨h2, h3, h4, h5, h6, h8, h1⟩, h7⟩
        exact ⟨h1, h2, h3, h4, h5, h6, h7, h8⟩
    | R sib a c =>
      simp only [plug_cons, fill_R, ih, Layout, LayoutCtx, Shape.ptr, ctxPar, Frame.addr]
      constructor
      · rintro ⟨h1, h2, h3, h4, h5, h6, h7, h8⟩
        exact ⟨⟨h2, h3, h4, h5, h6, h7, h1⟩, h8⟩
      · rintro ⟨⟨h2, h3, h4, h5, h6, h7, h1⟩, h8⟩
        exact ⟨h1, h2, h3, h4, h5, h6, h7, h8⟩

theorem layout_congr {m m' : Mem} {par : Nat} {s : Shape}
    (h : ∀ a ∈ s.addrs, m' a = m a) (hl : Layout m par s) : Layout m' par s := by
  induction s generalizing par with
  | leaf => trivial
  | node l a c r ihl ihr =>
    obtain ⟨h1, h2, h3, h4, h5, h6, h7⟩ := hl
    have ha := h a (by simp [Shape.addrs])
    refine ⟨h1, ?_, ?_, ?_, ?_, ihl (fun b hb => h b (by simp [Shape.addrs, hb])) h6,
      ihr (fun b hb => h b (by simp [Shape.addrs, hb])) h7⟩
    · rw [ha]; exact h2
    · rw [ha]; exact h3
    · rw [ha]; exact h4
    · rw [ha]; exact h5

theorem layoutCtx_congr {m m' : Mem} {ctx : List Frame} {p : Nat}
    (h : ∀ a ∈ ctxAddrs ctx, m' a = m a) (hl : LayoutCtx m ctx p) :
    LayoutCtx m' ctx p := by
  induction ctx generalizing p with
  | nil => trivial
  | cons f rest ih =>
    cases f with
    | L a c sib =>
      obtain ⟨h1, h2, h3, h4, h5, h6, h7⟩ := hl
      have ha := h a (by simp [ctxAddrs, ctxLeft, ctxRight])
      refine ⟨h1, ?_, ?_, ?_, ?_, layout_congr (fun b hb => h b ?_) h6,
        ih (fun b hb => h b ?_) h7⟩
      · rw [ha]; exact h2
      · rw [ha]; exact h3
      · rw [ha]; exact h4
      · rw [ha]; exact h5
      · simp [ctxAddrs, ctxLeft, ctxRight, hb]
      · simp only [ctxAddrs, ctxLeft, ctxRight, List.mem_append, List.mem_cons] at hb ⊢
        tauto
    | R sib a c =>
      obtain ⟨h1, h2, h3, h4, h5, h6, h7⟩ := hl
      have ha := h a (by simp [ctxAddrs, ctxLeft, ctxRight])
      refine ⟨h1, ?_, ?_, ?_, ?_, layout_congr (fun b hb => h b ?_) h6,
        ih (fun b hb => h b ?_) h7⟩
      · rw [ha]; exact h2
      · rw [ha]; exact h3
      · rw [ha]; exact h4
      · rw [ha]; exact h5
      · simp [ctxAddrs, ctxLeft, ctxRight, hb]
      · simp only [ctxAddrs, ctxLeft, ctxRight, List.mem_append, List.mem_cons] at hb ⊢
        tauto

theorem layout_zero_not_mem {m : Mem} {par : Nat} {s : Shape} (hl : Layout m par s) :
    NIL ∉ s.addrs := by
  induction s generalizing par with
  | leaf => simp [Shape.addrs]
  | node l a c r ihl ihr =>
    obtain ⟨h1, _, _, _, _, h5, h6⟩ := hl
    simp only [Shape.addrs, List.mem_append, List.mem_cons, not_or]
    exact ⟨ihl h5, fun h => h1 h.symm, ihr h6⟩

theorem ptr_mem_or {s : Shape} : s.ptr = NIL ∧ s = Shape.leaf ∨ s.ptr ∈ s.addrs := by
  cases s with
  | leaf => left; exact ⟨rfl, rfl⟩
  | node l a c r => right; simp [Shape.ptr, Shape.addrs]

/-! ### Setters, UpdateParentChildLink and the rotations -/

attribute [simp] rbTree.getColor rbTree.getLeft rbTree.getRight rbTree.getParent
  rbTree.getHeapNodeRef rbTree.isLeftChild rbTree.isRightChild

@[simp] theorem rbTree.setColor_root (t : rbTree) (a : Nat) (c : nodeColor) :
    (t.setColor a c).root = t.root := rfl

@[simp] theorem rbTree.setColor_rideNumber (t : rbTree) (a b : Nat) (c : nodeColor) :
    ((t.setColor a c).mem b).rideNumber = (t.mem b).rideNumber := by
  by_cases h : b = a <;> simp [rbTree.setColor, Mem.write_apply, h]

@[simp] theorem rbTree.setColor_rideCost (t : rbTree) (a b : Nat) (c : nodeColor) :
    ((t.setColor a c).mem b).rideCost = (t.mem b).rideCost := by
  by_cases h : b = a <;> simp [rbTree.setColor, Mem.write_apply, h]

@[simp] theorem rbTree.setColor_tripDuration (t : rbTree) (a b : Nat) (c : nodeColor) :
    ((t.setColor a c).mem b).tripDuration = (t.mem b).tripDuration := by
  by_cases h : b = a <;> simp [rbTree.setColor, Mem.write_apply, h]

@[simp] theorem rbTree.setColor_left (t : rbTree) (a b : Nat) (c : nodeColor) :
    ((t.setColor a c).mem b).left = (t.mem b).left := by
  by_cases h : b = a <;> simp [rbTree.setColor, Mem.write_apply, h]

@[simp] theorem rbTree.setColor_right (t : rbTree) (a b : Nat) (c : nodeColor) :
    ((t.setColor a c).mem b).right = (t.mem b).right := by
  by_cases h : b = a <;> simp [rbTree.setColor, Mem.write_apply, h]

@[simp] theorem rbTree.setColor_parent (t : rbTree) (a b : Nat) (c : nodeColor) :
    ((t.setColor a c).mem b).parent = (t.mem b).parent := by
  by_cases h : b = a <;> simp [rbTree.setColor, Mem.write_apply, h]

@[simp] theorem rbTree.setColor_heapNodeRef (t : rbTree) (a b : Nat) (c : nodeColor) :
    ((t.setColor a c).mem b).heapNodeRef = (t.mem b).heapNodeRef := by
  by_cases h : b = a <;> simp [rbTree.setColor, Mem.write_apply, h]

@[simp] theorem rbTree.setColor_color (t : rbTree) (a b : Nat) (c : nodeColor) :
    ((t.setColor a c).mem b).color = if b = a then c else (t.mem b).color := by
  by_cases h : b = a <;> simp [rbTree.setColor, Mem.write_apply, h]

@[simp] theorem rbTree.setLeft_root (t : rbTree) (a : Nat) (v : Nat) :
    (t.setLeft a v).root = t.root := rfl

@[simp] theorem rbTree.setLeft_rideNumber (t : rbTree) (a b : Nat) (v : Nat) :
    ((t.setLeft a v).mem b).rideNumber = (t.mem b).rideNumber := by
  by_cases h : b = a <;> simp [rbTree.setLeft, Mem.write_apply, h]

@[simp] theorem rbTree.setLeft_rideCost (t : rbTree) (a b : Nat) (v : Nat) :
    ((t.setLeft a v).mem b).rideCost = (t.mem b).rideCost := by
  by_cases h : b = a <;> simp [rbTree.setLeft, Mem.write_apply, h]

@[simp] theorem rbTree.setLeft_tripDuration (t : rbTree) (a b : Nat) (v : Nat) :
    ((t.setLeft a v).mem b).tripDuration = (t.mem b).tripDuration := by
  by_cases h : b = a <;> simp [rbTree.setLeft, Mem.write_apply, h]

@[simp] theorem rbTree.setLeft_left (t : rbTree) (a b : Nat) (v : Nat) :
    ((t.setLeft a v).mem b).left = if b = a then v else (t.mem b).left := by
  by_cases h : b = a <;> simp [rbTree.setLeft, Mem.write_apply, h]

@[simp] theorem rbTree.setLeft_right (t : rbTree) (a b : Nat) (v : Nat) :
    ((t.setLeft a v).mem b).right = (t.mem b).right := by
  by_cases h : b = a <;> simp [rbTree.setLeft, Mem.write_apply, h]

@[simp] theorem rbTree.setLeft_parent (t : rbTree) (a b : Nat) (v : Nat) :
    ((t.setLeft a v).mem b).parent = (t.mem b).parent := by
  by_cases h : b = a <;> simp [rbTree.setLeft, Mem.write_apply, h]

@[simp] theorem rbTree.setLeft_heapNodeRef (t : rbTree) (a b : Nat) (v : Nat) :
    ((t.setLeft a v).mem b).heapNodeRef = (t.mem b).heapNodeRef := by
  by_cases h : b = a <;> simp [rbTree.setLeft, Mem.write_apply, h]

@[simp] theorem rbTree.setLeft_color (t : rbTree) (a b : Nat) (v : Nat) :
    ((t.setLeft a v).mem b).color = (t.mem b).color := by
  by_cases h : b = a <;> simp [rbTree.setLeft, Mem.write_apply, h]

@[simp] theorem rbTree.setRight_root (t : rbTree) (a : Nat) (v : Nat) :
    (t.setRight a v).root = t.root := rfl

@[simp] theorem rbTree.setRight_rideNumber (t : rbTree) (a b : Nat) (v : Nat) :
    ((t.setRight a v).mem b).rideNumber = (t.mem b).rideNumber := by
  by_cases h : b = a <;> simp [rbTree.setRight, Mem.write_apply, h]

@[simp] theorem rbTree.setRight_rideCost (t : rbTree) (a b : Nat) (v : Nat) :
    ((t.setRight a v).mem b).rideCost = (t.mem b).rideCost := by
  by_cases h : b = a <;> simp [rbTree.setRight, Mem.write_apply, h]

@[simp] theorem rbTree.setRight_tripDuration (t : rbTree) (a b : Nat) (v : Nat) :
    ((t.setRight a v).mem b).tripDuration = (t.mem b).tripDuration := by
  by_cases h : b = a <;> simp [rbTree.setRight, Mem.write_apply, h]

@[simp] theorem rbTree.setRight_left (t : rbTree) (a b : Nat) (v : Nat) :
    ((t.setRight a v).mem b).left = (t.mem b).left := by
  by_cases h : b = a <;> simp [rbTree.setRight, Mem.write_apply, h]

@[simp] theorem rbTree.setRight_right (t : rbTree) (a b : Nat) (v : Nat) :
    ((t.setRight a v).mem b).right = if b = a then v else (t.mem b).right := by
  by_cases h : b = a <;> simp [rbTree.setRight, Mem.write_apply, h]

@[simp] theorem rbTree.setRight_parent (t : rbTree) (a b : Nat) (v : Nat) :
    ((t.setRight a v).mem b).parent = (t.mem b).parent := by
  by_cases h : b = a <;> simp [rbTree.setRight, Mem.write_apply, h]

@[simp] theorem rbTree.setRight_heapNodeRef (t : rbTree) (a b : Nat) (v : Nat) :
    ((t.setRight a v).mem b).heapNodeRef = (t.mem b).heapNodeRef := by
  by_cases h : b = a <;> simp [rbTree.setRight, Mem.write_apply, h]

@[simp] theorem rbTree.setRight_color (t : rbTree) (a b : Nat) (v : Nat) :
    ((t.setRight a v).mem b).color = (t.mem b).color := by
  by_cases h : b = a <;> simp [rbTree.setRight, Mem.write_apply, h]

@[simp] theorem rbTree.setParent_root (t : rbTree) (a : Nat) (v : Nat) :
    (t.setParent a v).root = t.root := rfl

@[simp] theorem rbTree.setParent_rideNumber (t : rbTree) (a b : Nat) (v : Nat) :
    ((t.setParent a v).mem b).rideNumber = (t.mem b).rideNumber := by
  by_cases h : b = a <;> simp [rbTree.setParent, Mem.write_apply, h]

@[simp] theorem rbTree.setParent_rideCost (t : rbTree) (a b : Nat) (v : Nat) :
    ((t.setParent a v).mem b).rideCost = (t.mem b).rideCost := by
  by_cases h : b = a <;> simp [rbTree.setParent, Mem.write_apply, h]

@[simp] theorem rbTree.setParent_tripDuration (t : rbTree) (a b : Nat) (v : Nat) :
    ((t.setParent a v).mem b).tripDuration = (t.mem b).tripDuration := by
  by_cases h : b = a <;> simp [rbTree.setParent, Mem.write_apply, h]

@[simp] theorem rbTree.setParent_left (t : rbTree) (a b : Nat) (v : Nat) :
    ((t.setParent a v).mem b).left = (t.mem b).left := by
  by_cases h : b = a <;> simp [rbTree.setParent, Mem.write_apply, h]

@[simp] theorem rbTree.setParent_right (t : rbTree) (a b : Nat) (v : Nat) :
    ((t.setParent a v).mem b).right = (t.mem b).right := by
  by_cases h : b = a <;> simp [rbTree.setParent, Mem.write_apply, h]

@[simp] theorem rbTree.setParent_parent (t : rbTree) (a b : Nat) (v : Nat) :
    ((t.setParent a v).mem b).parent = if b = a then v else (t.mem b).parent := by
  by_cases h : b = a <;> simp [rbTree.setParent, Mem.write_apply, h]

@[simp] theorem rbTree.setParent_heapNodeRef (t : rbTree) (a b : Nat) (v : Nat) :
    ((t.setParent a v).mem b).heapNodeRef = (t.mem b).heapNodeRef := by
  by_cases h : b = a <;> simp [rbTree.setParent, Mem.write_apply, h]

@[simp] theorem rbTree.setParent_color (t : rbTree) (a b : Nat) (v : Nat) :
    ((t.setParent a v).mem b).color = (t.mem b).color := by
  by_cases h : b = a <;> simp [rbTree.setParent, Mem.write_apply, h]

@[simp] theorem rbTree.setHeapNodeRef_root (t : rbTree) (a : Nat) (r : Option Nat) :
    (t.setHeapNodeRef a r).root = t.root := rfl

@[simp] theorem rbTree.setHeapNodeRef_rideNumber (t : rbTree) (a b : Nat) (r : Option Nat) :
    ((t.setHeapNodeRef a r).mem b).rideNumber = (t.mem b).rideNumber := by
  by_cases h : b = a <;> simp [rbTree.setHeapNodeRef, Mem.write_apply, h]

@[simp] theorem rbTree.setHeapNodeRef_rideCost (t : rbTree) (a b : Nat) (r : Option Nat) :
    ((t.setHeapNodeRef a r).mem b).rideCost = (t.mem b).rideCost := by
  by_cases h : b = a <;> simp [rbTree.setHeapNodeRef, Mem.write_apply, h]

@[simp] theorem rbTree.setHeapNodeRef_tripDuration (t : rbTree) (a b : Nat) (r : Option Nat) :
    ((t.setHeapNodeRef a r).mem b).tripDuration = (t.mem b).tripDuration := by
  by_cases h : b = a <;> simp [rbTree.setHeapNodeRef, Mem.write_apply, h]

@[simp] theorem rbTree.setHeapNodeRef_left (t : rbTree) (a b : Nat) (r : Option Nat) :
    ((t.setHeapNodeRef a r).mem b).left = (t.mem b).left := by
  by_cases h : b = a <;> simp [rbTree.setHeapNodeRef, Mem.write_apply, h]

@[simp] theorem rbTree.setHeapNodeRef_right (t : rbTree) (a b : Nat) (r : Option Nat) :
    ((t.setHeapNodeRef a r).mem b).right = (t.mem b).right := by
  by_cases h : b = a <;> simp [rbTree.setHeapNodeRef, Mem.write_apply, h]

@[simp] theorem rbTree.setHeapNodeRef_parent (t : rbTree) (a b : Nat) (r : Option Nat) :
    ((t.setHeapNodeRef a r).mem b).parent = (t.mem b).parent := by
  by_cases h : b = a <;> simp [rbTree.setHeapNodeRef, Mem.write_apply, h]

@[simp] theorem rbTree.setHeapNodeRef_heapNodeRef (t : rbTree) (a b : Nat) (r : Option Nat) :
    ((t.setHeapNodeRef a r).mem b).heapNodeRef = if b = a then r else (t.mem b).heapNodeRef := by
  by_cases h : b = a <;> simp [rbTree.setHeapNodeRef, Mem.write_apply, h]

@[simp] theorem rbTree.setHeapNodeRef_color (t : rbTree) (a b : Nat) (r : Option Nat) :
    ((t.setHeapNodeRef a r).mem b).color = (t.mem b).color := by
  by_cases h : b = a <;> simp [rbTree.setHeapNodeRef, Mem.write_apply, h]

@[simp] theorem rbTree.mem_root_update (t : rbTree) (r : Nat) :
    ({ t with root := r } : rbTree).mem = t.mem := rfl

@[simp] theorem rbTree.root_root_update (t : rbTree) (r : Nat) :
    ({ t with root := r } : rbTree).root = r := rfl

theorem rbNode.ext_fields {n1 n2 : rbNode} (h1 : n1.links = n2.links) (h2 : n1.data = n2.data)
    (h3 : n1.color = n2.color) : n1 = n2 := by
  cases n1; cases n2
  simp only [rbNode.links, rbNode.data, Prod.mk.injEq] at h1 h2 h3
  simp [h1, h2, h3]

theorem nodup_plug_iff (ctx : List Frame) (s : Shape) :
    (plug ctx s).addrs.Nodup ↔
      s.addrs.Nodup ∧ (ctxAddrs ctx).Nodup ∧ ∀ a ∈ s.addrs, a ∉ ctxAddrs ctx := by
  rw [plug_addrs]
  have hp : (ctxLeft ctx ++ s.addrs ++ ctxRight ctx).Perm (s.addrs ++ ctxAddrs ctx) := by
    unfold ctxAddrs
    rw [← List.append_assoc]
    exact List.Perm.append_right _ List.perm_append_comm
  rw [hp.nodup_iff, List.nodup_append]
  rfl

theorem isTree_plug_iff (t : rbTree) (ctx : List Frame) (s : Shape) :
    IsTree t (plug ctx s) ↔
      t.root = ctxRoot ctx s.ptr ∧ LayoutCtx t.mem ctx s.ptr ∧ Layout t.mem (ctxPar ctx) s ∧
      s.addrs.Nodup ∧ (ctxAddrs ctx).Nodup ∧ ∀ a ∈ s.addrs, a ∉ ctxAddrs ctx := by
  constructor
  · rintro ⟨h1, h2, h3⟩
    rw [plug_ptr] at h1
    rw [layout_plug] at h2
    rw [nodup_plug_iff] at h3
    exact ⟨h1, h2.1, h2.2, h3⟩
  · rintro ⟨h1, h2, h3, h4⟩
    refine ⟨?_, ?_, ?_⟩
    · rw [plug_ptr]; exact h1
    · rw [layout_plug]; exact ⟨h2, h3⟩
    · rw [nodup_plug_iff]; exact h4

theorem ctxPar_mem {ctx : List Frame} (h : ctx ≠ []) : ctxPar ctx ∈ ctxAddrs ctx := by
  cases ctx with
  | nil => exact absurd rfl h
  | cons f rest => cases f <;> simp [ctxPar, ctxAddrs, ctxLeft, ctxRight, Frame.addr]

theorem ctxAddrs_cons_perm (f : Frame) (rest : List Frame) :
    (ctxAddrs (f :: rest)).Perm (f.addr :: (f.sibling.addrs ++ ctxAddrs rest)) := by
  cases f with
  | L a c sib =>
    simp only [ctxAddrs, ctxLeft, ctxRight, Frame.addr, Frame.sibling]
    have : (ctxLeft rest ++ (a :: sib.addrs ++ ctxRight rest)).Perm
        ((a :: sib.addrs) ++ (ctxLeft rest ++ ctxRight rest)) := by
      rw [← List.append_assoc, ← List.append_assoc]
      exact List.Perm.append_right _ List.perm_append_comm
    simpa using this
  | R sib a c =>
    simp only [ctxAddrs, ctxLeft, ctxRight, Frame.addr, Frame.sibling]
    have : (ctxLeft rest ++ (sib.addrs ++ [a]) ++ ctxRight rest).Perm
        ((sib.addrs ++ [a]) ++ (ctxLeft rest ++ ctxRight rest)) := by
      rw [← List.append_assoc (sib.addrs ++ [a])]
      exact List.Perm.append_right _ List.perm_append_comm
    refine this.trans ?_
    have h2 : (sib.addrs ++ [a]).Perm (a :: sib.addrs) := by
      simpa using (List.perm_append_comm : (sib.addrs ++ [a]).Perm ([a] ++ sib.addrs))
    simpa using List.Perm.append_right (ctxLeft rest ++ ctxRight rest) h2

theorem mem_ctxAddrs_cons (f : Frame) (rest : List Frame) (b : Nat) :
    b ∈ ctxAddrs (f :: rest) ↔ b = f.addr ∨ b ∈ f.sibling.addrs ∨ b ∈ ctxAddrs rest := by
  rw [(ctxAddrs_cons_perm f rest).mem_iff]
  simp

theorem nodup_ctxAddrs_cons (f : Frame) (rest : List Frame) :
    (ctxAddrs (f :: rest)).Nodup ↔
      f.addr ∉ f.sibling.addrs ∧ f.addr ∉ ctxAddrs rest ∧ f.sibling.addrs.Nodup ∧
      (ctxAddrs rest).Nodup ∧ ∀ b ∈ f.sibling.addrs, b ∉ ctxAddrs rest := by
  rw [(ctxAddrs_cons_perm f rest).nodup_iff, List.nodup_cons, List.nodup_append]
  simp only [List.mem_append, not_or, List.Disjoint]
  constructor
  · rintro ⟨⟨h1, h2⟩, h3, h4, h5⟩
    exact ⟨h1, h2, h3, h4, fun b hb => h5 hb⟩
  · rintro ⟨h1, h2, h3, h4, h5⟩
    exact ⟨⟨h1, h2⟩, h3, h4, fun b hb => h5 b hb⟩

@[simp] theorem ctxAddrs_nil : ctxAddrs [] = [] := rfl

theorem layoutCtx_zero_not_mem {m : Mem} {ctx : List Frame} {p : Nat} (h : LayoutCtx m ctx p) :
    NIL ∉ ctxAddrs ctx := by
  induction ctx generalizing p with
  | nil => simp [ctxAddrs, ctxLeft, ctxRight]
  | cons f rest ih =>
    rw [mem_ctxAddrs_cons]
    cases f with
    | L a c sib =>
      obtain ⟨h1, _, _, _, _, h5, h6⟩ := h
      have := ih h6
      have h0 := layout_zero_not_mem h5
      simp only [Frame.addr, Frame.sibling, not_or]
      exact ⟨fun h => h1 h.symm, h0, this⟩
    | R sib a c =>
      obtain ⟨h1, _, _, _, _, h5, h6⟩ := h
      have := ih h6
      have h0 := layout_zero_not_mem h5
      simp only [Frame.addr, Frame.sibling, not_or]
      exact ⟨fun h => h1 h.symm, h0, this⟩

/-- Re-hanging a subtree below a new parent: only the parent pointer of its root changes. -/
theorem layout_reparent {m m' : Mem} {par par' : Nat} {s : Shape} (hl : Layout m par s)
    (hnd : s.addrs.Nodup)
    (hroot : s.ptr ≠ NIL → (m' s.ptr).left = (m s.ptr).left ∧
      (m' s.ptr).right = (m s.ptr).right ∧ (m' s.ptr).parent = par' ∧
      (m' s.ptr).color = (m s.ptr).color)
    (hrest : ∀ a ∈ s.addrs, a ≠ s.ptr → m' a = m a) : Layout m' par' s := by
  cases s with
  | leaf => trivial
  | node l a c r =>
    obtain ⟨h1, h2, h3, h4, hc, h5, h6⟩ := hl
    obtain ⟨e1, e2, e3, e4⟩ := hroot h1
    simp only [Shape.ptr_node] at e1 e2 e3 e4 hrest
    simp only [Shape.addrs_node, List.nodup_append, List.nodup_cons, List.Disjoint,
      List.mem_cons] at hnd
    refine ⟨h1, e3, by rw [e1]; exact h3, by rw [e2]; exact h4, by rw [e4]; exact hc, ?_, ?_⟩
    · refine layout_congr (fun b hb => hrest b (by simp [hb]) ?_) h5
      rintro rfl
      exact hnd.2.2 hb (Or.inl rfl)
    · refine layout_congr (fun b hb => hrest b (by simp [hb]) ?_) h6
      rintro rfl
      exact hnd.2.1.1 hb

theorem rbTree.setParent_mem_ne (t : rbTree) {a b : Nat} (v : Nat) (h : b ≠ a) :
    (t.setParent a v).mem b = t.mem b := by simp [rbTree.setParent, h]

theorem rbTree.setLeft_mem_ne (t : rbTree) {a b : Nat} (v : Nat) (h : b ≠ a) :
    (t.setLeft a v).mem b = t.mem b := by simp [rbTree.setLeft, h]

theorem rbTree.setRight_mem_ne (t : rbTree) {a b : Nat} (v : Nat) (h : b ≠ a) :
    (t.setRight a v).mem b = t.mem b := by simp [rbTree.setRight, h]

theorem rbTree.setColor_mem_ne (t : rbTree) {a b : Nat} (v : nodeColor) (h : b ≠ a) :
    (t.setColor a v).mem b = t.mem b := by simp [rbTree.setColor, h]

theorem UPCL_color_data (t : rbTree) (p old new a : Nat) :
    ((t.UpdateParentChildLink p old new).mem a).color = (t.mem a).color ∧
      ((t.UpdateParentChildLink p old new).mem a).data = (t.mem a).data := by
  simp only [UpdateParentChildLink, rbNode.data]
  split_ifs <;> simp

theorem UPCL_spec {t : rbTree} {ctx : List Frame} {old new : Nat}
    (hroot : t.root = ctxRoot ctx old) (hctx : LayoutCtx t.mem ctx old)
    (hold0 : old ≠ NIL) (holdp : (t.mem old).parent = ctxPar ctx)
    (hold : old ∉ ctxAddrs ctx) (hnew : new ∉ ctxAddrs ctx) (hne : new ≠ old)
    (hnd : (ctxAddrs ctx).Nodup) :
    (t.UpdateParentChildLink (ctxPar ctx) old new).root = ctxRoot ctx new ∧
    LayoutCtx (t.UpdateParentChildLink (ctxPar ctx) old new).mem ctx new ∧
    ((t.UpdateParentChildLink (ctxPar ctx) old new).mem new).parent = ctxPar ctx ∧
    ((t.UpdateParentChildLink (ctxPar ctx) old new).mem new).left = (t.mem new).left ∧
    ((t.UpdateParentChildLink (ctxPar ctx) old new).mem new).right = (t.mem new).right ∧
    (∀ a, a ≠ new → a ∉ ctxAddrs ctx →
      (t.UpdateParentChildLink (ctxPar ctx) old new).mem a = t.mem a) := by
  cases ctx with
  | nil =>
    simp [UpdateParentChildLink, ctxPar, ctxRoot, LayoutCtx]
    intro a ha
    exact rbTree.setParent_mem_ne t _ ha
  | cons f rest =>
    rw [mem_ctxAddrs_cons] at hold hnew
    rw [nodup_ctxAddrs_cons] at hnd
    simp only [not_or] at hold hnew
    obtain ⟨n1, n2, n3, n4, n5⟩ := hnd
    have key : ∀ b, b ∈ f.sibling.addrs ∨ b ∈ ctxAddrs rest → b ≠ new ∧ b ≠ f.addr := by
      intro b hb
      constructor
      · rintro rfl
        rcases hb with hb | hb
        · exact hnew.2.1 hb
        · exact hnew.2.2 hb
      · rintro rfl
        rcases hb with hb | hb
        · exact n1 hb
        · exact n2 hb
    have hother : ∀ (t' : rbTree), (∀ b, b ≠ new → b ≠ f.addr → t'.mem b = t.mem b) →
        ∀ b, b ≠ new → b ∉ ctxAddrs (f :: rest) → t'.mem b = t.mem b := by
      intro t' ht' b hb1 hb2
      rw [mem_ctxAddrs_cons] at hb2
      simp only [not_or] at hb2
      exact ht' b hb1 hb2.1
    cases f with
    | L a c sib =>
      obtain ⟨h1, h2, h3, h4, hc, h5, h6⟩ := hctx
      simp only [Frame.addr, Frame.sibling] at *
      have hna : new ≠ a := hnew.1
      have e : (t.setParent new a).isLeftChild old = true := by
        simp [hne.symm, holdp, ctxPar, Frame.addr, Ne.symm hna, h3]
      simp only [UpdateParentChildLink, ctxPar, Frame.addr, e, if_true, ctxRoot]
      rw [if_neg h1]
      simp only [ctxRoot, Frame.addr] at hroot
      refine ⟨by simpa using hroot, ?_, by simp [hna], by simp [hna], by simp [hna], ?_⟩
      · refine ⟨h1, by simpa [Ne.symm hna] using h2, by simp, by simp [Ne.symm hna, h4],
          by simpa using hc, ?_, ?_⟩
        · refine layout_congr (fun b hb => ?_) h5
          have := key b (Or.inl hb)
          rw [rbTree.setLeft_mem_ne _ _ this.2, rbTree.setParent_mem_ne _ _ this.1]
        · refine layoutCtx_congr (fun b hb => ?_) h6
          have := key b (Or.inr hb)
          rw [rbTree.setLeft_mem_ne _ _ this.2, rbTree.setParent_mem_ne _ _ this.1]
      · refine hother _ (fun b hb1 hb2 => ?_)
        rw [rbTree.setLeft_mem_ne _ _ hb2, rbTree.setParent_mem_ne _ _ hb1]
    | R sib a c =>
      obtain ⟨h1, h2, h3, h4, hc, h5, h6⟩ := hctx
      simp only [Frame.addr, Frame.sibling] at *
      have hna : new ≠ a := hnew.1
      have hos : old ≠ sib.ptr := by
        rcases (ptr_mem_or : sib.ptr = NIL ∧ sib = Shape.leaf ∨ sib.ptr ∈ sib.addrs) with hs | hs
        · rw [hs.1]; exact hold0
        · rintro rfl; exact hold.2.1 hs
      have e : (t.setParent new a).isLeftChild old = false := by
        simp [hne.symm, holdp, ctxPar, Frame.addr, Ne.symm hna, h3, hos]
      simp only [UpdateParentChildLink, ctxPar, Frame.addr, e, ctxRoot, Bool.false_eq_true,
        if_false]
      rw [if_neg h1]
      simp only [ctxRoot, Frame.addr] at hroot
      refine ⟨by simpa using hroot, ?_, by simp [hna], by simp [hna], by simp [hna], ?_⟩
      · refine ⟨h1, by simpa [Ne.symm hna] using h2, by simp [Ne.symm hna, h3], by simp,
          by simpa using hc, ?_, ?_⟩
        · refine layout_congr (fun b hb => ?_) h5
          have := key b (Or.inl hb)
          rw [rbTree.setRight_mem_ne _ _ this.2, rbTree.setParent_mem_ne _ _ this.1]
        · refine layoutCtx_congr (fun b hb => ?_) h6
          have := key b (Or.inr hb)
          rw [rbTree.setRight_mem_ne _ _ this.2, rbTree.setParent_mem_ne _ _ this.1]
      · refine hother _ (fun b hb1 hb2 => ?_)
        rw [rbTree.setRight_mem_ne _ _ hb2, rbTree.setParent_mem_ne _ _ hb1]

theorem rotateLeft_color_data (t : rbTree) (x a : Nat) :
    ((t.rotateLeft x).mem a).color = (t.mem a).color ∧
      ((t.rotateLeft x).mem a).data = (t.mem a).data := by
  simp only [rotateLeft, UpdateParentChildLink, rbNode.data]
  split_ifs <;> simp

theorem rotateLeft_spec {t : rbTree} {ctx : List Frame} {A B C : Shape} {x y : Nat}
    {cx cy : nodeColor}
    (h : IsTree t (plug ctx (Shape.node A x cx (Shape.node B y cy C)))) :
    IsTree (t.rotateLeft x) (plug ctx (Shape.node (Shape.node A x cx B) y cy C)) ∧
    (t.rotateLeft x).mem NIL = t.mem NIL := by
  have hcd := rotateLeft_color_data t x
  rw [isTree_plug_iff] at h ⊢
  obtain ⟨hroot, hctx, hlay, hnd, hcnd, hdisj⟩ := h
  obtain ⟨hx0, hxp, hxl, hxr, hxc', hA, hy0, hyp, hyl, hyr, hyc', hB, hC⟩ := hlay
  have hA0 := layout_zero_not_mem hA
  have hB0 := layout_zero_not_mem hB
  have hC0 := layout_zero_not_mem hC
  have hc0 := layoutCtx_zero_not_mem hctx
  simp only [Shape.ptr_node] at hxr hroot hctx
  simp only [Shape.addrs_node, List.nodup_append, List.nodup_cons, List.Disjoint, List.mem_append,
    List.mem_cons, not_or] at hnd hdisj
  obtain ⟨ndA, ⟨⟨hxB, hxy, hxC⟩, ndB, ⟨hyC, ndC⟩, dBC⟩, dA⟩ := hnd
  have hxc : x ∉ ctxAddrs ctx := hdisj x (Or.inr (Or.inl rfl))
  have hyc : y ∉ ctxAddrs ctx := hdisj y (Or.inr (Or.inr (Or.inr (Or.inl rfl))))
  have hyx : y ≠ x := fun h => hxy h.symm
  have hbx : B.ptr ≠ x := by
    rcases (ptr_mem_or : B.ptr = NIL ∧ B = Shape.leaf ∨ B.ptr ∈ B.addrs) with hs | hs
    · rw [hs.1]; exact Ne.symm hx0
    · intro e; rw [e] at hs; exact hxB hs
  have hby : B.ptr ≠ y := by
    rcases (ptr_mem_or : B.ptr = NIL ∧ B = Shape.leaf ∨ B.ptr ∈ B.addrs) with hs | hs
    · rw [hs.1]; exact Ne.symm hy0
    · intro e; exact dBC hs (Or.inl e)
  have hbc : B.ptr ∉ ctxAddrs ctx := by
    rcases (ptr_mem_or : B.ptr = NIL ∧ B = Shape.leaf ∨ B.ptr ∈ B.addrs) with hs | hs
    · rw [hs.1]; exact hc0
    · exact hdisj _ (Or.inr (Or.inr (Or.inl hs)))
  -- the tree after the first two statements
  obtain ⟨t2, ht2, ht2root, ht2x, ht2b, ht2o⟩ : ∃ t2 : rbTree,
      t.rotateLeft x = ((t2.UpdateParentChildLink (ctxPar ctx) x y).setLeft y x).setParent x y ∧
      t2.root = t.root ∧
      (t2.mem x).links = (A.ptr, B.ptr, ctxPar ctx) ∧
      (B.ptr ≠ NIL → (t2.mem B.ptr).links = ((t.mem B.ptr).left, (t.mem B.ptr).right, x)) ∧
      (∀ a, a ≠ x → (a ≠ B.ptr ∨ B.ptr = NIL) → t2.mem a = t.mem a) := by
    by_cases hb : B.ptr = NIL
    · refine ⟨t.setRight x B.ptr, ?_, rfl, ?_, ?_, ?_⟩
      · simp [rotateLeft, hxr, hyl, hyx, hb, hxp]
      · simp [rbNode.links, hxl, hxp]
      · intro h; exact absurd hb h
      · intro a ha _; exact rbTree.setRight_mem_ne _ _ ha
    · refine ⟨(t.setRight x B.ptr).setParent B.ptr x, ?_, rfl, ?_, ?_, ?_⟩
      · simp [rotateLeft, hxr, hyl, hyx, hb, hxp, Ne.symm hbx]
      · simp [rbNode.links, hxl, hxp, Ne.symm hbx]
      · intro _; simp [rbNode.links, hbx]
      · intro a ha hab
        rcases hab with hab | hab
        · rw [rbTree.setParent_mem_ne _ _ hab, rbTree.setRight_mem_ne _ _ ha]
        · exact absurd hab hb
  simp only [rbNode.links, Prod.mk.injEq] at ht2x ht2b
  have hctx2 : LayoutCtx t2.mem ctx x := by
    refine layoutCtx_congr (fun a ha => ?_) hctx
    rw [ht2o a (by rintro rfl; exact hxc ha) (Or.inl (by rintro rfl; exact hbc ha))]
  obtain ⟨u1, u2, u3, u4, u5, u6⟩ := @UPCL_spec t2 ctx x y
    (by rw [ht2root]; exact hroot) hctx2 hx0 ht2x.2.2 hxc hyc hyx hcnd
  rw [ht2]
  have hfin : ∀ a, a ≠ x → a ≠ y → (a ≠ B.ptr ∨ B.ptr = NIL) → a ∉ ctxAddrs ctx →
      (((t2.UpdateParentChildLink (ctxPar ctx) x y).setLeft y x).setParent x y).mem a
        = t.mem a := by
    intro a h1 h2 h3 h4
    rw [rbTree.setParent_mem_ne _ _ h1, rbTree.setLeft_mem_ne _ _ h2, u6 a h2 h4]
    exact ht2o a h1 h3
  refine ⟨⟨?_, ?_, ?_, ?_, hcnd, ?_⟩, ?_⟩
  · simpa using u1
  · refine layoutCtx_congr (fun a ha => ?_) u2
    have h1 : a ≠ x := by rintro rfl; exact hxc ha
    have h2 : a ≠ y := by rintro rfl; exact hyc ha
    rw [rbTree.setParent_mem_ne _ _ h1, rbTree.setLeft_mem_ne _ _ h2]
  · have hy2 : (t2.mem y) = t.mem y := ht2o y hyx (Or.inl (Ne.symm hby))
    rw [ht2] at hcd
    refine ⟨hy0, ?_, ?_, ?_, ?_, ⟨hx0, ?_, ?_, ?_, ?_, ?_, ?_⟩, ?_⟩
    · simpa [hyx] using u3
    · simp
    · simp [hyx, u5, hy2, hyr]
    · rw [(hcd y).1]; exact hyc'
    · simp
    · simp [hxy, u6 x hxy hxc, ht2x.1]
    · simp [hxy, u6 x hxy hxc, ht2x.2.1]
    · rw [(hcd x).1]; exact hxc'
    · refine layout_congr (fun a ha => ?_) hA
      rw [hfin a (by rintro rfl; exact dA ha (Or.inl rfl))
        (by rintro rfl; exact dA ha (Or.inr (Or.inr (Or.inl rfl)))) ?_ (hdisj a (Or.inl ha))]
      rcases (ptr_mem_or : B.ptr = NIL ∧ B = Shape.leaf ∨ B.ptr ∈ B.addrs) with hs | hs
      · exact Or.inr hs.1
      · left; rintro rfl; exact dA ha (Or.inr (Or.inl hs))
    · refine layout_reparent hB ndB (fun hb0 => ?_) (fun a ha hab => ?_)
      · have e1 : (t2.UpdateParentChildLink (ctxPar ctx) x y).mem B.ptr = t2.mem B.ptr :=
          u6 _ hby hbc
        have := ht2b hb0
        refine ⟨?_, ?_, ?_, (hcd _).1⟩ <;> simp [hbx, hby, e1, this]
      · rw [hfin a (by rintro rfl; exact hxB ha) (by rintro rfl; exact dBC ha (Or.inl rfl))
          (Or.inl hab) (hdisj a (Or.inr (Or.inr (Or.inl ha))))]
    · refine layout_congr (fun a ha => ?_) hC
      rw [hfin a (by rintro rfl; exact hxC ha) (by rintro rfl; exact hyC ha) ?_
        (hdisj a (Or.inr (Or.inr (Or.inr (Or.inr ha)))))]
      rcases (ptr_mem_or : B.ptr = NIL ∧ B = Shape.leaf ∨ B.ptr ∈ B.addrs) with hs | hs
      · exact Or.inr hs.1
      · left; rintro rfl; exact dBC hs (Or.inr ha)
  · simp only [Shape.addrs_node, List.nodup_append, List.nodup_cons, List.Disjoint,
      List.mem_append, List.mem_cons, not_or]
    refine ⟨⟨ndA, ⟨hxB, ndB⟩, ?_⟩, ⟨hyC, ndC⟩, ?_⟩
    · intro a ha hb
      exact dA ha (by tauto)
    · intro a ha hb
      rcases ha with ha | rfl | ha
      · exact dA ha (by tauto)
      · rcases hb with hb | hb
        · exact hxy hb
        · exact hxC hb
      · exact dBC ha hb
  · intro a ha
    apply hdisj
    simp only [Shape.addrs_node, List.mem_append, List.mem_cons] at ha
    tauto
  · exact hfin 0 (Ne.symm hx0) (Ne.symm hy0)
      (by
        rcases (ptr_mem_or : B.ptr = NIL ∧ B = Shape.leaf ∨ B.ptr ∈ B.addrs) with hs | hs
        · exact Or.inr hs.1
        · left; intro e; rw [← e] at hs; exact hB0 hs) hc0

theorem rotateRight_color_data (t : rbTree) (x a : Nat) :
    ((t.rotateRight x).mem a).color = (t.mem a).color ∧
      ((t.rotateRight x).mem a).data = (t.mem a).data := by
  simp only [rotateRight, UpdateParentChildLink, rbNode.data]
  split_ifs <;> simp

theorem rotateRight_spec {t : rbTree} {ctx : List Frame} {A B C : Shape} {x y : Nat}
    {cx cy : nodeColor}
    (h : IsTree t (plug ctx (Shape.node (Shape.node A y cy B) x cx C))) :
    IsTree (t.rotateRight x) (plug ctx (Shape.node A y cy (Shape.node B x cx C))) ∧
    (t.rotateRight x).mem NIL = t.mem NIL := by
  have hcd := rotateRight_color_data t x
  rw [isTree_plug_iff] at h ⊢
  obtain ⟨hroot, hctx, hlay, hnd, hcnd, hdisj⟩ := h
  obtain ⟨hx0, hxp, hxl, hxr, hxc', ⟨hy0, hyp, hyl, hyr, hyc', hA, hB⟩, hC⟩ := hlay
  have hA0 := layout_zero_not_mem hA
  have hB0 := layout_zero_not_mem hB
  have hC0 := layout_zero_not_mem hC
  have hc0 := layoutCtx_zero_not_mem hctx
  simp only [Shape.ptr_node] at hxl hroot hctx
  simp only [Shape.addrs_node, List.nodup_append, List.nodup_cons, List.Disjoint, List.mem_append,
    List.mem_cons, not_or] at hnd hdisj
  obtain ⟨⟨ndA, ⟨hyB, ndB⟩, dAB⟩, ⟨hxC, ndC⟩, dC⟩ := hnd
  have hxy : x ≠ y := by
    intro e; exact dC (Or.inr (Or.inl rfl)) (Or.inl e.symm)
  have hyx : y ≠ x := fun h => hxy h.symm
  have hxB : x ∉ B.addrs := fun hb => dC (Or.inr (Or.inr hb)) (Or.inl rfl)
  have hxA : x ∉ A.addrs := fun hb => dC (Or.inl hb) (Or.inl rfl)
  have hyA : y ∉ A.addrs := fun hb => dAB hb (Or.inl rfl)
  have hyC : y ∉ C.addrs := fun hb => dC (Or.inr (Or.inl rfl)) (Or.inr hb)
  have hxc : x ∉ ctxAddrs ctx := hdisj x (Or.inr (Or.inl rfl))
  have hyc : y ∉ ctxAddrs ctx := hdisj y (Or.inl (Or.inr (Or.inl rfl)))
  have hbx : B.ptr ≠ x := by
    rcases (ptr_mem_or : B.ptr = NIL ∧ B = Shape.leaf ∨ B.ptr ∈ B.addrs) with hs | hs
    · rw [hs.1]; exact Ne.symm hx0
    · intro e; rw [e] at hs; exact hxB hs
  have hby : B.ptr ≠ y := by
    rcases (ptr_mem_or : B.ptr = NIL ∧ B = Shape.leaf ∨ B.ptr ∈ B.addrs) with hs | hs
    · rw [hs.1]; exact Ne.symm hy0
    · intro e; rw [e] at hs; exact hyB hs
  have hbc : B.ptr ∉ ctxAddrs ctx := by
    rcases (ptr_mem_or : B.ptr = NIL ∧ B = Shape.leaf ∨ B.ptr ∈ B.addrs) with hs | hs
    · rw [hs.1]; exact hc0
    · exact hdisj _ (Or.inl (Or.inr (Or.inr hs)))
  obtain ⟨t2, ht2, ht2root, ht2x, ht2b, ht2o⟩ : ∃ t2 : rbTree,
      t.rotateRight x = ((t2.UpdateParentChildLink (ctxPar ctx) x y).setRight y x).setParent x y ∧
      t2.root = t.root ∧
      (t2.mem x).links = (B.ptr, C.ptr, ctxPar ctx) ∧
      (B.ptr ≠ NIL → (t2.mem B.ptr).links = ((t.mem B.ptr).left, (t.mem B.ptr).right, x)) ∧
      (∀ a, a ≠ x → (a ≠ B.ptr ∨ B.ptr = NIL) → t2.mem a = t.mem a) := by
    by_cases hb : B.ptr = NIL
    · refine ⟨t.setLeft x B.ptr, ?_, rfl, ?_, ?_, ?_⟩
      · simp [rotateRight, hxl, hyr, hyx, hb, hxp]
      · simp [rbNode.links, hxr, hxp]
      · intro h; exact absurd hb h
      · intro a ha _; exact rbTree.setLeft_mem_ne _ _ ha
    · refine ⟨(t.setLeft x B.ptr).setParent B.ptr x, ?_, rfl, ?_, ?_, ?_⟩
      · simp [rotateRight, hxl, hyr, hyx, hb, hxp, Ne.symm hbx]
      · simp [rbNode.links, hxr, hxp, Ne.symm hbx]
      · intro _; simp [rbNode.links, hbx]
      · intro a ha hab
        rcases hab with hab | hab
        · rw [rbTree.setParent_mem_ne _ _ hab, rbTree.setLeft_mem_ne _ _ ha]
        · exact absurd hab hb
  simp only [rbNode.links, Prod.mk.injEq] at ht2x ht2b
  have hctx2 : LayoutCtx t2.mem ctx x := by
    refine layoutCtx_congr (fun a ha => ?_) hctx
    rw [ht2o a (by rintro rfl; exact hxc ha) (Or.inl (by rintro rfl; exact hbc ha))]
  obtain ⟨u1, u2, u3, u4, u5, u6⟩ := @UPCL_spec t2 ctx x y
    (by rw [ht2root]; exact hroot) hctx2 hx0 ht2x.2.2 hxc hyc hyx hcnd
  rw [ht2]
  have hfin : ∀ a, a ≠ x → a ≠ y → (a ≠ B.ptr ∨ B.ptr = NIL) → a ∉ ctxAddrs ctx →
      (((t2.UpdateParentChildLink (ctxPar ctx) x y).setRight y x).setParent x y).mem a
        = t.mem a := by
    intro a h1 h2 h3 h4
    rw [rbTree.setParent_mem_ne _ _ h1, rbTree.setRight_mem_ne _ _ h2, u6 a h2 h4]
    exact ht2o a h1 h3
  have hBor : ∀ a, a ∈ A.addrs ∨ a ∈ C.addrs → (a ≠ B.ptr ∨ B.ptr = NIL) := by
    intro a ha
    rcases (ptr_mem_or : B.ptr = NIL ∧ B = Shape.leaf ∨ B.ptr ∈ B.addrs) with hs | hs
    · exact Or.inr hs.1
    · left; rintro rfl
      rcases ha with ha | ha
      · exact dAB ha (Or.inr hs)
      · exact dC (Or.inr (Or.inr hs)) (Or.inr ha)
  refine ⟨⟨?_, ?_, ?_, ?_, hcnd, ?_⟩, ?_⟩
  · simpa using u1
  · refine layoutCtx_congr (fun a ha => ?_) u2
    have h1 : a ≠ x := by rintro rfl; exact hxc ha
    have h2 : a ≠ y := by rintro rfl; exact hyc ha
    rw [rbTree.setParent_mem_ne _ _ h1, rbTree.setRight_mem_ne _ _ h2]
  · have hy2 : (t2.mem y) = t.mem y := ht2o y hyx (Or.inl (Ne.symm hby))
    rw [ht2] at hcd
    refine ⟨hy0, ?_, ?_, ?_, ?_, ?_, ⟨hx0, ?_, ?_, ?_, ?_, ?_, ?_⟩⟩
    · simpa [hyx] using u3
    · simp [hyx, u4, hy2, hyl]
    · simp
    · rw [(hcd y).1]; exact hyc'
    · refine layout_congr (fun a ha => ?_) hA
      rw [hfin a (by rintro rfl; exact hxA ha) (by rintro rfl; exact hyA ha)
        (hBor a (Or.inl ha)) (hdisj a (Or.inl (Or.inl ha)))]
    · simp
    · simp [hxy, u6 x hxy hxc, ht2x.1]
    · simp [hxy, u6 x hxy hxc, ht2x.2.1]
    · rw [(hcd x).1]; exact hxc'
    · refine layout_reparent hB ndB (fun hb0 => ?_) (fun a ha hab => ?_)
      · have e1 : (t2.UpdateParentChildLink (ctxPar ctx) x y).mem B.ptr = t2.mem B.ptr :=
          u6 _ hby hbc
        have := ht2b hb0
        refine ⟨?_, ?_, ?_, (hcd _).1⟩ <;> simp [hbx, hby, e1, this]
      · rw [hfin a (by rintro rfl; exact hxB ha) (by rintro rfl; exact hyB ha)
          (Or.inl hab) (hdisj a (Or.inl (Or.inr (Or.inr ha))))]
    · refine layout_congr (fun a ha => ?_) hC
      rw [hfin a (by rintro rfl; exact hxC ha) (by rintro rfl; exact hyC ha)
        (hBor a (Or.inr ha)) (hdisj a (Or.inr (Or.inr ha)))]
  · simp only [Shape.addrs_node, List.nodup_append, List.nodup_cons, List.Disjoint,
      List.mem_append, List.mem_cons, not_or]
    refine ⟨ndA, ⟨⟨hyB, hyx, hyC⟩, ndB, ⟨hxC, ndC⟩, ?_⟩, ?_⟩
    · intro a ha hb
      exact dC (Or.inr (Or.inr ha)) hb
    · intro a ha hb
      rcases hb with rfl | hb | rfl | hb
      · exact hyA ha
      · exact dAB ha (Or.inr hb)
      · exact hxA ha
      · exact dC (Or.inl ha) (Or.inr hb)
  · intro a ha
    apply hdisj
    simp only [Shape.addrs_node, List.mem_append, List.mem_cons] at ha
    tauto
  · exact hfin 0 (Ne.symm hx0) (Ne.symm hy0)
      (by
        rcases (ptr_mem_or : B.ptr = NIL ∧ B = Shape.leaf ∨ B.ptr ∈ B.addrs) with hs | hs
        · exact Or.inr hs.1
        · left; intro e; rw [← e] at hs; exact hB0 hs) hc0

/-! ### Colour bookkeeping along a path -/

@[simp] theorem parColor_nil : parColor [] = none := rfl

@[simp] theorem parColor_cons (f : Frame) (rest : List Frame) :
    parColor (f :: rest) = some f.color := rfl

theorem mem_addrs_node (l r : Shape) (a b : Nat) (c : nodeColor) :
    b ∈ (Shape.node l a c r).addrs ↔ b ∈ l.addrs ∨ b = a ∨ b ∈ r.addrs := by
  simp

theorem nodup_node (l r : Shape) (a : Nat) (c : nodeColor) :
    (Shape.node l a c r).addrs.Nodup ↔
      a ∉ l.addrs ∧ a ∉ r.addrs ∧ l.addrs.Nodup ∧ r.addrs.Nodup ∧
      ∀ b ∈ l.addrs, b ∉ r.addrs := by
  simp only [Shape.addrs_node, List.nodup_append, List.nodup_cons, List.Disjoint, List.mem_cons,
    not_or]
  constructor
  · rintro ⟨h1, ⟨h2, h3⟩, h4⟩
    exact ⟨fun h => h4 h (Or.inl rfl), h2, h1, h3, fun b hb hb' => h4 hb (Or.inr hb')⟩
  · rintro ⟨h1, h2, h3, h4, h5⟩
    refine ⟨h3, ⟨h2, h4⟩, ?_⟩
    intro b hb hb'
    rcases hb' with rfl | hb'
    · exact h1 hb
    · exact h5 b hb hb'

theorem balanced_plug (ctx : List Frame) (s : Shape) :
    Balanced (plug ctx s) ↔ Balanced s ∧ CtxBal ctx (bheight s) := by
  induction ctx generalizing s with
  | nil => simp [CtxBal]
  | cons f rest ih =>
    cases f with
    | L a c sib =>
      simp only [plug_cons, fill_L, ih, Balanced, bheight, CtxBal, Frame.sibling, Frame.color]
      constructor
      · rintro ⟨⟨h1, h2, h3⟩, h4⟩
        exact ⟨h2, h1.symm, h3, h4⟩
      · rintro ⟨h2, h1, h3, h4⟩
        exact ⟨⟨h1.symm, h2, h3⟩, h4⟩
    | R sib a c =>
      simp only [plug_cons, fill_R, ih, Balanced, bheight, CtxBal, Frame.sibling, Frame.color]
      constructor
      · rintro ⟨⟨h1, h2, h3⟩, h4⟩
        exact ⟨h3, h1, h2, by rw [← h1]; exact h4⟩
      · rintro ⟨h3, h1, h2, h4⟩
        exact ⟨⟨h1, h2, h3⟩, by rw [h1]; exact h4⟩

theorem bheight_plug_congr (ctx : List Frame) {s s' : Shape} (h : bheight s = bheight s') :
    bheight (plug ctx s) = bheight (plug ctx s') := by
  induction ctx generalizing s s' with
  | nil => exact h
  | cons f rest ih =>
    cases f with
    | L a c sib => exact ih (by simp [bheight, h])
    | R sib a c => exact ih (by simp [bheight])

theorem noRedRed_plug (ctx : List Frame) (s : Shape) :
    (NoRedRed (plug ctx s) ∧ (ctx ≠ [] → rootColor (plug ctx s) = nodeColor.BLACK)) ↔
      (NoRedRed s ∧ CtxNRR ctx ∧
        (parColor ctx = some nodeColor.RED → rootColor s = nodeColor.BLACK)) := by
  induction ctx generalizing s with
  | nil => simp [CtxNRR]
  | cons f rest ih =>
    have key := ih (f.fill s)
    have hne : (f :: rest) ≠ [] := by simp
    have e1 : rootColor (f.fill s) = f.color := by cases f <;> rfl
    have e2 : NoRedRed (f.fill s) ↔ (f.color = nodeColor.RED →
        rootColor s = nodeColor.BLACK ∧ rootColor f.sibling = nodeColor.BLACK) ∧
        NoRedRed s ∧ NoRedRed f.sibling := by
      cases f <;> simp only [Frame.fill, NoRedRed, Frame.color, Frame.sibling] <;> tauto
    simp only [plug_cons, CtxNRR, parColor_cons, Option.some.injEq, ne_eq, hne,
      not_false_eq_true, true_implies]
    by_cases hr : rest = []
    · subst hr
      simp only [plug_nil, e1, e2, CtxNRR, parColor_nil]
      constructor
      · rintro ⟨⟨h1, h2, h3⟩, h4⟩
        refine ⟨h2, ⟨h3, ?_, trivial⟩, ?_⟩
        · intro h; rw [h4] at h; cases h
        · intro h; rw [h4] at h; cases h
      · rintro ⟨h1, ⟨h2, h3, _⟩, h4⟩
        have hb : f.color = nodeColor.BLACK := by
          cases hc : f.color with
          | BLACK => rfl
          | RED => exact absurd (h3 hc).2 (by simp)
        refine ⟨⟨?_, h1, h2⟩, hb⟩
        intro h; rw [hb] at h; cases h
    · have key' : NoRedRed (plug rest (f.fill s)) ∧
          rootColor (plug rest (f.fill s)) = nodeColor.BLACK ↔
          NoRedRed (f.fill s) ∧ CtxNRR rest ∧
          (parColor rest = some nodeColor.RED → rootColor (f.fill s) = nodeColor.BLACK) := by
        rw [← key]
        simp [hr]
      rw [key', e1, e2]
      constructor
      · rintro ⟨⟨h1, h2, h3⟩, h4, h5⟩
        refine ⟨h2, ⟨h3, ?_, h4⟩, fun h => (h1 h).1⟩
        intro h
        refine ⟨(h1 h).2, ?_⟩
        cases rest with
        | nil => exact absurd rfl hr
        | cons g rest' =>
          simp only [parColor_cons, Option.some.injEq] at h5 ⊢
          cases hc : g.color with
          | BLACK => rfl
          | RED => rw [h5 hc] at h; cases h
      · rintro ⟨h1, ⟨h2, h3, h4⟩, h5⟩
        refine ⟨⟨fun h => ⟨h5 h, (h3 h).1⟩, h1, h2⟩, h4, ?_⟩
        intro h
        cases hc : f.color with
        | BLACK => rfl
        | RED => rw [(h3 hc).2] at h; cases h

theorem isTree_focus {t : rbTree} {ctx : List Frame} {l r : Shape} {x : Nat} {c : nodeColor}
    (h : IsTree t (plug ctx (Shape.node l x c r))) :
    x ≠ NIL ∧ (t.mem x).left = l.ptr ∧ (t.mem x).right = r.ptr ∧
      (t.mem x).parent = ctxPar ctx ∧ (t.mem x).color = c := by
  rw [isTree_plug_iff] at h
  obtain ⟨_, _, ⟨h1, h2, h3, h4, h5, _, _⟩, _⟩ := h
  exact ⟨h1, h3, h4, h2, h5⟩

theorem isTree_setColor {t : rbTree} {ctx : List Frame} {l r : Shape} {x : Nat}
    {c : nodeColor} (c' : nodeColor) (h : IsTree t (plug ctx (Shape.node l x c r))) :
    IsTree (t.setColor x c') (plug ctx (Shape.node l x c' r)) := by
  rw [isTree_plug_iff] at h ⊢
  obtain ⟨h1, h2, ⟨k1, k2, k3, k4, k5, k6, k7⟩, h4, h5, h6⟩ := h
  rw [nodup_node] at h4
  have hx : x ∉ ctxAddrs ctx := h6 x (by simp)
  refine ⟨by simpa using h1, ?_, ⟨k1, by simpa using k2, by simpa using k3, by simpa using k4,
    by simp, ?_, ?_⟩, ?_, h5, ?_⟩
  · refine layoutCtx_congr (fun a ha => ?_) h2
    exact rbTree.setColor_mem_ne _ _ (by rintro rfl; exact hx ha)
  · refine layout_congr (fun a ha => ?_) k6
    exact rbTree.setColor_mem_ne _ _ (by rintro rfl; exact h4.1 ha)
  · refine layout_congr (fun a ha => ?_) k7
    exact rbTree.setColor_mem_ne _ _ (by rintro rfl; exact h4.2.1 ha)
  · rw [nodup_node]; exact h4
  · intro a ha; exact h6 a (by simpa using ha)

theorem getColor_ptr {t : rbTree} {s : Shape} {par : Nat}
    (hs : (t.mem NIL).color = nodeColor.BLACK) (hl : Layout t.mem par s) :
    (t.mem s.ptr).color = rootColor s := by
  cases s with
  | leaf => exact hs
  | node l a c r => exact hl.2.2.2.2.1

theorem ptr_ne_of_not_mem {s : Shape} {x : Nat} (h0 : x ≠ NIL) (h : x ∉ s.addrs) :
    x ≠ s.ptr := by
  rcases (ptr_mem_or : s.ptr = NIL ∧ s = Shape.leaf ∨ s.ptr ∈ s.addrs) with hs | hs
  · rw [hs.1]; exact h0
  · rintro rfl; exact h hs

theorem isTree_not_mem_sibling {t : rbTree} {f : Frame} {rest : List Frame} {s : Shape}
    (h : IsTree t (plug (f :: rest) s)) :
    ∀ a ∈ s.addrs, a ∉ f.sibling.addrs ∧ a ≠ f.addr := by
  rw [isTree_plug_iff] at h
  intro a ha
  have := h.2.2.2.2.2 a ha
  rw [mem_ctxAddrs_cons] at this
  simp only [not_or] at this
  exact ⟨this.2.1, this.1⟩

/-! ### The insert fix-up -/

theorem insPost_trans {guard guard1 : Prop} {t t1 t' : rbTree} {sh sh1 : Shape}
    (h1 : sh1.addrs = sh.addrs) (h2 : ∀ a, (t1.mem a).data = (t.mem a).data)
    (h3 : t1.mem NIL = t.mem NIL) (h4 : guard → guard1 ∧ (Balanced sh → Balanced sh1))
    (h : InsPost guard1 t1 sh1 t') : InsPost guard t sh t' := by
  obtain ⟨sh', k1, k2, k3, k4, k5, k6, k7⟩ := h
  exact ⟨sh', k1, k2.trans h1, fun a => (k3 a).trans (h2 a), k4.trans h3, k5, k6,
    fun hg hb => k7 (h4 hg).1 ((h4 hg).2 hb)⟩

@[simp] theorem rbTree.setColor_data (t : rbTree) (a b : Nat) (c : nodeColor) :
    ((t.setColor a c).mem b).data = (t.mem b).data := by
  simp [rbNode.data]

theorem blacken_root {t : rbTree} {sh : Shape} (h : IsTree t sh)
    (hs : (t.mem NIL).color = nodeColor.BLACK) (hn : NoRedRed sh) :
    InsPost True t sh (t.setColor t.root nodeColor.BLACK) := by
  cases sh with
  | leaf =>
    have hr : t.root = 0 := h.root
    refine ⟨Shape.leaf, ⟨by simpa using hr, trivial, by simp⟩, rfl, by simp, ?_, rfl, trivial,
      fun _ _ => trivial⟩
    rw [hr]
    apply rbNode.ext_fields <;> simp [rbNode.links, hs]
  | node l a c r =>
    have hr : t.root = a := h.root
    have h' : IsTree t (plug [] (Shape.node l a c r)) := h
    have h2 := isTree_setColor nodeColor.BLACK h'
    have ha := (isTree_focus h').1
    rw [hr]
    refine ⟨Shape.node l a nodeColor.BLACK r, h2, rfl, by simp, ?_, rfl, ?_, ?_⟩
    · exact rbTree.setColor_mem_ne _ _ (Ne.symm ha)
    · exact ⟨by simp, hn.2.1, hn.2.2⟩
    · intro _ hb; exact hb

theorem insertionRebalance_loop (fuel : Nat) :
    ∀ (t : rbTree) (ctx : List Frame) (l r : Shape) (x : Nat) (c : nodeColor),
      IsTree t (plug ctx (Shape.node l x c r)) → ctx.length < fuel →
      (t.mem NIL).color = nodeColor.BLACK →
      rootColor l = nodeColor.BLACK → rootColor r = nodeColor.BLACK →
      NoRedRed l → NoRedRed r → CtxNRR ctx →
      ∃ t', insertionRebalance fuel t x = some t' ∧
        InsPost (c = nodeColor.RED) t (plug ctx (Shape.node l x c r)) t' := by
  induction fuel with
  | zero => intro t ctx l r x c _ hf; exact absurd hf (Nat.not_lt_zero _)
  | succ fuel ih =>
    intro t ctx l r x c ht hf hs hl hr nl nr hc
    have hx := isTree_focus ht
    have hsub : NoRedRed (Shape.node l x c r) := ⟨fun _ => ⟨hl, hr⟩, nl, nr⟩
    -- the exit branch
    have hexit : parColor ctx ≠ some nodeColor.RED →
        InsPost (c = nodeColor.RED) t (plug ctx (Shape.node l x c r))
          (t.setColor t.root nodeColor.BLACK) := by
      intro hp
      refine insPost_trans rfl (fun _ => rfl) rfl (fun _ => ⟨trivial, id⟩)
        (blacken_root ht hs ?_)
      exact ((noRedRed_plug ctx _).2 ⟨hsub, hc, fun h => absurd h hp⟩).1
    cases ctx with
    | nil =>
      refine ⟨_, ?_, hexit (by simp)⟩
      simp [insertionRebalance, hx.2.2.2.1, ctxPar, hs]
    | cons f1 rest =>
      by_cases hred : f1.color = nodeColor.RED
      swap
      · refine ⟨_, ?_, hexit (by simpa using hred)⟩
        have hpc : (t.mem f1.addr).color = f1.color := by
          cases f1 with
          | L p cp sc => exact (isTree_focus (show IsTree t (plug rest
              (Shape.node (Shape.node l x c r) p cp sc)) from ht)).2.2.2.2
          | R sc p cp => exact (isTree_focus (show IsTree t (plug rest
              (Shape.node sc p cp (Shape.node l x c r))) from ht)).2.2.2.2
        simp [insertionRebalance, hx.2.2.2.1, ctxPar, hpc, hred]
      · obtain ⟨nsc, hcr, hc2⟩ := hc
        obtain ⟨hscb, hpar⟩ := hcr hred
        cases rest with
        | nil => simp at hpar
        | cons f2 rest =>
          simp only [parColor_cons, Option.some.injEq] at hpar
          obtain ⟨nu, -, hc3⟩ := hc2
          cases f1 with
          | L p cp sc =>
            simp only [Frame.color] at hred
            subst hred
            simp only [Frame.sibling] at nsc hscb
            cases f2 with
            | L g cg u =>
              simp only [Frame.color] at hpar
              subst hpar
              simp only [Frame.sibling] at nu
              have htP : IsTree t (plug ((Frame.L g nodeColor.BLACK u) :: rest) (Shape.node (Shape.node l x c r) p nodeColor.RED sc)) := ht
              have htG : IsTree t (plug rest (Shape.node (Shape.node (Shape.node l x c r) p nodeColor.RED sc) g nodeColor.BLACK u)) := ht
              have hp := isTree_focus htP
              have hg := isTree_focus htG
              simp only [ctxPar, Frame.addr, Shape.ptr_node] at hx hp hg
              have hxsc : x ≠ sc.ptr := ptr_ne_of_not_mem hx.1
                ((isTree_not_mem_sibling ht) x (by simp)).1
              have hpu : p ≠ u.ptr := ptr_ne_of_not_mem hp.1
                ((isTree_not_mem_sibling htP) p (by simp)).1
              have hu : (t.mem u.ptr).color = rootColor u :=
                getColor_ptr hs ((isTree_plug_iff _ _ _).1 htG).2.2.1.2.2.2.2.2.2
              cases hcu : rootColor u with
              | RED =>
                cases u with
                | leaf => simp [rootColor] at hcu
                | node ul uu cu ur =>
                  simp only [rootColor] at hcu
                  subst hcu
                  simp only [Shape.ptr_node] at hu hg hpu
                  have h1 := isTree_setColor nodeColor.BLACK htP
                  have h2 := isTree_setColor nodeColor.BLACK (show IsTree (t.setColor p nodeColor.BLACK)
                    (plug ((Frame.R (Shape.node (Shape.node l x c r) p nodeColor.BLACK sc) g nodeColor.BLACK) :: rest) (Shape.node ul uu nodeColor.RED ur)) from h1)
                  have h3 := isTree_setColor nodeColor.RED (show IsTree
                    ((t.setColor p nodeColor.BLACK).setColor uu nodeColor.BLACK)
                    (plug rest (Shape.node (Shape.node (Shape.node l x c r) p nodeColor.BLACK sc) g nodeColor.BLACK (Shape.node ul uu nodeColor.BLACK ur))) from h2)
                  have huu := (isTree_focus (show IsTree t (plug
                    ((Frame.R (Shape.node (Shape.node l x c r) p nodeColor.RED sc) g nodeColor.BLACK) :: rest) (Shape.node ul uu nodeColor.RED ur)) from ht)).1
                  obtain ⟨t', e1, e2⟩ := ih _ rest _ _ g nodeColor.RED h3
                    (by simp only [List.length_cons] at hf; omega)
                    (by simp [Ne.symm hp.1, Ne.symm hg.1, Ne.symm huu, hs])
                    rfl rfl ⟨by simp, hsub, nsc⟩ ⟨by simp, nu.2.1, nu.2.2⟩ hc3
                  refine ⟨t', ?_, insPost_trans ?_ ?_ ?_ ?_ e2⟩
                  · rw [← e1]
                    simp [insertionRebalance, insertionRebalanceBody, hx.2.2.2.1, hp.2.2.2.1,
                      hp.2.2.2.2, hg.2.1, hg.2.2.1, hu, rootColor, hpu]
                  · simp [plug_addrs]
                  · intro a; simp
                  · simp [Ne.symm hp.1, Ne.symm hg.1, Ne.symm huu, rbTree.setColor_mem_ne]
                  · intro hcr
                    subst hcr
                    refine ⟨rfl, ?_⟩
                    simp only [plug_cons, fill_L, fill_R, balanced_plug, Balanced, bheight]
                    simp
                    try (intros; simp_all)
              | BLACK =>
                have h1 := isTree_setColor nodeColor.BLACK htP
                have h2 := isTree_setColor nodeColor.RED (show IsTree (t.setColor p nodeColor.BLACK)
                  (plug rest (Shape.node (Shape.node (Shape.node l x c r) p nodeColor.BLACK sc) g nodeColor.BLACK u)) from h1)
                obtain ⟨h3, h3n⟩ := rotateRight_spec h2
                have hbody : t.insertionRebalanceBody x =
                    (((t.setColor p nodeColor.BLACK).setColor g nodeColor.RED).rotateRight g, x) := by
                  simp [insertionRebalanceBody, hx.2.2.2.1, hp.2.2.2.1,
                    hp.2.2.2.2, hg.2.1, hg.2.2.1, hu, hcu, hp.2.1, hp.2.2.1, hxsc, hpu]
                obtain ⟨t', e1, e2⟩ := ih _ ((Frame.L p nodeColor.BLACK (Shape.node sc g nodeColor.RED u)) :: rest) l r x c h3
                  (by simp only [List.length_cons] at hf ⊢; omega)
                  (by rw [h3n]; simp [Ne.symm hp.1, Ne.symm hg.1, hs])
                  hl hr nl nr ⟨⟨fun _ => ⟨hscb, hcu⟩, nsc, nu⟩, by simp [Frame.color], hc3⟩
                refine ⟨t', ?_, insPost_trans ?_ ?_ ?_ ?_ e2⟩
                · rw [← e1]
                  simp [insertionRebalance, hx.2.2.2.1, hp.2.2.2.2, hbody]
                · simp [plug_addrs]
                · intro a
                  rw [(rotateRight_color_data _ _ _).2]
                  simp
                · rw [h3n]
                  simp [Ne.symm hp.1, Ne.symm hg.1, rbTree.setColor_mem_ne]
                · intro hcr
                  subst hcr
                  refine ⟨rfl, ?_⟩
                  simp only [plug_cons, fill_L, fill_R, balanced_plug, Balanced, bheight]
                  simp
                  try (intros; simp_all)
            | R u g cg =>
              simp only [Frame.color] at hpar
              subst hpar
              simp only [Frame.sibling] at nu
              have htP : IsTree t (plug ((Frame.R u g nodeColor.BLACK) :: rest) (Shape.node (Shape.node l x c r) p nodeColor.RED sc)) := ht
              have htG : IsTree t (plug rest (Shape.node u g nodeColor.BLACK (Shape.node (Shape.node l x c r) p nodeColor.RED sc))) := ht
              have hp := isTree_focus htP
              have hg := isTree_focus htG
              simp only [ctxPar, Frame.addr, Shape.ptr_node] at hx hp hg
              have hxsc : x ≠ sc.ptr := ptr_ne_of_not_mem hx.1
                ((isTree_not_mem_sibling ht) x (by simp)).1
              have hpu : p ≠ u.ptr := ptr_ne_of_not_mem hp.1
                ((isTree_not_mem_sibling htP) p (by simp)).1
              have hu : (t.mem u.ptr).color = rootColor u :=
                getColor_ptr hs ((isTree_plug_iff _ _ _).1 htG).2.2.1.2.2.2.2.2.1
              cases hcu : rootColor u with
              | RED =>
                cases u with
                | leaf => simp [rootColor] at hcu
                | node ul uu cu ur =>
                  simp only [rootColor] at hcu
                  subst hcu
                  simp only [Shape.ptr_node] at hu hg hpu
                  have h1 := isTree_setColor nodeColor.BLACK htP
                  have h2 := isTree_setColor nodeColor.BLACK (show IsTree (t.setColor p nodeColor.BLACK)
                    (plug ((Frame.L g nodeColor.BLACK (Shape.node (Shape.node l x c r) p nodeColor.BLACK sc)) :: rest) (Shape.node ul uu nodeColor.RED ur)) from h1)
                  have h3 := isTree_setColor nodeColor.RED (show IsTree
                    ((t.setColor p nodeColor.BLACK).setColor uu nodeColor.BLACK)
                    (plug rest (Shape.node (Shape.node ul uu nodeColor.BLACK ur) g nodeColor.BLACK (Shape.node (Shape.node l x c r) p nodeColor.BLACK sc))) from h2)
                  have huu := (isTree_focus (show IsTree t (plug
                    ((Frame.L g nodeColor.BLACK (Shape.node (Shape.node l x c r) p nodeColor.RED sc)) :: rest) (Shape.node ul uu nodeColor.RED ur)) from ht)).1
                  obtain ⟨t', e1, e2⟩ := ih _ rest _ _ g nodeColor.RED h3
                    (by simp only [List.length_cons] at hf; omega)
                    (by simp [Ne.symm hp.1, Ne.symm hg.1, Ne.symm huu, hs])
                    rfl rfl ⟨by simp, nu.2.1, nu.2.2⟩ ⟨by simp, hsub, nsc⟩ hc3
                  refine ⟨t', ?_, insPost_trans ?_ ?_ ?_ ?_ e2⟩
                  · rw [← e1]
                    simp [insertionRebalance, insertionRebalanceBody, hx.2.2.2.1, hp.2.2.2.1,
                      hp.2.2.2.2, hg.2.1, hg.2.2.1, hu, rootColor, hpu]
                  · simp [plug_addrs]
                  · intro a; simp
                  · simp [Ne.symm hp.1, Ne.symm hg.1, Ne.symm huu, rbTree.setColor_mem_ne]
                  · intro hcr
                    subst hcr
                    refine ⟨rfl, ?_⟩
                    simp only [plug_cons, fill_L, fill_R, balanced_plug, Balanced, bheight]
                    simp
                    try (intros; simp_all)
              | BLACK =>
                obtain ⟨ha, han⟩ := rotateRight_spec htP
                have hpa := isTree_focus (show IsTree (t.rotateRight p) (plug
                  ((Frame.R l x c) :: (Frame.R u g nodeColor.BLACK) :: rest) (Shape.node r p nodeColor.RED sc)) from ha)
                have hxa := isTree_focus ha
                simp only [ctxPar, Frame.addr, Shape.ptr_node] at hpa hxa
                have h1 := isTree_setColor nodeColor.BLACK ha
                have h2 := isTree_setColor nodeColor.RED (show IsTree ((t.rotateRight p).setColor x nodeColor.BLACK)
                  (plug rest (Shape.node u g nodeColor.BLACK (Shape.node l x nodeColor.BLACK (Shape.node r p nodeColor.RED sc)))) from h1)
                obtain ⟨h3, h3n⟩ := rotateLeft_spec h2
                have hbody : t.insertionRebalanceBody x =
                    ((((t.rotateRight p).setColor x nodeColor.BLACK).setColor g nodeColor.RED).rotateLeft g, p) := by
                  simp [insertionRebalanceBody, hx.2.2.2.1, hp.2.2.2.1,
                    hp.2.2.2.2, hg.2.1, hg.2.2.1, hu, hcu, hp.2.1, hp.2.2.1, hxsc, hpu,
                    hpa.2.2.2.1, hxa.2.2.2.1]
                obtain ⟨t', e1, e2⟩ := ih _ ((Frame.R (Shape.node u g nodeColor.RED l) x nodeColor.BLACK) :: rest) r sc p nodeColor.RED h3
                  (by simp only [List.length_cons] at hf ⊢; omega)
                  (by rw [h3n]; simp [Ne.symm hx.1, Ne.symm hg.1, han, hs])
                  hr hscb nr nsc ⟨⟨fun _ => ⟨hcu, hl⟩, nu, nl⟩, by simp [Frame.color], hc3⟩
                refine ⟨t', ?_, insPost_trans ?_ ?_ ?_ ?_ e2⟩
                · rw [← e1]
                  simp [insertionRebalance, hx.2.2.2.1, hp.2.2.2.2, hbody]
                · simp [plug_addrs]
                · intro a
                  rw [(rotateLeft_color_data _ _ _).2]
                  simp [(rotateRight_color_data _ _ _).2]
                · rw [h3n]
                  simp [Ne.symm hx.1, Ne.symm hg.1, rbTree.setColor_mem_ne, han]
                · intro hcr
                  subst hcr
                  refine ⟨rfl, ?_⟩
                  simp only [plug_cons, fill_L, fill_R, balanced_plug, Balanced, bheight]
                  simp
                  try (intros; simp_all)
          | R sc p cp =>
            simp only [Frame.color] at hred
            subst hred
            simp only [Frame.sibling] at nsc hscb
            cases f2 with
            | L g cg u =>
              simp only [Frame.color] at hpar
              subst hpar
              simp only [Frame.sibling] at nu
              have htP : IsTree t (plug ((Frame.L g nodeColor.BLACK u) :: rest) (Shape.node sc p nodeColor.RED (Shape.node l x c r))) := ht
              have htG : IsTree t (plug rest (Shape.node (Shape.node sc p nodeColor.RED (Shape.node l x c r)) g nodeColor.BLACK u)) := ht
              have hp := isTree_focus htP
              have hg := isTree_focus htG
              simp only [ctxPar, Frame.addr, Shape.ptr_node] at hx hp hg
              have hxsc : x ≠ sc.ptr := ptr_ne_of_not_mem hx.1
                ((isTree_not_mem_sibling ht) x (by simp)).1
              have hpu : p ≠ u.ptr := ptr_ne_of_not_mem hp.1
                ((isTree_not_mem_sibling htP) p (by simp)).1
              have hu : (t.mem u.ptr).color = rootColor u :=
                getColor_ptr hs ((isTree_plug_iff _ _ _).1 htG).2.2.1.2.2.2.2.2.2
              cases hcu : rootColor u with
              | RED =>
                cases u with
                | leaf => simp [rootColor] at hcu
                | node ul uu cu ur =>
                  simp only [rootColor] at hcu
                  subst hcu
                  simp only [Shape.ptr_node] at hu hg hpu
                  have h1 := isTree_setColor nodeColor.BLACK htP
                  have h2 := isTree_setColor nodeColor.BLACK (show IsTree (t.setColor p nodeColor.BLACK)
                    (plug ((Frame.R (Shape.node sc p nodeColor.BLACK (Shape.node l x c r)) g nodeColor.BLACK) :: rest) (Shape.node ul uu nodeColor.RED ur)) from h1)
                  have h3 := isTree_setColor nodeColor.RED (show IsTree
                    ((t.setColor p nodeColor.BLACK).setColor uu nodeColor.BLACK)
                    (plug rest (Shape.node (Shape.node sc p nodeColor.BLACK (Shape.node l x c r)) g nodeColor.BLACK (Shape.node ul uu nodeColor.BLACK ur))) from h2)
                  have huu := (isTree_focus (show IsTree t (plug
                    ((Frame.R (Shape.node sc p nodeColor.RED (Shape.node l x c r)) g nodeColor.BLACK) :: rest) (Shape.node ul uu nodeColor.RED ur)) from ht)).1
                  obtain ⟨t', e1, e2⟩ := ih _ rest _ _ g nodeColor.RED h3
                    (by simp only [List.length_cons] at hf; omega)
                    (by simp [Ne.symm hp.1, Ne.symm hg.1, Ne.symm huu, hs])
                    rfl rfl ⟨by simp, nsc, hsub⟩ ⟨by simp, nu.2.1, nu.2.2⟩ hc3
                  refine ⟨t', ?_, insPost_trans ?_ ?_ ?_ ?_ e2⟩
                  · rw [← e1]
                    simp [insertionRebalance, insertionRebalanceBody, hx.2.2.2.1, hp.2.2.2.1,
                      hp.2.2.2.2, hg.2.1, hg.2.2.1, hu, rootColor, hpu]
                  · simp [plug_addrs]
                  · intro a; simp
                  · simp [Ne.symm hp.1, Ne.symm hg.1, Ne.symm huu, rbTree.setColor_mem_ne]
                  · intro hcr
                    subst hcr
                    refine ⟨rfl, ?_⟩
                    simp only [plug_cons, fill_L, fill_R, balanced_plug, Balanced, bheight]
                    simp
                    try (intros; simp_all)
              | BLACK =>
                obtain ⟨ha, han⟩ := rotateLeft_spec htP
                have hpa := isTree_focus (show IsTree (t.rotateLeft p) (plug
                  ((Frame.L x c r) :: (Frame.L g nodeColor.BLACK u) :: rest) (Shape.node sc p nodeColor.RED l)) from ha)
                have hxa := isTree_focus ha
                simp only [ctxPar, Frame.addr, Shape.ptr_node] at hpa hxa
                have h1 := isTree_setColor nodeColor.BLACK ha
                have h2 := isTree_setColor nodeColor.RED (show IsTree ((t.rotateLeft p).setColor x nodeColor.BLACK)
                  (plug rest (Shape.node (Shape.node (Shape.node sc p nodeColor.RED l) x nodeColor.BLACK r) g nodeColor.BLACK u)) from h1)
                obtain ⟨h3, h3n⟩ := rotateRight_spec h2
                have hbody : t.insertionRebalanceBody x =
                    ((((t.rotateLeft p).setColor x nodeColor.BLACK).setColor g nodeColor.RED).rotateRight g, p) := by
                  simp [insertionRebalanceBody, hx.2.2.2.1, hp.2.2.2.1,
                    hp.2.2.2.2, hg.2.1, hg.2.2.1, hu, hcu, hp.2.1, hp.2.2.1, hxsc, hpu,
                    hpa.2.2.2.1, hxa.2.2.2.1]
                obtain ⟨t', e1, e2⟩ := ih _ ((Frame.L x nodeColor.BLACK (Shape.node r g nodeColor.RED u)) :: rest) sc l p nodeColor.RED h3
                  (by simp only [List.length_cons] at hf ⊢; omega)
                  (by rw [h3n]; simp [Ne.symm hx.1, Ne.symm hg.1, han, hs])
                  hscb hl nsc nl ⟨⟨fun _ => ⟨hr, hcu⟩, nr, nu⟩, by simp [Frame.color], hc3⟩
                refine ⟨t', ?_, insPost_trans ?_ ?_ ?_ ?_ e2⟩
                · rw [← e1]
                  simp [insertionRebalance, hx.2.2.2.1, hp.2.2.2.2, hbody]
                · simp [plug_addrs]
                · intro a
                  rw [(rotateRight_color_data _ _ _).2]
                  simp [(rotateLeft_color_data _ _ _).2]
                · rw [h3n]
                  simp [Ne.symm hx.1, Ne.symm hg.1, rbTree.setColor_mem_ne, han]
                · intro hcr
                  subst hcr
                  refine ⟨rfl, ?_⟩
                  simp only [plug_cons, fill_L, fill_R, balanced_plug, Balanced, bheight]
                  simp
                  try (intros; simp_all)
            | R u g cg =>
              simp only [Frame.color] at hpar
              subst hpar
              simp only [Frame.sibling] at nu
              have htP : IsTree t (plug ((Frame.R u g nodeColor.BLACK) :: rest) (Shape.node sc p nodeColor.RED (Shape.node l x c r))) := ht
              have htG : IsTree t (plug rest (Shape.node u g nodeColor.BLACK (Shape.node sc p nodeColor.RED (Shape.node l x c r)))) := ht
              have hp := isTree_focus htP
              have hg := isTree_focus htG
              simp only [ctxPar, Frame.addr, Shape.ptr_node] at hx hp hg
              have hxsc : x ≠ sc.ptr := ptr_ne_of_not_mem hx.1
                ((isTree_not_mem_sibling ht) x (by simp)).1
              have hpu : p ≠ u.ptr := ptr_ne_of_not_mem hp.1
                ((isTree_not_mem_sibling htP) p (by simp)).1
              have hu : (t.mem u.ptr).color = rootColor u :=
                getColor_ptr hs ((isTree_plug_iff _ _ _).1 htG).2.2.1.2.2.2.2.2.1
              cases hcu : rootColor u with
              | RED =>
                cases u with
                | leaf => simp [rootColor] at hcu
                | node ul uu cu ur =>
                  simp only [rootColor] at hcu
                  subst hcu
                  simp only [Shape.ptr_node] at hu hg hpu
                  have h1 := isTree_setColor nodeColor.BLACK htP
                  have h2 := isTree_setColor nodeColor.BLACK (show IsTree (t.setColor p nodeColor.BLACK)
                    (plug ((Frame.L g nodeColor.BLACK (Shape.node sc p nodeColor.BLACK (Shape.node l x c r))) :: rest) (Shape.node ul uu nodeColor.RED ur)) from h1)
                  have h3 := isTree_setColor nodeColor.RED (show IsTree
                    ((t.setColor p nodeColor.BLACK).setColor uu nodeColor.BLACK)
                    (plug rest (Shape.node (Shape.node ul uu nodeColor.BLACK ur) g nodeColor.BLACK (Shape.node sc p nodeColor.BLACK (Shape.node l x c r)))) from h2)
                  have huu := (isTree_focus (show IsTree t (plug
                    ((Frame.L g nodeColor.BLACK (Shape.node sc p nodeColor.RED (Shape.node l x c r))) :: rest) (Shape.node ul uu nodeColor.RED ur)) from ht)).1
                  obtain ⟨t', e1, e2⟩ := ih _ rest _ _ g nodeColor.RED h3
                    (by simp only [List.length_cons] at hf; omega)
                    (by simp [Ne.symm hp.1, Ne.symm hg.1, Ne.symm huu, hs])
                    rfl rfl ⟨by simp, nu.2.1, nu.2.2⟩ ⟨by simp, nsc, hsub⟩ hc3
                  refine ⟨t', ?_, insPost_trans ?_ ?_ ?_ ?_ e2⟩
                  · rw [← e1]
                    simp [insertionRebalance, insertionRebalanceBody, hx.2.2.2.1, hp.2.2.2.1,
                      hp.2.2.2.2, hg.2.1, hg.2.2.1, hu, rootColor, hpu]
                  · simp [plug_addrs]
                  · intro a; simp
                  · simp [Ne.symm hp.1, Ne.symm hg.1, Ne.symm huu, rbTree.setColor_mem_ne]
                  · intro hcr
                    subst hcr
                    refine ⟨rfl, ?_⟩
                    simp only [plug_cons, fill_L, fill_R, balanced_plug, Balanced, bheight]
                    simp
                    try (intros; simp_all)
              | BLACK =>
                have h1 := isTree_setColor nodeColor.BLACK htP
                have h2 := isTree_setColor nodeColor.RED (show IsTree (t.setColor p nodeColor.BLACK)
                  (plug rest (Shape.node u g nodeColor.BLACK (Shape.node sc p nodeColor.BLACK (Shape.node l x c r)))) from h1)
                obtain ⟨h3, h3n⟩ := rotateLeft_spec h2
                have hbody : t.insertionRebalanceBody x =
                    (((t.setColor p nodeColor.BLACK).setColor g nodeColor.RED).rotateLeft g, x) := by
                  simp [insertionRebalanceBody, hx.2.2.2.1, hp.2.2.2.1,
                    hp.2.2.2.2, hg.2.1, hg.2.2.1, hu, hcu, hp.2.1, hp.2.2.1, hxsc, hpu]
                obtain ⟨t', e1, e2⟩ := ih _ ((Frame.R (Shape.node u g nodeColor.RED sc) p nodeColor.BLACK) :: rest) l r x c h3
                  (by simp only [List.length_cons] at hf ⊢; omega)
                  (by rw [h3n]; simp [Ne.symm hp.1, Ne.symm hg.1, hs])
                  hl hr nl nr ⟨⟨fun _ => ⟨hcu, hscb⟩, nu, nsc⟩, by simp [Frame.color], hc3⟩
                refine ⟨t', ?_, insPost_trans ?_ ?_ ?_ ?_ e2⟩
                · rw [← e1]
                  simp [insertionRebalance, hx.2.2.2.1, hp.2.2.2.2, hbody]
                · simp [plug_addrs]
                · intro a
                  rw [(rotateLeft_color_data _ _ _).2]
                  simp
                · rw [h3n]
                  simp [Ne.symm hp.1, Ne.symm hg.1, rbTree.setColor_mem_ne]
                · intro hcr
                  subst hcr
                  refine ⟨rfl, ?_⟩
                  simp only [plug_cons, fill_L, fill_R, balanced_plug, Balanced, bheight]
                  simp
                  try (intros; simp_all)

/-! ### The function rbTree::insert -/

theorem ctxLeft_append (c1 c2 : List Frame) : ctxLeft (c1 ++ c2) = ctxLeft c2 ++ ctxLeft c1 := by
  induction c1 with
  | nil => simp [ctxLeft]
  | cons f rest ih => cases f <;> simp [ctxLeft, ih]

theorem ctxRight_append (c1 c2 : List Frame) :
    ctxRight (c1 ++ c2) = ctxRight c1 ++ ctxRight c2 := by
  induction c1 with
  | nil => simp [ctxRight]
  | cons f rest ih => cases f <;> simp [ctxRight, ih]

theorem ctxParFrom_nil_eq (c : List Frame) : ctxParFrom NIL c = ctxPar c := by
  cases c <;> rfl

theorem ctxParFrom_append_singleton (par : Nat) (c1 : List Frame) (f : Frame) :
    ctxParFrom par (c1 ++ [f]) = ctxParFrom f.addr c1 := by
  cases c1 <;> rfl

theorem height_plug_ge (ctx : List Frame) (s : Shape) :
    ctx.length + s.height ≤ (plug ctx s).height := by
  induction ctx generalizing s with
  | nil => simp
  | cons f rest ih =>
    have := ih (f.fill s)
    have h2 : s.height + 1 ≤ (f.fill s).height := by
      cases f <;> simp [Frame.fill, Shape.height]
    simp only [plug_cons, List.length_cons]
    omega

theorem keys_node (m : Mem) (l r : Shape) (a : Nat) (c : nodeColor) :
    keys m (Shape.node l a c r) = keys m l ++ (m a).rideNumber :: keys m r := by
  simp [keys]

theorem keyOrdered_node {m : Mem} {l r : Shape} {a : Nat} {c : nodeColor}
    (h : KeyOrdered m (Shape.node l a c r)) :
    KeyOrdered m l ∧ KeyOrdered m r ∧ (∀ k ∈ keys m l, k < (m a).rideNumber) ∧
      (∀ k ∈ keys m r, (m a).rideNumber < k) := by
  unfold KeyOrdered at h
  rw [keys_node, List.pairwise_append] at h
  obtain ⟨h1, h2, h3⟩ := h
  rw [List.pairwise_cons] at h2
  exact ⟨h1, h2.2, fun k hk => h3 k hk _ (by simp), h2.1⟩

/-- The descent of insert through a key-ordered subtree: it reports a duplicate if the key
is present, and otherwise stops at the leaf where the key belongs. -/
theorem insertDescend_spec (t : rbTree) (key : Int) :
    ∀ (s : Shape) (par fuel : Nat), Layout t.mem par s → KeyOrdered t.mem s →
      s.height < fuel →
      (key ∈ keys t.mem s →
        insertDescend fuel t key s.ptr par = some (Except.error "Duplicate RideNumber\n")) ∧
      (key ∉ keys t.mem s → ∃ c : List Frame, plug c Shape.leaf = s ∧
        insertDescend fuel t key s.ptr par =
          some (Except.ok (ctxParFrom par c)) ∧
        (∀ a ∈ ctxLeft c, (t.mem a).rideNumber < key) ∧
        (∀ a ∈ ctxRight c, key < (t.mem a).rideNumber)) := by
  intro s
  induction s with
  | leaf =>
    intro par fuel _ _ hf
    cases fuel with
    | zero => exact absurd hf (Nat.not_lt_zero _)
    | succ fuel =>
      refine ⟨fun h => by simp [keys] at h, fun _ => ⟨[], rfl, ?_, ?_, ?_⟩⟩
      · simp [insertDescend, ctxParFrom]
      · simp [ctxLeft]
      · simp [ctxRight]
  | node l a c r ihl ihr =>
    intro par fuel hl hk hf
    obtain ⟨h1, h2, h3, h4, h5, h6, h7⟩ := hl
    obtain ⟨kl, kr, kla, kra⟩ := keyOrdered_node hk
    cases fuel with
    | zero => exact absurd hf (Nat.not_lt_zero _)
    | succ fuel =>
      simp only [Shape.height] at hf
      have hfl : l.height < fuel := by omega
      have hfr : r.height < fuel := by omega
      obtain ⟨dl, nl⟩ := ihl a fuel h6 kl hfl
      obtain ⟨dr, nr⟩ := ihr a fuel h7 kr hfr
      rw [keys_node]
      simp only [List.mem_append, List.mem_cons, Shape.ptr_node, not_or]
      rcases lt_trichotomy key (t.mem a).rideNumber with hlt | heq | hgt
      · have e : insertDescend (fuel + 1) t key a par = insertDescend fuel t key l.ptr a := by
          simp [insertDescend, h1, hlt, h3]
        rw [e]
        constructor
        · intro hmem
          apply dl
          rcases hmem with hm | hm | hm
          · exact hm
          · omega
          · have := kra _ hm; omega
        · rintro ⟨n1, n2, n3⟩
          obtain ⟨c', p1, p2, p3, p4⟩ := nl n1
          refine ⟨c' ++ [Frame.L a c r], ?_, ?_, ?_, ?_⟩
          · rw [plug_append, p1]; rfl
          · rw [p2, ctxParFrom_append_singleton]; rfl
          · rw [ctxLeft_append]
            simpa [ctxLeft] using p3
          · rw [ctxRight_append]
            intro b hb
            simp only [ctxRight, List.mem_append, List.mem_cons, List.append_nil] at hb
            rcases hb with hb | rfl | hb
            · exact p4 b hb
            · exact hlt
            · have := kra (t.mem b).rideNumber (by simp only [keys, List.mem_map]; exact ⟨b, hb, rfl⟩)
              omega
      · constructor
        · intro _
          simp [insertDescend, h1, heq]
        · rintro ⟨_, n2, _⟩
          exact absurd heq n2
      · have e : insertDescend (fuel + 1) t key a par = insertDescend fuel t key r.ptr a := by
          have : ¬ key < (t.mem a).rideNumber := by omega
          simp [insertDescend, h1, this, hgt, h4]
        rw [e]
        constructor
        · intro hmem
          apply dr
          rcases hmem with hm | hm | hm
          · have := kla _ hm; omega
          · omega
          · exact hm
        · rintro ⟨n1, n2, n3⟩
          obtain ⟨c', p1, p2, p3, p4⟩ := nr n3
          refine ⟨c' ++ [Frame.R l a c], ?_, ?_, ?_, ?_⟩
          · rw [plug_append, p1]; rfl
          · rw [p2, ctxParFrom_append_singleton]; rfl
          · rw [ctxLeft_append]
            intro b hb
            simp only [ctxLeft, List.mem_append, List.mem_cons, List.nil_append,
              List.mem_singleton, List.not_mem_nil, or_false] at hb
            rcases hb with (hb | rfl) | hb
            · have := kla (t.mem b).rideNumber (by simp only [keys, List.mem_map]; exact ⟨b, hb, rfl⟩)
              omega
            · exact hgt
            · exact p3 b hb
          · rw [ctxRight_append]
            simpa [ctxRight] using p4

theorem layoutCtx_repoint {m m' : Mem} {ctx : List Frame} {old new : Nat}
    (h : LayoutCtx m ctx old) (hnd : (ctxAddrs ctx).Nodup)
    (hrest : ∀ a ∈ ctxAddrs ctx, a ≠ ctxPar ctx → m' a = m a)
    (htop : ∀ f rest, ctx = f :: rest →
      (m' f.addr).parent = (m f.addr).parent ∧ (m' f.addr).color = (m f.addr).color ∧
      (match f with
        | Frame.L _ _ _ => (m' f.addr).left = new ∧ (m' f.addr).right = (m f.addr).right
        | Frame.R _ _ _ => (m' f.addr).left = (m f.addr).left ∧ (m' f.addr).right = new)) :
    LayoutCtx m' ctx new := by
  cases ctx with
  | nil => trivial
  | cons f rest =>
    rw [nodup_ctxAddrs_cons] at hnd
    obtain ⟨n1, n2, n3, n4, n5⟩ := hnd
    obtain ⟨t1, t2, t3⟩ := htop f rest rfl
    have hsib : ∀ b ∈ f.sibling.addrs, m' b = m b := by
      intro b hb
      refine hrest b ((mem_ctxAddrs_cons _ _ _).2 (Or.inr (Or.inl hb))) ?_
      rintro rfl; exact n1 hb
    have hrst : ∀ b ∈ ctxAddrs rest, m' b = m b := by
      intro b hb
      refine hrest b ((mem_ctxAddrs_cons _ _ _).2 (Or.inr (Or.inr hb))) ?_
      rintro rfl; exact n2 hb
    cases f with
    | L a c sib =>
      obtain ⟨h1, h2, h3, h4, h5, h6, h7⟩ := h
      simp only [Frame.addr, Frame.sibling] at *
      exact ⟨h1, by rw [t1]; exact h2, t3.1, by rw [t3.2]; exact h4, by rw [t2]; exact h5,
        layout_congr hsib h6, layoutCtx_congr hrst h7⟩
    | R sib a c =>
      obtain ⟨h1, h2, h3, h4, h5, h6, h7⟩ := h
      simp only [Frame.addr, Frame.sibling] at *
      exact ⟨h1, by rw [t1]; exact h2, by rw [t3.1]; exact h3, t3.2, by rw [t2]; exact h5,
        layout_congr hsib h6, layoutCtx_congr hrst h7⟩

theorem ctxPar_ne_zero {m : Mem} {f : Frame} {rest : List Frame} {p : Nat}
    (h : LayoutCtx m (f :: rest) p) : f.addr ≠ NIL := by
  cases f <;> exact h.1

theorem attach_spec {t : rbTree} {ctx : List Frame} {n : Nat}
    (h : IsTree t (plug ctx Shape.leaf)) (hn0 : n ≠ NIL) (hn : n ∉ (plug ctx Shape.leaf).addrs)
    (hl : (t.mem n).left = NIL) (hr : (t.mem n).right = NIL) :
    IsTree (attach t n ctx) (plug ctx (Shape.node Shape.leaf n (t.mem n).color Shape.leaf)) ∧
    (∀ a, ((attach t n ctx).mem a).data = (t.mem a).data) ∧
    (attach t n ctx).mem NIL = t.mem NIL := by
  rw [isTree_plug_iff] at h ⊢
  obtain ⟨h1, h2, -, -, h5, -⟩ := h
  rw [plug_addrs] at hn
  simp only [Shape.addrs_leaf, List.append_nil] at hn
  have hnc : n ∉ ctxAddrs ctx := hn
  have hc0 := layoutCtx_zero_not_mem h2
  cases ctx with
  | nil =>
    refine ⟨⟨rfl, trivial, ?_, by simp, h5, by simp⟩, ?_, ?_⟩
    · exact ⟨hn0, by simp [attach, ctxPar], by simp [attach, hl], by simp [attach, hr],
        by simp [attach], trivial, trivial⟩
    · intro a; simp [attach, rbNode.data]
    · simp [attach, rbTree.setParent_mem_ne _ _ (Ne.symm hn0)]
  | cons f rest =>
    have hfa : n ≠ f.addr := by
      rintro rfl
      exact hnc ((mem_ctxAddrs_cons _ _ _).2 (Or.inl rfl))
    have hf0 := ctxPar_ne_zero h2
    cases f with
    | L a c sib =>
      simp only [Frame.addr] at hfa hf0
      refine ⟨⟨by simpa [attach, ctxRoot] using h1, ?_, ?_, by simp, h5, ?_⟩, ?_, ?_⟩
      · refine layoutCtx_repoint h2 h5 (fun b hb hba => ?_) ?_
        · simp only [ctxPar, Frame.addr] at hba
          simp only [attach]
          rw [rbTree.setLeft_mem_ne _ _ hba,
            rbTree.setParent_mem_ne _ _ (by rintro rfl; exact hnc hb)]
        · intro f' rest' e
          cases e
          simp [attach, Frame.addr, Ne.symm hfa]
      · exact ⟨hn0, by simp [attach, ctxPar, Frame.addr, hfa],
          by simp [attach, hfa, hl], by simp [attach, hfa, hr], by simp [attach], trivial,
          trivial⟩
      · intro b hb
        simp only [Shape.addrs_node, Shape.addrs_leaf, List.nil_append, List.mem_singleton] at hb
        rw [hb]; exact hnc
      · intro b; simp [attach, rbNode.data]
      · simp only [attach]
        rw [rbTree.setLeft_mem_ne _ _ (Ne.symm hf0), rbTree.setParent_mem_ne _ _ (Ne.symm hn0)]
    | R sib a c =>
      simp only [Frame.addr] at hfa hf0
      refine ⟨⟨by simpa [attach, ctxRoot] using h1, ?_, ?_, by simp, h5, ?_⟩, ?_, ?_⟩
      · refine layoutCtx_repoint h2 h5 (fun b hb hba => ?_) ?_
        · simp only [ctxPar, Frame.addr] at hba
          simp only [attach]
          rw [rbTree.setRight_mem_ne _ _ hba,
            rbTree.setParent_mem_ne _ _ (by rintro rfl; exact hnc hb)]
        · intro f' rest' e
          cases e
          simp [attach, Frame.addr, Ne.symm hfa]
      · exact ⟨hn0, by simp [attach, ctxPar, Frame.addr, hfa],
          by simp [attach, hfa, hl], by simp [attach, hfa, hr], by simp [attach], trivial,
          trivial⟩
      · intro b hb
        simp only [Shape.addrs_node, Shape.addrs_leaf, List.nil_append, List.mem_singleton] at hb
        rw [hb]; exact hnc
      · intro b; simp [attach, rbNode.data]
      · simp only [attach]
        rw [rbTree.setRight_mem_ne _ _ (Ne.symm hf0), rbTree.setParent_mem_ne _ _ (Ne.symm hn0)]

theorem data_rideNumber {n1 n2 : rbNode} (h : n1.data = n2.data) :
    n1.rideNumber = n2.rideNumber := by
  simp only [rbNode.data, Prod.mk.injEq] at h
  exact h.1

theorem keys_congr {m m' : Mem} (h : ∀ a, (m' a).data = (m a).data) (l : List Nat) :
    l.map (fun a => (m' a).rideNumber) = l.map (fun a => (m a).rideNumber) := by
  apply List.map_congr_left
  intro a _
  exact data_rideNumber (h a)

theorem pairwise_insert_mid {l1 l2 : List Int} {k : Int}
    (h : (l1 ++ l2).Pairwise (fun x y => x < y)) (h1 : ∀ x ∈ l1, x < k)
    (h2 : ∀ y ∈ l2, k < y) : (l1 ++ k :: l2).Pairwise (fun x y => x < y) := by
  rw [List.pairwise_append] at h ⊢
  obtain ⟨k1, k2, k3⟩ := h
  refine ⟨k1, List.pairwise_cons.2 ⟨h2, k2⟩, ?_⟩
  intro x hx y hy
  rcases List.mem_cons.1 hy with rfl | hy
  · exact h1 x hx
  · exact k3 x hx y hy

theorem insert_dup {t : rbTree} {sh : Shape} {n : Nat} {fuel : Nat}
    (ht : IsTree t sh) (hk : KeyOrdered t.mem sh)
    (hkey : (t.mem n).rideNumber ∈ keys t.mem sh) (hf : sh.height < fuel) :
    insert fuel t (some n) = some (Except.error ("Duplicate RideNumber\n", t)) := by
  have := (insertDescend_spec t (t.mem n).rideNumber sh NIL fuel ht.layout hk hf).1 hkey
  rw [← ht.root] at this
  simp [rbTree.insert, this]

theorem insert_spec {t : rbTree} {sh : Shape} {n : Nat} {fuel : Nat}
    (ht : IsTree t sh) (hk : KeyOrdered t.mem sh)
    (hs : (t.mem NIL).color = nodeColor.BLACK) (hrb : rootColor sh = nodeColor.BLACK)
    (hnr : NoRedRed sh)
    (hn0 : n ≠ NIL) (hn : n ∉ sh.addrs) (hl : (t.mem n).left = NIL)
    (hr : (t.mem n).right = NIL)
    (hkey : (t.mem n).rideNumber ∉ keys t.mem sh) (hf : sh.height < fuel) :
    ∃ t' sh', insert fuel t (some n) = some (Except.ok t') ∧ IsTree t' sh' ∧
      (∃ l1 l2, sh.addrs = l1 ++ l2 ∧ sh'.addrs = l1 ++ n :: l2) ∧
      KeyOrdered t'.mem sh' ∧ (∀ a, (t'.mem a).data = (t.mem a).data) ∧
      t'.mem NIL = t.mem NIL ∧
      rootColor sh' = nodeColor.BLACK ∧ NoRedRed sh' ∧
      ((t.mem n).color = nodeColor.RED → Balanced sh → Balanced sh') := by
  obtain ⟨c, p1, p2, p3, p4⟩ :=
    (insertDescend_spec t (t.mem n).rideNumber sh NIL fuel ht.layout hk hf).2 hkey
  subst p1
  rw [← ht.root, ctxParFrom_nil_eq] at p2
  have hctx := ((isTree_plug_iff _ _ _).1 ht).2.1
  have e : insert fuel t (some n) =
      (insertionRebalance fuel (attach t n c) n).map Except.ok := by
    simp only [rbTree.insert, p2]
    cases c with
    | nil => simp [ctxPar, attach]
    | cons f rest =>
      have hf0 := ctxPar_ne_zero hctx
      cases f with
      | L a ca sib =>
        have hlt := p4 a (by simp [ctxRight])
        have hna : a ≠ n := by
          rintro rfl
          exact hn (by rw [plug_addrs]; simp [ctxRight])
        simp only [Frame.addr] at hf0
        simp [ctxPar, Frame.addr, attach, hf0, hna, Ne.symm hna, hlt]
      | R sib a ca =>
        have hgt := p3 a (by simp [ctxLeft])
        have hna : a ≠ n := by
          rintro rfl
          exact hn (by rw [plug_addrs]; simp [ctxLeft])
        have hnlt : ¬ (t.mem n).rideNumber < (t.mem a).rideNumber := by omega
        simp only [Frame.addr] at hf0
        simp [ctxPar, Frame.addr, attach, hf0, hna, Ne.symm hna, hgt, hnlt]
  obtain ⟨a1, a2, a3⟩ := attach_spec ht hn0 hn hl hr
  have hlen : c.length < fuel := by
    have := height_plug_ge c Shape.leaf
    omega
  have hcn : CtxNRR c := ((noRedRed_plug c Shape.leaf).1 ⟨hnr, fun _ => hrb⟩).2.1
  obtain ⟨t', e1, sh', q1, q2, q3, q4, q5, q6, q7⟩ :=
    insertionRebalance_loop fuel (attach t n c) c Shape.leaf Shape.leaf n (t.mem n).color a1 hlen
      (by rw [a3]; exact hs) rfl rfl trivial trivial hcn
  refine ⟨t', sh', by rw [e, e1]; rfl, q1, ⟨ctxLeft c, ctxRight c, ?_, ?_⟩, ?_,
    fun a => (q3 a).trans (a2 a), q4.trans a3, q5, q6, ?_⟩
  · rw [plug_addrs]; simp
  · rw [q2, plug_addrs]; simp
  · unfold KeyOrdered keys at hk ⊢
    rw [q2, plug_addrs, keys_congr (fun a => (q3 a).trans (a2 a))]
    rw [plug_addrs] at hk
    simp only [Shape.addrs_leaf, List.append_nil, List.map_append, Shape.addrs_node,
      List.nil_append, List.map_cons, List.map_nil, List.append_assoc, List.singleton_append,
      List.cons_append] at hk ⊢
    refine pairwise_insert_mid hk ?_ ?_
    · intro x hx
      obtain ⟨a, ha, rfl⟩ := List.mem_map.1 hx
      exact p3 a ha
    · intro x hx
      obtain ⟨a, ha, rfl⟩ := List.mem_map.1 hx
      exact p4 a ha
  · intro hc hb
    refine q7 hc ?_
    rw [balanced_plug] at hb ⊢
    rw [hc]
    exact ⟨⟨rfl, trivial, trivial⟩, by simpa [bheight] using hb.2⟩

/-! ### The cases of the delete fix-up -/

theorem DeletionRebalanceBody_eq (t : rbTree) (node : Nat) :
    t.DeletionRebalanceBody node =
      if t.isLeftChild node then delRestL (delCase1L t node).1 node (delCase1L t node).2
      else delRestR (delCase1R t node).1 node (delCase1R t node).2 := by
  rfl

theorem NoRedRed.below {s : Shape} (h : NoRedRed s) : NoRedRedBelow s := by
  cases s with
  | leaf => trivial
  | node l a c r => exact ⟨h.2.1, h.2.2⟩

theorem noRedRed_of_below {s : Shape} (h : NoRedRedBelow s)
    (hc : rootColor s = nodeColor.BLACK) : NoRedRed s := by
  cases s with
  | leaf => trivial
  | node l a c r =>
    simp only [rootColor] at hc
    subst hc
    exact ⟨by simp, h.1, h.2⟩

theorem delPost_trans {t t1 t' : rbTree} {sh sh1 : Shape}
    (h1 : sh1.addrs = sh.addrs) (h2 : ∀ a, (t1.mem a).data = (t.mem a).data)
    (h : DelPost t1 sh1 t') : DelPost t sh t' := by
  obtain ⟨sh', k1, k2, k3, k4⟩ := h
  exact ⟨sh', k1, k2.trans h1, fun a => (k3 a).trans (h2 a), k4⟩

theorem bheight_pos_node {s : Shape} (h : 0 < bheight s) :
    ∃ l a c r, s = Shape.node l a c r := by
  cases s with
  | leaf => simp [bheight] at h
  | node l a c r => exact ⟨l, a, c, r, rfl⟩

theorem rootColor_red_node {s : Shape} (h : rootColor s = nodeColor.RED) :
    ∃ l a r, s = Shape.node l a nodeColor.RED r := by
  cases s with
  | leaf => simp [rootColor] at h
  | node l a c r =>
    simp only [rootColor] at h
    subst h
    exact ⟨l, a, r, rfl⟩

theorem color_cases (c : nodeColor) : c = nodeColor.RED ∨ c = nodeColor.BLACK := by
  cases c <;> simp

theorem ctxRoot_mem {ctx : List Frame} (h : ctx ≠ []) (p : Nat) :
    ctxRoot ctx p ∈ ctxAddrs ctx := by
  induction ctx generalizing p with
  | nil => exact absurd rfl h
  | cons f rest ih =>
    rw [mem_ctxAddrs_cons]
    cases rest with
    | nil => left; rfl
    | cons g rest' =>
      right; right
      exact ih (by simp) f.addr

/-- The exit of the delete fix-up loop: the node is the root or is RED, and is coloured
BLACK. -/
theorem del_exit {t : rbTree} {ctx : List Frame} {s : Shape} (h : DelState t ctx s)
    (hx : ctx = [] ∨ rootColor s = nodeColor.RED) :
    DelPost t (plug ctx s) (t.setColor s.ptr nodeColor.BLACK) := by
  obtain ⟨h1, h2, h3, h4, h5, h6, h7⟩ := h
  cases s with
  | leaf =>
    rcases hx with rfl | hx
    · refine ⟨Shape.leaf, ⟨by simpa using h1.root, trivial, by simp⟩, rfl, by simp, by simp,
        rfl, trivial, trivial⟩
    · simp [rootColor] at hx
  | node l a c r =>
    have k := isTree_setColor nodeColor.BLACK h1
    have ha := (isTree_focus h1).1
    have hn : NoRedRed (Shape.node l a nodeColor.BLACK r) := ⟨by simp, h4.1, h4.2⟩
    have hnp := (noRedRed_plug ctx (Shape.node l a nodeColor.BLACK r)).2 ⟨hn, h5, fun _ => rfl⟩
    refine ⟨_, k, by simp [plug_addrs], by simp, ?_, ?_, hnp.1, ?_⟩
    · simp [Ne.symm ha, h3]
    · cases ctx with
      | nil => rfl
      | cons f rest => exact hnp.2 (by simp)
    · rw [balanced_plug]
      refine ⟨h6, ?_⟩
      rcases hx with rfl | hx
      · trivial
      · simp only [rootColor] at hx
        subst hx
        simpa [bheight] using h7

theorem del_case1L {t : rbTree} {rest : List Frame} {s wn wf : Shape} {p ww : Nat}
    {cp : nodeColor} (h : DelState t ((Frame.L p cp (Shape.node wn ww nodeColor.RED wf)) :: rest) s) :
    ∃ t1, delCase1L t s.ptr = (t1, wn.ptr) ∧ DelState t1 ((Frame.L p nodeColor.RED wn) :: (Frame.L ww nodeColor.BLACK wf) :: rest) s ∧
      (∀ a, (t1.mem a).data = (t.mem a).data) ∧ rootColor wn = nodeColor.BLACK ∧ cp = nodeColor.BLACK := by
  obtain ⟨h1, h2, h3, h4, h5, h6, h7⟩ := h
  obtain ⟨nw, hcr, nrest⟩ := h5
  have hcp : cp = nodeColor.BLACK := by
    rcases color_cases cp with hc | hc
    · have := (hcr hc).1
      simp [Frame.sibling, rootColor] at this
    · exact hc
  subst hcp
  simp only [Frame.sibling] at nw
  simp only [ctxPar, Frame.addr] at h2
  have hp := isTree_focus (show IsTree t (plug rest (Shape.node s p nodeColor.BLACK (Shape.node wn ww nodeColor.RED wf))) from h1)
  have hw := isTree_focus (show IsTree t (plug ((Frame.R s p nodeColor.BLACK) :: rest) (Shape.node wn ww nodeColor.RED wf)) from h1)
  simp only [Shape.ptr_node, ctxPar, Frame.addr] at hp hw
  have k1 := isTree_setColor nodeColor.BLACK (show IsTree t (plug ((Frame.R s p nodeColor.BLACK) :: rest) (Shape.node wn ww nodeColor.RED wf))
    from h1)
  have k2 := isTree_setColor nodeColor.RED (show IsTree (t.setColor ww nodeColor.BLACK)
    (plug rest (Shape.node s p nodeColor.BLACK (Shape.node wn ww nodeColor.BLACK wf))) from k1)
  obtain ⟨k3, k3n⟩ := rotateLeft_spec k2
  have hp3 := isTree_focus (show IsTree (((t.setColor ww nodeColor.BLACK).setColor p nodeColor.RED).rotateLeft p)
    (plug ((Frame.L ww nodeColor.BLACK wf) :: rest) (Shape.node s p nodeColor.RED wn)) from k3)
  simp only [Shape.ptr_node, ctxPar, Frame.addr] at hp3
  have hpar' : ((((t.setColor ww nodeColor.BLACK).setColor p nodeColor.RED).rotateLeft p).mem s.ptr).parent = p := by
    cases s with
    | leaf =>
      rw [Shape.ptr_leaf, k3n]
      simpa [rbTree.setColor_mem_ne, Ne.symm hp.1, Ne.symm hw.1] using h2
    | node sl sa sc sr =>
      exact (isTree_focus (show IsTree (((t.setColor ww nodeColor.BLACK).setColor p nodeColor.RED).rotateLeft p) (plug ((Frame.L p nodeColor.RED wn) :: (Frame.L ww nodeColor.BLACK wf) :: rest) (Shape.node sl sa sc sr))
        from k3)).2.2.2.1
  refine ⟨_, ?_, ⟨k3, hpar', ?_, h4, ?_, h6, ?_⟩, ?_, ?_, rfl⟩
  · simp [delCase1L, h2, hp.2.1, hp.2.2.1, hw.2.2.2.2, hpar', hp3.2.1, hp3.2.2.1]
  · rw [k3n]
    simpa [rbTree.setColor_mem_ne, Ne.symm hp.1, Ne.symm hw.1] using h3
  · exact ⟨nw.2.1, fun _ => ⟨(nw.1 rfl).1, rfl⟩, nw.2.2, by simp [Frame.color],
      nrest⟩
  · revert h7 h6
    simp only [CtxBal, Frame.sibling, Frame.color, bheight, Balanced]
    simp
    intros
    (repeat' constructor) <;>
      first | assumption | omega | (simp_all; done) | (convert ‹CtxBal rest _› using 1; omega)
  · intro a
    rw [(rotateLeft_color_data _ _ _).2]
    simp
  · exact (nw.1 rfl).1

theorem del_case1L_noop {t : rbTree} {rest : List Frame} {s wn wf : Shape} {p ww : Nat}
    {cp : nodeColor} (h : DelState t ((Frame.L p cp (Shape.node wn ww nodeColor.BLACK wf)) :: rest) s) :
    delCase1L t s.ptr = (t, ww) := by
  obtain ⟨h1, h2, -⟩ := h
  simp only [ctxPar, Frame.addr] at h2
  have hp := isTree_focus (show IsTree t (plug rest (Shape.node s p cp (Shape.node wn ww nodeColor.BLACK wf))) from h1)
  have hw := isTree_focus (show IsTree t (plug ((Frame.R s p cp) :: rest) (Shape.node wn ww nodeColor.BLACK wf)) from h1)
  simp only [Shape.ptr_node, ctxPar, Frame.addr] at hp hw
  simp [delCase1L, h2, hp.2.1, hp.2.2.1, hw.2.2.2.2]

theorem del_case2L {t : rbTree} {rest : List Frame} {s wn wf : Shape} {p ww : Nat}
    {cp : nodeColor} (h : DelState t ((Frame.L p cp (Shape.node wn ww nodeColor.BLACK wf)) :: rest) s)
    (hs : rootColor s = nodeColor.BLACK) (hnn : rootColor wn = nodeColor.BLACK) (hnf : rootColor wf = nodeColor.BLACK) :
    delRestL t s.ptr ww = (t.setColor ww nodeColor.RED, p) ∧
      DelState (t.setColor ww nodeColor.RED) rest (Shape.node s p cp (Shape.node wn ww nodeColor.RED wf)) := by
  obtain ⟨h1, h2, h3, h4, h5, h6, h7⟩ := h
  obtain ⟨nw, hcr, nrest⟩ := h5
  simp only [Frame.sibling] at nw
  simp only [ctxPar, Frame.addr] at h2
  have hp := isTree_focus (show IsTree t (plug rest (Shape.node s p cp (Shape.node wn ww nodeColor.BLACK wf))) from h1)
  have hw := isTree_focus (show IsTree t (plug ((Frame.R s p cp) :: rest) (Shape.node wn ww nodeColor.BLACK wf)) from h1)
  simp only [Shape.ptr_node, ctxPar, Frame.addr] at hp hw
  have hlw := ((isTree_plug_iff _ _ _).1 (show IsTree t (plug ((Frame.R s p cp) :: rest)
    (Shape.node wn ww nodeColor.BLACK wf)) from h1)).2.2.1
  have hcn : (t.mem wn.ptr).color = rootColor wn := getColor_ptr h3 hlw.2.2.2.2.2.1
  have hcf : (t.mem wf.ptr).color = rootColor wf := getColor_ptr h3 hlw.2.2.2.2.2.2
  have k1 := isTree_setColor nodeColor.RED (show IsTree t (plug ((Frame.R s p cp) :: rest) (Shape.node wn ww nodeColor.BLACK wf))
    from h1)
  have hp1 := isTree_focus (show IsTree (t.setColor ww nodeColor.RED)
    (plug rest (Shape.node s p cp (Shape.node wn ww nodeColor.RED wf))) from k1)
  refine ⟨?_, ⟨k1, hp1.2.2.2.1, ?_, ⟨noRedRed_of_below h4 hs, ?_⟩, nrest, ?_, ?_⟩⟩
  · simp [delRestL, hw.2.1, hw.2.2.1, hcn, hcf, hnn, hnf, h2]
  · simpa [rbTree.setColor_mem_ne, Ne.symm hw.1] using h3
  · exact ⟨fun _ => ⟨hnn, hnf⟩, nw.2.1, nw.2.2⟩
  · revert h7 h6
    simp only [CtxBal, Frame.sibling, Frame.color, bheight, Balanced]
    simp
    intros
    (repeat' constructor) <;>
      first | assumption | omega | (simp_all; done) | (convert ‹CtxBal rest _› using 1; omega)
  · revert h7 h6
    simp only [CtxBal, Frame.sibling, Frame.color, bheight, Balanced]
    simp
    intros
    (repeat' constructor) <;>
      first | assumption | omega | (simp_all; done) | (convert ‹CtxBal rest _› using 1; omega)

theorem del_case3L {t : rbTree} {rest : List Frame} {s wnn wnf wf : Shape} {p ww a : Nat}
    {cp : nodeColor} (h : DelState t ((Frame.L p cp (Shape.node (Shape.node wnn a nodeColor.RED wnf) ww nodeColor.BLACK wf)) :: rest) s) (hnf : rootColor wf = nodeColor.BLACK) :
    ∃ t1, delCase3L t s.ptr ww = (t1, a) ∧ DelState t1 ((Frame.L p cp (Shape.node wnn a nodeColor.BLACK (Shape.node wnf ww nodeColor.RED wf))) :: rest) s ∧
      (∀ b, (t1.mem b).data = (t.mem b).data) := by
  obtain ⟨h1, h2, h3, h4, h5, h6, h7⟩ := h
  obtain ⟨nw, hcr, nrest⟩ := h5
  simp only [Frame.sibling] at nw
  simp only [ctxPar, Frame.addr] at h2
  have hp := isTree_focus (show IsTree t (plug rest (Shape.node s p cp (Shape.node (Shape.node wnn a nodeColor.RED wnf) ww nodeColor.BLACK wf))) from h1)
  have hw := isTree_focus (show IsTree t (plug ((Frame.R s p cp) :: rest) (Shape.node (Shape.node wnn a nodeColor.RED wnf) ww nodeColor.BLACK wf)) from h1)
  have ha := isTree_focus (show IsTree t (plug ((Frame.L ww nodeColor.BLACK wf) ::
    (Frame.R s p cp) :: rest) (Shape.node wnn a nodeColor.RED wnf)) from h1)
  simp only [Shape.ptr_node, ctxPar, Frame.addr] at hp hw ha
  have hlw := ((isTree_plug_iff _ _ _).1 (show IsTree t (plug ((Frame.R s p cp) :: rest)
    (Shape.node (Shape.node wnn a nodeColor.RED wnf) ww nodeColor.BLACK wf)) from h1)).2.2.1
  have hcf : (t.mem wf.ptr).color = rootColor wf := getColor_ptr h3 hlw.2.2.2.2.2.2
  have k1 := isTree_setColor nodeColor.BLACK (show IsTree t (plug ((Frame.L ww nodeColor.BLACK wf) ::
    (Frame.R s p cp) :: rest) (Shape.node wnn a nodeColor.RED wnf)) from h1)
  have k2 := isTree_setColor nodeColor.RED (show IsTree (t.setColor a nodeColor.BLACK)
    (plug ((Frame.R s p cp) :: rest) (Shape.node (Shape.node wnn a nodeColor.BLACK wnf) ww nodeColor.BLACK wf)) from k1)
  obtain ⟨k3, k3n⟩ := rotateRight_spec k2
  have hp3 := isTree_focus (show IsTree (((t.setColor a nodeColor.BLACK).setColor ww nodeColor.RED).rotateRight ww)
    (plug rest (Shape.node s p cp (Shape.node wnn a nodeColor.BLACK (Shape.node wnf ww nodeColor.RED wf)))) from k3)
  simp only [Shape.ptr_node, ctxPar, Frame.addr] at hp3
  have hpar' : ((((t.setColor a nodeColor.BLACK).setColor ww nodeColor.RED).rotateRight ww).mem s.ptr).parent = p := by
    cases s with
    | leaf =>
      rw [Shape.ptr_leaf, k3n]
      simpa [rbTree.setColor_mem_ne, Ne.symm ha.1, Ne.symm hw.1] using h2
    | node sl sa sc sr =>
      exact (isTree_focus (show IsTree (((t.setColor a nodeColor.BLACK).setColor ww nodeColor.RED).rotateRight ww) (plug ((Frame.L p cp (Shape.node wnn a nodeColor.BLACK (Shape.node wnf ww nodeColor.RED wf))) :: rest) (Shape.node sl sa sc sr))
        from k3)).2.2.2.1
  refine ⟨_, ?_, ⟨k3, hpar', ?_, h4, ⟨?_, ?_, nrest⟩, h6, ?_⟩, ?_⟩
  · simp [delCase3L, h2, hw.2.1, hw.2.2.1, hcf, hnf, hpar', hp3.2.1, hp3.2.2.1]
  · rw [k3n]
    simpa [rbTree.setColor_mem_ne, Ne.symm ha.1, Ne.symm hw.1] using h3
  · simp only [Frame.sibling, NoRedRed, rootColor] at nw ⊢
    simp at nw ⊢
    tauto
  · intro hc
    exact ⟨rfl, (hcr hc).2⟩
  · revert h7 h6
    simp only [CtxBal, Frame.sibling, Frame.color, bheight, Balanced]
    simp
    intros
    (repeat' constructor) <;>
      first | assumption | omega | (simp_all; done) | (convert ‹CtxBal rest _› using 1; omega)
  · intro b
    rw [(rotateRight_color_data _ _ _).2]
    simp

theorem del_case3L_noop {t : rbTree} {rest : List Frame} {s wn wf : Shape} {p ww : Nat}
    {cp : nodeColor} (h : DelState t ((Frame.L p cp (Shape.node wn ww nodeColor.BLACK wf)) :: rest) s) (hnf : rootColor wf = nodeColor.RED) :
    delCase3L t s.ptr ww = (t, ww) := by
  obtain ⟨h1, h2, h3, -⟩ := h
  have hw := isTree_focus (show IsTree t (plug ((Frame.R s p cp) :: rest) (Shape.node wn ww nodeColor.BLACK wf)) from h1)
  simp only [Shape.ptr_node, ctxPar, Frame.addr] at hw
  have hlw := ((isTree_plug_iff _ _ _).1 (show IsTree t (plug ((Frame.R s p cp) :: rest)
    (Shape.node wn ww nodeColor.BLACK wf)) from h1)).2.2.1
  have hcf : (t.mem wf.ptr).color = rootColor wf := getColor_ptr h3 hlw.2.2.2.2.2.2
  simp [delCase3L, hw.2.1, hw.2.2.1, hcf, hnf]

theorem del_case4L {t : rbTree} {rest : List Frame} {s wn wfn wff : Shape} {p ww b : Nat}
    {cp : nodeColor} (h : DelState t ((Frame.L p cp (Shape.node wn ww nodeColor.BLACK (Shape.node wfn b nodeColor.RED wff))) :: rest) s) (hs : rootColor s = nodeColor.BLACK) :
    ∃ t1, delCase4L t s.ptr ww = (t1, t1.root) ∧
      IsTree t1 (plug rest (Shape.node (Shape.node s p nodeColor.BLACK wn) ww cp (Shape.node wfn b nodeColor.BLACK wff))) ∧
      NoRedRed (plug rest (Shape.node (Shape.node s p nodeColor.BLACK wn) ww cp (Shape.node wfn b nodeColor.BLACK wff))) ∧ Balanced (plug rest (Shape.node (Shape.node s p nodeColor.BLACK wn) ww cp (Shape.node wfn b nodeColor.BLACK wff))) ∧
      (t1.mem NIL).color = nodeColor.BLACK ∧ (∀ c, (t1.mem c).data = (t.mem c).data) := by
  obtain ⟨h1, h2, h3, h4, h5, h6, h7⟩ := h
  obtain ⟨nw, hcr, nrest⟩ := h5
  simp only [Frame.sibling] at nw
  simp only [ctxPar, Frame.addr] at h2
  have hp := isTree_focus (show IsTree t (plug rest (Shape.node s p cp (Shape.node wn ww nodeColor.BLACK (Shape.node wfn b nodeColor.RED wff)))) from h1)
  have hw := isTree_focus (show IsTree t (plug ((Frame.R s p cp) :: rest) (Shape.node wn ww nodeColor.BLACK (Shape.node wfn b nodeColor.RED wff))) from h1)
  have hb := isTree_focus (show IsTree t (plug ((Frame.R wn ww nodeColor.BLACK) ::
    (Frame.R s p cp) :: rest) (Shape.node wfn b nodeColor.RED wff)) from h1)
  simp only [Shape.ptr_node, ctxPar, Frame.addr] at hp hw hb
  have k1 := isTree_setColor cp (show IsTree t (plug ((Frame.R s p cp) :: rest) (Shape.node wn ww nodeColor.BLACK (Shape.node wfn b nodeColor.RED wff)))
    from h1)
  have k2 := isTree_setColor nodeColor.BLACK (show IsTree (t.setColor ww cp)
    (plug rest (Shape.node s p cp (Shape.node wn ww cp (Shape.node wfn b nodeColor.RED wff)))) from k1)
  have k3 := isTree_setColor nodeColor.BLACK (show IsTree ((t.setColor ww cp).setColor p nodeColor.BLACK)
    (plug ((Frame.R wn ww cp) :: (Frame.R s p nodeColor.BLACK) :: rest) (Shape.node wfn b nodeColor.RED wff)) from k2)
  obtain ⟨k4, k4n⟩ := rotateLeft_spec (show IsTree
    (((t.setColor ww cp).setColor p nodeColor.BLACK).setColor b nodeColor.BLACK)
    (plug rest (Shape.node s p nodeColor.BLACK (Shape.node wn ww cp (Shape.node wfn b nodeColor.BLACK wff)))) from k3)
  refine ⟨_, ?_, k4, ?_, ?_, ?_, ?_⟩
  · simp [delCase4L, h2, hp.2.2.2.2, hw.2.1, hw.2.2.1]
  · refine ((noRedRed_plug rest _).2 ⟨?_, nrest, ?_⟩).1
    · have hns := noRedRed_of_below h4 hs
      simp only [NoRedRed, rootColor] at nw ⊢
      simp at nw ⊢
      tauto
    · intro hpc
      simp only [rootColor]
      rcases color_cases cp with hc | hc
      · have := (hcr hc).2
        rw [hpc] at this
        cases this
      · exact hc
  · rw [balanced_plug]
    revert h7 h6
    simp only [CtxBal, Frame.sibling, Frame.color, bheight, Balanced]
    simp
    intros
    (repeat' constructor) <;>
      first | assumption | omega | (simp_all; done) | (convert ‹CtxBal rest _› using 1; omega)
  · rw [k4n]
    simpa [rbTree.setColor_mem_ne, Ne.symm hp.1, Ne.symm hw.1, Ne.symm hb.1] using h3
  · intro c
    rw [(rotateLeft_color_data _ _ _).2]
    simp

theorem delRestL_else {t : rbTree} {rest : List Frame} {s wn wf : Shape} {p ww : Nat}
    {cp : nodeColor} (h : DelState t ((Frame.L p cp (Shape.node wn ww nodeColor.BLACK wf)) :: rest) s)
    (hnb : ¬ (rootColor wn = nodeColor.BLACK ∧ rootColor wf = nodeColor.BLACK)) :
    delRestL t s.ptr ww =
      delCase4L (delCase3L t s.ptr ww).1 s.ptr (delCase3L t s.ptr ww).2 := by
  obtain ⟨h1, h2, h3, -⟩ := h
  have hw := isTree_focus (show IsTree t (plug ((Frame.R s p cp) :: rest) (Shape.node wn ww nodeColor.BLACK wf)) from h1)
  simp only [Shape.ptr_node, ctxPar, Frame.addr] at hw
  have hlw := ((isTree_plug_iff _ _ _).1 (show IsTree t (plug ((Frame.R s p cp) :: rest)
    (Shape.node wn ww nodeColor.BLACK wf)) from h1)).2.2.1
  have hcn : (t.mem wn.ptr).color = rootColor wn := getColor_ptr h3 hlw.2.2.2.2.2.1
  have hcf : (t.mem wf.ptr).color = rootColor wf := getColor_ptr h3 hlw.2.2.2.2.2.2
  unfold delRestL
  rw [if_neg]
  simp only [rbTree.getColor, rbTree.getLeft, rbTree.getRight, hw.2.1, hw.2.2.1, hcn, hcf]
  tauto

theorem del_restL {t : rbTree} {rest : List Frame} {s wn wf : Shape} {p ww : Nat}
    {cp : nodeColor} (h : DelState t ((Frame.L p cp (Shape.node wn ww nodeColor.BLACK wf)) :: rest) s) (hs : rootColor s = nodeColor.BLACK) :
    (delRestL t s.ptr ww = (t.setColor ww nodeColor.RED, p) ∧
      DelState (t.setColor ww nodeColor.RED) rest (Shape.node s p cp (Shape.node wn ww nodeColor.RED wf))) ∨
    (∃ t1 sh1, delRestL t s.ptr ww = (t1, t1.root) ∧ IsTree t1 sh1 ∧
      sh1.addrs = (plug ((Frame.L p cp (Shape.node wn ww nodeColor.BLACK wf)) :: rest) s).addrs ∧ NoRedRed sh1 ∧ Balanced sh1 ∧
      (t1.mem NIL).color = nodeColor.BLACK ∧ (∀ c, (t1.mem c).data = (t.mem c).data)) := by
  rcases color_cases (rootColor wf) with hf | hf
  · obtain ⟨wfn, b, wff, rfl⟩ := rootColor_red_node hf
    right
    have e3 := del_case3L_noop h hf
    obtain ⟨t1, e4, k, n, b, c, d⟩ := del_case4L h hs
    refine ⟨t1, _, ?_, k, ?_, n, b, c, d⟩
    · rw [delRestL_else h (by simp [rootColor]), e3]
      exact e4
    · simp [plug_addrs]
  · rcases color_cases (rootColor wn) with hn | hn
    · obtain ⟨wnn, a, wnf, rfl⟩ := rootColor_red_node hn
      right
      obtain ⟨t3, e3, st3, d3⟩ := del_case3L h hf
      obtain ⟨t4, e4, k, n, b, c, d⟩ := del_case4L st3 hs
      refine ⟨t4, _, ?_, k, ?_, n, b, c, fun x => (d x).trans (d3 x)⟩
      · rw [delRestL_else h (by simp [rootColor]), e3]
        exact e4
      · simp [plug_addrs]
    · left
      exact del_case2L h hs hn hf

theorem del_case1R {t : rbTree} {rest : List Frame} {s wn wf : Shape} {p ww : Nat}
    {cp : nodeColor} (h : DelState t ((Frame.R (Shape.node wf ww nodeColor.RED wn) p cp) :: rest) s) :
    ∃ t1, delCase1R t s.ptr = (t1, wn.ptr) ∧ DelState t1 ((Frame.R wn p nodeColor.RED) :: (Frame.R wf ww nodeColor.BLACK) :: rest) s ∧
      (∀ a, (t1.mem a).data = (t.mem a).data) ∧ rootColor wn = nodeColor.BLACK ∧ cp = nodeColor.BLACK := by
  obtain ⟨h1, h2, h3, h4, h5, h6, h7⟩ := h
  obtain ⟨nw, hcr, nrest⟩ := h5
  have hcp : cp = nodeColor.BLACK := by
    rcases color_cases cp with hc | hc
    · have := (hcr hc).1
      simp [Frame.sibling, rootColor] at this
    · exact hc
  subst hcp
  simp only [Frame.sibling] at nw
  simp only [ctxPar, Frame.addr] at h2
  have hp := isTree_focus (show IsTree t (plug rest (Shape.node (Shape.node wf ww nodeColor.RED wn) p nodeColor.BLACK s)) from h1)
  have hw := isTree_focus (show IsTree t (plug ((Frame.L p nodeColor.BLACK s) :: rest) (Shape.node wf ww nodeColor.RED wn)) from h1)
  simp only [Shape.ptr_node, ctxPar, Frame.addr] at hp hw
  have k1 := isTree_setColor nodeColor.BLACK (show IsTree t (plug ((Frame.L p nodeColor.BLACK s) :: rest) (Shape.node wf ww nodeColor.RED wn))
    from h1)
  have k2 := isTree_setColor nodeColor.RED (show IsTree (t.setColor ww nodeColor.BLACK)
    (plug rest (Shape.node (Shape.node wf ww nodeColor.BLACK wn) p nodeColor.BLACK s)) from k1)
  obtain ⟨k3, k3n⟩ := rotateRight_spec k2
  have hp3 := isTree_focus (show IsTree (((t.setColor ww nodeColor.BLACK).setColor p nodeColor.RED).rotateRight p)
    (plug ((Frame.R wf ww nodeColor.BLACK) :: rest) (Shape.node wn p nodeColor.RED s)) from k3)
  simp only [Shape.ptr_node, ctxPar, Frame.addr] at hp3
  have hpar' : ((((t.setColor ww nodeColor.BLACK).setColor p nodeColor.RED).rotateRight p).mem s.ptr).parent = p := by
    cases s with
    | leaf =>
      rw [Shape.ptr_leaf, k3n]
      simpa [rbTree.setColor_mem_ne, Ne.symm hp.1, Ne.symm hw.1] using h2
    | node sl sa sc sr =>
      exact (isTree_focus (show IsTree (((t.setColor ww nodeColor.BLACK).setColor p nodeColor.RED).rotateRight p) (plug ((Frame.R wn p nodeColor.RED) :: (Frame.R wf ww nodeColor.BLACK) :: rest) (Shape.node sl sa sc sr))
        from k3)).2.2.2.1
  refine ⟨_, ?_, ⟨k3, hpar', ?_, h4, ?_, h6, ?_⟩, ?_, ?_, rfl⟩
  · simp [delCase1R, h2, hp.2.1, hp.2.2.1, hw.2.2.2.2, hpar', hp3.2.1, hp3.2.2.1]
  · rw [k3n]
    simpa [rbTree.setColor_mem_ne, Ne.symm hp.1, Ne.symm hw.1] using h3
  · exact ⟨nw.2.2, fun _ => ⟨(nw.1 rfl).2, rfl⟩, nw.2.1, by simp [Frame.color],
      nrest⟩
  · revert h7 h6
    simp only [CtxBal, Frame.sibling, Frame.color, bheight, Balanced]
    simp
    intros
    (repeat' constructor) <;>
      first | assumption | omega | (simp_all; done) | (convert ‹CtxBal rest _› using 1; omega)
  · intro a
    rw [(rotateRight_color_data _ _ _).2]
    simp
  · exact (nw.1 rfl).2

theorem del_case1R_noop {t : rbTree} {rest : List Frame} {s wn wf : Shape} {p ww : Nat}
    {cp : nodeColor} (h : DelState t ((Frame.R (Shape.node wf ww nodeColor.BLACK wn) p cp) :: rest) s) :
    delCase1R t s.ptr = (t, ww) := by
  obtain ⟨h1, h2, -⟩ := h
  simp only [ctxPar, Frame.addr] at h2
  have hp := isTree_focus (show IsTree t (plug rest (Shape.node (Shape.node wf ww nodeColor.BLACK wn) p cp s)) from h1)
  have hw := isTree_focus (show IsTree t (plug ((Frame.L p cp s) :: rest) (Shape.node wf ww nodeColor.BLACK wn)) from h1)
  simp only [Shape.ptr_node, ctxPar, Frame.addr] at hp hw
  simp [delCase1R, h2, hp.2.1, hp.2.2.1, hw.2.2.2.2]

theorem del_case2R {t : rbTree} {rest : List Frame} {s wn wf : Shape} {p ww : Nat}
    {cp : nodeColor} (h : DelState t ((Frame.R (Shape.node wf ww nodeColor.BLACK wn) p cp) :: rest) s)
    (hs : rootColor s = nodeColor.BLACK) (hnn : rootColor wn = nodeColor.BLACK) (hnf : rootColor wf = nodeColor.BLACK) :
    delRestR t s.ptr ww = (t.setColor ww nodeColor.RED, p) ∧
      DelState (t.setColor ww nodeColor.RED) rest (Shape.node (Shape.node wf ww nodeColor.RED wn) p cp s) := by
  obtain ⟨h1, h2, h3, h4, h5, h6, h7⟩ := h
  obtain ⟨nw, hcr, nrest⟩ := h5
  simp only [Frame.sibling] at nw
  simp only [ctxPar, Frame.addr] at h2
  have hp := isTree_focus (show IsTree t (plug rest (Shape.node (Shape.node wf ww nodeColor.BLACK wn) p cp s)) from h1)
  have hw := isTree_focus (show IsTree t (plug ((Frame.L p cp s) :: rest) (Shape.node wf ww nodeColor.BLACK wn)) from h1)
  simp only [Shape.ptr_node, ctxPar, Frame.addr] at hp hw
  have hlw := ((isTree_plug_iff _ _ _).1 (show IsTree t (plug ((Frame.L p cp s) :: rest)
    (Shape.node wf ww nodeColor.BLACK wn)) from h1)).2.2.1
  have hcn : (t.mem wn.ptr).color = rootColor wn := getColor_ptr h3 hlw.2.2.2.2.2.2
  have hcf : (t.mem wf.ptr).color = rootColor wf := getColor_ptr h3 hlw.2.2.2.2.2.1
  have k1 := isTree_setColor nodeColor.RED (show IsTree t (plug ((Frame.L p cp s) :: rest) (Shape.node wf ww nodeColor.BLACK wn))
    from h1)
  have hp1 := isTree_focus (show IsTree (t.setColor ww nodeColor.RED)
    (plug rest (Shape.node (Shape.node wf ww nodeColor.RED wn) p cp s)) from k1)
  refine ⟨?_, ⟨k1, hp1.2.2.2.1, ?_, ⟨?_, noRedRed_of_below h4 hs⟩, nrest, ?_, ?_⟩⟩
  · simp [delRestR, hw.2.1, hw.2.2.1, hcn, hcf, hnn, hnf, h2]
  · simpa [rbTree.setColor_mem_ne, Ne.symm hw.1] using h3
  · exact ⟨fun _ => ⟨hnf, hnn⟩, nw.2.1, nw.2.2⟩
  · revert h7 h6
    simp only [CtxBal, Frame.sibling, Frame.color, bheight, Balanced]
    simp
    intros
    (repeat' constructor) <;>
      first | assumption | omega | (simp_all; done) | (convert ‹CtxBal rest _› using 1; omega)
  · revert h7 h6
    simp only [CtxBal, Frame.sibling, Frame.color, bheight, Balanced]
    simp
    intros
    (repeat' constructor) <;>
      first | assumption | omega | (simp_all; done) | (convert ‹CtxBal rest _› using 1; omega)

theorem del_case3R {t : rbTree} {rest : List Frame} {s wnn wnf wf : Shape} {p ww a : Nat}
    {cp : nodeColor} (h : DelState t ((Frame.R (Shape.node wf ww nodeColor.BLACK (Shape.node wnf a nodeColor.RED wnn)) p cp) :: rest) s) (hnf : rootColor wf = nodeColor.BLACK) :
    ∃ t1, delCase3R t s.ptr ww = (t1, a) ∧ DelState t1 ((Frame.R (Shape.node (Shape.node wf ww nodeColor.RED wnf) a nodeColor.BLACK wnn) p cp) :: rest) s ∧
      (∀ b, (t1.mem b).data = (t.mem b).data) := by
  obtain ⟨h1, h2, h3, h4, h5, h6, h7⟩ := h
  obtain ⟨nw, hcr, nrest⟩ := h5
  simp only [Frame.sibling] at nw
  simp only [ctxPar, Frame.addr] at h2
  have hp := isTree_focus (show IsTree t (plug rest (Shape.node (Shape.node wf ww nodeColor.BLACK (Shape.node wnf a nodeColor.RED wnn)) p cp s)) from h1)
  have hw := isTree_focus (show IsTree t (plug ((Frame.L p cp s) :: rest) (Shape.node wf ww nodeColor.BLACK (Shape.node wnf a nodeColor.RED wnn))) from h1)
  have ha := isTree_focus (show IsTree t (plug ((Frame.R wf ww nodeColor.BLACK) ::
    (Frame.L p cp s) :: rest) (Shape.node wnf a nodeColor.RED wnn)) from h1)
  simp only [Shape.ptr_node, ctxPar, Frame.addr] at hp hw ha
  have hlw := ((isTree_plug_iff _ _ _).1 (show IsTree t (plug ((Frame.L p cp s) :: rest)
    (Shape.node wf ww nodeColor.BLACK (Shape.node wnf a nodeColor.RED wnn))) from h1)).2.2.1
  have hcf : (t.mem wf.ptr).color = rootColor wf := getColor_ptr h3 hlw.2.2.2.2.2.1
  have k1 := isTree_setColor nodeColor.BLACK (show IsTree t (plug ((Frame.R wf ww nodeColor.BLACK) ::
    (Frame.L p cp s) :: rest) (Shape.node wnf a nodeColor.RED wnn)) from h1)
  have k2 := isTree_setColor nodeColor.RED (show IsTree (t.setColor a nodeColor.BLACK)
    (plug ((Frame.L p cp s) :: rest) (Shape.node wf ww nodeColor.BLACK (Shape.node wnf a nodeColor.BLACK wnn))) from k1)
  obtain ⟨k3, k3n⟩ := rotateLeft_spec k2
  have hp3 := isTree_focus (show IsTree (((t.setColor a nodeColor.BLACK).setColor ww nodeColor.RED).rotateLeft ww)
    (plug rest (Shape.node (Shape.node (Shape.node wf ww nodeColor.RED wnf) a nodeColor.BLACK wnn) p cp s)) from k3)
  simp only [Shape.ptr_node, ctxPar, Frame.addr] at hp3
  have hpar' : ((((t.setColor a nodeColor.BLACK).setColor ww nodeColor.RED).rotateLeft ww).mem s.ptr).parent = p := by
    cases s with
    | leaf =>
      rw [Shape.ptr_leaf, k3n]
      simpa [rbTree.setColor_mem_ne, Ne.symm ha.1, Ne.symm hw.1] using h2
    | node sl sa sc sr =>
      exact (isTree_focus (show IsTree (((t.setColor a nodeColor.BLACK).setColor ww nodeColor.RED).rotateLeft ww) (plug ((Frame.R (Shape.node (Shape.node wf ww nodeColor.RED wnf) a nodeColor.BLACK wnn) p cp) :: rest) (Shape.node sl sa sc sr))
        from k3)).2.2.2.1
  refine ⟨_, ?_, ⟨k3, hpar', ?_, h4, ⟨?_, ?_, nrest⟩, h6, ?_⟩, ?_⟩
  · simp [delCase3R, h2, hw.2.1, hw.2.2.1, hcf, hnf, hpar', hp3.2.1, hp3.2.2.1]
  · rw [k3n]
    simpa [rbTree.setColor_mem_ne, Ne.symm ha.1, Ne.symm hw.1] using h3
  · simp only [Frame.sibling, NoRedRed, rootColor] at nw ⊢
    simp at nw ⊢
    tauto
  · intro hc
    exact ⟨rfl, (hcr hc).2⟩
  · revert h7 h6
    simp only [CtxBal, Frame.sibling, Frame.color, bheight, Balanced]
    simp
    intros
    (repeat' constructor) <;>
      first | assumption | omega | (simp_all; done) | (convert ‹CtxBal rest _› using 1; omega)
  · intro b
    rw [(rotateLeft_color_data _ _ _).2]
    simp

theorem del_case3R_noop {t : rbTree} {rest : List Frame} {s wn wf : Shape} {p ww : Nat}
    {cp : nodeColor} (h : DelState t ((Frame.R (Shape.node wf ww nodeColor.BLACK wn) p cp) :: rest) s) (hnf : rootColor wf = nodeColor.RED) :
    delCase3R t s.ptr ww = (t, ww) := by
  obtain ⟨h1, h2, h3, -⟩ := h
  have hw := isTree_focus (show IsTree t (plug ((Frame.L p cp s) :: rest) (Shape.node wf ww nodeColor.BLACK wn)) from h1)
  simp only [Shape.ptr_node, ctxPar, Frame.addr] at hw
  have hlw := ((isTree_plug_iff _ _ _).1 (show IsTree t (plug ((Frame.L p cp s) :: rest)
    (Shape.node wf ww nodeColor.BLACK wn)) from h1)).2.2.1
  have hcf : (t.mem wf.ptr).color = rootColor wf := getColor_ptr h3 hlw.2.2.2.2.2.1
  simp [delCase3R, hw.2.1, hw.2.2.1, hcf, hnf]

theorem del_case4R {t : rbTree} {rest : List Frame} {s wn wfn wff : Shape} {p ww b : Nat}
    {cp : nodeColor} (h : DelState t ((Frame.R (Shape.node (Shape.node wff b nodeColor.RED wfn) ww nodeColor.BLACK wn) p cp) :: rest) s) (hs : rootColor s = nodeColor.BLACK) :
    ∃ t1, delCase4R t s.ptr ww = (t1, t1.root) ∧
      IsTree t1 (plug rest (Shape.node (Shape.node wff b nodeColor.BLACK wfn) ww cp (Shape.node wn p nodeColor.BLACK s))) ∧
      NoRedRed (plug rest (Shape.node (Shape.node wff b nodeColor.BLACK wfn) ww cp (Shape.node wn p nodeColor.BLACK s))) ∧ Balanced (plug rest (Shape.node (Shape.node wff b nodeColor.BLACK wfn) ww cp (Shape.node wn p nodeColor.BLACK s))) ∧
      (t1.mem NIL).color = nodeColor.BLACK ∧ (∀ c, (t1.mem c).data = (t.mem c).data) := by
  obtain ⟨h1, h2, h3, h4, h5, h6, h7⟩ := h
  obtain ⟨nw, hcr, nrest⟩ := h5
  simp only [Frame.sibling] at nw
  simp only [ctxPar, Frame.addr] at h2
  have hp := isTree_focus (show IsTree t (plug rest (Shape.node (Shape.node (Shape.node wff b nodeColor.RED wfn) ww nodeColor.BLACK wn) p cp s)) from h1)
  have hw := isTree_focus (show IsTree t (plug ((Frame.L p cp s) :: rest) (Shape.node (Shape.node wff b nodeColor.RED wfn) ww nodeColor.BLACK wn)) from h1)
  have hb := isTree_focus (show IsTree t (plug ((Frame.L ww nodeColor.BLACK wn) ::
    (Frame.L p cp s) :: rest) (Shape.node wff b nodeColor.RED wfn)) from h1)
  simp only [Shape.ptr_node, ctxPar, Frame.addr] at hp hw hb
  have k1 := isTree_setColor cp (show IsTree t (plug ((Frame.L p cp s) :: rest) (Shape.node (Shape.node wff b nodeColor.RED wfn) ww nodeColor.BLACK wn))
    from h1)
  have k2 := isTree_setColor nodeColor.BLACK (show IsTree (t.setColor ww cp)
    (plug rest (Shape.node (Shape.node (Shape.node wff b nodeColor.RED wfn) ww cp wn) p cp s)) from k1)
  have k3 := isTree_setColor nodeColor.BLACK (show IsTree ((t.setColor ww cp).setColor p nodeColor.BLACK)
    (plug ((Frame.L ww cp wn) :: (Frame.L p nodeColor.BLACK s) :: rest) (Shape.node wff b nodeColor.RED wfn)) from k2)
  obtain ⟨k4, k4n⟩ := rotateRight_spec (show IsTree
    (((t.setColor ww cp).setColor p nodeColor.BLACK).setColor b nodeColor.BLACK)
    (plug rest (Shape.node (Shape.node (Shape.node wff b nodeColor.BLACK wfn) ww cp wn) p nodeColor.BLACK s)) from k3)
  refine ⟨_, ?_, k4, ?_, ?_, ?_, ?_⟩
  · simp [delCase4R, h2, hp.2.2.2.2, hw.2.1, hw.2.2.1]
  · refine ((noRedRed_plug rest _).2 ⟨?_, nrest, ?_⟩).1
    · have hns := noRedRed_of_below h4 hs
      simp only [NoRedRed, rootColor] at nw ⊢
      simp at nw ⊢
      tauto
    · intro hpc
      simp only [rootColor]
      rcases color_cases cp with hc | hc
      · have := (hcr hc).2
        rw [hpc] at this
        cases this
      · exact hc
  · rw [balanced_plug]
    revert h7 h6
    simp only [CtxBal, Frame.sibling, Frame.color, bheight, Balanced]
    simp
    intros
    (repeat' constructor) <;>
      first | assumption | omega | (simp_all; done) | (convert ‹CtxBal rest _› using 1; omega)
  · rw [k4n]
    simpa [rbTree.setColor_mem_ne, Ne.symm hp.1, Ne.symm hw.1, Ne.symm hb.1] using h3
  · intro c
    rw [(rotateRight_color_data _ _ _).2]
    simp

theorem delRestR_else {t : rbTree} {rest : List Frame} {s wn wf : Shape} {p ww : Nat}
    {cp : nodeColor} (h : DelState t ((Frame.R (Shape.node wf ww nodeColor.BLACK wn) p cp) :: rest) s)
    (hnb : ¬ (rootColor wn = nodeColor.BLACK ∧ rootColor wf = nodeColor.BLACK)) :
    delRestR t s.ptr ww =
      delCase4R (delCase3R t s.ptr ww).1 s.ptr (delCase3R t s.ptr ww).2 := by
  obtain ⟨h1, h2, h3, -⟩ := h
  have hw := isTree_focus (show IsTree t (plug ((Frame.L p cp s) :: rest) (Shape.node wf ww nodeColor.BLACK wn)) from h1)
  simp only [Shape.ptr_node, ctxPar, Frame.addr] at hw
  have hlw := ((isTree_plug_iff _ _ _).1 (show IsTree t (plug ((Frame.L p cp s) :: rest)
    (Shape.node wf ww nodeColor.BLACK wn)) from h1)).2.2.1
  have hcn : (t.mem wn.ptr).color = rootColor wn := getColor_ptr h3 hlw.2.2.2.2.2.2
  have hcf : (t.mem wf.ptr).color = rootColor wf := getColor_ptr h3 hlw.2.2.2.2.2.1
  unfold delRestR
  rw [if_neg]
  simp only [rbTree.getColor, rbTree.getLeft, rbTree.getRight, hw.2.1, hw.2.2.1, hcn, hcf]
  tauto

theorem del_restR {t : rbTree} {rest : List Frame} {s wn wf : Shape} {p ww : Nat}
    {cp : nodeColor} (h : DelState t ((Frame.R (Shape.node wf ww nodeColor.BLACK wn) p cp) :: rest) s) (hs : rootColor s = nodeColor.BLACK) :
    (delRestR t s.ptr ww = (t.setColor ww nodeColor.RED, p) ∧
      DelState (t.setColor ww nodeColor.RED) rest (Shape.node (Shape.node wf ww nodeColor.RED wn) p cp s)) ∨
    (∃ t1 sh1, delRestR t s.ptr ww = (t1, t1.root) ∧ IsTree t1 sh1 ∧
      sh1.addrs = (plug ((Frame.R (Shape.node wf ww nodeColor.BLACK wn) p cp) :: rest) s).addrs ∧ NoRedRed sh1 ∧ Balanced sh1 ∧
      (t1.mem NIL).color = nodeColor.BLACK ∧ (∀ c, (t1.mem c).data = (t.mem c).data)) := by
  rcases color_cases (rootColor wf) with hf | hf
  · obtain ⟨wff, b, wfn, rfl⟩ := rootColor_red_node hf
    right
    have e3 := del_case3R_noop h hf
    obtain ⟨t1, e4, k, n, b, c, d⟩ := del_case4R h hs
    refine ⟨t1, _, ?_, k, ?_, n, b, c, d⟩
    · rw [delRestR_else h (by simp [rootColor]), e3]
      exact e4
    · simp [plug_addrs]
  · rcases color_cases (rootColor wn) with hn | hn
    · obtain ⟨wnf, a, wnn, rfl⟩ := rootColor_red_node hn
      right
      obtain ⟨t3, e3, st3, d3⟩ := del_case3R h hf
      obtain ⟨t4, e4, k, n, b, c, d⟩ := del_case4R st3 hs
      refine ⟨t4, _, ?_, k, ?_, n, b, c, fun x => (d x).trans (d3 x)⟩
      · rw [delRestR_else h (by simp [rootColor]), e3]
        exact e4
      · simp [plug_addrs]
    · left
      exact del_case2R h hs hn hf

/-! ### The loop of the delete fix-up -/

theorem DeletionRebalance_loop (fuel : Nat) :
    ∀ (t : rbTree) (ctx : List Frame) (s : Shape), DelState t ctx s →
      (if rootColor s = nodeColor.RED then 0 else ctx.length) < fuel →
      ∃ t', DeletionRebalance fuel t s.ptr = some t' ∧ DelPost t (plug ctx s) t' := by
  induction fuel with
  | zero => intro t ctx s _ hf; exact absurd hf (Nat.not_lt_zero _)
  | succ fuel ih =>
    intro t ctx s hst hf
    by_cases hx : ctx = [] ∨ rootColor s = nodeColor.RED
    · refine ⟨_, ?_, del_exit hst hx⟩
      have : ¬ (s.ptr ≠ t.root ∧ t.getColor s.ptr = nodeColor.BLACK) := by
        rcases hx with rfl | hx
        · have := hst.tree.root
          simp only [plug_nil] at this
          simp [this]
        · obtain ⟨l, a, r, rfl⟩ := rootColor_red_node hx
          have := (isTree_focus hst.tree).2.2.2.2
          simp [this]
      simp only [DeletionRebalance, if_neg this]
    · simp only [not_or] at hx
      have hsb : rootColor s = nodeColor.BLACK := by
        rcases color_cases (rootColor s) with h | h
        · exact absurd h hx.2
        · exact h
      have hlay := (isTree_plug_iff _ _ _).1 hst.tree
      have hcond : s.ptr ≠ t.root ∧ t.getColor s.ptr = nodeColor.BLACK := by
        constructor
        · rw [hlay.1]
          intro e
          have hm := ctxRoot_mem hx.1 s.ptr
          rw [← e] at hm
          rcases (ptr_mem_or : s.ptr = NIL ∧ s = Shape.leaf ∨ s.ptr ∈ s.addrs) with hs0 | hs0
          · rw [hs0.1] at hm
            exact layoutCtx_zero_not_mem hlay.2.1 hm
          · exact hlay.2.2.2.2.2 _ hs0 hm
        · simp only [rbTree.getColor]
          rw [getColor_ptr hst.sentinel hlay.2.2.1]
          exact hsb
      simp only [DeletionRebalance, if_pos hcond]
      cases ctx with
      | nil => exact absurd rfl hx.1
      | cons f rest =>
      have hf' : rest.length + 1 < fuel + 1 := by simpa [hsb] using hf
      clear hf
      cases f with
      | L p cp w =>
        -- the sibling is a real node, because its black height is positive
        have hwpos : 0 < bheight w := by
          have hb1 := hst.balC.1
          simp only [Frame.sibling] at hb1
          omega
        obtain ⟨wn, ww, cw, wf, rfl⟩ := bheight_pos_node hwpos
        have hp := isTree_focus (show IsTree t (plug rest (Shape.node s p cp (Shape.node wn ww cw wf)))
          from hst.tree)
        have hw0 := (isTree_focus (show IsTree t (plug ((Frame.R s p cp) :: rest)
          (Shape.node wn ww cw wf)) from hst.tree)).1
        simp only [Shape.ptr_node, ctxPar, Frame.addr] at hp
        have hil : t.isLeftChild s.ptr = true := by
          simp [hst.par, ctxPar, Frame.addr, hp.2.1]
        rw [DeletionRebalanceBody_eq, if_pos hil]
        -- after case 1 the sibling is BLACK
        obtain ⟨t1, rest1, cp1, wn1, ww1, wf1, e1, st1, d1, a1, hm1⟩ :
            ∃ (t1 : rbTree) (rest1 : List Frame) (cp1 : nodeColor) (wn1 : Shape) (ww1 : Nat)
              (wf1 : Shape),
              delCase1L t s.ptr = (t1, ww1) ∧
              DelState t1 ((Frame.L p cp1 (Shape.node wn1 ww1 nodeColor.BLACK wf1)) :: rest1) s ∧
              (∀ c, (t1.mem c).data = (t.mem c).data) ∧
              (plug ((Frame.L p cp1 (Shape.node wn1 ww1 nodeColor.BLACK wf1)) :: rest1) s).addrs =
                (plug ((Frame.L p cp (Shape.node wn ww cw wf)) :: rest) s).addrs ∧
              ((if cp1 = nodeColor.RED then 0 else rest1.length) < fuel) := by
          rcases color_cases cw with hcw | hcw
          · subst hcw
            obtain ⟨t1, e1, st1, d1, hbn, hcp⟩ := del_case1L hst
            have hpos : 0 < bheight wn := by
              have hb1 := st1.balC.1
              simp only [Frame.sibling] at hb1
              omega
            obtain ⟨wnn, a, ca, wnf, rfl⟩ := bheight_pos_node hpos
            simp only [rootColor] at hbn
            subst hbn
            refine ⟨t1, _, _, _, _, _, e1, st1, d1, by simp [plug_addrs], ?_⟩
            simp only [if_true]
            omega
          · subst hcw
            refine ⟨t, rest, cp, wn, ww, wf, del_case1L_noop hst, hst, fun _ => rfl, rfl, ?_⟩
            split_ifs <;> omega
        rw [e1]
        rcases del_restL st1 hsb with ⟨e2, st2⟩ | ⟨t4, sh4, e2, k4, ad4, n4, b4, c4, d4⟩
        · rw [e2]
          obtain ⟨t', e3, post⟩ := ih _ rest1 _ st2 (by simpa [rootColor] using hm1)
          refine ⟨t', e3, delPost_trans ?_ (fun c => (by simp : _ = (t1.mem c).data).trans (d1 c))
            post⟩
          rw [← a1]
          simp [plug_addrs]
        · rw [e2]
          have hfpos : 0 < fuel := by omega
          obtain ⟨fuel', rfl⟩ : ∃ f', fuel = f' + 1 := ⟨fuel - 1, by omega⟩
          refine ⟨t4.setColor t4.root nodeColor.BLACK, by simp [DeletionRebalance], ?_⟩
          obtain ⟨sh', q1, q2, q3, q4, q5, q6, q7⟩ := blacken_root k4 c4 n4
          exact ⟨sh', q1, by rw [q2, ad4, a1], fun c => ((q3 c).trans (d4 c)).trans (d1 c),
            by rw [q4]; exact c4, q5, q6, q7 trivial b4⟩
      | R w p cp =>
        -- the sibling is a real node, because its black height is positive
        have hwpos : 0 < bheight w := by
          have hb1 := hst.balC.1
          simp only [Frame.sibling] at hb1
          omega
        obtain ⟨wf, ww, cw, wn, rfl⟩ := bheight_pos_node hwpos
        have hp := isTree_focus (show IsTree t (plug rest (Shape.node (Shape.node wf ww cw wn) p cp s))
          from hst.tree)
        have hw0 := (isTree_focus (show IsTree t (plug ((Frame.L p cp s) :: rest)
          (Shape.node wf ww cw wn)) from hst.tree)).1
        simp only [Shape.ptr_node, ctxPar, Frame.addr] at hp
        have hil : t.isLeftChild s.ptr = false := by
          have hne : s.ptr ≠ ww := by
            rcases (ptr_mem_or : s.ptr = NIL ∧ s = Shape.leaf ∨ s.ptr ∈ s.addrs) with hs0 | hs0
            · rw [hs0.1]; exact Ne.symm hw0
            · intro e
              have := (isTree_not_mem_sibling hst.tree) _ hs0
              simp only [Frame.sibling, Shape.addrs_node, List.mem_append, List.mem_cons,
                not_or] at this
              exact this.1.2.1 e
          simp [hst.par, ctxPar, Frame.addr, hp.2.1, hne]
        rw [DeletionRebalanceBody_eq, if_neg (by rw [hil]; exact Bool.false_ne_true)]
        -- after case 1 the sibling is BLACK
        obtain ⟨t1, rest1, cp1, wn1, ww1, wf1, e1, st1, d1, a1, hm1⟩ :
            ∃ (t1 : rbTree) (rest1 : List Frame) (cp1 : nodeColor) (wn1 : Shape) (ww1 : Nat)
              (wf1 : Shape),
              delCase1R t s.ptr = (t1, ww1) ∧
              DelState t1 ((Frame.R (Shape.node wf1 ww1 nodeColor.BLACK wn1) p cp1) :: rest1) s ∧
              (∀ c, (t1.mem c).data = (t.mem c).data) ∧
              (plug ((Frame.R (Shape.node wf1 ww1 nodeColor.BLACK wn1) p cp1) :: rest1) s).addrs =
                (plug ((Frame.R (Shape.node wf ww cw wn) p cp) :: rest) s).addrs ∧
              ((if cp1 = nodeColor.RED then 0 else rest1.length) < fuel) := by
          rcases color_cases cw with hcw | hcw
          · subst hcw
            obtain ⟨t1, e1, st1, d1, hbn, hcp⟩ := del_case1R hst
            have hpos : 0 < bheight wn := by
              have hb1 := st1.balC.1
              simp only [Frame.sibling] at hb1
              omega
            obtain ⟨wnf, a, ca, wnn, rfl⟩ := bheight_pos_node hpos
            simp only [rootColor] at hbn
            subst hbn
            refine ⟨t1, _, _, _, _, _, e1, st1, d1, by simp [plug_addrs], ?_⟩
            simp only [if_true]
            omega
          · subst hcw
            refine ⟨t, rest, cp, wn, ww, wf, del_case1R_noop hst, hst, fun _ => rfl, rfl, ?_⟩
            split_ifs <;> omega
        rw [e1]
        rcases del_restR st1 hsb with ⟨e2, st2⟩ | ⟨t4, sh4, e2, k4, ad4, n4, b4, c4, d4⟩
        · rw [e2]
          obtain ⟨t', e3, post⟩ := ih _ rest1 _ st2 (by simpa [rootColor] using hm1)
          refine ⟨t', e3, delPost_trans ?_ (fun c => (by simp : _ = (t1.mem c).data).trans (d1 c))
            post⟩
          rw [← a1]
          simp [plug_addrs]
        · rw [e2]
          have hfpos : 0 < fuel := by omega
          obtain ⟨fuel', rfl⟩ : ∃ f', fuel = f' + 1 := ⟨fuel - 1, by omega⟩
          refine ⟨t4.setColor t4.root nodeColor.BLACK, by simp [DeletionRebalance], ?_⟩
          obtain ⟨sh', q1, q2, q3, q4, q5, q6, q7⟩ := blacken_root k4 c4 n4
          exact ⟨sh', q1, by rw [q2, ad4, a1], fun c => ((q3 c).trans (d4 c)).trans (d1 c),
            by rw [q4]; exact c4, q5, q6, q7 trivial b4⟩

/-! ### The function rbTree::deleteNode -/

@[simp] theorem rbTree.setLeft_data (t : rbTree) (a b : Nat) (v : Nat) :
    ((t.setLeft a v).mem b).data = (t.mem b).data := by
  simp [rbNode.data]

@[simp] theorem rbTree.setRight_data (t : rbTree) (a b : Nat) (v : Nat) :
    ((t.setRight a v).mem b).data = (t.mem b).data := by
  simp [rbNode.data]

@[simp] theorem rbTree.setParent_data (t : rbTree) (a b : Nat) (v : Nat) :
    ((t.setParent a v).mem b).data = (t.mem b).data := by
  simp [rbNode.data]

theorem ptr_eq_zero_iff {m : Mem} {par : Nat} {s : Shape} (hl : Layout m par s) :
    s.ptr = NIL ↔ s = Shape.leaf := by
  cases s with
  | leaf => simp
  | node l a c r => simpa using hl.1

theorem ptr_not_mem {m : Mem} {par : Nat} {s : Shape} {l : List Nat} (hl : Layout m par s)
    (h0 : NIL ∉ l) (h : ∀ a ∈ s.addrs, a ∉ l) : s.ptr ∉ l := by
  rcases (ptr_mem_or : s.ptr = NIL ∧ s = Shape.leaf ∨ s.ptr ∈ s.addrs) with hs | hs
  · rw [hs.1]; exact h0
  · exact h _ hs

theorem ptr_ne {s : Shape} {x : Nat} (h0 : x ≠ NIL) (h : x ∉ s.addrs) : s.ptr ≠ x :=
  fun e => ptr_ne_of_not_mem h0 h e.symm

/-- Every node of a shape is the focus of some path. -/
theorem mem_addrs_plug {sh : Shape} {a : Nat} (h : a ∈ sh.addrs) :
    ∃ ctx l c r, sh = plug ctx (Shape.node l a c r) := by
  induction sh with
  | leaf => simp at h
  | node l b c r ihl ihr =>
    rw [mem_addrs_node] at h
    rcases h with h | rfl | h
    · obtain ⟨ctx, l', c', r', e⟩ := ihl h
      exact ⟨ctx ++ [Frame.L b c r], l', c', r', by rw [plug_append, ← e]; rfl⟩
    · exact ⟨[], l, c, r, rfl⟩
    · obtain ⟨ctx, l', c', r', e⟩ := ihr h
      exact ⟨ctx ++ [Frame.R l b c], l', c', r', by rw [plug_append, ← e]; rfl⟩

/-- The leftmost node of a non-empty subtree, as found by getMinimumNode. -/
theorem getMinimumNode_spec (t : rbTree) :
    ∀ (s : Shape) (par fuel : Nat), Layout t.mem par s → s ≠ Shape.leaf → s.height ≤ fuel →
      ∃ (cR : List Frame) (y : Nat) (cy : nodeColor) (yr : Shape),
        s = plug cR (Shape.node Shape.leaf y cy yr) ∧ ctxLeft cR = [] ∧
        cR.length + 1 ≤ s.height ∧ getMinimumNode fuel t s.ptr = some y := by
  intro s
  induction s with
  | leaf => intro par fuel _ h; exact absurd rfl h
  | node l a c r ihl _ =>
    intro par fuel hl _ hf
    obtain ⟨ha0, hap, hal, har, hac, hL, hR⟩ := hl
    cases fuel with
    | zero => simp [Shape.height] at hf
    | succ fuel =>
      simp only [Shape.height, Nat.add_le_add_iff_right] at hf
      by_cases hleaf : l = Shape.leaf
      · subst hleaf
        refine ⟨[], a, c, r, rfl, rfl, by simp [Shape.height], ?_⟩
        simp [getMinimumNode, hal]
      · obtain ⟨cR, y, cy, yr, e, hcl, hlen, hmin⟩ :=
          ihl a fuel hL hleaf (le_trans (le_max_left _ _) hf)
        refine ⟨cR ++ [Frame.L a c r], y, cy, yr, ?_, ?_, ?_, ?_⟩
        · rw [plug_append, ← e]; rfl
        · rw [ctxLeft_append, hcl]; rfl
        · simp only [List.length_append, List.length_singleton, Shape.height]
          have := le_max_left l.height r.height
          omega
        · have hne : l.ptr ≠ NIL := fun h0 => hleaf ((ptr_eq_zero_iff hL).1 h0)
          simp only [getMinimumNode, Shape.ptr_node, getLeft, hal, ne_eq, hne, not_false_eq_true,
            if_true]
          exact hmin

/-- Replacing the node of a frame by another node of the same colour changes no colour
bookkeeping of the path. -/
theorem ctx_readdr (c1 c2 : List Frame) (l : Shape) (z y : Nat) (cz : nodeColor) :
    (CtxNRR (c1 ++ Frame.R l y cz :: c2) ↔ CtxNRR (c1 ++ Frame.R l z cz :: c2)) ∧
    (∀ k, CtxBal (c1 ++ Frame.R l y cz :: c2) k ↔ CtxBal (c1 ++ Frame.R l z cz :: c2) k) ∧
    parColor (c1 ++ Frame.R l y cz :: c2) = parColor (c1 ++ Frame.R l z cz :: c2) := by
  induction c1 with
  | nil => simp [CtxNRR, CtxBal, Frame.sibling, Frame.color]
  | cons f rest ih =>
    obtain ⟨i1, i2, i3⟩ := ih
    refine ⟨?_, ?_, ?_⟩
    · show (_ ∧ (_ → _ ∧ parColor (rest ++ Frame.R l y cz :: c2) = _) ∧
          CtxNRR (rest ++ Frame.R l y cz :: c2)) ↔
        (_ ∧ (_ → _ ∧ parColor (rest ++ Frame.R l z cz :: c2) = _) ∧
          CtxNRR (rest ++ Frame.R l z cz :: c2))
      rw [i1, i3]
    · intro k
      show (_ ∧ _ ∧ CtxBal (rest ++ Frame.R l y cz :: c2) _) ↔
        (_ ∧ _ ∧ CtxBal (rest ++ Frame.R l z cz :: c2) _)
      rw [i2]
    · simp

/-- Splicing: the node z at the hole of a path is replaced by one of its subtrees. -/
theorem splice_spec {t : rbTree} {ctx : List Frame} {z : Nat} {s : Shape}
    (hroot : t.root = ctxRoot ctx z) (hctx : LayoutCtx t.mem ctx z) (hz0 : z ≠ NIL)
    (hzp : (t.mem z).parent = ctxPar ctx) (hz : z ∉ ctxAddrs ctx)
    (hnd : (ctxAddrs ctx).Nodup) (hs : Layout t.mem z s) (hsn : s.addrs.Nodup)
    (hzs : z ∉ s.addrs) (hdis : ∀ a ∈ s.addrs, a ∉ ctxAddrs ctx) :
    IsTree (t.UpdateParentChildLink (ctxPar ctx) z s.ptr) (plug ctx s) ∧
    ((t.UpdateParentChildLink (ctxPar ctx) z s.ptr).mem s.ptr).parent = ctxPar ctx ∧
    (∀ a, a ≠ s.ptr → a ∉ ctxAddrs ctx →
      (t.UpdateParentChildLink (ctxPar ctx) z s.ptr).mem a = t.mem a) := by
  have hc0 := layoutCtx_zero_not_mem hctx
  have hnew : s.ptr ∉ ctxAddrs ctx := ptr_not_mem hs hc0 hdis
  have hne : s.ptr ≠ z := ptr_ne hz0 hzs
  obtain ⟨u1, u2, u3, u4, u5, u6⟩ :=
    @UPCL_spec t ctx z s.ptr hroot hctx hz0 hzp hz hnew hne hnd
  refine ⟨(isTree_plug_iff _ _ _).2 ⟨u1, u2, ?_, hsn, hnd, hdis⟩, u3, u6⟩
  exact layout_reparent hs hsn (fun _ => ⟨u4, u5, u3, (UPCL_color_data _ _ _ _ _).1⟩)
    (fun a ha hne' => u6 a hne' (hdis a ha))

theorem replaceTail_spec {t : rbTree} {ctx : List Frame} {l R : Shape} {z y : Nat}
    {cz : nodeColor}
    (hroot : t.root = ctxRoot ctx z) (hctx : LayoutCtx t.mem ctx z) (hz0 : z ≠ NIL)
    (hzp : (t.mem z).parent = ctxPar ctx) (hzl : (t.mem z).left = l.ptr)
    (hzc : (t.mem z).color = cz) (hz : z ∉ ctxAddrs ctx) (hzy : z ≠ y)
    (hl : Layout t.mem z l) (hy0 : y ≠ NIL) (hyr : (t.mem y).right = R.ptr)
    (hR : Layout t.mem y R) (hnd : (Shape.node l y cz R).addrs.Nodup)
    (hcnd : (ctxAddrs ctx).Nodup)
    (hdis : ∀ a ∈ (Shape.node l y cz R).addrs, a ∉ ctxAddrs ctx) :
    IsTree (replaceTail t z y) (plug ctx (Shape.node l y cz R)) ∧
    (∀ a, a ≠ y → a ≠ l.ptr → a ∉ ctxAddrs ctx → (replaceTail t z y).mem a = t.mem a) ∧
    (∀ a, ((replaceTail t z y).mem a).data = (t.mem a).data) ∧
    (∀ a, a ≠ y → ((replaceTail t z y).mem a).color = (t.mem a).color) := by
  have hc0 := layoutCtx_zero_not_mem hctx
  have hL0 := layout_zero_not_mem hl
  have hR0 := layout_zero_not_mem hR
  rw [nodup_node] at hnd
  obtain ⟨hyl, hyR, ndl, ndR, dlR⟩ := hnd
  have hyc : y ∉ ctxAddrs ctx := hdis y (by simp)
  have hlc : ∀ a ∈ l.addrs, a ∉ ctxAddrs ctx := fun a ha => hdis a (by simp [ha])
  have hRc : ∀ a ∈ R.addrs, a ∉ ctxAddrs ctx := fun a ha => hdis a (by simp [ha])
  have hlpc : l.ptr ∉ ctxAddrs ctx := ptr_not_mem hl hc0 hlc
  have hlpy : l.ptr ≠ y := ptr_ne hy0 hyl
  obtain ⟨u1, u2, u3, u4, u5, u6⟩ :=
    @UPCL_spec t ctx z y hroot hctx hz0 hzp hz hyc (Ne.symm hzy) hcnd
  have hcd := UPCL_color_data t (ctxPar ctx) z y
  have e : replaceTail t z y =
      (((t.UpdateParentChildLink (ctxPar ctx) z y).setLeft y l.ptr).setParent l.ptr y).setColor
        y cz := by
    simp only [replaceTail, getParent, getLeft, getColor, hzp]
    rw [u6 z hzy hz, hzl]
    simp [(hcd z).1, hzc]
  rw [e]
  have hfin : ∀ a, a ≠ y → a ≠ l.ptr → a ∉ ctxAddrs ctx →
      ((((t.UpdateParentChildLink (ctxPar ctx) z y).setLeft y l.ptr).setParent l.ptr
        y).setColor y cz).mem a = t.mem a := by
    intro a h1 h2 h3
    rw [rbTree.setColor_mem_ne _ _ h1, rbTree.setParent_mem_ne _ _ h2,
      rbTree.setLeft_mem_ne _ _ h1, u6 a h1 h3]
  refine ⟨(isTree_plug_iff _ _ _).2 ⟨by simpa using u1, ?_, ?_, ?_, hcnd, hdis⟩, hfin, ?_, ?_⟩
  · refine layoutCtx_congr (fun a ha => ?_) u2
    have h1 : a ≠ y := by rintro rfl; exact hyc ha
    have h2 : a ≠ l.ptr := by rintro rfl; exact hlpc ha
    rw [rbTree.setColor_mem_ne _ _ h1, rbTree.setParent_mem_ne _ _ h2,
      rbTree.setLeft_mem_ne _ _ h1]
  · refine ⟨hy0, ?_, ?_, ?_, ?_, ?_, ?_⟩
    · simp [Ne.symm hlpy, u3]
    · simp
    · simp [u5, hyr]
    · simp
    · refine layout_reparent hl ndl (fun hl0 => ?_) (fun a ha hne => ?_)
      · have e1 := u6 l.ptr hlpy hlpc
        refine ⟨?_, ?_, ?_, ?_⟩ <;> simp [hlpy, e1]
      · exact hfin a (by rintro rfl; exact hyl ha) hne (hlc a ha)
    · refine layout_congr (fun a ha => ?_) hR
      refine hfin a (by rintro rfl; exact hyR ha) ?_ (hRc a ha)
      rcases (ptr_mem_or : l.ptr = NIL ∧ l = Shape.leaf ∨ l.ptr ∈ l.addrs) with hs | hs
      · rw [hs.1]; rintro rfl; exact hR0 ha
      · rintro rfl; exact dlR _ hs ha
  · rw [nodup_node]; exact ⟨hyl, hyR, ndl, ndR, dlR⟩
  · intro a
    simp [(hcd a).2]
  · intro a ha
    simp [ha, (hcd a).1]

theorem replaceSteps_spec {t : rbTree} {ctx : List Frame} {l r : Shape} {z y : Nat}
    {cz : nodeColor} (h : IsTree t (plug ctx (Shape.node l z cz r))) (hy0 : y ≠ NIL)
    (hy : y ∉ (plug ctx (Shape.node l z cz r)).addrs) :
    IsTree (replaceSteps t z y) (plug ctx (Shape.node l y cz r)) ∧
    (∀ a, a ≠ y → a ≠ l.ptr → a ≠ r.ptr → a ∉ ctxAddrs ctx →
      (replaceSteps t z y).mem a = t.mem a) ∧
    (∀ a, ((replaceSteps t z y).mem a).data = (t.mem a).data) ∧
    (∀ a, a ≠ y → ((replaceSteps t z y).mem a).color = (t.mem a).color) := by
  have hfoc := isTree_focus h
  rw [isTree_plug_iff] at h
  obtain ⟨hroot, hctx, hlay, hnd, hcnd, hdisj⟩ := h
  obtain ⟨hz0, hzp, hzl, hzr, hzc, hL, hR⟩ := hlay
  have hc0 := layoutCtx_zero_not_mem hctx
  have hL0 := layout_zero_not_mem hL
  have hR0 := layout_zero_not_mem hR
  rw [plug_addrs] at hy
  simp only [Shape.addrs_node, List.mem_append, List.mem_cons, not_or] at hy
  obtain ⟨⟨hycl, hyl, hyz, hyr⟩, hycr⟩ := hy
  have hyc : y ∉ ctxAddrs ctx := by simp [ctxAddrs, hycl, hycr]
  rw [nodup_node] at hnd
  obtain ⟨hzl', hzr', ndl, ndr, dlr⟩ := hnd
  have hzc' : z ∉ ctxAddrs ctx := hdisj z (by simp)
  have hlc : ∀ a ∈ l.addrs, a ∉ ctxAddrs ctx := fun a ha => hdisj a (by simp [ha])
  have hrc : ∀ a ∈ r.addrs, a ∉ ctxAddrs ctx := fun a ha => hdisj a (by simp [ha])
  have hrpc : r.ptr ∉ ctxAddrs ctx := ptr_not_mem hR hc0 hrc
  have hrpz : r.ptr ≠ z := ptr_ne hz0 hzr'
  have hrpy : r.ptr ≠ y := ptr_ne hy0 hyr
  have hrl : ∀ a ∈ l.addrs, a ≠ r.ptr := by
    intro a ha
    rcases (ptr_mem_or : r.ptr = NIL ∧ r = Shape.leaf ∨ r.ptr ∈ r.addrs) with hs | hs
    · rw [hs.1]; rintro rfl; exact hL0 ha
    · rintro rfl; exact dlr _ ha hs
  have e : replaceSteps t z y = replaceTail ((t.setRight y r.ptr).setParent r.ptr y) z y := by
    simp [replaceSteps, hzr]
  rw [e]
  have hfin : ∀ a, a ≠ y → a ≠ r.ptr → ((t.setRight y r.ptr).setParent r.ptr y).mem a = t.mem a := by
    intro a h1 h2
    rw [rbTree.setParent_mem_ne _ _ h2, rbTree.setRight_mem_ne _ _ h1]
  obtain ⟨q1, q2, q3, q4⟩ := @replaceTail_spec ((t.setRight y r.ptr).setParent r.ptr y) ctx l r
    z y cz (by simpa using hroot)
    (layoutCtx_congr (fun a ha => hfin a (by rintro rfl; exact hyc ha)
      (by rintro rfl; exact hrpc ha)) hctx) hz0
    (by rw [hfin z (Ne.symm hyz) (Ne.symm hrpz)]; exact hzp)
    (by rw [hfin z (Ne.symm hyz) (Ne.symm hrpz)]; exact hzl)
    (by rw [hfin z (Ne.symm hyz) (Ne.symm hrpz)]; exact hzc)
    hzc' (Ne.symm hyz)
    (layout_congr (fun a ha => hfin a (by rintro rfl; exact hyl ha) (hrl a ha)) hL) hy0
    (by simp)
    (layout_reparent hR ndr (fun _ => by
        refine ⟨?_, ?_, ?_, ?_⟩ <;> simp [hrpy])
      (fun a ha hne => hfin a (by rintro rfl; exact hyr ha) hne))
    (by rw [nodup_node]; exact ⟨hyl, hyr, ndl, ndr, dlr⟩) hcnd
    (by
      intro a ha
      rw [mem_addrs_node] at ha
      rcases ha with ha | rfl | ha
      · exact hlc a ha
      · exact hyc
      · exact hrc a ha)
  refine ⟨q1, ?_, ?_, ?_⟩
  · intro a h1 h2 h3 h4
    rw [q2 a h1 h2 h4, hfin a h1 h3]
  · intro a
    rw [q3 a]; simp
  · intro a ha
    rw [q4 a ha]; simp

/-- The function rbTree::deleteNode, with the two-children case written with
deleteNodeDetach and replaceTail. -/
theorem deleteNode_eq (fuel : Nat) (t : rbTree) (z : Nat) :
    deleteNode fuel t (some z) =
      if t.getLeft z = NIL then
        (if t.getColor z = nodeColor.BLACK then
          (DeletionRebalance fuel (t.UpdateParentChildLink (t.getParent z) z (t.getRight z))
            (t.getRight z)).map Except.ok
        else some (Except.ok (t.UpdateParentChildLink (t.getParent z) z (t.getRight z))))
      else if t.getRight z = NIL then
        (if t.getColor z = nodeColor.BLACK then
          (DeletionRebalance fuel (t.UpdateParentChildLink (t.getParent z) z (t.getLeft z))
            (t.getLeft z)).map Except.ok
        else some (Except.ok (t.UpdateParentChildLink (t.getParent z) z (t.getLeft z))))
      else
        match getMinimumNode fuel t (t.getRight z) with
        | none => none
        | some y =>
          if t.getColor y = nodeColor.BLACK then
            (DeletionRebalance fuel (replaceTail (deleteNodeDetach t z y) z y)
              (t.getRight y)).map Except.ok
          else some (Except.ok (replaceTail (deleteNodeDetach t z y) z y)) := by
  rfl

/-- The end of rbTree::deleteNode: the subtree sX stands where a node with at most one
child was removed; the fix-up runs if that node was BLACK. -/
theorem del_finish {tF : rbTree} {ctx0 ctxX : List Frame} {l r sX : Shape} {x : Nat}
    {c : nodeColor} {fuel : Nat}
    (hnrr : NoRedRed (plug ctx0 (Shape.node l x c r)))
    (hrootb : rootColor (plug ctx0 (Shape.node l x c r)) = nodeColor.BLACK)
    (hbal : Balanced (plug ctx0 (Shape.node l x c r)))
    (hcase : (l = Shape.leaf ∧ sX = r) ∨ (r = Shape.leaf ∧ sX = l))
    (hX : IsTree tF (plug ctxX sX)) (hpar : (tF.mem sX.ptr).parent = ctxPar ctxX)
    (hsent : (tF.mem NIL).color = nodeColor.BLACK)
    (hre : CtxNRR ctxX ↔ CtxNRR ctx0) (hbe : ∀ k, CtxBal ctxX k ↔ CtxBal ctx0 k)
    (hpc : parColor ctxX = parColor ctx0) (hlen : ctxX.length < fuel) :
    ∃ t', (if c = nodeColor.BLACK then (DeletionRebalance fuel tF sX.ptr).map Except.ok
        else some (Except.ok tF)) = some (Except.ok t' : Except (String × rbTree) rbTree) ∧
      DelPost tF (plug ctxX sX) t' := by
  obtain ⟨hN, hC, hpr⟩ := (noRedRed_plug ctx0 _).1 ⟨hnrr, fun _ => hrootb⟩
  obtain ⟨bN, bC⟩ := (balanced_plug ctx0 _).1 hbal
  have fX : NoRedRed sX ∧ Balanced sX ∧
      bheight (Shape.node l x c r) = bheight sX + (if c = nodeColor.BLACK then 1 else 0) ∧
      (c = nodeColor.RED → rootColor sX = nodeColor.BLACK) := by
    rcases hcase with ⟨rfl, rfl⟩ | ⟨rfl, rfl⟩
    · simp only [NoRedRed, Balanced, bheight] at hN bN ⊢
      refine ⟨hN.2.2, bN.2.2, by rw [bN.1], fun h => (hN.1 h).2⟩
    · simp only [NoRedRed, Balanced, bheight] at hN bN ⊢
      refine ⟨hN.2.1, bN.2.1, trivial, fun h => (hN.1 h).1⟩
  obtain ⟨nX, bX, hbh, hXb⟩ := fX
  rw [hbh] at bC
  rcases color_cases c with rfl | rfl
  · simp only [if_neg (show ¬ (nodeColor.RED = nodeColor.BLACK) by simp), add_zero] at bC ⊢
    have hne : ctxX ≠ [] := by
      rintro rfl
      cases ctx0 with
      | nil => simp [rootColor] at hrootb
      | cons f rest => simp at hpc
    have h1 := (noRedRed_plug ctxX sX).2 ⟨nX, hre.2 hC, fun _ => hXb rfl⟩
    exact ⟨tF, rfl, plug ctxX sX, hX, rfl, fun _ => rfl, hsent, h1.2 hne, h1.1,
      (balanced_plug ctxX sX).2 ⟨bX, (hbe _).2 bC⟩⟩
  · simp only [if_true] at bC ⊢
    obtain ⟨t', e, post⟩ := DeletionRebalance_loop fuel tF ctxX sX
      ⟨hX, hpar, hsent, nX.below, hre.2 hC, bX, (hbe _).2 bC⟩ (by split_ifs <;> omega)
    exact ⟨t', by rw [e]; rfl, post⟩

/-- The cases of rbTree::deleteNode in which the node has at most one child. -/
theorem deleteNode_one_child {t : rbTree} {ctx : List Frame} {l r sX : Shape} {z : Nat}
    {cz : nodeColor} {fuel : Nat}
    (ht : IsTree t (plug ctx (Shape.node l z cz r)))
    (hs : (t.mem NIL).color = nodeColor.BLACK)
    (hrb : rootColor (plug ctx (Shape.node l z cz r)) = nodeColor.BLACK)
    (hnr : NoRedRed (plug ctx (Shape.node l z cz r)))
    (hb : Balanced (plug ctx (Shape.node l z cz r)))
    (hcase : (l = Shape.leaf ∧ sX = r) ∨ (r = Shape.leaf ∧ sX = l))
    (hf : ctx.length < fuel) :
    ∃ t' sh', (if cz = nodeColor.BLACK then
        (DeletionRebalance fuel (t.UpdateParentChildLink (ctxPar ctx) z sX.ptr)
          sX.ptr).map Except.ok
        else some (Except.ok (t.UpdateParentChildLink (ctxPar ctx) z sX.ptr))) =
        some (Except.ok t' : Except (String × rbTree) rbTree) ∧
      sh'.addrs = (plug ctx sX).addrs ∧ DelResult t t' sh' := by
  have hlay := (isTree_plug_iff _ _ _).1 ht
  obtain ⟨hroot, hctx, hN, hnd, hcnd, hdisj⟩ := hlay
  obtain ⟨hz0, hzp, hzl, hzr, hzc, hL, hR⟩ := hN
  rw [nodup_node] at hnd
  obtain ⟨hzl', hzr', ndl, ndr, dlr⟩ := hnd
  have hzc' : z ∉ ctxAddrs ctx := hdisj z (by simp)
  have hX : Layout t.mem z sX ∧ sX.addrs.Nodup ∧ z ∉ sX.addrs ∧
      ∀ a ∈ sX.addrs, a ∉ ctxAddrs ctx := by
    rcases hcase with ⟨_, rfl⟩ | ⟨_, rfl⟩
    · exact ⟨hR, ndr, hzr', fun a ha => hdisj a (by simp [ha])⟩
    · exact ⟨hL, ndl, hzl', fun a ha => hdisj a (by simp [ha])⟩
  obtain ⟨k1, k2, k3⟩ := @splice_spec t ctx z sX hroot hctx hz0 hzp hzc' hcnd hX.1 hX.2.1
    hX.2.2.1 hX.2.2.2
  have hcd := UPCL_color_data t (ctxPar ctx) z sX.ptr
  obtain ⟨t', e, sh', p1, p2, p3, p4, p5, p6, p7⟩ := @del_finish _ ctx ctx l r sX z cz fuel
    hnr hrb hb hcase k1 k2 (by rw [(hcd NIL).1]; exact hs) Iff.rfl (fun _ => Iff.rfl) rfl hf
  exact ⟨t', sh', e, p2, p1, fun a => (p3 a).trans (hcd a).2, p4, p5, p6, p7⟩

theorem mem_ctxAddrs_append (c1 c2 : List Frame) (a : Nat) :
    a ∈ ctxAddrs (c1 ++ c2) ↔ a ∈ ctxAddrs c1 ∨ a ∈ ctxAddrs c2 := by
  simp only [ctxAddrs, ctxLeft_append, ctxRight_append, List.mem_append]
  tauto

theorem ptr_mem_of_ne_leaf {s : Shape} (h : s ≠ Shape.leaf) : s.ptr ∈ s.addrs := by
  cases s with
  | leaf => exact absurd rfl h
  | node l a c r => simp

/-- The two-children case of rbTree::deleteNode, Y_Node being the right child of node. -/
theorem detach_direct {t : rbTree} {ctx : List Frame} {l yr : Shape} {z y : Nat}
    {cz cy : nodeColor}
    (ht : IsTree t (plug ctx (Shape.node l z cz (Shape.node Shape.leaf y cy yr))))
    (hl : l ≠ Shape.leaf) :
    IsTree (replaceTail (deleteNodeDetach t z y) z y) (plug ctx (Shape.node l y cz yr)) ∧
    ((replaceTail (deleteNodeDetach t z y) z y).mem yr.ptr).parent = y ∧
    (∀ a, ((replaceTail (deleteNodeDetach t z y) z y).mem a).data = (t.mem a).data) ∧
    (∀ a, a ≠ y → ((replaceTail (deleteNodeDetach t z y) z y).mem a).color =
      (t.mem a).color) := by
  obtain ⟨hroot, hctx, hN, hnd, hcnd, hdisj⟩ := (isTree_plug_iff _ _ _).1 ht
  obtain ⟨hz0, hzp, hzl, hzr, hzc, hL, hy0, hyp, hyl, hyr, hyc, -, hYR⟩ := hN
  have hc0 := layoutCtx_zero_not_mem hctx
  have hL0 := layout_zero_not_mem hL
  have hR0 := layout_zero_not_mem hYR
  simp only [Shape.ptr_node] at hroot hctx hzr
  rw [nodup_node] at hnd
  obtain ⟨hzl', hzr', ndl, ndr, dlr⟩ := hnd
  rw [nodup_node] at ndr
  obtain ⟨-, hyyr, -, ndyr, -⟩ := ndr
  simp only [Shape.addrs_node, Shape.addrs_leaf, List.nil_append, List.mem_cons, not_or] at hzr' dlr
  have hzc' : z ∉ ctxAddrs ctx := hdisj z (by simp)
  have hyc' : y ∉ ctxAddrs ctx := hdisj y (by simp)
  have hlc : ∀ a ∈ l.addrs, a ∉ ctxAddrs ctx := fun a ha => hdisj a (by simp [ha])
  have hrc : ∀ a ∈ yr.addrs, a ∉ ctxAddrs ctx := fun a ha => hdisj a (by simp [ha])
  have hyl' : y ∉ l.addrs := fun h => (dlr y h).1 rfl
  have hlyr : ∀ a ∈ l.addrs, a ∉ yr.addrs := fun a ha => (dlr a ha).2
  have hxc : yr.ptr ∉ ctxAddrs ctx := ptr_not_mem hYR hc0 hrc
  have hxz : yr.ptr ≠ z := ptr_ne hz0 hzr'.2
  have hxy : yr.ptr ≠ y := ptr_ne hy0 hyyr
  have hxl : yr.ptr ∉ l.addrs := ptr_not_mem hYR hL0 (fun a ha h => hlyr a h ha)
  have hxlp : yr.ptr ≠ l.ptr := fun e => hxl (e ▸ ptr_mem_of_ne_leaf hl)
  have e : deleteNodeDetach t z y = t.setParent yr.ptr y := by
    simp [deleteNodeDetach, hyp, hyr]
  rw [e]
  have hfin : ∀ a, a ≠ yr.ptr → (t.setParent yr.ptr y).mem a = t.mem a :=
    fun a h => rbTree.setParent_mem_ne _ _ h
  obtain ⟨q1, q2, q3, q4⟩ := @replaceTail_spec (t.setParent yr.ptr y) ctx l yr z y cz
    (by simpa using hroot)
    (layoutCtx_congr (fun a ha => hfin a (by rintro rfl; exact hxc ha)) hctx) hz0
    (by rw [hfin z (Ne.symm hxz)]; exact hzp)
    (by rw [hfin z (Ne.symm hxz)]; exact hzl)
    (by rw [hfin z (Ne.symm hxz)]; exact hzc)
    hzc' (Ne.symm hzr'.1 |> Ne.symm)
    (layout_congr (fun a ha => hfin a (by rintro rfl; exact hxl ha)) hL) hy0
    (by simp [hyr])
    (layout_reparent hYR ndyr (fun _ => by
        refine ⟨?_, ?_, ?_, ?_⟩ <;> simp)
      (fun a ha hne => hfin a hne))
    (by rw [nodup_node]; exact ⟨hyl', hyyr, ndl, ndyr, hlyr⟩) hcnd
    (by
      intro a ha
      rw [mem_addrs_node] at ha
      rcases ha with ha | rfl | ha
      · exact hlc a ha
      · exact hyc'
      · exact hrc a ha)
  refine ⟨q1, ?_, ?_, ?_⟩
  · rw [q2 _ hxy hxlp hxc]; simp
  · intro a; rw [q3 a]; simp
  · intro a ha; rw [q4 a ha]; simp

theorem mem_plug_addrs (ctx : List Frame) (s : Shape) (a : Nat) :
    a ∈ (plug ctx s).addrs ↔ a ∈ s.addrs ∨ a ∈ ctxAddrs ctx := by
  simp only [plug_addrs, ctxAddrs, List.mem_append]
  tauto

/-- The two-children case of rbTree::deleteNode, Y_Node lying deeper in the right
subtree of node. -/
theorem detach_deep {t : rbTree} {ctx : List Frame} {l yr : Shape} {z y : Nat}
    {cz cy : nodeColor} {f : Frame} {cR : List Frame}
    (ht : IsTree t
      (plug ctx (Shape.node l z cz (plug (f :: cR) (Shape.node Shape.leaf y cy yr)))))
    (hl : l ≠ Shape.leaf) :
    IsTree (replaceTail (deleteNodeDetach t z y) z y)
      (plug ctx (Shape.node l y cz (plug (f :: cR) yr))) ∧
    ((replaceTail (deleteNodeDetach t z y) z y).mem yr.ptr).parent = f.addr ∧
    (∀ a, ((replaceTail (deleteNodeDetach t z y) z y).mem a).data = (t.mem a).data) ∧
    (∀ a, a ≠ y → ((replaceTail (deleteNodeDetach t z y) z y).mem a).color =
      (t.mem a).color) := by
  have hY : IsTree t (plug ((f :: cR) ++ Frame.R l z cz :: ctx)
      (Shape.node Shape.leaf y cy yr)) := by
    rw [plug_append]; exact ht
  obtain ⟨hrootY, hctxY, hNY, hndY, hcndY, hdisjY⟩ := (isTree_plug_iff _ _ _).1 hY
  obtain ⟨hy0, hyp, hyl, hyr, hyc, -, hYR⟩ := hNY
  rw [nodup_node] at hndY
  obtain ⟨-, hyyr, -, ndyr, -⟩ := hndY
  have hycY : y ∉ ctxAddrs ((f :: cR) ++ Frame.R l z cz :: ctx) := hdisjY y (by simp)
  have hrcY : ∀ a ∈ yr.addrs, a ∉ ctxAddrs ((f :: cR) ++ Frame.R l z cz :: ctx) :=
    fun a ha => hdisjY a (by simp [ha])
  have hc0Y := layoutCtx_zero_not_mem hctxY
  simp only [Shape.ptr_node] at hrootY hctxY hyr
  obtain ⟨k1, k2, k3⟩ := @splice_spec t ((f :: cR) ++ Frame.R l z cz :: ctx) y yr hrootY hctxY
    hy0 hyp hycY hcndY hYR ndyr hyyr hrcY
  have hcp : ctxPar ((f :: cR) ++ Frame.R l z cz :: ctx) = f.addr := rfl
  rw [hcp] at k1 k2 k3 hyp
  rw [plug_append] at k1
  have hfoc := isTree_focus k1
  have hfz : f.addr ≠ z := by
    have hnd := ((isTree_plug_iff _ _ _).1 ht).2.2.2.1
    rw [nodup_node] at hnd
    intro e
    apply hnd.2.1
    rw [mem_plug_addrs]
    right
    rw [← e, mem_ctxAddrs_cons]
    left; rfl
  have e : replaceTail (deleteNodeDetach t z y) z y =
      replaceSteps (t.UpdateParentChildLink f.addr y yr.ptr) z y := by
    simp only [deleteNodeDetach, getParent, getRight, hyp, hyr, if_neg hfz]
    rfl
  rw [e]
  have hyn : y ∉ (plug ctx (Shape.node l z cz (plug (f :: cR) yr))).addrs := by
    have : plug ctx (Shape.node l z cz (plug (f :: cR) yr)) =
        plug ((f :: cR) ++ Frame.R l z cz :: ctx) yr := by rw [plug_append]; rfl
    rw [this, mem_plug_addrs]
    exact fun h => h.elim hyyr hycY
  obtain ⟨p1, p2, p3, p4⟩ := replaceSteps_spec k1 hy0 hyn
  have hcd := UPCL_color_data t f.addr y yr.ptr
  have hxY : yr.ptr ∉ ctxAddrs ((f :: cR) ++ Frame.R l z cz :: ctx) :=
    ptr_not_mem hYR hc0Y hrcY
  refine ⟨p1, ?_, fun a => (p3 a).trans (hcd a).2, fun a ha => (p4 a ha).trans (hcd a).1⟩
  rw [p2 yr.ptr (ptr_ne hy0 hyyr) ?_ ?_ ?_, k2]
  · intro e'
    apply hxY
    rw [e', mem_ctxAddrs_append]
    right
    rw [mem_ctxAddrs_cons]
    right; left
    exact ptr_mem_of_ne_leaf hl
  · intro e'
    apply hxY
    rw [e', mem_ctxAddrs_append, plug_ptr]
    left
    exact ctxRoot_mem (by simp) _
  · intro h
    apply hxY
    rw [mem_ctxAddrs_append]
    right
    rw [mem_ctxAddrs_cons]
    right; right
    exact h

/-- Specification of rbTree::deleteNode on a red-black tree: the call returns, the result is
a red-black tree whose in-order node sequence is the old one without the node, and every
node keeps ride number, cost, duration and heap back-reference. -/
theorem deleteNode_spec {t : rbTree} {sh : Shape} {z : Nat} {fuel : Nat}
    (ht : IsTree t sh) (hs : (t.mem NIL).color = nodeColor.BLACK)
    (hrb : rootColor sh = nodeColor.BLACK) (hnr : NoRedRed sh) (hb : Balanced sh)
    (hz : z ∈ sh.addrs) (hf : sh.height ≤ fuel) :
    ∃ t' sh', deleteNode fuel t (some z) = some (Except.ok t') ∧
      (∃ l1 l2, sh.addrs = l1 ++ z :: l2 ∧ sh'.addrs = l1 ++ l2) ∧ DelResult t t' sh' := by
  obtain ⟨ctx, l, cz, r, rfl⟩ := mem_addrs_plug hz
  obtain ⟨hz0, hzl, hzr, hzp, hzc⟩ := isTree_focus ht
  obtain ⟨-, -, -, -, -, hL, hR⟩ := ((isTree_plug_iff _ _ _).1 ht).2.2.1
  have hht := height_plug_ge ctx (Shape.node l z cz r)
  simp only [Shape.height] at hht
  have hmaxl := le_max_left l.height r.height
  have hmaxr := le_max_right l.height r.height
  rw [deleteNode_eq]
  simp only [getLeft, getRight, getParent, getColor, hzl, hzr, hzp, hzc]
  by_cases hl : l = Shape.leaf
  · subst hl
    rw [if_pos (show Shape.leaf.ptr = NIL from rfl)]
    obtain ⟨t', sh', e, ha, res⟩ := @deleteNode_one_child t ctx Shape.leaf r r z cz fuel ht hs
      hrb hnr hb (Or.inl ⟨rfl, rfl⟩) (by omega)
    exact ⟨t', sh', e, ⟨ctxLeft ctx, r.addrs ++ ctxRight ctx, by simp [plug_addrs],
      by rw [ha, plug_addrs]; simp⟩, res⟩
  · rw [if_neg (fun h => hl ((ptr_eq_zero_iff hL).1 h))]
    by_cases hr : r = Shape.leaf
    · subst hr
      rw [if_pos (show Shape.leaf.ptr = NIL from rfl)]
      obtain ⟨t', sh', e, ha, res⟩ := @deleteNode_one_child t ctx l Shape.leaf l z cz fuel ht
        hs hrb hnr hb (Or.inr ⟨rfl, rfl⟩) (by omega)
      exact ⟨t', sh', e, ⟨ctxLeft ctx ++ l.addrs, ctxRight ctx, by simp [plug_addrs],
        by rw [ha, plug_addrs]⟩, res⟩
    · rw [if_neg (fun h => hr ((ptr_eq_zero_iff hR).1 h))]
      obtain ⟨cR, y, cy, yr, er, hcl, hlen, hmin⟩ :=
        getMinimumNode_spec t r z fuel hR hr (by omega)
      subst er
      rw [hmin]
      have e0 : ∀ (x : Nat) (s : Shape), plug (cR ++ Frame.R l x cz :: ctx) s =
          plug ctx (Shape.node l x cz (plug cR s)) := fun x s => by rw [plug_append]; rfl
      have hY : IsTree t (plug (cR ++ Frame.R l z cz :: ctx)
          (Shape.node Shape.leaf y cy yr)) := by rw [e0]; exact ht
      obtain ⟨hy0, -, hyr, -, hyc⟩ := isTree_focus hY
      simp only [getRight, getColor, hyc, hyr]
      obtain ⟨k1, k2, k3, k4⟩ :
          IsTree (replaceTail (deleteNodeDetach t z y) z y)
            (plug ctx (Shape.node l y cz (plug cR yr))) ∧
          ((replaceTail (deleteNodeDetach t z y) z y).mem yr.ptr).parent =
            ctxPar (cR ++ Frame.R l y cz :: ctx) ∧
          (∀ a, ((replaceTail (deleteNodeDetach t z y) z y).mem a).data = (t.mem a).data) ∧
          (∀ a, a ≠ y → ((replaceTail (deleteNodeDetach t z y) z y).mem a).color =
            (t.mem a).color) := by
        cases cR with
        | nil => exact detach_direct ht hl
        | cons f cR => exact detach_deep ht hl
      obtain ⟨r1, r2, r3⟩ := ctx_readdr cR ctx l z y cz
      obtain ⟨t', e, sh', p1, p2, p3, p4, p5, p6, p7⟩ :=
        @del_finish (replaceTail (deleteNodeDetach t z y) z y) (cR ++ Frame.R l z cz :: ctx)
          (cR ++ Frame.R l y cz :: ctx) Shape.leaf yr yr y cy fuel
          (by rw [e0]; exact hnr) (by rw [e0]; exact hrb) (by rw [e0]; exact hb)
          (Or.inl ⟨rfl, rfl⟩) (by rw [e0]; exact k1) k2
          (by rw [k4 NIL (Ne.symm hy0)]; exact hs) r1 r2 r3
          (by
            simp only [List.length_append, List.length_cons]
            have := height_plug_ge cR (Shape.node Shape.leaf y cy yr)
            simp only [Shape.height] at this
            omega)
      refine ⟨t', sh', e, ⟨ctxLeft ctx ++ l.addrs, y :: (yr.addrs ++ ctxRight cR) ++ ctxRight ctx,
        ?_, ?_⟩, p1, fun a => (p3 a).trans (k3 a), p4, p5, p6, p7⟩
      · simp [plug_addrs, hcl]
      · rw [p2, e0]
        simp [plug_addrs, hcl]

/-! ### The function rbTree::search -/

theorem mem_keys {m : Mem} {s : Shape} {k : Int} :
    k ∈ keys m s ↔ ∃ a ∈ s.addrs, (m a).rideNumber = k := by
  simp [keys]

/-- The descent of search through a key-ordered subtree: it returns the node that carries
the key, and nullptr if there is none. -/
theorem searchRecursive_spec (t : rbTree) (key : Int) :
    ∀ (s : Shape) (par fuel : Nat), Layout t.mem par s → KeyOrdered t.mem s →
      s.height < fuel →
      (∀ a ∈ s.addrs, (t.mem a).rideNumber = key →
        searchRecursive fuel t s.ptr key = some (some a)) ∧
      (key ∉ keys t.mem s → searchRecursive fuel t s.ptr key = some none) := by
  intro s
  induction s with
  | leaf =>
    intro par fuel _ _ hf
    cases fuel with
    | zero => exact absurd hf (Nat.not_lt_zero _)
    | succ fuel =>
      refine ⟨fun a h => by simp at h, fun _ => ?_⟩
      simp [searchRecursive]
  | node l a c r ihl ihr =>
    intro par fuel hl hk hf
    obtain ⟨h1, h2, h3, h4, h5, h6, h7⟩ := hl
    obtain ⟨kl, kr, kla, kra⟩ := keyOrdered_node hk
    cases fuel with
    | zero => exact absurd hf (Nat.not_lt_zero _)
    | succ fuel =>
      simp only [Shape.height] at hf
      have hfl : l.height < fuel := by omega
      have hfr : r.height < fuel := by omega
      obtain ⟨dl, nl⟩ := ihl a fuel h6 kl hfl
      obtain ⟨dr, nr⟩ := ihr a fuel h7 kr hfr
      rw [keys_node]
      simp only [List.mem_append, List.mem_cons, Shape.ptr_node, not_or, Shape.addrs_node]
      have kla' : ∀ b ∈ l.addrs, (t.mem b).rideNumber < (t.mem a).rideNumber :=
        fun b hb => kla _ (mem_keys.2 ⟨b, hb, rfl⟩)
      have kra' : ∀ b ∈ r.addrs, (t.mem a).rideNumber < (t.mem b).rideNumber :=
        fun b hb => kra _ (mem_keys.2 ⟨b, hb, rfl⟩)
      rcases lt_trichotomy key (t.mem a).rideNumber with hlt | heq | hgt
      · have e : searchRecursive (fuel + 1) t a key = searchRecursive fuel t l.ptr key := by
          have : ¬ (t.mem a).rideNumber = key := by omega
          simp [searchRecursive, h1, hlt, h3, this]
        rw [e]
        constructor
        · intro b hb hkb
          apply dl b _ hkb
          rcases hb with hb | rfl | hb
          · exact hb
          · omega
          · have := kra' b hb; omega
        · rintro ⟨n1, -, -⟩
          exact nl n1
      · constructor
        · intro b hb hkb
          have : b = a := by
            rcases hb with hb | rfl | hb
            · have := kla' b hb; omega
            · rfl
            · have := kra' b hb; omega
          subst this
          simp [searchRecursive, h1, heq]
        · rintro ⟨-, n2, -⟩
          exact absurd heq n2
      · have e : searchRecursive (fuel + 1) t a key = searchRecursive fuel t r.ptr key := by
          have h' : ¬ (t.mem a).rideNumber = key := by omega
          have h'' : ¬ key < (t.mem a).rideNumber := by omega
          simp [searchRecursive, h1, h', h'', h4]
        rw [e]
        constructor
        · intro b hb hkb
          apply dr b _ hkb
          rcases hb with hb | rfl | hb
          · have := kla' b hb; omega
          · omega
          · exact hb
        · rintro ⟨-, -, n3⟩
          exact nr n3

/-- Specification of rbTree::search on a key-ordered tree. -/
theorem search_spec {t : rbTree} {sh : Shape} {fuel : Nat} (key : Int) (ht : IsTree t sh)
    (hk : KeyOrdered t.mem sh) (hf : sh.height < fuel) :
    (∀ a ∈ sh.addrs, (t.mem a).rideNumber = key → search fuel t key = some (some a)) ∧
    (key ∉ keys t.mem sh → search fuel t key = some none) := by
  unfold search
  rw [ht.root]
  exact searchRecursive_spec t key sh NIL fuel ht.layout hk hf

theorem height_le_length (s : Shape) : s.height ≤ s.addrs.length := by
  induction s with
  | leaf => simp [Shape.height]
  | node l a c r ihl ihr =>
    simp only [Shape.height, Shape.addrs_node, List.length_append, List.length_cons]
    omega

theorem length_le_of_nodup_lt {l : List Nat} {n : Nat} (hnd : l.Nodup) (h0 : 0 ∉ l)
    (hn : 1 ≤ n) (hlt : ∀ a ∈ l, a < n) : l.length + 1 ≤ n := by
  have hsub : (0 :: l).toFinset ⊆ Finset.range n := by
    intro a ha
    simp only [List.toFinset_cons, Finset.mem_insert, List.mem_toFinset] at ha
    rw [Finset.mem_range]
    rcases ha with rfl | ha
    · omega
    · exact hlt a ha
  have hnd' : (0 :: l).Nodup := List.nodup_cons.2 ⟨h0, hnd⟩
  have := Finset.card_le_card hsub
  rw [List.toFinset_card_of_nodup hnd', Finset.card_range] at this
  simpa using this

/-! ### The heap: swap, heapifyUp, heapifyDown, insert and remove -/

theorem sameCore_refl (m : Mem) : SameCore m m := fun _ => rfl

theorem sameCore_trans {m1 m2 m3 : Mem} (h1 : SameCore m1 m2) (h2 : SameCore m2 m3) :
    SameCore m1 m3 := fun a => (h2 a).trans (h1 a)

theorem heapStep_refl {n : Nat} {h : minHeap} {m : Mem} (hs : HeapSync h m n) :
    HeapStep n h m h m :=
  ⟨hs, rfl, sameCore_refl m, fun _ => Iff.rfl, fun _ _ => rfl⟩

theorem heapStep_trans {n : Nat} {h1 h2 h3 : minHeap} {m1 m2 m3 : Mem}
    (s1 : HeapStep n h1 m1 h2 m2) (s2 : HeapStep n h2 m2 h3 m3) : HeapStep n h1 m1 h3 m3 :=
  ⟨s2.1, s2.2.1.trans s1.2.1, sameCore_trans s1.2.2.1 s2.2.2.1,
    fun a => (s2.2.2.2.1 a).trans (s1.2.2.2.1 a),
    fun j hj => (s2.2.2.2.2 j hj).trans (s1.2.2.2.2 j hj)⟩

/-- The result of minHeap::swap when both cells refer to tree nodes. -/
theorem swap_some {h : minHeap} {m : Mem} {i1 i2 a1 a2 : Nat}
    (r1 : (h.heap i1).rbNodeRef = some a1) (r2 : (h.heap i2).rbNodeRef = some a2) :
    ∃ h' m', h.swap m i1 i2 = some (h', m') ∧ h'.size = h.size ∧
      (∀ j, h'.heap j = if j = i2 then { h.heap i1 with pos := i2 }
        else if j = i1 then { h.heap i2 with pos := i1 } else h.heap j) ∧
      (∀ a, m' a = if a = a2 then { m a2 with heapNodeRef := some i1 }
        else if a = a1 then { m a1 with heapNodeRef := some i2 } else m a) := by
  simp only [minHeap.swap, r1, r2]
  refine ⟨_, _, rfl, rfl, ?_, ?_⟩
  · intro j
    simp only [minHeap.put]
    by_cases hj2 : j = i2
    · subst hj2
      by_cases h12 : j = i1
      · subst h12; simp [r1]
      · simp [h12, r1]
    · by_cases hj1 : j = i1
      · subst hj1
        simp [hj2, Ne.symm hj2, r2]
      · simp [hj1, hj2]
  · intro a
    simp only [Mem.write_apply]
    by_cases ha2 : a = a2
    · subst ha2
      by_cases h12 : a = a1
      · subst h12; simp
      · simp [h12]
    · simp [ha2]

theorem Linked.backref {h : minHeap} {m : Mem} {i a : Nat} (hl : Linked h m i)
    (hr : (h.heap i).rbNodeRef = some a) : (m a).heapNodeRef = some i := by
  obtain ⟨_, _, b, hb, hd⟩ := hl
  rw [hr] at hb
  cases hb
  simp only [rbNode.data, Prod.mk.injEq] at hd
  exact hd.2.2.2

/-- Two linked cells that refer to the same tree node are the same cell. -/
theorem HeapSync.inj {h : minHeap} {m : Mem} {n i j a : Nat} (hs : HeapSync h m n)
    (hi : 1 ≤ i ∧ i < n) (hj : 1 ≤ j ∧ j < n) (ri : (h.heap i).rbNodeRef = some a)
    (rj : (h.heap j).rbNodeRef = some a) : i = j := by
  have e1 := (hs.2 i hi.1 hi.2).backref ri
  have e2 := (hs.2 j hj.1 hj.2).backref rj
  rw [e1] at e2
  exact Option.some.inj e2

/-- The function minHeap::swap on two linked cells keeps all cells linked. -/
theorem swap_spec {h : minHeap} {m : Mem} {n i1 i2 : Nat} (hs : HeapSync h m n)
    (b1 : 1 ≤ i1 ∧ i1 < n) (b2 : 1 ≤ i2 ∧ i2 < n) :
    ∃ h' m', h.swap m i1 i2 = some (h', m') ∧ HeapStep n h m h' m' := by
  have l1 := hs.2 i1 b1.1 b1.2
  have l2 := hs.2 i2 b2.1 b2.2
  obtain ⟨p1, c1, a1, r1, d1⟩ := l1
  obtain ⟨p2, c2, a2, r2, d2⟩ := l2
  obtain ⟨h', m', e, hsz, hh, hm⟩ := @swap_some h m i1 i2 a1 a2 r1 r2
  have ha12 : a1 = a2 → i1 = i2 := fun e' => hs.inj b1 b2 r1 (e' ▸ r2)
  refine ⟨h', m', e, ⟨?_, ?_⟩, hsz, ?_, ?_, ?_⟩
  · rw [hh 0, if_neg (by omega), if_neg (by omega)]
    exact hs.1
  · intro j hj1 hjn
    by_cases hj2 : j = i2
    · subst hj2
      refine ⟨by rw [hh]; simp, by rw [hh]; simpa using c1, a1, by rw [hh]; simpa using r1, ?_⟩
      rw [hh, hm]
      by_cases e12 : a1 = a2
      · have := ha12 e12
        subst this
        subst e12
        simp only [if_true]
        simp only [rbNode.data, Prod.mk.injEq] at d1 ⊢
        exact ⟨d1.1, d1.2.1, d1.2.2.1, trivial⟩
      · simp only [if_neg e12, if_true]
        simp only [rbNode.data, Prod.mk.injEq] at d1 ⊢
        exact ⟨d1.1, d1.2.1, d1.2.2.1, trivial⟩
    · by_cases hj1' : j = i1
      · subst hj1'
        refine ⟨by rw [hh]; simp [hj2], by rw [hh]; simpa [hj2] using c2, a2,
          by rw [hh]; simpa [hj2] using r2, ?_⟩
        rw [hh, hm]
        simp only [if_neg hj2, if_true]
        simp only [rbNode.data, Prod.mk.injEq] at d2 ⊢
        exact ⟨d2.1, d2.2.1, d2.2.2.1, trivial⟩
      · obtain ⟨pj, cj, aj, rj, dj⟩ := hs.2 j hj1 hjn
        have n1 : aj ≠ a1 := fun e' => hj1' (hs.inj ⟨hj1, hjn⟩ b1 rj (e' ▸ r1))
        have n2 : aj ≠ a2 := fun e' => hj2 (hs.inj ⟨hj1, hjn⟩ b2 rj (e' ▸ r2))
        refine ⟨by rw [hh]; simpa [hj1', hj2] using pj, by rw [hh]; simpa [hj1', hj2] using cj,
          aj, by rw [hh]; simpa [hj1', hj2] using rj, ?_⟩
        rw [hh, hm]
        simpa [hj1', hj2, n1, n2] using dj
  · intro a
    rw [hm]
    split_ifs <;> simp_all [rbNode.core]
  · intro a
    constructor
    · rintro ⟨j, hj1, hjn, hr⟩
      rw [hh] at hr
      by_cases hj2 : j = i2
      · subst hj2
        exact ⟨i1, b1.1, b1.2, by simpa using hr⟩
      · by_cases hj1' : j = i1
        · subst hj1'
          exact ⟨i2, b2.1, b2.2, by simpa [hj2] using hr⟩
        · exact ⟨j, hj1, hjn, by simpa [hj1', hj2] using hr⟩
    · rintro ⟨j, hj1, hjn, hr⟩
      by_cases hj1' : j = i1
      · subst hj1'
        exact ⟨i2, b2.1, b2.2, by rw [hh]; simpa using hr⟩
      · by_cases hj2 : j = i2
        · subst hj2
          refine ⟨i1, b1.1, b1.2, ?_⟩
          rw [hh]
          simpa [Ne.symm hj1'] using hr
        · exact ⟨j, hj1, hjn, by rw [hh]; simpa [hj1', hj2] using hr⟩
  · intro j hj
    rw [hh, if_neg (by omega), if_neg (by omega)]

theorem lt_guard_false {x g : heapNode} (hx : 0 ≤ x.rideCost) (hg : g.rideCost = -1) :
    x.lt g = false := by
  unfold heapNode.lt
  rw [hg]
  have h1 : ¬ x.rideCost = -1 := by omega
  have h2 : ¬ x.rideCost < -1 := by omega
  simp [h1, h2]

/-- The function minHeap::heapifyUp returns when the fuel exceeds the position, and only
swaps linked cells. -/
theorem heapifyUp_spec (n : Nat) :
    ∀ (fuel : Nat) (h : minHeap) (m : Mem) (p : Nat), HeapSync h m n → 1 ≤ p → p < n →
      p < fuel →
      ∃ h' m', minHeap.heapifyUp fuel h m p = some (h', m') ∧ HeapStep n h m h' m' := by
  intro fuel
  induction fuel with
  | zero => intro h m p _ _ _ hf; exact absurd hf (Nat.not_lt_zero _)
  | succ fuel ih =>
    intro h m p hs hp1 hpn hf
    unfold minHeap.heapifyUp
    by_cases hlt : (h.heap p).lt (h.heap (minHeap.getParent p)) = true
    · rw [if_pos hlt]
      have hpar : 1 ≤ minHeap.getParent p := by
        by_contra hc
        have h0 : minHeap.getParent p = 0 := by omega
        rw [h0, lt_guard_false (hs.2 p hp1 hpn).2.1 hs.1] at hlt
        exact Bool.false_ne_true hlt
      have hparlt : minHeap.getParent p < p := by
        unfold minHeap.getParent at hpar ⊢
        omega
      obtain ⟨h1, m1, e1, st1⟩ := swap_spec hs ⟨hp1, hpn⟩ ⟨hpar, by omega⟩
      rw [e1]
      obtain ⟨h2, m2, e2, st2⟩ := ih h1 m1 (minHeap.getParent p) st1.1 hpar (by omega)
        (by omega)
      exact ⟨h2, m2, e2, heapStep_trans st1 st2⟩
    · rw [if_neg hlt]
      exact ⟨h, m, rfl, heapStep_refl hs⟩

/-- The function minHeap::heapifyDown returns when the fuel exceeds the distance of the
position from the size, and only swaps linked cells. -/
theorem heapifyDown_spec :
    ∀ (fuel : Nat) (h : minHeap) (m : Mem) (p : Nat), HeapSync h m h.size → 1 ≤ p →
      h.size - p < fuel →
      ∃ h' m', minHeap.heapifyDown fuel h m p = some (h', m') ∧
        HeapStep h.size h m h' m' := by
  intro fuel
  induction fuel with
  | zero => intro h m p _ _ hf; exact absurd hf (Nat.not_lt_zero _)
  | succ fuel ih =>
    intro h m p hs hp1 hf
    unfold minHeap.heapifyDown
    by_cases hv : h.isValidIndex (minHeap.getLeftChild p) = true
    · rw [if_pos hv]
      have hv' : 2 * p < h.size := by
        simp only [minHeap.isValidIndex, minHeap.getLeftChild, decide_eq_true_eq] at hv
        exact hv.2
      obtain ⟨c, hc, hc1, hc2⟩ : ∃ c,
          (if (h.heap (minHeap.getLeftChild p)).lt
              (h.heap (if h.isValidIndex (minHeap.getRightChild p) = true
                then minHeap.getRightChild p else minHeap.getLeftChild p)) = true
            then minHeap.getLeftChild p
            else (if h.isValidIndex (minHeap.getRightChild p) = true
                then minHeap.getRightChild p else minHeap.getLeftChild p)) = c ∧
          2 * p ≤ c ∧ c < h.size := by
        refine ⟨_, rfl, ?_, ?_⟩
        · simp only [minHeap.getLeftChild, minHeap.getRightChild]
          split_ifs <;> omega
        · by_cases hr : h.isValidIndex (minHeap.getRightChild p) = true
          · have hr' : 2 * p + 1 < h.size := by
              simp only [minHeap.isValidIndex, minHeap.getRightChild, decide_eq_true_eq] at hr
              exact hr.2
            simp only [if_pos hr]
            simp only [minHeap.getLeftChild, minHeap.getRightChild]
            split_ifs <;> omega
          · simp only [if_neg hr, minHeap.getLeftChild]
            split_ifs <;> omega
      simp only [hc]
      by_cases hlt : (h.heap c).lt (h.heap p) = true
      · rw [if_pos hlt]
        obtain ⟨h1, m1, e1, st1⟩ := swap_spec hs ⟨hp1, by omega⟩ ⟨by omega, hc2⟩
        rw [e1]
        have hsz : h1.size = h.size := st1.2.1
        obtain ⟨h2, m2, e2, st2⟩ := ih h1 m1 c (by rw [hsz]; exact st1.1) (by omega)
          (by rw [hsz]; omega)
        rw [hsz] at st2
        exact ⟨h2, m2, e2, heapStep_trans st1 st2⟩
      · rw [if_neg hlt]
        exact ⟨h, m, rfl, heapStep_refl hs⟩
    · rw [if_neg hv]
      exact ⟨h, m, rfl, heapStep_refl hs⟩

theorem heapSync_size (h : minHeap) (m : Mem) (n k : Nat) :
    HeapSync { h with size := k } m n ↔ HeapSync h m n := Iff.rfl

theorem ref_size (h : minHeap) (n k a : Nat) : Ref { h with size := k } n a ↔ Ref h n a :=
  Iff.rfl

/-- A call of minHeap::insert that returns found a free cell in the buffer. -/
theorem insert_cap {h : minHeap} {m : Mem} {node : heapNode} {r : minHeap × Mem}
    (e : h.insert m node = some r) : h.size < minHeap.capacity := by
  by_contra hc
  unfold minHeap.insert at e
  rw [if_neg hc] at e
  cases e

/-- On a full buffer minHeap::insert has no result. -/
theorem insert_full (h : minHeap) (m : Mem) (node : heapNode)
    (hc : minHeap.capacity ≤ h.size) : h.insert m node = none := by
  unfold minHeap.insert
  rw [if_neg (by omega)]

/-- Specification of minHeap::insert on a linked heap with a free cell: the new cell is
linked as well. -/
theorem heap_insert_spec {h : minHeap} {m : Mem} {node : heapNode} {a : Nat}
    (hs : HeapSync h m h.size) (h1 : 1 ≤ h.size) (hc : 0 ≤ node.rideCost)
    (hr : node.rbNodeRef = some a)
    (hd : (m a).data = (node.rideNumber, node.rideCost, node.tripDuration, some h.size))
    (hcap : h.size < minHeap.capacity) :
    ∃ h' m', h.insert m node = some (h', m') ∧ h'.size = h.size + 1 ∧
      HeapSync h' m' h'.size ∧ SameCore m m' ∧
      (∀ b, Ref h' h'.size b ↔ (b = a ∨ Ref h h.size b)) := by
  have hcell : ∀ j, (((h.put h.size node).put h.size
      { (h.put h.size node).heap h.size with pos := h.size }).heap j) =
      if j = h.size then { node with pos := h.size } else h.heap j := by
    intro j
    by_cases hj : j = h.size
    · simp [minHeap.put, hj]
    · simp [minHeap.put, hj]
  have hs0 : HeapSync ((h.put h.size node).put h.size
      { (h.put h.size node).heap h.size with pos := h.size }) m (h.size + 1) := by
    refine ⟨?_, ?_⟩
    · rw [hcell, if_neg (by omega)]; exact hs.1
    · intro j hj1 hjn
      by_cases hj : j = h.size
      · subst hj
        refine ⟨by rw [hcell]; simp, by rw [hcell]; simpa using hc, a,
          by rw [hcell]; simpa using hr, ?_⟩
        rw [hcell]; simpa using hd
      · have := hs.2 j hj1 (by omega)
        unfold Linked at this ⊢
        rw [hcell, if_neg hj]
        exact this
  obtain ⟨h1', m1, e1, st⟩ := heapifyUp_spec (h.size + 1) (h.size + 1) _ m h.size hs0 h1
    (by omega) (by omega)
  refine ⟨{ h1' with size := h1'.size + 1 }, m1, ?_, ?_, ?_, st.2.2.1, ?_⟩
  · unfold minHeap.insert
    rw [if_pos hcap]
    simp only [minHeap.put] at e1 ⊢
    rw [e1]
  · show h1'.size + 1 = h.size + 1
    rw [st.2.1]; rfl
  · show HeapSync h1' m1 (h1'.size + 1)
    rw [st.2.1]; exact st.1
  · intro b
    show Ref h1' (h1'.size + 1) b ↔ _
    rw [st.2.1]
    show Ref h1' (h.size + 1) b ↔ _
    rw [st.2.2.2.1 b]
    constructor
    · rintro ⟨j, hj1, hjn, hrj⟩
      rw [hcell] at hrj
      by_cases hj : j = h.size
      · left
        rw [if_pos hj] at hrj
        simp only [hr] at hrj
        exact (Option.some.inj hrj).symm
      · right
        rw [if_neg hj] at hrj
        exact ⟨j, hj1, by omega, hrj⟩
    · rintro (rfl | ⟨j, hj1, hjn, hrj⟩)
      · exact ⟨h.size, h1, by omega, by rw [hcell]; simpa using hr⟩
      · exact ⟨j, hj1, by omega, by rw [hcell, if_neg (by omega)]; exact hrj⟩

/-- Specification of minHeap::remove on a linked heap with a valid index: the cell at the
index leaves the heap, all other cells stay linked. -/
theorem heap_remove_spec {h : minHeap} {m : Mem} {idx : Nat} (hs : HeapSync h m h.size)
    (hi1 : 1 ≤ idx) (hi2 : idx < h.size) :
    ∃ h' m' a, h.remove m idx = some (h', m') ∧ (h.heap idx).rbNodeRef = some a ∧
      h'.size = h.size - 1 ∧ HeapSync h' m' h'.size ∧ SameCore m m' ∧
      (∀ b, Ref h' h'.size b ↔ (Ref h h.size b ∧ b ≠ a)) := by
  obtain ⟨_, _, a, ra, _⟩ := hs.2 idx hi1 hi2
  obtain ⟨_, _, a2, ra2, _⟩ := hs.2 (h.size - 1) (by omega) (by omega)
  obtain ⟨h1, m1, e1, st1⟩ := @swap_spec h m h.size idx (h.size - 1) hs ⟨hi1, hi2⟩
    ⟨by omega, by omega⟩
  obtain ⟨h1', m1', e1', _, hh, _⟩ := @swap_some h m idx (h.size - 1) a a2 ra ra2
  rw [e1] at e1'
  obtain ⟨rfl, rfl⟩ := Prod.mk.inj (Option.some.inj e1')
  have hlast : (h1.heap (h.size - 1)).rbNodeRef = some a := by
    rw [hh, if_pos rfl]; exact ra
  have hsz1 : h1.size = h.size := st1.2.1
  have hs2 : HeapSync { h1 with size := h1.size - 1 } m1
      ({ h1 with size := h1.size - 1 } : minHeap).size := by
    show HeapSync h1 m1 (h1.size - 1)
    exact ⟨st1.1.1, fun j hj1 hjn => st1.1.2 j hj1 (by omega)⟩
  obtain ⟨h3, m3, e3, st3⟩ := heapifyDown_spec (h1.size - 1 + 1) { h1 with size := h1.size - 1 }
    m1 idx hs2 hi1 (by show h1.size - 1 - idx < h1.size - 1 + 1; omega)
  refine ⟨h3, m3, a, ?_, ra, ?_, ?_, sameCore_trans st1.2.2.1 st3.2.2.1, ?_⟩
  · unfold minHeap.remove
    rw [e1]
    exact e3
  · rw [st3.2.1]
    show h1.size - 1 = h.size - 1
    rw [hsz1]
  · rw [st3.2.1]; exact st3.1
  · intro b
    rw [st3.2.1]
    show Ref h3 (h1.size - 1) b ↔ _
    have := st3.2.2.2.1 b
    rw [show ({ h1 with size := h1.size - 1 } : minHeap).size = h1.size - 1 from rfl] at this
    rw [this, ← st1.2.2.2.1 b, hsz1]
    show Ref h1 (h.size - 1) b ↔ _
    constructor
    · rintro ⟨j, hj1, hjn, hrj⟩
      refine ⟨⟨j, hj1, by omega, hrj⟩, ?_⟩
      rintro rfl
      have := st1.1.inj ⟨hj1, by omega⟩ ⟨by omega, by omega⟩ hrj hlast
      omega
    · rintro ⟨⟨j, hj1, hjn, hrj⟩, hne⟩
      refine ⟨j, hj1, ?_, hrj⟩
      by_contra hc
      have : j = h.size - 1 := by omega
      subst this
      rw [hlast] at hrj
      exact hne (Option.some.inj hrj).symm

/-- Specification of minHeap::removeMin on a linked heap with at least one live cell. -/
theorem heap_removeMin_spec {h : minHeap} {m : Mem} (hs : HeapSync h m h.size)
    (h2 : 2 ≤ h.size) :
    ∃ h' m' a, h.removeMin m = some (Except.ok (h.heap 1, h', m')) ∧
      (h.heap 1).rbNodeRef = some a ∧
      h'.size = h.size - 1 ∧ HeapSync h' m' h'.size ∧ SameCore m m' ∧
      (∀ b, Ref h' h'.size b ↔ (Ref h h.size b ∧ b ≠ a)) := by
  obtain ⟨h', m', a, e, r⟩ := @heap_remove_spec h m 1 hs (le_refl 1) (by omega)
  refine ⟨h', m', a, ?_, r⟩
  unfold minHeap.remove at e
  unfold minHeap.removeMin
  have hne : h.isEmpty = false := by simp [minHeap.isEmpty]; omega
  simp only [hne, Bool.false_eq_true, if_false]
  cases hsw : h.swap m 1 (h.size - 1) with
  | none => rw [hsw] at e; simp at e
  | some p =>
    obtain ⟨h1, m1⟩ := p
    rw [hsw] at e
    simp only at e ⊢
    rw [e]

/-! ### The invariant of the coordinator state -/

theorem record_of_data {n1 n2 : rbNode} (h : n1.data = n2.data) : n1.record = n2.record := by
  simp only [rbNode.data, Prod.mk.injEq] at h
  simp [rbNode.record, h.1, h.2.1, h.2.2.1]

theorem record_of_core {n1 n2 : rbNode} (h : n1.core = n2.core) : n1.record = n2.record := by
  simp only [rbNode.core, Prod.mk.injEq] at h
  simp [rbNode.record, h.1, h.2.1, h.2.2.1]

theorem layout_sameCore {m m' : Mem} (h : SameCore m m') :
    ∀ {par : Nat} {s : Shape}, Layout m par s → Layout m' par s := by
  intro par s
  induction s generalizing par with
  | leaf => intro _; trivial
  | node l a c r ihl ihr =>
    rintro ⟨h1, h2, h3, h4, h5, h6, h7⟩
    have := h a
    simp only [rbNode.core, Prod.mk.injEq] at this
    obtain ⟨-, -, -, e1, e2, e3, e4⟩ := this
    exact ⟨h1, e3.trans h2, e1.trans h3, e2.trans h4, e4.trans h5, ihl h6, ihr h7⟩

theorem isTree_sameCore {t t' : rbTree} {sh : Shape} (h : SameCore t.mem t'.mem)
    (hr : t'.root = t.root) (ht : IsTree t sh) : IsTree t' sh :=
  ⟨hr.trans ht.root, layout_sameCore h ht.layout, ht.nodup⟩

theorem keys_sameCore {m m' : Mem} (h : SameCore m m') (sh : Shape) :
    keys m' sh = keys m sh := by
  unfold keys
  apply List.map_congr_left
  intro a _
  have := h a
  simp only [rbNode.core, Prod.mk.injEq] at this
  exact this.1

theorem color_sameCore {m m' : Mem} (h : SameCore m m') (a : Nat) :
    (m' a).color = (m a).color := by
  have := h a
  simp only [rbNode.core, Prod.mk.injEq] at this
  exact this.2.2.2.2.2.2

theorem keys_data {m m' : Mem} (h : ∀ a, (m' a).data = (m a).data) (sh : Shape) :
    keys m' sh = keys m sh := keys_congr h sh.addrs

theorem HeapSync.congr {h : minHeap} {m m' : Mem} {n : Nat} (hs : HeapSync h m n)
    (hd : ∀ a, Ref h n a → (m' a).data = (m a).data) : HeapSync h m' n := by
  refine ⟨hs.1, fun i hi1 hin => ?_⟩
  obtain ⟨p, c, a, ra, d⟩ := hs.2 i hi1 hin
  exact ⟨p, c, a, ra, (hd a ⟨i, hi1, hin, ra⟩).trans d⟩

theorem setHeapNodeRef_sameCore (t : rbTree) (a : Nat) (r : Option Nat) :
    SameCore t.mem (t.setHeapNodeRef a r).mem := by
  intro b
  simp [rbNode.core]

theorem State.newNode_mem_ne (s : State) (id c d : Int) {a : Nat} (h : a ≠ s.next) :
    (s.newNode id c d).myTree.mem a = s.myTree.mem a := by
  simp [State.newNode, h]

theorem State.newNode_mem_next (s : State) (id c d : Int) :
    (s.newNode id c d).myTree.mem s.next = rbNode.init id c d := by
  simp [State.newNode]

theorem height_lt_fuel {s : State} {sh : Shape} (hi : InvSh s sh) : sh.height + 1 ≤ s.next := by
  have h1 := height_le_length sh
  have h2 := length_le_of_nodup_lt hi.tree.nodup (layout_zero_not_mem hi.tree.layout)
    hi.nextPos hi.below
  omega

/-- The tree insert, the linking of the back-references and the heap insert, applied to a
state that satisfies the invariant and a new record whose ride number is not in the tree:
the steps return, and the invariant holds again with the new node added. -/
theorem insertBoth_spec {s : State} {sh : Shape} {id c d : Int} (hi : InvSh s sh)
    (hk : id ∉ keys s.myTree.mem sh) (hid : id ≠ -1) (hc : 0 ≤ c)
    (hcap : s.myHeap.size < minHeap.capacity) :
    ∃ s' sh', (s.newNode id c d).insertBoth s.next (heapNode.init id c d) =
        some (Except.ok s') ∧ InvSh s' sh' ∧ s'.next = s.next + 1 ∧
      (∃ l1 l2, sh.addrs = l1 ++ l2 ∧ sh'.addrs = l1 ++ s.next :: l2) ∧
      (∀ a, a ≠ s.next → (s'.myTree.mem a).record = (s.myTree.mem a).record) ∧
      (s'.myTree.mem s.next).record = (id, c, d) := by
  have hnext0 : s.next ≠ NIL := by have := hi.nextPos; simp only [NIL]; omega
  have hfresh : s.next ∉ sh.addrs := fun h => Nat.lt_irrefl _ (hi.below _ h)
  have hm1 : ∀ a ∈ sh.addrs, (s.newNode id c d).myTree.mem a = s.myTree.mem a :=
    fun a ha => State.newNode_mem_ne s id c d (by rintro rfl; exact hfresh ha)
  have hmn := State.newNode_mem_next s id c d
  have ht1 : IsTree (s.newNode id c d).myTree sh :=
    ⟨hi.tree.root, layout_congr hm1 hi.tree.layout, hi.tree.nodup⟩
  have hkeys1 : keys (s.newNode id c d).myTree.mem sh = keys s.myTree.mem sh := by
    unfold keys
    exact List.map_congr_left (fun a ha => by rw [hm1 a ha])
  have hfuel := height_lt_fuel hi
  obtain ⟨t', sh', e, ht', hsplit, hko, hdata, hsent, hrb, hnrr, hbal⟩ :=
    @insert_spec (s.newNode id c d).myTree sh s.next (s.newNode id c d).fuel ht1
      (by unfold KeyOrdered; rw [hkeys1]; exact hi.ordered)
      (by rw [State.newNode_mem_ne s id c d (Ne.symm hnext0)]; exact hi.sentinel)
      hi.rootBlack hi.noRedRed hnext0 hfresh (by rw [hmn]; rfl) (by rw [hmn]; rfl)
      (by rw [hmn, hkeys1]; exact hk)
      (by simp only [State.fuel, State.newNode]; omega)
  obtain ⟨l1, l2, hs1, hs2⟩ := hsplit
  have hmem' : ∀ a, a ∈ sh'.addrs ↔ a = s.next ∨ a ∈ sh.addrs := by
    intro a; rw [hs1, hs2]; simp only [List.mem_append, List.mem_cons]; tauto
  -- the node store after the back-reference of the new node is set
  have hsync2 : HeapSync s.myHeap (t'.setHeapNodeRef s.next (some s.myHeap.size)).mem
      s.myHeap.size := by
    refine hi.sync.congr (fun a ha => ?_)
    have haI := (hi.refs a).1 ha
    have hne : a ≠ s.next := by rintro rfl; exact hfresh haI
    have : ((t'.setHeapNodeRef s.next (some s.myHeap.size)).mem a).data = (t'.mem a).data := by
      simp [rbNode.data, hne]
    rw [this, hdata a, hm1 a haI]
  have hdnew : ((t'.setHeapNodeRef s.next (some s.myHeap.size)).mem s.next).data =
      (id, c, d, some s.myHeap.size) := by
    have := hdata s.next
    rw [hmn] at this
    simp only [rbNode.data, rbNode.init, Prod.mk.injEq] at this
    simp [rbNode.data, this.1, this.2.1, this.2.2.1]
  obtain ⟨h', m', eh, hsz, hsync', hcore, hrefs⟩ := @heap_insert_spec s.myHeap
    (t'.setHeapNodeRef s.next (some s.myHeap.size)).mem
    { heapNode.init id c d with rbNodeRef := some s.next } s.next hsync2 hi.sizePos
    (by simpa [heapNode.init] using hc) rfl (by simpa [heapNode.init] using hdnew) hcap
  have hcore' : SameCore t'.mem m' := sameCore_trans (setHeapNodeRef_sameCore t' _ _) hcore
  have hrec : ∀ a, (m' a).record = ((s.newNode id c d).myTree.mem a).record :=
    fun a => (record_of_core (hcore' a)).trans (record_of_data (hdata a))
  refine ⟨{ (s.newNode id c d) with
      myTree := { (t'.setHeapNodeRef s.next (some s.myHeap.size)) with mem := m' },
      myHeap := h' }, sh', ?_, ?_, rfl, ⟨l1, l2, hs1, hs2⟩, ?_, ?_⟩
  · unfold State.insertBoth
    rw [e]
    simp only [minHeap.getAddress]
    show (match s.myHeap.insert (t'.setHeapNodeRef s.next (some s.myHeap.size)).mem
        { heapNode.init id c d with rbNodeRef := some s.next } with
      | none => none
      | some (h, m) => _) = _
    rw [eh]
    rfl
  · refine ⟨isTree_sameCore hcore' rfl ht', ?_, ?_, hrb, hnrr, ?_, ?_, ?_, ?_, ?_, hsync', ?_, ?_,
      ?_⟩
    · unfold KeyOrdered
      show (keys m' sh').Pairwise _
      rw [keys_sameCore hcore' sh']
      exact hko
    · show (m' NIL).color = _
      rw [color_sameCore hcore' NIL, hsent, State.newNode_mem_ne s id c d (Ne.symm hnext0)]
      exact hi.sentinel
    · apply hbal _ hi.balanced
      rw [hmn]
      simp [rbNode.init, hid]
    · show 1 ≤ s.next + 1
      omega
    · intro a ha
      show a < s.next + 1
      rcases (hmem' a).1 ha with rfl | h
      · omega
      · have := hi.below a h; omega
    · intro a ha
      show (m' a).rideNumber ≠ -1
      have hr := hrec a
      simp only [rbNode.record, Prod.mk.injEq] at hr
      rw [hr.1]
      rcases (hmem' a).1 ha with rfl | h
      · rw [hmn]; exact hid
      · rw [hm1 a h]; exact hi.keyNe a h
    · show 1 ≤ h'.size
      omega
    · intro a
      show Ref h' h'.size a ↔ _
      rw [hrefs a, hmem' a, hi.refs a]
    · show sh'.addrs.length + 1 = h'.size
      rw [hsz, hs2, ← hi.count, hs1]
      simp only [List.length_append, List.length_cons]
      omega
    · show h'.size ≤ minHeap.capacity
      rw [hsz]
      exact hcap
  · intro a ha
    show (m' a).record = _
    rw [hrec a, State.newNode_mem_ne s id c d ha]
  · show (m' s.next).record = _
    rw [hrec s.next, hmn]
    rfl

theorem mem_split_erase {l1 l2 : List Nat} {z b : Nat} (hnd : (l1 ++ z :: l2).Nodup) :
    b ∈ l1 ++ l2 ↔ (b ∈ l1 ++ z :: l2 ∧ b ≠ z) := by
  have h1 : z ∉ l1 := by
    intro h
    have := (List.nodup_append.1 hnd).2.2
    exact this h (List.mem_cons_self _ _)
  have h2 : z ∉ l2 := (List.nodup_cons.1 (List.nodup_append.1 hnd).2.1).1
  simp only [List.mem_append, List.mem_cons]
  constructor
  · rintro (h | h)
    · exact ⟨Or.inl h, by rintro rfl; exact h1 h⟩
    · exact ⟨Or.inr (Or.inr h), by rintro rfl; exact h2 h⟩
  · rintro ⟨h | h | h, hne⟩
    · exact Or.inl h
    · exact absurd h hne
    · exact Or.inr h

theorem keyOrdered_remove {m m' : Mem} {sh sh' : Shape} {l1 l2 : List Nat} {z : Nat}
    (hk : KeyOrdered m sh) (h1 : sh.addrs = l1 ++ z :: l2) (h2 : sh'.addrs = l1 ++ l2)
    (hr : ∀ a, (m' a).record = (m a).record) : KeyOrdered m' sh' := by
  unfold KeyOrdered keys at hk ⊢
  have e : sh'.addrs.map (fun a => (m' a).rideNumber) =
      sh'.addrs.map (fun a => (m a).rideNumber) := by
    apply List.map_congr_left
    intro a _
    have := hr a
    simp only [rbNode.record, Prod.mk.injEq] at this
    exact this.1
  rw [e, h2]
  rw [h1] at hk
  exact hk.sublist ((List.Sublist.append (List.Sublist.refl l1)
    (List.sublist_cons_self z l2)).map _)

/-- The tree delete and the heap remove of CancelRide and UpdateTrip, applied to a state
that satisfies the invariant and a node of the tree: both return, and the invariant holds
again with the node removed. -/
theorem removeBoth_spec {s : State} {sh : Shape} {ride : Nat} (hi : InvSh s sh)
    (hr : ride ∈ sh.addrs) :
    ∃ ref t' h' m' sh', s.myTree.getHeapNodeRef ride = some ref ∧
      (s.myHeap.heap ref).pos = ref ∧
      s.myTree.deleteNode s.fuel (some ride) = some (Except.ok t') ∧
      s.myHeap.remove t'.mem ref = some (h', m') ∧
      InvSh { s with myTree := { t' with mem := m' }, myHeap := h' } sh' ∧
      (∃ l1 l2, sh.addrs = l1 ++ ride :: l2 ∧ sh'.addrs = l1 ++ l2) ∧
      (∀ a, (m' a).record = (s.myTree.mem a).record) := by
  obtain ⟨i, hi1, hin, hri⟩ := (hi.refs ride).2 hr
  have hl := hi.sync.2 i hi1 hin
  have hfuel := height_lt_fuel hi
  obtain ⟨t', sh', e, ⟨l1, l2, hs1, hs2⟩, ht', hdata, hsent, hrb, hnrr, hbal⟩ :=
    @deleteNode_spec s.myTree sh ride s.fuel hi.tree hi.sentinel hi.rootBlack hi.noRedRed
      hi.balanced hr (by simp only [State.fuel]; omega)
  have hsync1 : HeapSync s.myHeap t'.mem s.myHeap.size := hi.sync.congr (fun a _ => hdata a)
  obtain ⟨h', m', a, eh, ra, hsz, hsync', hcore, hrefs⟩ :=
    @heap_remove_spec s.myHeap t'.mem i hsync1 hi1 hin
  have hra : a = ride := by rw [hri] at ra; exact (Option.some.inj ra).symm
  subst hra
  have hrec : ∀ b, (m' b).record = (s.myTree.mem b).record :=
    fun b => (record_of_core (hcore b)).trans (record_of_data (hdata b))
  have hnd : (l1 ++ a :: l2).Nodup := hs1 ▸ hi.tree.nodup
  have hmem' : ∀ b, b ∈ sh'.addrs ↔ (b ∈ sh.addrs ∧ b ≠ a) := by
    intro b; rw [hs1, hs2]; exact mem_split_erase hnd
  refine ⟨i, t', h', m', sh', hl.backref hri, hl.1, e, eh, ?_, ⟨l1, l2, hs1, hs2⟩, hrec⟩
  refine ⟨isTree_sameCore hcore rfl ht', keyOrdered_remove hi.ordered hs1 hs2 hrec, ?_, hrb,
    hnrr, hbal, hi.nextPos, ?_, ?_, ?_, hsync', ?_, ?_, ?_⟩
  · show (m' NIL).color = _
    rw [color_sameCore hcore NIL]; exact hsent
  · intro b hb
    exact hi.below b ((hmem' b).1 hb).1
  · intro b hb
    show (m' b).rideNumber ≠ -1
    have := hrec b
    simp only [rbNode.record, Prod.mk.injEq] at this
    rw [this.1]
    exact hi.keyNe b ((hmem' b).1 hb).1
  · show 1 ≤ h'.size
    omega
  · intro b
    show Ref h' h'.size b ↔ _
    rw [hrefs b, hmem' b, hi.refs b]
  · show sh'.addrs.length + 1 = h'.size
    rw [hsz, ← hi.count, hs1, hs2]
    simp only [List.length_append, List.length_cons]
    omega
  · show h'.size ≤ minHeap.capacity
    have := hi.cap
    omega

/-- The function GetNextRide on a state that satisfies the invariant: it returns, and the
invariant holds again. -/
theorem getNextRide_spec {s : State} {sh : Shape} (hi : InvSh s sh) :
    ∃ s' out sh', GetNextRide s = some (s', out) ∧ InvSh s' sh' ∧ s'.next = s.next ∧
      (∀ a, (s'.myTree.mem a).record = (s.myTree.mem a).record) ∧
      (∀ a ∈ sh'.addrs, a ∈ sh.addrs) := by
  by_cases hsz : s.myHeap.size ≤ 1
  · refine ⟨s, "No active ride requests", sh, ?_, hi, rfl, fun _ => rfl, fun _ h => h⟩
    unfold GetNextRide minHeap.removeMin
    have : s.myHeap.isEmpty = true := by simp [minHeap.isEmpty, hsz]
    simp only [this, if_true]
  · obtain ⟨h', m', a, eh, ra, hsz', hsync', hcore, hrefs⟩ :=
      @heap_removeMin_spec s.myHeap s.myTree.mem hi.sync (by omega)
    have ha : a ∈ sh.addrs := (hi.refs a).1 ⟨1, le_refl 1, by omega, ra⟩
    have hfuel := height_lt_fuel hi
    have ht1 : IsTree { s.myTree with mem := m' } sh := isTree_sameCore hcore rfl hi.tree
    obtain ⟨t', sh', e, ⟨l1, l2, hs1, hs2⟩, ht', hdata, hsent, hrb, hnrr, hbal⟩ :=
      @deleteNode_spec { s.myTree with mem := m' } sh a s.fuel ht1
        (by show (m' NIL).color = _; rw [color_sameCore hcore NIL]; exact hi.sentinel)
        hi.rootBlack hi.noRedRed hi.balanced ha (by simp only [State.fuel]; omega)
    have hrec : ∀ b, (t'.mem b).record = (s.myTree.mem b).record :=
      fun b => (record_of_data (hdata b)).trans (record_of_core (hcore b))
    have hnd : (l1 ++ a :: l2).Nodup := hs1 ▸ hi.tree.nodup
    have hmem' : ∀ b, b ∈ sh'.addrs ↔ (b ∈ sh.addrs ∧ b ≠ a) := by
      intro b; rw [hs1, hs2]; exact mem_split_erase hnd
    refine ⟨{ s with myTree := t', myHeap := h' }, (s.myHeap.heap 1).print, sh', ?_, ?_, rfl,
      hrec, fun b hb => ((hmem' b).1 hb).1⟩
    · unfold GetNextRide
      rw [eh]
      simp only [ra]
      show (match deleteNode s.fuel { s.myTree with mem := m' } (some a) with
        | none => none
        | some (Except.error (msg, t)) => _
        | some (Except.ok t) => _) = _
      rw [e]
    · refine ⟨ht', keyOrdered_remove hi.ordered hs1 hs2 hrec, hsent, hrb, hnrr, hbal,
        hi.nextPos, ?_, ?_, ?_, ?_, ?_, ?_, ?_⟩
      · intro b hb
        exact hi.below b ((hmem' b).1 hb).1
      · intro b hb
        show (t'.mem b).rideNumber ≠ -1
        have := hrec b
        simp only [rbNode.record, Prod.mk.injEq] at this
        rw [this.1]
        exact hi.keyNe b ((hmem' b).1 hb).1
      · show 1 ≤ h'.size
        omega
      · exact hsync'.congr (fun b _ => hdata b)
      · intro b
        show Ref h' h'.size b ↔ _
        rw [hrefs b, hmem' b, hi.refs b]
      · show sh'.addrs.length + 1 = h'.size
        rw [hsz', ← hi.count, hs1, hs2]
        simp only [List.length_append, List.length_cons]
        omega
      · show h'.size ≤ minHeap.capacity
        have := hi.cap
        omega

/-! ### Lookup, Insert, CancelRide and UpdateTrip -/

theorem absent_search (s : State) (id : Int) :
    Absent s id ↔ s.myTree.search s.fuel id = some none := by
  unfold Absent State.lookup
  cases h : s.myTree.search s.fuel id with
  | none => simp
  | some o =>
    cases o with
    | none => simp
    | some a => simp

theorem lookup_search (s : State) (id c d : Int) :
    Lookup s id c d ↔
      ∃ a, s.myTree.search s.fuel id = some (some a) ∧ (s.myTree.mem a).record = (id, c, d) := by
  unfold Lookup State.lookup
  cases h : s.myTree.search s.fuel id with
  | none => simp
  | some o =>
    cases o with
    | none => simp
    | some a => simp

theorem inv_search {s : State} {sh : Shape} (hi : InvSh s sh) (id : Int) :
    (∀ a ∈ sh.addrs, (s.myTree.mem a).rideNumber = id →
      s.myTree.search s.fuel id = some (some a)) ∧
    (id ∉ keys s.myTree.mem sh → s.myTree.search s.fuel id = some none) := by
  have := height_lt_fuel hi
  exact search_spec id hi.tree hi.ordered (by simp only [State.fuel]; omega)

theorem absent_iff {s : State} {sh : Shape} (hi : InvSh s sh) (id : Int) :
    Absent s id ↔ id ∉ keys s.myTree.mem sh := by
  obtain ⟨h1, h2⟩ := inv_search hi id
  constructor
  · intro ha hk
    obtain ⟨a, ha', hka⟩ := mem_keys.1 hk
    have := h1 a ha' hka
    rw [absent_search] at ha
    rw [ha] at this
    simp at this
  · intro hk
    rw [absent_search]
    exact h2 hk

theorem lookup_iff {s : State} {sh : Shape} (hi : InvSh s sh) (id c d : Int) :
    Lookup s id c d ↔ ∃ a ∈ sh.addrs, (s.myTree.mem a).record = (id, c, d) := by
  obtain ⟨h1, h2⟩ := inv_search hi id
  rw [lookup_search]
  constructor
  · rintro ⟨a, hs, hr⟩
    by_cases hk : id ∈ keys s.myTree.mem sh
    · obtain ⟨b, hb, hkb⟩ := mem_keys.1 hk
      have := h1 b hb hkb
      rw [hs] at this
      have hab : a = b := Option.some.inj (Option.some.inj this)
      subst hab
      exact ⟨a, hb, hr⟩
    · rw [h2 hk] at hs
      simp at hs
  · rintro ⟨a, ha, hr⟩
    refine ⟨a, h1 a ha ?_, hr⟩
    simp only [rbNode.record, Prod.mk.injEq] at hr
    exact hr.1

theorem key_inj {s : State} {sh : Shape} (hi : InvSh s sh) {a b : Nat} (ha : a ∈ sh.addrs)
    (hb : b ∈ sh.addrs) (h : (s.myTree.mem a).rideNumber = (s.myTree.mem b).rideNumber) :
    a = b := by
  obtain ⟨h1, _⟩ := inv_search hi (s.myTree.mem b).rideNumber
  have e1 := h1 a ha h
  have e2 := h1 b hb rfl
  rw [e1] at e2
  exact Option.some.inj (Option.some.inj e2)

theorem cost_nonneg {s : State} {sh : Shape} (hi : InvSh s sh) {a : Nat} (ha : a ∈ sh.addrs) :
    0 ≤ (s.myTree.mem a).rideCost := by
  obtain ⟨i, hi1, hin, hri⟩ := (hi.refs a).2 ha
  obtain ⟨_, hc, b, hb, hd⟩ := hi.sync.2 i hi1 hin
  rw [hri] at hb
  cases hb
  simp only [rbNode.data, Prod.mk.injEq] at hd
  rw [hd.2.1]
  exact hc

/-- The invariant holds in the state at program start. -/
theorem invSh_empty : InvSh State.empty Shape.leaf := by
  refine ⟨⟨rfl, trivial, List.nodup_nil⟩, ?_, rfl, rfl, trivial, trivial, le_refl 1, ?_, ?_,
    le_refl 1, ⟨rfl, ?_⟩, ?_, rfl, by decide⟩
  · simp [KeyOrdered, keys]
  · intro a ha; simp at ha
  · intro a ha; simp at ha
  · intro i h1 h2
    simp only [State.empty] at h2
    omega
  · intro a
    simp only [Ref, State.empty, Shape.addrs_leaf, List.not_mem_nil, iff_false, not_exists,
      not_and]
    intro i h1 h2
    omega

/-- The function Insert on a state that satisfies the invariant and has a free heap cell,
with a ride number that is absent and is not -1, and a non-negative cost: it returns, the
invariant holds again, the new record sits in the new node and the other nodes keep their
records. -/
theorem Insert_spec {s : State} {sh : Shape} {id c d : Int} (hi : InvSh s sh)
    (ha : Absent s id) (hid : id ≠ -1) (hc : 0 ≤ c)
    (hcap : s.myHeap.size < minHeap.capacity) :
    ∃ s' sh', Insert s id c d = some (Except.ok s') ∧ InvSh s' sh' ∧ s'.next = s.next + 1 ∧
      (∃ l1 l2, sh.addrs = l1 ++ l2 ∧ sh'.addrs = l1 ++ s.next :: l2) ∧
      (∀ a, a ≠ s.next → (s'.myTree.mem a).record = (s.myTree.mem a).record) ∧
      (s'.myTree.mem s.next).record = (id, c, d) :=
  insertBoth_spec hi ((absent_iff hi id).1 ha) hid hc hcap

/-- The steps after the node objects are created return only when the heap buffer has a
free cell. -/
theorem insertBoth_cap {s s' : State} {rb : Nat} {hn : heapNode}
    (e : s.insertBoth rb hn = some (Except.ok s')) : s.myHeap.size < minHeap.capacity := by
  by_contra hc
  unfold State.insertBoth at e
  split at e
  · cases e
  · cases e
  · simp only [insert_full _ _ _ (Nat.le_of_not_lt hc)] at e
    cases e

/-- The function Insert returns without an error only when the heap buffer has a free
cell. -/
theorem Insert_room {s s' : State} {id c d : Int} (e : Insert s id c d = some (Except.ok s')) :
    s.myHeap.size < minHeap.capacity :=
  @insertBoth_cap (s.newNode id c d) s' s.next (heapNode.init id c d) e

/-- The function CancelRide on a state that satisfies the invariant: it returns; an absent
ride number leaves the state as it is, a present one has its node and heap cell removed. -/
theorem CancelRide_spec {s : State} {sh : Shape} (id : Int) (hi : InvSh s sh) :
    (Absent s id → CancelRide s id = some (Except.ok s)) ∧
    (∀ a ∈ sh.addrs, (s.myTree.mem a).rideNumber = id →
      ∃ s' sh', CancelRide s id = some (Except.ok s') ∧ InvSh s' sh' ∧ s'.next = s.next ∧
        (∃ l1 l2, sh.addrs = l1 ++ a :: l2 ∧ sh'.addrs = l1 ++ l2) ∧
        (∀ b, (s'.myTree.mem b).record = (s.myTree.mem b).record)) := by
  constructor
  · intro ha
    rw [absent_search] at ha
    unfold CancelRide
    rw [ha]
  · intro a ha hk
    have hs := (inv_search hi id).1 a ha hk
    obtain ⟨ref, t', h', m', sh', e1, e2, e3, e4, hi', hsplit, hrec⟩ := removeBoth_spec hi ha
    refine ⟨_, sh', ?_, hi', rfl, hsplit, hrec⟩
    unfold CancelRide
    rw [hs]
    simp only [e1, e2, e3, e4]

/-- The function UpdateTrip on a state that satisfies the invariant: an absent ride number
leaves the state as it is; for a present record the call has no result when twice the old
duration, or the new cost, is outside the range of int; otherwise it returns, the record is
removed and, when the new duration is at most twice the old one, inserted again in a new
node with the new duration and the old cost, increased by 10 if the new duration is larger
than the old one. -/
theorem UpdateTrip_spec {s : State} {sh : Shape} (id n : Int) (hi : InvSh s sh) :
    (Absent s id → UpdateTrip s id n = some (Except.ok s)) ∧
    (∀ a ∈ sh.addrs, ∀ c d, (s.myTree.mem a).record = (id, c, d) →
      (inInt (2 * d) = false → UpdateTrip s id n = none) ∧
      (inInt (2 * d) = true → n ≤ 2 * d → inInt (c + (if n ≤ d then 0 else 10)) = false →
        UpdateTrip s id n = none) ∧
      (inInt (2 * d) = true → n ≤ 2 * d → inInt (c + (if n ≤ d then 0 else 10)) = true →
        ∃ s' sh', UpdateTrip s id n = some (Except.ok s') ∧ InvSh s' sh' ∧
        s'.next = s.next + 1 ∧
        (∀ b, b ∈ sh'.addrs ↔ (b = s.next ∨ (b ∈ sh.addrs ∧ b ≠ a))) ∧
        (∀ b, b ≠ s.next → (s'.myTree.mem b).record = (s.myTree.mem b).record) ∧
        (s'.myTree.mem s.next).record = (id, c + (if n ≤ d then 0 else 10), n)) ∧
      (inInt (2 * d) = true → ¬ n ≤ 2 * d →
        ∃ s' sh', UpdateTrip s id n = some (Except.ok s') ∧ InvSh s' sh' ∧
        s'.next = s.next ∧ (∀ b, b ∈ sh'.addrs ↔ (b ∈ sh.addrs ∧ b ≠ a)) ∧
        (∀ b, (s'.myTree.mem b).record = (s.myTree.mem b).record))) := by
  constructor
  · intro ha
    rw [absent_search] at ha
    unfold UpdateTrip
    rw [ha]
  · intro a ha c d hrec0
    have hk : (s.myTree.mem a).rideNumber = id := by
      simp only [rbNode.record, Prod.mk.injEq] at hrec0
      exact hrec0.1
    have hs := (inv_search hi id).1 a ha hk
    obtain ⟨ref, t', h', m', sh1, e1, e2, e3, e4, hi1, ⟨l1, l2, hs1, hs2⟩, hrec⟩ :=
      removeBoth_spec hi ha
    have hnd : (l1 ++ a :: l2).Nodup := hs1 ▸ hi.tree.nodup
    have hmem1 : ∀ b, b ∈ sh1.addrs ↔ (b ∈ sh.addrs ∧ b ≠ a) := by
      intro b; rw [hs1, hs2]; exact mem_split_erase hnd
    have hra := hrec a
    rw [hrec0] at hra
    simp only [rbNode.record, Prod.mk.injEq] at hra
    obtain ⟨-, hc', hd'⟩ := hra
    have hcur :
        UpdateTrip s id n =
          (if inInt (2 * d) = true then
            if n ≤ 2 * d then
              if inInt (c + (if n ≤ d then 0 else 10)) = true then
                ({ s with myTree := { t' with mem := m' }, myHeap := h' } : State).newNode id
                    (c + (if n ≤ d then 0 else 10)) n |>.insertBoth s.next
                  (heapNode.init id (c + (if n ≤ d then 0 else 10)) n)
              else none
            else some (Except.ok { s with myTree := { t' with mem := m' }, myHeap := h' })
          else none) := by
      unfold UpdateTrip
      rw [hs]
      simp only [e1, e2, e3, e4, hc', hd']
    rw [hcur]
    refine ⟨fun h2 => ?_, fun h2 hle hcost => ?_, ?_, ?_⟩
    · rw [if_neg (by rw [h2]; decide)]
    · rw [if_pos h2, if_pos hle, if_neg (by rw [hcost]; decide)]
    · intro h2 hle hcost
      rw [if_pos h2, if_pos hle, if_pos hcost]
      have hcap1 : h'.size < minHeap.capacity := by
        have q1 := hi.count
        have q2 := hi1.count
        have q3 := hi.cap
        rw [hs1] at q1
        rw [hs2] at q2
        simp only [List.length_append, List.length_cons] at q1 q2
        show h'.size < minHeap.capacity
        omega
      have hcn : 0 ≤ c := by
        have := cost_nonneg hi ha
        simp only [rbNode.record, Prod.mk.injEq] at hrec0
        rw [hrec0.2.1] at this
        exact this
      have hkabs : id ∉ keys ({ s with myTree := { t' with mem := m' }, myHeap := h' } :
          State).myTree.mem sh1 := by
        intro hmem
        obtain ⟨b, hb, hkb⟩ := mem_keys.1 hmem
        have hb' := (hmem1 b).1 hb
        have hrb := hrec b
        simp only [rbNode.record, Prod.mk.injEq] at hrb
        have : (s.myTree.mem b).rideNumber = (s.myTree.mem a).rideNumber := by
          rw [hk, ← hrb.1]; exact hkb
        exact hb'.2 (key_inj hi hb'.1 ha this)
      obtain ⟨s', sh', e, hi', hn, ⟨k1, k2, hk1, hk2⟩, hr1, hr2⟩ :=
        @insertBoth_spec _ sh1 id (c + (if n ≤ d then 0 else 10)) n hi1 hkabs
          (hk ▸ hi.keyNe a ha) (by split_ifs <;> omega) hcap1
      refine ⟨s', sh', e, hi', hn, ?_, ?_, hr2⟩
      · intro b
        rw [hk2, ← hmem1 b, hk1]
        simp only [List.mem_append, List.mem_cons]
        show _ ↔ b = s.next ∨ _
        tauto
      · intro b hb
        rw [hr1 b hb]
        exact hrec b
    · intro h2 hgt
      rw [if_pos h2, if_neg hgt]
      exact ⟨_, sh1, rfl, hi1, rfl, hmem1, hrec⟩

/-! ### Reachable states -/

theorem some_ok_inj {α β : Type} {x y : β} (h : (some (Except.ok x) : Option (Except α β)) =
    some (Except.ok y)) : x = y := by
  injection h with h
  injection h

/-- Every reachable state satisfies the invariant. -/
theorem reachable_inv {s : State} (h : Reachable s) : ∃ sh, InvSh s sh := by
  induction h with
  | start => exact ⟨Shape.leaf, invSh_empty⟩
  | insert id c d _ hid hc _ habs e ih =>
    obtain ⟨sh, hi⟩ := ih
    obtain ⟨s2, sh2, e2, hi2, _⟩ := @Insert_spec _ sh id c d hi habs hid hc (Insert_room e)
    rw [e2] at e
    exact ⟨sh2, some_ok_inj e ▸ hi2⟩
  | getNextRide _ e ih =>
    obtain ⟨sh, hi⟩ := ih
    obtain ⟨s2, out2, sh2, e2, hi2, _⟩ := getNextRide_spec hi
    rw [e2] at e
    have : s2 = _ := (Prod.mk.inj (Option.some.inj e)).1
    exact ⟨sh2, this ▸ hi2⟩
  | cancelRide id _ e ih =>
    obtain ⟨sh, hi⟩ := ih
    rename_i s0 s1 _
    by_cases hk : id ∈ keys s0.myTree.mem sh
    · obtain ⟨a, ha, hka⟩ := mem_keys.1 hk
      obtain ⟨s2, sh2, e2, hi2, _⟩ := (CancelRide_spec id hi).2 a ha hka
      rw [e2] at e
      exact ⟨sh2, some_ok_inj e ▸ hi2⟩
    · have e2 := (CancelRide_spec id hi).1 ((absent_iff hi id).2 hk)
      rw [e2] at e
      exact ⟨sh, some_ok_inj e ▸ hi⟩
  | updateTrip id n _ e ih =>
    obtain ⟨sh, hi⟩ := ih
    rename_i s0 s1 _
    by_cases hk : id ∈ keys s0.myTree.mem sh
    · obtain ⟨a, ha, hka⟩ := mem_keys.1 hk
      have hrec : (s0.myTree.mem a).record =
          (id, (s0.myTree.mem a).rideCost, (s0.myTree.mem a).tripDuration) := by
        simp [rbNode.record, hka]
      obtain ⟨o1, o2, h1, h2⟩ := (UpdateTrip_spec id n hi).2 a ha _ _ hrec
      cases hov : inInt (2 * (s0.myTree.mem a).tripDuration) with
      | false => rw [o1 hov] at e; cases e
      | true =>
        by_cases hle : n ≤ 2 * (s0.myTree.mem a).tripDuration
        · cases hcost : inInt ((s0.myTree.mem a).rideCost +
              (if n ≤ (s0.myTree.mem a).tripDuration then 0 else 10)) with
          | false => rw [o2 hov hle hcost] at e; cases e
          | true =>
            obtain ⟨s2, sh2, e2, hi2, _⟩ := h1 hov hle hcost
            rw [e2] at e
            exact ⟨sh2, some_ok_inj e ▸ hi2⟩
        · obtain ⟨s2, sh2, e2, hi2, _⟩ := h2 hov hle
          rw [e2] at e
          exact ⟨sh2, some_ok_inj e ▸ hi2⟩
    · have e2 := (UpdateTrip_spec id n hi).1 ((absent_iff hi id).2 hk)
      rw [e2] at e
      exact ⟨sh, some_ok_inj e ▸ hi⟩

/-! ### Position accuracy, duplicate insert and sequences of inserts -/

theorem swap_pos {h h' : minHeap} {m m' : Mem} {i1 i2 : Nat}
    (e : h.swap m i1 i2 = some (h', m')) :
    h'.size = h.size ∧ ∀ j, (h.heap j).pos = j → (h'.heap j).pos = j := by
  cases r1 : (h.heap i1).rbNodeRef with
  | none => simp [minHeap.swap, r1] at e
  | some a1 =>
    cases r2 : (h.heap i2).rbNodeRef with
    | none => simp [minHeap.swap, r1, r2] at e
    | some a2 =>
      obtain ⟨h2, m2, e2, hsz, hh, _⟩ := @swap_some h m i1 i2 a1 a2 r1 r2
      rw [e] at e2
      obtain ⟨rfl, rfl⟩ := Prod.mk.inj (Option.some.inj e2)
      refine ⟨hsz, fun j hj => ?_⟩
      rw [hh]
      split_ifs with h1 h2
      · exact h1.symm
      · exact h2.symm
      · exact hj

theorem heapifyUp_pos :
    ∀ (fuel : Nat) (h : minHeap) (m : Mem) (p : Nat) (h' : minHeap) (m' : Mem),
      minHeap.heapifyUp fuel h m p = some (h', m') →
      h'.size = h.size ∧ ∀ j, (h.heap j).pos = j → (h'.heap j).pos = j := by
  intro fuel
  induction fuel with
  | zero => intro h m p h' m' e; simp [minHeap.heapifyUp] at e
  | succ fuel ih =>
    intro h m p h' m' e
    unfold minHeap.heapifyUp at e
    split_ifs at e with hlt
    · cases hsw : h.swap m p (minHeap.getParent p) with
      | none => rw [hsw] at e; simp at e
      | some q =>
        obtain ⟨h1, m1⟩ := q
        rw [hsw] at e
        obtain ⟨s1, p1⟩ := swap_pos hsw
        obtain ⟨s2, p2⟩ := ih h1 m1 _ h' m' e
        exact ⟨s2.trans s1, fun j hj => p2 j (p1 j hj)⟩
    · obtain ⟨rfl, rfl⟩ := Prod.mk.inj (Option.some.inj e)
      exact ⟨rfl, fun _ hj => hj⟩

theorem heapifyDown_pos :
    ∀ (fuel : Nat) (h : minHeap) (m : Mem) (p : Nat) (h' : minHeap) (m' : Mem),
      minHeap.heapifyDown fuel h m p = some (h', m') →
      h'.size = h.size ∧ ∀ j, (h.heap j).pos = j → (h'.heap j).pos = j := by
  intro fuel
  induction fuel with
  | zero => intro h m p h' m' e; simp [minHeap.heapifyDown] at e
  | succ fuel ih =>
    intro h m p h' m' e
    unfold minHeap.heapifyDown at e
    by_cases hv : h.isValidIndex (minHeap.getLeftChild p) = true
    · rw [if_pos hv] at e
      have hc : (if (h.heap (minHeap.getLeftChild p)).lt
          (h.heap (if h.isValidIndex (minHeap.getRightChild p) = true
            then minHeap.getRightChild p else minHeap.getLeftChild p)) = true
        then minHeap.getLeftChild p
        else (if h.isValidIndex (minHeap.getRightChild p) = true
          then minHeap.getRightChild p else minHeap.getLeftChild p)) = minChildOf h p := rfl
      simp only [hc] at e
      by_cases hlt : (h.heap (minChildOf h p)).lt (h.heap p) = true
      · rw [if_pos hlt] at e
        cases hsw : h.swap m p (minChildOf h p) with
        | none => rw [hsw] at e; simp at e
        | some q =>
          obtain ⟨h1, m1⟩ := q
          rw [hsw] at e
          obtain ⟨s1, p1⟩ := swap_pos hsw
          obtain ⟨s2, p2⟩ := ih h1 m1 _ h' m' e
          exact ⟨s2.trans s1, fun j hj => p2 j (p1 j hj)⟩
      · rw [if_neg hlt] at e
        obtain ⟨rfl, rfl⟩ := Prod.mk.inj (Option.some.inj e)
        exact ⟨rfl, fun _ hj => hj⟩
    · rw [if_neg hv] at e
      obtain ⟨rfl, rfl⟩ := Prod.mk.inj (Option.some.inj e)
      exact ⟨rfl, fun _ hj => hj⟩

theorem insert_pos {h h' : minHeap} {m m' : Mem} {node : heapNode}
    (e : h.insert m node = some (h', m')) (hp : PosAcc h) : PosAcc h' := by
  have hcap := insert_cap e
  unfold minHeap.insert at e
  rw [if_pos hcap] at e
  simp only at e
  cases hu : minHeap.heapifyUp ((h.put h.size node).put h.size
      { (h.put h.size node).heap h.size with pos := h.size }).size.succ
      ((h.put h.size node).put h.size { (h.put h.size node).heap h.size with pos := h.size })
      m h.size with
  | none =>
    have : minHeap.heapifyUp (h.size + 1) ((h.put h.size node).put h.size
      { (h.put h.size node).heap h.size with pos := h.size }) m h.size = none := hu
    simp only [minHeap.put] at this e
    rw [this] at e
    simp at e
  | some q =>
    obtain ⟨h1, m1⟩ := q
    have hu' : minHeap.heapifyUp (h.size + 1) ((h.put h.size node).put h.size
      { (h.put h.size node).heap h.size with pos := h.size }) m h.size = some (h1, m1) := hu
    obtain ⟨s1, p1⟩ := heapifyUp_pos _ _ _ _ _ _ hu'
    simp only [minHeap.put] at hu' e
    rw [hu'] at e
    obtain ⟨rfl, rfl⟩ := Prod.mk.inj (Option.some.inj e)
    intro j hj1 hjn
    show (h1.heap j).pos = j
    have hjn' : j < h.size + 1 := by
      have : h1.size + 1 = h.size + 1 := by rw [s1]; rfl
      exact this ▸ hjn
    apply p1
    by_cases hj : j = h.size
    · simp [minHeap.put, hj]
    · simp only [minHeap.put, if_neg hj]
      exact hp j hj1 (by omega)

theorem remove_pos {h h' : minHeap} {m m' : Mem} {idx : Nat}
    (e : h.remove m idx = some (h', m')) (hp : PosAcc h) : PosAcc h' := by
  unfold minHeap.remove at e
  cases hsw : h.swap m idx (h.size - 1) with
  | none => rw [hsw] at e; simp at e
  | some q =>
    obtain ⟨h1, m1⟩ := q
    rw [hsw] at e
    simp only at e
    obtain ⟨s1, p1⟩ := swap_pos hsw
    obtain ⟨s2, p2⟩ := heapifyDown_pos _ _ _ _ _ _ e
    intro j hj1 hjn
    have hs : h'.size = h.size - 1 := by rw [s2]; show h1.size - 1 = _; rw [s1]
    exact p2 j (p1 j (hp j hj1 (by omega)))

theorem removeMin_pos {h h' : minHeap} {m m' : Mem} {x : heapNode}
    (e : h.removeMin m = some (Except.ok (x, h', m'))) (hp : PosAcc h) : PosAcc h' := by
  have e' : h.remove m 1 = some (h', m') := by
    unfold minHeap.removeMin at e
    unfold minHeap.remove
    by_cases hemp : h.isEmpty = true
    · rw [if_pos hemp] at e
      simp at e
    rw [if_neg hemp] at e
    cases hsw : h.swap m 1 (h.size - 1) with
    | none => rw [hsw] at e; simp at e
    | some q =>
      obtain ⟨h1, m1⟩ := q
      rw [hsw] at e
      simp only at e ⊢
      cases hd : minHeap.heapifyDown ({ h1 with size := h1.size - 1 } : minHeap).size.succ
          { h1 with size := h1.size - 1 } m1 1 with
      | none =>
        simp [hd] at e
      | some r =>
        obtain ⟨h2, m2⟩ := r
        simp only [hd, Option.some.injEq, Except.ok.injEq, Prod.mk.injEq] at e
        rw [e.2.1, e.2.2]
  exact remove_pos e' hp

/-- The function Insert with a ride number that is already in the tree: the tree insert
throws, and the state is the one before with only the new node object allocated. -/
theorem Insert_dup_spec {s : State} {sh : Shape} {a : Nat} {id : Int} (hi : InvSh s sh)
    (ha : a ∈ sh.addrs) (hk : (s.myTree.mem a).rideNumber = id) (c d : Int) :
    Insert s id c d = some (Except.error ("Duplicate RideNumber\n", s.newNode id c d)) ∧
    (s.newNode id c d).myTree.search (s.newNode id c d).fuel id = some (some a) := by
  have hfresh : s.next ∉ sh.addrs := fun h => Nat.lt_irrefl _ (hi.below _ h)
  have hm1 : ∀ b ∈ sh.addrs, (s.newNode id c d).myTree.mem b = s.myTree.mem b :=
    fun b hb => State.newNode_mem_ne s id c d (by rintro rfl; exact hfresh hb)
  have hmn := State.newNode_mem_next s id c d
  have ht1 : IsTree (s.newNode id c d).myTree sh :=
    ⟨hi.tree.root, layout_congr hm1 hi.tree.layout, hi.tree.nodup⟩
  have hkeys1 : keys (s.newNode id c d).myTree.mem sh = keys s.myTree.mem sh := by
    unfold keys
    exact List.map_congr_left (fun b hb => by rw [hm1 b hb])
  have hko : KeyOrdered (s.newNode id c d).myTree.mem sh := by
    unfold KeyOrdered; rw [hkeys1]; exact hi.ordered
  have hfuel := height_lt_fuel hi
  have hf : sh.height < (s.newNode id c d).fuel := by
    simp only [State.fuel, State.newNode]; omega
  constructor
  · have e := @insert_dup (s.newNode id c d).myTree sh s.next (s.newNode id c d).fuel ht1 hko
      (by rw [hmn, hkeys1]; exact mem_keys.2 ⟨a, ha, hk⟩) hf
    show (s.newNode id c d).insertBoth s.next (heapNode.init id c d) = _
    unfold State.insertBoth
    rw [e]
  · exact (search_spec id ht1 hko hf).1 a ha (by rw [hm1 a ha]; exact hk)

theorem insertAll_spec :
    ∀ (ids : List Int) (t : rbTree) (next : Nat) (sh : Shape), TreeInv t sh next →
      (∀ id ∈ ids, id ∉ keys t.mem sh) → ids.Nodup →
      ∃ t' next' sh', insertAll ids t next = some (t', next') ∧ TreeInv t' sh' next' ∧
        (keys t'.mem sh').Perm (ids ++ keys t.mem sh) := by
  intro ids
  induction ids with
  | nil =>
    intro t next sh hi _ _
    exact ⟨t, next, sh, rfl, hi, List.Perm.refl _⟩
  | cons id ids ih =>
    intro t next sh hi hk hnd
    have hnext0 : next ≠ NIL := by have := hi.nextPos; simp only [NIL]; omega
    have hfresh : next ∉ sh.addrs := fun h => Nat.lt_irrefl _ (hi.below _ h)
    have hm1 : ∀ b ∈ sh.addrs, Mem.write t.mem next (rbNode.init id 0 0) b = t.mem b :=
      fun b hb => Mem.write_ne _ _ (by rintro rfl; exact hfresh hb)
    have ht1 : IsTree { t with mem := Mem.write t.mem next (rbNode.init id 0 0) } sh :=
      ⟨hi.tree.root, layout_congr hm1 hi.tree.layout, hi.tree.nodup⟩
    have hkeys1 : keys (Mem.write t.mem next (rbNode.init id 0 0)) sh = keys t.mem sh := by
      unfold keys
      exact List.map_congr_left (fun b hb => by rw [hm1 b hb])
    have hlen := length_le_of_nodup_lt hi.tree.nodup (layout_zero_not_mem hi.tree.layout)
      hi.nextPos hi.below
    have hh := height_le_length sh
    obtain ⟨t2, sh2, e, ht2, ⟨l1, l2, hs1, hs2⟩, hko, hdata, hsent, hrb, hnrr, _⟩ :=
      @insert_spec { t with mem := Mem.write t.mem next (rbNode.init id 0 0) } sh next
        (next + 2) ht1 (by unfold KeyOrdered; rw [hkeys1]; exact hi.ordered)
        (by show (Mem.write t.mem next _ NIL).color = _
            rw [Mem.write_ne _ _ (Ne.symm hnext0)]; exact hi.sentinel)
        hi.rootBlack hi.noRedRed hnext0 hfresh (by simp [rbNode.init]) (by simp [rbNode.init])
        (by show (Mem.write t.mem next (rbNode.init id 0 0) next).rideNumber ∉
              keys (Mem.write t.mem next (rbNode.init id 0 0)) sh
            rw [hkeys1, Mem.write_same]
            exact hk id (List.mem_cons_self _ _))
        (by omega)
    have hkeys2 : keys t2.mem sh2 =
        l1.map (fun a => (t.mem a).rideNumber) ++ id :: l2.map (fun a => (t.mem a).rideNumber) := by
      have hk2 : ∀ b, (t2.mem b).rideNumber =
          (Mem.write t.mem next (rbNode.init id 0 0) b).rideNumber :=
        fun b => data_rideNumber (hdata b)
      unfold keys
      rw [hs2, List.map_append, List.map_cons]
      congr 1
      · apply List.map_congr_left
        intro b hb
        rw [hk2 b, hm1 b (by rw [hs1]; simp [hb])]
      · congr 1
        · rw [hk2 next]; simp [rbNode.init]
        · apply List.map_congr_left
          intro b hb
          rw [hk2 b, hm1 b (by rw [hs1]; simp [hb])]
    have hkeys0 : keys t.mem sh =
        l1.map (fun a => (t.mem a).rideNumber) ++ l2.map (fun a => (t.mem a).rideNumber) := by
      unfold keys; rw [hs1, List.map_append]
    have hperm2 : (keys t2.mem sh2).Perm (id :: keys t.mem sh) := by
      rw [hkeys2, hkeys0]
      exact List.perm_middle
    have hi2 : TreeInv t2 sh2 (next + 1) := by
      refine ⟨ht2, hko, ?_, hrb, hnrr, by omega, ?_⟩
      · rw [hsent]
        show (Mem.write t.mem next _ NIL).color = _
        rw [Mem.write_ne _ _ (Ne.symm hnext0)]; exact hi.sentinel
      · intro b hb
        rw [hs2] at hb
        simp only [List.mem_append, List.mem_cons] at hb
        rcases hb with hb | rfl | hb
        · have := hi.below b (by rw [hs1]; simp [hb]); omega
        · omega
        · have := hi.below b (by rw [hs1]; simp [hb]); omega
    have hnd' := List.nodup_cons.1 hnd
    obtain ⟨t', next', sh', e', hi', hperm'⟩ := ih t2 (next + 1) sh2 hi2
      (by
        intro id' hid' hmem
        have := hperm2.subset hmem
        simp only [List.mem_cons] at this
        rcases this with rfl | h
        · exact hnd'.1 hid'
        · exact hk id' (List.mem_cons_of_mem _ hid') h)
      hnd'.2
    refine ⟨t', next', sh', ?_, hi', ?_⟩
    · show (match ({ t with mem := Mem.write t.mem next (rbNode.init id 0 0) } : rbTree).insert
          (next + 2) (some next) with
        | some (Except.ok t) => insertAll ids t (next + 1)
        | _ => none) = _
      rw [e]
      exact e'
    · refine hperm'.trans ?_
      refine (List.Perm.append_left ids hperm2).trans ?_
      simp only [List.cons_append]
      exact List.perm_middle

/-! ### Command sequences and the properties C1 to C10 -/

theorem step_reachableIf {okId : Int → Prop} {s s' : State} {c : Cmd}
    (hok : ∀ id x d, c = Cmd.insert id x d → okId id) (h : ReachableIf okId s)
    (e : step s c = some s') : ReachableIf okId s' := by
  cases c with
  | insert id x d =>
    simp only [step] at e
    split_ifs at e with hc
    cases hI : Insert s id x d with
    | none => simp [hI] at e
    | some r =>
      cases r with
      | error p => simp [hI] at e
      | ok s2 =>
        simp only [hI, Option.some.injEq] at e
        subst e
        exact ReachableIf.insert id x d h (hok id x d rfl) hc.1 hc.2.1 hc.2.2 hI
  | getNextRide =>
    simp only [step] at e
    cases hG : GetNextRide s with
    | none => simp [hG] at e
    | some r =>
      obtain ⟨s2, out⟩ := r
      simp only [hG, Option.some.injEq] at e
      subst e
      exact ReachableIf.getNextRide h hG
  | cancelRide id =>
    simp only [step] at e
    cases hC : CancelRide s id with
    | none => simp [hC] at e
    | some r =>
      cases r with
      | error p => simp [hC] at e
      | ok s2 =>
        simp only [hC, Option.some.injEq] at e
        subst e
        exact ReachableIf.cancelRide id h hC
  | updateTrip id n =>
    simp only [step] at e
    cases hU : UpdateTrip s id n with
    | none => simp [hU] at e
    | some r =>
      cases r with
      | error p => simp [hU] at e
      | ok s2 =>
        simp only [hU, Option.some.injEq] at e
        subst e
        exact ReachableIf.updateTrip id n h hU

theorem run_reachableIf {okId : Int → Prop} :
    ∀ (cmds : List Cmd) (s s' : State),
      (∀ c ∈ cmds, ∀ id x d, c = Cmd.insert id x d → okId id) → ReachableIf okId s →
      run cmds s = some s' → ReachableIf okId s' := by
  intro cmds
  induction cmds with
  | nil =>
    intro s s' _ h e
    simp only [run, Option.some.injEq] at e
    exact e ▸ h
  | cons c cs ih =>
    intro s s' hok h e
    simp only [run] at e
    cases hs : step s c with
    | none => simp [hs] at e
    | some s1 =>
      simp only [hs] at e
      exact ih s1 s' (fun c' hc' => hok c' (List.mem_cons_of_mem _ hc'))
        (step_reachableIf (hok c (List.mem_cons_self _ _)) h hs) e

theorem run_stateAfter {cmds : List Cmd} (h : (run cmds State.empty).isSome = true) :
    run cmds State.empty = some (stateAfter cmds) := by
  unfold stateAfter
  cases hr : run cmds State.empty with
  | none => simp [hr] at h
  | some s => rfl

theorem idsOk_spec : ∀ (cmds : List Cmd), idsOk cmds = true →
    ∀ c ∈ cmds, ∀ id x d, c = Cmd.insert id x d → id ≠ -1 := by
  intro cmds
  induction cmds with
  | nil => intro _ c hc; simp at hc
  | cons c cs ih =>
    intro h c' hc' id x d e
    rw [List.mem_cons] at hc'
    cases c with
    | insert id0 x0 d0 =>
      simp only [idsOk, Bool.and_eq_true, decide_eq_true_eq] at h
      rcases hc' with rfl | hc'
      · cases e; exact h.1
      · exact ih h.2 c' hc' id x d e
    | getNextRide =>
      rcases hc' with rfl | hc'
      · cases e
      · exact ih h c' hc' id x d e
    | cancelRide id0 =>
      rcases hc' with rfl | hc'
      · cases e
      · exact ih h c' hc' id x d e
    | updateTrip id0 n0 =>
      rcases hc' with rfl | hc'
      · cases e
      · exact ih h c' hc' id x d e

/-- The state after a sequence of commands that runs through from program start is
reachable. -/
theorem reachableIf_stateAfter {cmds : List Cmd}
    (h : (run cmds State.empty).isSome = true) : ReachableIf (fun _ => True) (stateAfter cmds) :=
  run_reachableIf cmds _ _ (fun _ _ _ _ _ _ => trivial) ReachableIf.start (run_stateAfter h)

theorem reachable_stateAfter {cmds : List Cmd} (h : (run cmds State.empty).isSome = true)
    (hid : idsOk cmds = true) : Reachable (stateAfter cmds) :=
  run_reachableIf cmds _ _ (idsOk_spec cmds hid) ReachableIf.start (run_stateAfter h)

theorem bijection_of_inv {s : State} {sh : Shape} (hi : InvSh s sh) : Bijection s := by
  refine ⟨sh, hi.tree, hi.count, fun a ha => ?_⟩
  obtain ⟨i, hi1, hin, hri⟩ := (hi.refs a).2 ha
  have hl := hi.sync.2 i hi1 hin
  refine ⟨i, hi1, hin, hl.backref hri, ?_, hri⟩
  obtain ⟨_, _, b, hb, hd⟩ := hl
  rw [hri] at hb
  cases hb
  simp only [rbNode.data, Prod.mk.injEq] at hd
  simp [rbNode.record, hd.1, hd.2.1, hd.2.2.1]

theorem isTree_root_zero {t : rbTree} {sh : Shape} (ht : IsTree t sh) (h0 : t.root = NIL) :
    sh = Shape.leaf :=
  (ptr_eq_zero_iff ht.layout).1 (ht.root ▸ h0)

/-- C1, as stated, fails: the state after the commands Insert(1,0,0), Insert(-1,0,0),
Insert(2,0,0), CancelRide(-1), Insert(-1,0,0), CancelRide(1) is reachable by inserts with
non-negative cost and duration and ride numbers that are not live, but its tree is empty
(the root is the sentinel) while the heap has two live cells. -/
theorem C1_counterexample :
    ReachableIf (fun _ => True) (stateAfter sentinelIdRun) ∧
      (stateAfter sentinelIdRun).myTree.root = NIL ∧
      (stateAfter sentinelIdRun).myHeap.size = 3 ∧
      ¬ Bijection (stateAfter sentinelIdRun) := by
  have hroot : (stateAfter sentinelIdRun).myTree.root = NIL := by decide
  have hsize : (stateAfter sentinelIdRun).myHeap.size = 3 := by decide
  refine ⟨reachableIf_stateAfter (by decide), hroot, hsize, ?_⟩
  rintro ⟨sh, ht, hc, _⟩
  have := isTree_root_zero ht hroot
  subst this
  rw [hsize] at hc
  simp at hc

/-- C1 (amended): in every state reachable from the empty state by any sequence of Insert
(with non-negative cost and duration and a ride number that is not -1 and is not live),
GetNextRide, CancelRide and UpdateTrip, the number of tree nodes equals the number of live
heap cells, the back-reference of every tree node designates the live heap cell that holds
the same (ride number, cost, duration), and the back-reference of that cell designates
that same tree node. -/
theorem C1_bijection (s : State) (h : Reachable s) : Bijection s := by
  obtain ⟨sh, hi⟩ := reachable_inv h
  exact bijection_of_inv hi

theorem C1_bijection_witness :
    Reachable (stateAfter demoRun) ∧ Bijection (stateAfter demoRun) :=
  ⟨reachable_stateAfter (by decide) (by decide),
    C1_bijection (stateAfter demoRun) (reachable_stateAfter (by decide) (by decide))⟩

/-- C2 fails on the code: after the inserts (1,1,0), (10,10,0), (2,2,0), (11,11,0),
(12,12,0), (30,30,0), (5,5,0) and CancelRide(11) the state is reachable, and GetNextRide
until the store is empty writes the records with the costs 1, 2, 10, 5, 12, 30: the record
of cost 10 comes out before the record of cost 5. -/
theorem C2_extraction_out_of_order :
    Reachable (stateAfter cancelRun) ∧
      drain 10 (stateAfter cancelRun) =
        ["(1,1,0)", "(2,2,0)", "(10,10,0)", "(5,5,0)", "(12,12,0)", "(30,30,0)"] :=
  ⟨reachable_stateAfter (by decide) (by decide), by decide⟩

/-- C3: rbTree::insert preserves the red-black invariants.  For every tree that satisfies
key ordering and the balance discipline (sentinel black, root black, no red node with a red
child, equal number of black nodes on all paths) and every new node (as the constructor
builds it) whose positive ride number is not in the tree, insert returns and the tree
again satisfies the balance discipline. -/
theorem C3_insert_preserves_redBlack {t : rbTree} {sh : Shape} {n fuel : Nat} {id c d : Int}
    (ht : IsTree t sh) (hk : KeyOrdered t.mem sh) (hrb : RedBlack t sh) (hn0 : n ≠ NIL)
    (hn : n ∉ sh.addrs) (hnew : t.mem n = rbNode.init id c d) (hpos : 0 < id)
    (hkey : id ∉ keys t.mem sh) (hf : sh.height < fuel) :
    ∃ t' sh', rbTree.insert fuel t (some n) = some (Except.ok t') ∧ IsTree t' sh' ∧
      RedBlack t' sh' := by
  have hne : id ≠ -1 := by omega
  obtain ⟨t', sh', e, ht', _, _, _, hsent, hrb', hnrr, hbal⟩ :=
    @insert_spec t sh n fuel ht hk hrb.sentinel hrb.rootBlack hrb.noRedRed hn0 hn
      (by rw [hnew]; rfl) (by rw [hnew]; rfl) (by rw [hnew]; exact hkey) hf
  refine ⟨t', sh', e, ht', ⟨by rw [hsent]; exact hrb.sentinel, hrb', hnrr, ?_⟩⟩
  apply hbal _ hrb.balanced
  rw [hnew]
  simp [rbNode.init, hne]

theorem C3_insert_preserves_redBlack_witness :
    (IsTree fourTree fourShape ∧ KeyOrdered fourTree.mem fourShape ∧
      RedBlack fourTree fourShape ∧ keys fourTree.mem fourShape = [1, 2, 3, 4] ∧
      fourTree.mem 5 = rbNode.init 5 0 0) ∧
    ∃ t' sh', rbTree.insert 7 fourTree (some 5) = some (Except.ok t') ∧ IsTree t' sh' ∧
      RedBlack t' sh' :=
  ⟨⟨by decide, by decide, by decide, by decide, rfl⟩,
    @C3_insert_preserves_redBlack fourTree fourShape 5 7 5 0 0
      (by decide) (by decide) (by decide) (by decide) (by decide) rfl (by decide) (by decide)
      (by decide)⟩

/-- C4: rbTree::deleteNode preserves the red-black invariants.  For every tree that
satisfies the balance discipline (key ordering is not needed) and every node of that tree,
deleteNode returns and the tree again has a black sentinel, a black root, no red node with
a red child, and the same number of black nodes on every path from a node to a leaf. -/
theorem C4_deleteNode_preserves_redBlack {t : rbTree} {sh : Shape} {z fuel : Nat}
    (ht : IsTree t sh) (hrb : RedBlack t sh) (hz : z ∈ sh.addrs) (hf : sh.height ≤ fuel) :
    ∃ t' sh', deleteNode fuel t (some z) = some (Except.ok t') ∧ IsTree t' sh' ∧
      RedBlack t' sh' := by
  obtain ⟨t', sh', e, _, ht', _, hsent, hrb', hnrr, hbal⟩ :=
    @deleteNode_spec t sh z fuel ht hrb.sentinel hrb.rootBlack hrb.noRedRed hrb.balanced hz hf
  exact ⟨t', sh', e, ht', ⟨hsent, hrb', hnrr, hbal⟩⟩

theorem C4_deleteNode_preserves_redBlack_witness :
    ∃ t' sh', deleteNode 5 threeTree (some 1) = some (Except.ok t') ∧ IsTree t' sh' ∧
      RedBlack t' sh' :=
  @C4_deleteNode_preserves_redBlack threeTree threeShape 1 5 (by decide) (by decide)
    (by decide) (by decide)

theorem treeInv_empty : TreeInv State.empty.myTree Shape.leaf 1 :=
  ⟨⟨rfl, trivial, List.nodup_nil⟩, List.Pairwise.nil, rfl, rfl, trivial, le_refl 1,
    fun a ha => by simp at ha⟩

/-- C5: for every finite sequence of inserts with pairwise distinct ride numbers into an
empty tree, the inserts return and the in-order sequence of ride numbers of the resulting
tree is exactly the list of inserted ride numbers sorted in strictly ascending order. -/
theorem C5_inorder_is_sorted_ids (ids : List Int) (hnd : ids.Nodup) :
    ∃ t n sh, insertAll ids State.empty.myTree 1 = some (t, n) ∧ IsTree t sh ∧
      keys t.mem sh = ids.insertionSort (fun x y => x ≤ y) ∧
      (keys t.mem sh).Pairwise (fun x y => x < y) := by
  obtain ⟨t, n, sh, e, hi, hp⟩ := insertAll_spec ids State.empty.myTree 1 Shape.leaf
    treeInv_empty (fun id _ h => by simp [keys] at h) hnd
  refine ⟨t, n, sh, e, hi.tree, ?_, hi.ordered⟩
  have hp' : (keys t.mem sh).Perm ids := by
    simpa [keys] using hp
  have hs1 : (keys t.mem sh).Sorted (fun x y => x ≤ y) :=
    List.Pairwise.imp (fun h => le_of_lt h) hi.ordered
  exact List.eq_of_perm_of_sorted (hp'.trans (List.perm_insertionSort _ ids).symm) hs1
    (List.sorted_insertionSort _ ids)

theorem C5_inorder_is_sorted_ids_witness :
    ∃ t n sh, insertAll [5, 1, 9, 3, 7] State.empty.myTree 1 = some (t, n) ∧ IsTree t sh ∧
      keys t.mem sh = [5, 1, 9, 3, 7].insertionSort (fun x y => x ≤ y) ∧
      (keys t.mem sh).Pairwise (fun x y => x < y) :=
  C5_inorder_is_sorted_ids [5, 1, 9, 3, 7] (by decide)

/-- C6: rbTree::deleteNode removes exactly the given node.  For every key-ordered red-black
tree and every node z in it (with zero, one or two children), deleteNode returns, the
in-order sequence of nodes afterwards is the one before with z erased, every node keeps
its ride number, cost, duration and heap back-reference, and the tree is key-ordered
again. -/
theorem C6_deleteNode_removes_node {t : rbTree} {sh : Shape} {z fuel : Nat}
    (ht : IsTree t sh) (hk : KeyOrdered t.mem sh) (hrb : RedBlack t sh) (hz : z ∈ sh.addrs)
    (hf : sh.height ≤ fuel) :
    ∃ t' sh', deleteNode fuel t (some z) = some (Except.ok t') ∧ IsTree t' sh' ∧
      sh'.addrs = sh.addrs.erase z ∧ (∀ a, (t'.mem a).data = (t.mem a).data) ∧
      KeyOrdered t'.mem sh' := by
  obtain ⟨t', sh', e, ⟨l1, l2, hs1, hs2⟩, ht', hdata, _⟩ :=
    @deleteNode_spec t sh z fuel ht hrb.sentinel hrb.rootBlack hrb.noRedRed hrb.balanced hz hf
  refine ⟨t', sh', e, ht', ?_, hdata, keyOrdered_remove hk hs1 hs2
    (fun a => record_of_data (hdata a))⟩
  have hnd : (l1 ++ z :: l2).Nodup := hs1 ▸ ht.nodup
  have h1 : z ∉ l1 := fun h => (List.nodup_append.1 hnd).2.2 h (List.mem_cons_self _ _)
  rw [hs1, hs2, List.erase_append_right _ h1, List.erase_cons_head]

theorem C6_deleteNode_removes_node_witness :
    ∃ t' sh', deleteNode 5 threeTree (some 1) = some (Except.ok t') ∧ IsTree t' sh' ∧
      sh'.addrs = threeShape.addrs.erase 1 ∧
      (∀ a, (t'.mem a).data = (threeTree.mem a).data) ∧ KeyOrdered t'.mem sh' :=
  @C6_deleteNode_removes_node threeTree threeShape 1 5 (by decide) (by decide) (by decide)
    (by decide) (by decide)

/-- The live cells of fullHeap. -/
theorem fullHeap_cell (i : Nat) (h1 : 1 ≤ i) (h2 : i < fullHeap.size) :
    fullHeap.heap i = { heapNode.init (i : Int) 0 0 with pos := i } := by
  have h3 : i < 2005 := h2
  simp [fullHeap, h1, h3]

/-- C7, as stated, fails for insert: in the heap fullHeap every live cell i in 1 .. 2004 has
pos = i and all 2005 cells of the buffer are in use, so that minHeap::insert would write
the cell 2005 past the buffer: it has no result, and no heap with accurate positions comes
out of it. -/
theorem C7_counterexample :
    PosAcc fullHeap ∧ fullHeap.size = minHeap.capacity ∧
      fullHeap.insert State.empty.myTree.mem (heapNode.init 2005 0 0) = none :=
  ⟨fun i h1 h2 => by rw [fullHeap_cell i h1 h2], rfl, insert_full _ _ _ (le_refl _)⟩

/-- C7 (amended): position accuracy.  On a heap in which every live cell i in
1 .. size - 1 has pos = i, every result of minHeap::insert, of minHeap::removeMin and of
minHeap::remove with a valid index is again such a heap; removeMin and remove return when
in addition every live cell is linked with a tree node and has a non-negative cost, and
insert returns when moreover the new cell is such a cell and the size is below the 2005
cells of the buffer. -/
theorem C7_position_accuracy (h : minHeap) (hp : PosAcc h) :
    (∀ m node h' m', h.insert m node = some (h', m') → PosAcc h') ∧
    (∀ m x h' m', h.removeMin m = some (Except.ok (x, h', m')) → PosAcc h') ∧
    (∀ m idx h' m', 1 ≤ idx → idx < h.size → h.remove m idx = some (h', m') → PosAcc h') ∧
    (∀ m, HeapSync h m h.size → 1 ≤ h.size →
      (∀ node a, h.size < minHeap.capacity → 0 ≤ node.rideCost → node.rbNodeRef = some a →
        (m a).data = (node.rideNumber, node.rideCost, node.tripDuration, some h.size) →
        ∃ h' m', h.insert m node = some (h', m') ∧ PosAcc h') ∧
      (2 ≤ h.size → ∃ h' m', h.removeMin m = some (Except.ok (h.heap 1, h', m')) ∧
        PosAcc h') ∧
      (∀ idx, 1 ≤ idx → idx < h.size → ∃ h' m', h.remove m idx = some (h', m') ∧
        PosAcc h')) := by
  refine ⟨fun m node h' m' e => insert_pos e hp, fun m x h' m' e => removeMin_pos e hp,
    fun m idx h' m' _ _ e => remove_pos e hp, fun m hs h1 => ⟨?_, ?_, ?_⟩⟩
  · intro node a hcap hc hr hd
    obtain ⟨h', m', e, _⟩ := heap_insert_spec hs h1 hc hr hd hcap
    exact ⟨h', m', e, insert_pos e hp⟩
  · intro h2
    obtain ⟨h', m', a, e, _⟩ := heap_removeMin_spec hs h2
    exact ⟨h', m', e, removeMin_pos e hp⟩
  · intro idx hi1 hi2
    obtain ⟨h', m', a, e, _⟩ := heap_remove_spec hs hi1 hi2
    exact ⟨h', m', e, remove_pos e hp⟩

theorem C7_position_accuracy_witness :
    PosAcc (stateAfter demoRun).myHeap ∧ (stateAfter demoRun).myHeap.size = 3 ∧
      (∀ m node h' m', (stateAfter demoRun).myHeap.insert m node = some (h', m') →
        PosAcc h') ∧
      (∀ m idx h' m', 1 ≤ idx → idx < (stateAfter demoRun).myHeap.size →
        (stateAfter demoRun).myHeap.remove m idx = some (h', m') → PosAcc h') :=
  ⟨by decide, by decide, (C7_position_accuracy (stateAfter demoRun).myHeap (by decide)).1,
    (C7_position_accuracy (stateAfter demoRun).myHeap (by decide)).2.2.1⟩

/-- C9: duplicate insert is atomic.  For every reachable state and every ride number id
whose lookup returns a record, Insert(id, c2, d2) fails with the error "Duplicate
RideNumber"; the root pointer, every node object that existed before (links, colours,
record) and the heap (cells, positions, size) are exactly as before, and the lookup of id
still returns the record that was there before. -/
theorem C9_duplicate_insert_atomic (s : State) (h : Reachable s) (id c d c2 d2 : Int)
    (hl : Lookup s id c d) :
    ∃ s', Insert s id c2 d2 = some (Except.error ("Duplicate RideNumber\n", s')) ∧
      s'.myTree.root = s.myTree.root ∧
      (∀ a, a ≠ s.next → s'.myTree.mem a = s.myTree.mem a) ∧
      s'.myHeap = s.myHeap ∧ Lookup s' id c d := by
  obtain ⟨sh, hi⟩ := reachable_inv h
  obtain ⟨a, ha, hrec⟩ := (lookup_iff hi id c d).1 hl
  have hk : (s.myTree.mem a).rideNumber = id := by
    simp only [rbNode.record, Prod.mk.injEq] at hrec
    exact hrec.1
  obtain ⟨e, hs⟩ := Insert_dup_spec hi ha hk c2 d2
  have hne : a ≠ s.next := by
    rintro rfl
    exact Nat.lt_irrefl _ (hi.below _ ha)
  refine ⟨s.newNode id c2 d2, e, rfl, fun b hb => State.newNode_mem_ne s id c2 d2 hb, rfl, ?_⟩
  rw [lookup_search]
  exact ⟨a, hs, by rw [State.newNode_mem_ne s id c2 d2 hne]; exact hrec⟩

theorem C9_duplicate_insert_atomic_witness :
    ∃ s', Insert (stateAfter demoRun) 1 8 9 =
        some (Except.error ("Duplicate RideNumber\n", s')) ∧
      s'.myTree.root = (stateAfter demoRun).myTree.root ∧
      (∀ a, a ≠ (stateAfter demoRun).next →
        s'.myTree.mem a = (stateAfter demoRun).myTree.mem a) ∧
      s'.myHeap = (stateAfter demoRun).myHeap ∧ Lookup s' 1 5 10 :=
  C9_duplicate_insert_atomic (stateAfter demoRun)
    (reachable_stateAfter (by decide) (by decide)) 1 5 10 8 9 (by decide)

theorem ok_of_check (o : Option (Except (String × State) State)) (p : State → Bool)
    (h : (match o with
      | some (Except.ok s) => p s
      | _ => false) = true) : ∃ s, o = some (Except.ok s) ∧ p s = true := by
  cases o with
  | none => simp at h
  | some r =>
    cases r with
    | error e => simp at h
    | ok s => exact ⟨s, rfl, h⟩

/-- C10, as stated, fails in three ways.  The state after Insert(1,0,3), UpdateTrip(1,-5)
is reachable and contains the record (1, 0, -5); UpdateTrip(1,-5) in it has a new duration
that is not larger than the old one, yet the lookup of ride 1 afterwards returns absent,
because -5 is larger than twice the old duration.  The state after Insert(1,0,1500000000)
is reachable and contains the record (1, 0, 1500000000); UpdateTrip(1,1600000000) in it has
a new duration between the old one and twice the old one, but twice the old duration,
3000000000, is above the largest int 2147483647: the product overflows, the call has no
result, and no lookup returns (1, 10, 1600000000).  And the state after
Insert(1,2147483647,10) is reachable and contains the record (1, 2147483647, 10);
UpdateTrip(1,15) in it has a new duration between the old one and twice the old one, but
the new cost 2147483647 + 10 is above the largest int: the sum overflows, the call has no
result, and no lookup returns (1, 2147483657, 15). -/
theorem C10_counterexample :
    (Reachable (stateAfter negativeRun) ∧ Lookup (stateAfter negativeRun) 1 0 (-5) ∧
      (-5 : Int) ≤ -5 ∧
      ∃ s', UpdateTrip (stateAfter negativeRun) 1 (-5) = some (Except.ok s') ∧
        Absent s' 1 ∧ ¬ Lookup s' 1 0 (-5)) ∧
    (Reachable (stateAfter overflowRun) ∧ Lookup (stateAfter overflowRun) 1 0 1500000000 ∧
      (1500000000 : Int) < 1600000000 ∧ (1600000000 : Int) ≤ 2 * 1500000000 ∧
      INT_MAX < 2 * 1500000000 ∧
      UpdateTrip (stateAfter overflowRun) 1 1600000000 = none) ∧
    (Reachable (stateAfter costRun) ∧ Lookup (stateAfter costRun) 1 2147483647 10 ∧
      (10 : Int) < 15 ∧ (15 : Int) ≤ 2 * 10 ∧ INT_MAX < 2147483647 + 10 ∧
      UpdateTrip (stateAfter costRun) 1 15 = none) := by
  refine ⟨⟨reachable_stateAfter (by decide) (by decide), by decide, by decide, ?_⟩,
    ⟨reachable_stateAfter (by decide) (by decide), by decide, by decide, by decide, by decide,
      Option.isNone_iff_eq_none.1 (by decide)⟩,
    reachable_stateAfter (by decide) (by decide), by decide, by decide, by decide, by decide,
    Option.isNone_iff_eq_none.1 (by decide)⟩
  obtain ⟨s', e, hp⟩ := ok_of_check (UpdateTrip (stateAfter negativeRun) 1 (-5))
    (fun s => decide (Absent s 1)) (by decide)
  have ha : Absent s' 1 := of_decide_eq_true hp
  refine ⟨s', e, ha, ?_⟩
  intro hl
  unfold Absent at ha
  unfold Lookup at hl
  rw [ha] at hl
  simp at hl

/-- C10 (amended): the UpdateTrip rule.  For every reachable state in which the lookup of
id returns (id, c, d) and every new duration n for which the int arithmetic of the call does
not overflow (2*d lies in the range of int, and so does the new cost, c or c+10, when
n <= 2*d and the cost is computed), UpdateTrip(id, n) returns and afterwards:
if n <= d and n <= 2*d (the second follows from the first when d is not negative) the
lookup of id returns (id, c, n); if d < n <= 2*d it returns (id, c+10, n); if n > 2*d it
returns absent; in all cases every other record is still returned by its lookup with
unchanged (ride number, cost, duration). -/
theorem C10_updateTrip_rule (s : State) (h : Reachable s) (id c d n : Int)
    (hl : Lookup s id c d) (hd : inInt (2 * d) = true)
    (hc : n ≤ 2 * d → inInt (c + (if n ≤ d then 0 else 10)) = true) :
    ∃ s', UpdateTrip s id n = some (Except.ok s') ∧
      (n ≤ d → n ≤ 2 * d → Lookup s' id c n) ∧
      (d < n → n ≤ 2 * d → Lookup s' id (c + 10) n) ∧
      (2 * d < n → Absent s' id) ∧
      (∀ id2 c2 d2, id2 ≠ id → Lookup s id2 c2 d2 → Lookup s' id2 c2 d2) := by
  obtain ⟨sh, hi⟩ := reachable_inv h
  obtain ⟨a, ha, hrec⟩ := (lookup_iff hi id c d).1 hl
  have hk : (s.myTree.mem a).rideNumber = id := by
    simp only [rbNode.record, Prod.mk.injEq] at hrec
    exact hrec.1
  obtain ⟨_, _, h1, h2⟩ := (UpdateTrip_spec id n hi).2 a ha c d hrec
  have hother : ∀ (b : Nat) (id2 c2 d2 : Int), id2 ≠ id → b ∈ sh.addrs →
      (s.myTree.mem b).record = (id2, c2, d2) → b ≠ a := by
    intro b id2 c2 d2 hne _ hrb e
    subst e
    rw [hrec] at hrb
    simp only [Prod.mk.injEq] at hrb
    exact hne hrb.1.symm
  by_cases hle : n ≤ 2 * d
  · obtain ⟨s', sh', e, hi', _, hmem, hr1, hr2⟩ := h1 hd hle (hc hle)
    refine ⟨s', e, ?_, ?_, fun hgt => absurd hle (by omega), ?_⟩
    · intro hnd _
      rw [if_pos hnd, add_zero] at hr2
      exact (lookup_iff hi' id c n).2 ⟨s.next, (hmem _).2 (Or.inl rfl), hr2⟩
    · intro hdn _
      rw [if_neg (by omega)] at hr2
      exact (lookup_iff hi' id (c + 10) n).2 ⟨s.next, (hmem _).2 (Or.inl rfl), hr2⟩
    · intro id2 c2 d2 hne hl2
      obtain ⟨b, hb, hrb⟩ := (lookup_iff hi id2 c2 d2).1 hl2
      have hbn : b ≠ s.next := by
        rintro rfl
        exact Nat.lt_irrefl _ (hi.below _ hb)
      exact (lookup_iff hi' id2 c2 d2).2
        ⟨b, (hmem b).2 (Or.inr ⟨hb, hother b id2 c2 d2 hne hb hrb⟩), by rw [hr1 b hbn]; exact hrb⟩
  · obtain ⟨s', sh', e, hi', _, hmem, hr1⟩ := h2 hd hle
    refine ⟨s', e, fun _ h' => absurd h' hle, fun _ h' => absurd h' hle, ?_, ?_⟩
    · intro _
      rw [absent_iff hi']
      intro hkm
      obtain ⟨b, hb, hkb⟩ := mem_keys.1 hkm
      have hb' := (hmem b).1 hb
      have hrb := hr1 b
      simp only [rbNode.record, Prod.mk.injEq] at hrb
      have : (s.myTree.mem b).rideNumber = (s.myTree.mem a).rideNumber := by
        rw [hk, ← hrb.1]; exact hkb
      exact hb'.2 (key_inj hi hb'.1 ha this)
    · intro id2 c2 d2 hne hl2
      obtain ⟨b, hb, hrb⟩ := (lookup_iff hi id2 c2 d2).1 hl2
      exact (lookup_iff hi' id2 c2 d2).2
        ⟨b, (hmem b).2 ⟨hb, hother b id2 c2 d2 hne hb hrb⟩, by rw [hr1 b]; exact hrb⟩

theorem C10_updateTrip_rule_witness :
    Lookup (stateAfter tripRun) 1 5 10 ∧ Lookup (stateAfter tripRun) 2 3 20 ∧
      Lookup (stateAfter tripRun) 3 3 5 ∧ Lookup (stateAfter tripRun) 4 8 8 ∧
      ∃ s', UpdateTrip (stateAfter tripRun) 1 15 = some (Except.ok s') ∧
        Lookup s' 1 15 15 ∧ Lookup s' 2 3 20 ∧ Lookup s' 3 3 5 ∧ Lookup s' 4 8 8 := by
  obtain ⟨s', e, _, h2, _, h4⟩ := C10_updateTrip_rule (stateAfter tripRun)
    (reachable_stateAfter (by decide) (by decide)) 1 5 10 15 (by decide) (by decide)
    (by decide)
  exact ⟨by decide, by decide, by decide, by decide, s', e, h2 (by decide) (by decide),
    h4 2 3 20 (by decide) (by decide), h4 3 3 5 (by decide) (by decide),
    h4 4 8 8 (by decide) (by decide)⟩

/-! ### The heap ordering: sift-up and sift-down -/

theorem kle_refl (x : Int × Int) : kle x x := Or.inr ⟨rfl, le_refl _⟩

theorem kle_trans {x y z : Int × Int} (h1 : kle x y) (h2 : kle y z) : kle x z := by
  unfold kle at *
  omega

theorem kle_total (x y : Int × Int) : kle x y ∨ kle y x := by
  unfold kle
  omega

theorem lt_false_iff (a b : heapNode) : a.lt b = false ↔ kle b.key a.key := by
  unfold heapNode.lt kle heapNode.key
  by_cases e : a.rideCost = b.rideCost
  · simp only [e, if_true, decide_eq_false_iff_not]
    constructor
    · intro k; right; exact ⟨trivial, by omega⟩
    · rintro (k | ⟨_, k⟩)
      · exact absurd k (lt_irrefl _)
      · omega
  · simp only [e, if_false, decide_eq_false_iff_not]
    have e2 : ¬ b.rideCost = a.rideCost := fun k => e k.symm
    omega

theorem lt_true_kle {a b : heapNode} (h : a.lt b = true) : kle a.key b.key := by
  rcases kle_total a.key b.key with k | k
  · exact k
  · rw [← lt_false_iff] at k
    rw [k] at h
    cases h

theorem heapNode.le_iff (a b : heapNode) : a.le b ↔ kle a.key b.key := Iff.rfl

theorem heapOrderedTo_iff (h : minHeap) (n : Nat) : HeapOrderedTo h n ↔ KOrd (keyArray h) n := by
  unfold HeapOrderedTo KOrd keyArray minHeap.getParent
  constructor
  · intro k i h1 h2
    exact (lt_false_iff _ _).1 (k i h1 h2)
  · intro k i h1 h2
    exact (lt_false_iff _ _).2 (k i h1 h2)

theorem kOrd_root {K : Nat → Int × Int} {n : Nat} (ho : KOrd K n) :
    ∀ i, 1 ≤ i → i < n → kle (K 1) (K i) := by
  intro i
  induction i using Nat.strong_induction_on with
  | _ i ih =>
    intro h1 h2
    by_cases e : i = 1
    · subst e
      exact kle_refl _
    · have hp := ih (i / 2) (by omega) (by omega) (by omega)
      exact kle_trans hp (ho i (by omega) h2)

theorem upInv_done {K : Nat → Int × Int} {n p : Nat} (hi : UpInv K n p)
    (hle : 2 ≤ p → kle (K (p / 2)) (K p)) : KOrd K n := by
  intro i h1 h2
  by_cases e : i = p
  · subst e
    exact hle h1
  · exact hi.1 i h1 h2 e

theorem upInv_swap {K K2 : Nat → Int × Int} {n p : Nat} (hp : 2 ≤ p)
    (hi : UpInv K n p) (hlt : kle (K p) (K (p / 2)))
    (hs : ∀ j, K2 j = if j = p / 2 then K p else if j = p then K (p / 2) else K j) :
    UpInv K2 n (p / 2) := by
  obtain ⟨h1, h2⟩ := hi
  have hq : p / 2 ≠ p := by omega
  have eq : K2 (p / 2) = K p := by rw [hs]; simp
  have ep : K2 p = K (p / 2) := by rw [hs]; simp [Ne.symm hq]
  constructor
  · intro i hi2 hin hne
    by_cases e1 : i = p
    · rw [e1, eq, ep]
      exact hlt
    · have ei : K2 i = K i := by rw [hs]; simp [hne, e1]
      rw [ei]
      by_cases e2 : i / 2 = p / 2
      · rw [e2, eq]
        have := h1 i hi2 hin e1
        rw [e2] at this
        exact kle_trans hlt this
      · by_cases e3 : i / 2 = p
        · rw [e3, ep]
          exact h2 i hi2 hin e3 hp
        · have ej : K2 (i / 2) = K (i / 2) := by rw [hs]; simp [e2, e3]
          rw [ej]
          exact h1 i hi2 hin e1
  · intro i hi2 hin hpar hq2
    have eg : K2 (p / 2 / 2) = K (p / 2 / 2) := by
      rw [hs]
      have a1 : p / 2 / 2 ≠ p / 2 := by omega
      have a2 : p / 2 / 2 ≠ p := by omega
      simp [a1, a2]
    rw [eg]
    have hpar2 := h1 (p / 2) hq2 (by omega) hq
    by_cases e1 : i = p
    · rw [e1, ep]
      exact hpar2
    · have hne : i ≠ p / 2 := by omega
      have ei : K2 i = K i := by rw [hs]; simp [hne, e1]
      rw [ei]
      have := h1 i hi2 hin e1
      rw [hpar] at this
      exact kle_trans hpar2 this

theorem downInv_done {K : Nat → Int × Int} {n p : Nat} (hi : DownInv K n p)
    (hle : ∀ i, 2 ≤ i → i < n → i / 2 = p → kle (K p) (K i)) : KOrd K n := by
  intro i h1 h2
  by_cases e : i / 2 = p
  · have := hle i h1 h2 e
    rw [e]
    exact this
  · exact hi.1 i h1 h2 e

theorem downInv_swap {K K2 : Nat → Int × Int} {n p c : Nat} (hc : c / 2 = p) (hc2 : 2 ≤ c)
    (hcn : c < n) (hi : DownInv K n p) (hlt : kle (K c) (K p))
    (hmin : ∀ i, 2 ≤ i → i < n → i / 2 = p → kle (K c) (K i))
    (hs : ∀ j, K2 j = if j = c then K p else if j = p then K c else K j) :
    DownInv K2 n c := by
  obtain ⟨h1, h2⟩ := hi
  have hpc : p ≠ c := by omega
  have ec : K2 c = K p := by rw [hs]; simp
  have ep : K2 p = K c := by rw [hs]; simp [hpc]
  constructor
  · intro i hi2 hin hne
    by_cases e1 : i = c
    · rw [e1, hc, ec, ep]
      exact hlt
    · by_cases e2 : i = p
      · have hp2 : 2 ≤ p := by omega
        have e3 : K2 (i / 2) = K (p / 2) := by
          rw [hs, e2]
          have a1 : p / 2 ≠ c := by omega
          have a2 : p / 2 ≠ p := by omega
          simp [a1, a2]
        rw [e3, e2, ep]
        exact h2 c hc2 hcn hc hp2
      · have ei : K2 i = K i := by rw [hs]; simp [e1, e2]
        rw [ei]
        by_cases e3 : i / 2 = p
        · rw [e3, ep]
          exact hmin i hi2 hin e3
        · have ej : K2 (i / 2) = K (i / 2) := by rw [hs]; simp [hne, e3]
          rw [ej]
          exact h1 i hi2 hin e3
  · intro i hi2 hin hpar _
    have e1 : i ≠ c := by omega
    have e2 : i ≠ p := by omega
    have ei : K2 i = K i := by rw [hs]; simp [e1, e2]
    rw [ei, hc, ep]
    have := h1 i hi2 hin (by omega)
    rw [hpar] at this
    exact this

/-- What a completed swap does to the buffer. -/
theorem swap_heap {h h' : minHeap} {m m' : Mem} {i1 i2 : Nat}
    (e : h.swap m i1 i2 = some (h', m')) :
    h'.size = h.size ∧
      ∀ j, h'.heap j = if j = i2 then { h.heap i1 with pos := i2 }
        else if j = i1 then { h.heap i2 with pos := i1 } else h.heap j := by
  cases r1 : (h.heap i1).rbNodeRef with
  | none => simp [minHeap.swap, r1] at e
  | some a1 =>
    cases r2 : (h.heap i2).rbNodeRef with
    | none => simp [minHeap.swap, r1, r2] at e
    | some a2 =>
      obtain ⟨h2, m2, e2, hsz, hh, _⟩ := @swap_some h m i1 i2 a1 a2 r1 r2
      rw [e2] at e
      cases e
      exact ⟨hsz, hh⟩

theorem swap_key {h h' : minHeap} {m m' : Mem} {i1 i2 : Nat}
    (e : h.swap m i1 i2 = some (h', m')) :
    ∀ j, keyArray h' j = if j = i2 then keyArray h i1
      else if j = i1 then keyArray h i2 else keyArray h j := by
  intro j
  obtain ⟨_, hh⟩ := swap_heap e
  unfold keyArray
  rw [hh j]
  split_ifs <;> rfl

theorem swap_cost {h h' : minHeap} {m m' : Mem} {i1 i2 : Nat}
    (e : h.swap m i1 i2 = some (h', m')) :
    ∀ j, (h'.heap j).rideCost = if j = i2 then (h.heap i1).rideCost
      else if j = i1 then (h.heap i2).rideCost else (h.heap j).rideCost := by
  intro j
  obtain ⟨_, hh⟩ := swap_heap e
  rw [hh j]
  split_ifs <;> rfl

/-- Sift-up completes the ordering: any result of heapifyUp from a state of the loop is
ordered. -/
theorem heapifyUp_ord (n : Nat) :
    ∀ fuel (h : minHeap) (m : Mem) (p : Nat) (h' : minHeap) (m' : Mem),
      minHeap.heapifyUp fuel h m p = some (h', m') → 1 ≤ p → p < n →
      (h.heap 0).rideCost = -1 → (∀ i, 1 ≤ i → i < n → 0 ≤ (h.heap i).rideCost) →
      UpInv (keyArray h) n p → KOrd (keyArray h') n ∧ h'.size = h.size := by
  intro fuel
  induction fuel with
  | zero => intro h m p h' m' e; simp [minHeap.heapifyUp] at e
  | succ fuel ih =>
    intro h m p h' m' e hp hpn hg hnn hi
    unfold minHeap.heapifyUp at e
    by_cases hlt : (h.heap p).lt (h.heap (minHeap.getParent p)) = true
    · rw [if_pos hlt] at e
      have hp2 : 2 ≤ p := by
        by_contra hc
        have hp1 : p = 1 := by omega
        subst hp1
        have : minHeap.getParent 1 = 0 := rfl
        rw [this, lt_guard_false (hnn 1 (le_refl _) hpn) hg] at hlt
        cases hlt
      cases es : h.swap m p (minHeap.getParent p) with
      | none => rw [es] at e; cases e
      | some r =>
        obtain ⟨h1, m1⟩ := r
        rw [es] at e
        have hk := swap_key es
        have hc := swap_cost es
        have hsz := (swap_heap es).1
        have hpar : minHeap.getParent p = p / 2 := rfl
        rw [hpar] at e hk hc hlt
        have hq1 : 1 ≤ p / 2 := by omega
        have hqp : p / 2 ≠ p := by omega
        have hi1 : UpInv (keyArray h1) n (p / 2) :=
          upInv_swap hp2 hi (lt_true_kle hlt) hk
        have hg1 : (h1.heap 0).rideCost = -1 := by
          rw [hc 0]
          have a1 : (0 : Nat) ≠ p / 2 := by omega
          have a2 : (0 : Nat) ≠ p := by omega
          simp [a1, a2, hg]
        have hnn1 : ∀ i, 1 ≤ i → i < n → 0 ≤ (h1.heap i).rideCost := by
          intro i i1 i2
          rw [hc i]
          split_ifs
          · exact hnn p hp hpn
          · exact hnn (p / 2) hq1 (by omega)
          · exact hnn i i1 i2
        obtain ⟨r1, r2⟩ := ih h1 m1 (p / 2) h' m' e hq1 (by omega) hg1 hnn1 hi1
        exact ⟨r1, by rw [r2, hsz]⟩
    · rw [if_neg hlt] at e
      cases e
      refine ⟨upInv_done hi ?_, rfl⟩
      intro _
      have : (h.heap p).lt (h.heap (minHeap.getParent p)) = false := by
        cases hv : (h.heap p).lt (h.heap (minHeap.getParent p))
        · rfl
        · exact absurd hv hlt
      exact (lt_false_iff _ _).1 this

/-- Sift-down completes the ordering: any result of heapifyDown from a state of the loop is
ordered. -/
theorem heapifyDown_ord :
    ∀ fuel (h : minHeap) (m : Mem) (p : Nat) (h' : minHeap) (m' : Mem),
      minHeap.heapifyDown fuel h m p = some (h', m') →
      DownInv (keyArray h) h.size p → KOrd (keyArray h') h'.size ∧ h'.size = h.size := by
  intro fuel
  induction fuel with
  | zero => intro h m p h' m' e; simp [minHeap.heapifyDown] at e
  | succ fuel ih =>
    intro h m p h' m' e hi
    unfold minHeap.heapifyDown at e
    by_cases hv : h.isValidIndex (minHeap.getLeftChild p) = true
    · rw [if_pos hv] at e
      have hc : (if (h.heap (minHeap.getLeftChild p)).lt
            (h.heap (if h.isValidIndex (minHeap.getRightChild p) = true
              then minHeap.getRightChild p else minHeap.getLeftChild p)) = true
          then minHeap.getLeftChild p
          else (if h.isValidIndex (minHeap.getRightChild p) = true
              then minHeap.getRightChild p else minHeap.getLeftChild p)) = minChildOf h p := rfl
      simp only [hc] at e
      have hl : 1 ≤ 2 * p ∧ 2 * p < h.size := by
        simpa [minHeap.isValidIndex, minHeap.getLeftChild] using hv
      -- the chosen child is a child of p, is valid, and is not greater than either child
      have hmc : (minChildOf h p) / 2 = p ∧ 2 ≤ minChildOf h p ∧ minChildOf h p < h.size ∧
          ∀ i, 2 ≤ i → i < h.size → i / 2 = p →
            kle (keyArray h (minChildOf h p)) (keyArray h i) := by
        unfold minChildOf
        simp only [minHeap.getLeftChild, minHeap.getRightChild]
        by_cases hr : h.isValidIndex (2 * p + 1) = true
        · have hr2 : 2 * p + 1 < h.size := by
            have : 1 ≤ 2 * p + 1 ∧ 2 * p + 1 < h.size := by
              simpa [minHeap.isValidIndex] using hr
            exact this.2
          rw [if_pos hr]
          by_cases hlr : (h.heap (2 * p)).lt (h.heap (2 * p + 1)) = true
          · rw [if_pos hlr]
            refine ⟨by omega, by omega, hl.2, ?_⟩
            intro i i1 i2 i3
            have : i = 2 * p ∨ i = 2 * p + 1 := by omega
            rcases this with k | k
            · rw [k]; exact kle_refl _
            · rw [k]; exact lt_true_kle hlr
          · rw [if_neg hlr]
            have hlr2 : (h.heap (2 * p)).lt (h.heap (2 * p + 1)) = false := by
              cases hv2 : (h.heap (2 * p)).lt (h.heap (2 * p + 1))
              · rfl
              · exact absurd hv2 hlr
            refine ⟨by omega, by omega, hr2, ?_⟩
            intro i i1 i2 i3
            have : i = 2 * p ∨ i = 2 * p + 1 := by omega
            rcases this with k | k
            · rw [k]; exact (lt_false_iff _ _).1 hlr2
            · rw [k]; exact kle_refl _
        · have hr2 : ¬ 2 * p + 1 < h.size := by
            intro hh
            apply hr
            simp [minHeap.isValidIndex, hh]
          rw [if_neg hr]
          simp only [ite_self]
          refine ⟨by omega, by omega, hl.2, ?_⟩
          intro i i1 i2 i3
          have : i = 2 * p := by omega
          rw [this]; exact kle_refl _
      obtain ⟨c1, c2, c3, c4⟩ := hmc
      by_cases hlt : (h.heap (minChildOf h p)).lt (h.heap p) = true
      · rw [if_pos hlt] at e
        cases es : h.swap m p (minChildOf h p) with
        | none => rw [es] at e; cases e
        | some r =>
          obtain ⟨h1, m1⟩ := r
          rw [es] at e
          have hk := swap_key es
          have hsz := (swap_heap es).1
          have hi1 : DownInv (keyArray h1) h1.size (minChildOf h p) := by
            rw [hsz]
            exact downInv_swap c1 c2 c3 hi (lt_true_kle hlt) c4 hk
          obtain ⟨r1, r2⟩ := ih h1 m1 (minChildOf h p) h' m' e hi1
          exact ⟨r1, by rw [r2, hsz]⟩
      · rw [if_neg hlt] at e
        cases e
        have hlt2 : (h.heap (minChildOf h p)).lt (h.heap p) = false := by
          cases hv2 : (h.heap (minChildOf h p)).lt (h.heap p)
          · rfl
          · exact absurd hv2 hlt
        refine ⟨downInv_done hi ?_, rfl⟩
        intro i i1 i2 i3
        exact kle_trans ((lt_false_iff _ _).1 hlt2) (c4 i i1 i2 i3)
    · rw [if_neg hv] at e
      cases e
      refine ⟨downInv_done hi ?_, rfl⟩
      intro i i1 i2 i3
      exfalso
      apply hv
      simp only [minHeap.isValidIndex, minHeap.getLeftChild, decide_eq_true_eq]
      omega

/-! ### Heap ordering of insert and removeMin, the range search, GetNextRide -/

theorem keyArray_size (h : minHeap) (k : Nat) : keyArray { h with size := k } = keyArray h :=
  rfl

/-- Any result of minHeap::insert on an ordered heap with non-negative costs is ordered. -/
theorem insert_ord {h h' : minHeap} {m m' : Mem} {node : heapNode}
    (e : h.insert m node = some (h', m')) (hg : (h.heap 0).rideCost = -1)
    (hn : CostsNonneg h) (hc : 0 ≤ node.rideCost) (ho : HeapOrdered h) : HeapOrdered h' := by
  have key : ∀ H0 : minHeap, H0 = (h.put h.size node).put h.size
      { (h.put h.size node).heap h.size with pos := h.size } →
      (match minHeap.heapifyUp (h.size + 1) H0 m h.size with
        | none => none
        | some (h, m) => some (({ h with size := h.size + 1 } : minHeap), m)) = some (h', m') →
      HeapOrdered h' := by
    intro H0 hH0 e'
    have hcell : ∀ j, H0.heap j =
        if j = h.size then { node with pos := h.size } else h.heap j := by
      intro j
      rw [hH0]
      by_cases hj : j = h.size
      · simp [minHeap.put, hj]
      · simp [minHeap.put, hj]
    have hsz0 : H0.size = h.size := by rw [hH0]; rfl
    cases hu : minHeap.heapifyUp (h.size + 1) H0 m h.size with
    | none => rw [hu] at e'; cases e'
    | some q =>
      obtain ⟨h1, m1⟩ := q
      rw [hu] at e'
      cases e'
      by_cases hz : h.size = 0
      · have hs1 := (heapifyUp_pos _ _ _ _ _ _ hu).1
        intro i i1 i2
        exfalso
        have : h1.size = 0 := by rw [hs1, hsz0, hz]
        simp only [this] at i2
        omega
      · have hK : ∀ j, keyArray H0 j = if j = h.size then node.key else keyArray h j := by
          intro j
          unfold keyArray
          rw [hcell j]
          split_ifs <;> rfl
        have hoK := (heapOrderedTo_iff h h.size).1 ho
        obtain ⟨r1, r2⟩ := heapifyUp_ord (h.size + 1) _ _ _ _ _ _ hu (by omega) (by omega)
          (by
            rw [hcell 0]
            have : (0 : Nat) ≠ h.size := fun k => hz k.symm
            rw [if_neg this]
            exact hg)
          (by
            intro i i1 i2
            rw [hcell i]
            split_ifs with k
            · exact hc
            · exact hn i i1 (by omega))
          (by
            constructor
            · intro i i1 i2 i3
              have a1 : i ≠ h.size := i3
              have a2 : i / 2 ≠ h.size := by omega
              rw [hK i, hK (i / 2), if_neg a1, if_neg a2]
              exact hoK i i1 (by omega)
            · intro i i1 i2 i3 _
              omega)
        show HeapOrderedTo _ (h1.size + 1)
        rw [heapOrderedTo_iff, keyArray_size, r2, hsz0]
        exact r1
  have hcap := insert_cap e
  unfold minHeap.insert at e
  rw [if_pos hcap] at e
  exact key _ rfl e

/-- Any result of minHeap::removeMin on an ordered heap is the cell at position 1 together
with an ordered heap. -/
theorem removeMin_ord {h h' : minHeap} {m m' : Mem} {x : heapNode}
    (e : h.removeMin m = some (Except.ok (x, h', m'))) (ho : HeapOrdered h) :
    x = h.heap 1 ∧ HeapOrdered h' := by
  unfold minHeap.removeMin at e
  by_cases hemp : h.isEmpty = true
  · rw [if_pos hemp] at e
    cases e
  · rw [if_neg hemp] at e
    have hsz : 2 ≤ h.size := by
      simp only [minHeap.isEmpty, decide_eq_true_eq] at hemp
      omega
    simp only at e
    cases hsw : h.swap m 1 (h.size - 1) with
    | none => rw [hsw] at e; cases e
    | some q =>
      obtain ⟨h1, m1⟩ := q
      rw [hsw] at e
      simp only at e
      cases hd : minHeap.heapifyDown (h1.size - 1 + 1) { h1 with size := h1.size - 1 } m1 1 with
      | none => simp [hd] at e
      | some r =>
        obtain ⟨h2, m2⟩ := r
        simp only [hd, Option.some.injEq, Except.ok.injEq, Prod.mk.injEq] at e
        obtain ⟨e1, e2, _⟩ := e
        subst e2
        refine ⟨e1.symm, ?_⟩
        have hk := swap_key hsw
        have hs1 := (swap_heap hsw).1
        have hoK := (heapOrderedTo_iff h h.size).1 ho
        obtain ⟨r1, _⟩ := heapifyDown_ord _ _ _ _ _ _ hd (by
          show DownInv (keyArray h1) (h1.size - 1) 1
          rw [hs1]
          constructor
          · intro i i1 i2 i3
            have a1 : i ≠ h.size - 1 := by omega
            have a2 : i ≠ 1 := by omega
            have a3 : i / 2 ≠ h.size - 1 := by omega
            rw [hk i, hk (i / 2), if_neg a1, if_neg a2, if_neg a3, if_neg i3]
            exact hoK i i1 (by omega)
          · intro i _ _ _ k
            omega)
        exact (heapOrderedTo_iff _ _).2 r1

/-- In an ordered heap the cell at position 1 is less than or equal to every live cell. -/
theorem root_le_all {h : minHeap} (ho : HeapOrdered h) :
    ∀ i, 1 ≤ i → i < h.size → (h.heap 1).le (h.heap i) := by
  intro i i1 i2
  rw [heapNode.le_iff]
  exact kOrd_root ((heapOrderedTo_iff h h.size).1 ho) i i1 i2

theorem filter_nil_of_lt {m : Mem} {l : List Nat} {lo hi : Int}
    (h : ∀ a ∈ l, (m a).rideNumber < lo) : (l.map m).filter (inRange lo hi) = [] := by
  rw [List.filter_eq_nil_iff]
  intro n hn
  obtain ⟨a, ha, rfl⟩ := List.mem_map.1 hn
  have := h a ha
  simp only [inRange, decide_eq_true_eq]
  omega

theorem filter_nil_of_gt {m : Mem} {l : List Nat} {lo hi : Int}
    (h : ∀ a ∈ l, hi < (m a).rideNumber) : (l.map m).filter (inRange lo hi) = [] := by
  rw [List.filter_eq_nil_iff]
  intro n hn
  obtain ⟨a, ha, rfl⟩ := List.mem_map.1 hn
  have := h a ha
  simp only [inRange, decide_eq_true_eq]
  omega

/-- The traversal of searchInRange through a key-ordered subtree: it appends the nodes of
the subtree whose ride number lies in the range, in in-order. -/
theorem searchInRangeRecursive_spec (t : rbTree) (lo hi : Int) :
    ∀ (s : Shape) (par fuel : Nat) (vec : List rbNode), Layout t.mem par s →
      KeyOrdered t.mem s → s.height < fuel →
      searchInRangeRecursive fuel t s.ptr lo hi vec =
        some (vec ++ (inorder t.mem s).filter (inRange lo hi)) := by
  intro s
  induction s with
  | leaf =>
    intro par fuel vec _ _ hf
    cases fuel with
    | zero => exact absurd hf (Nat.not_lt_zero _)
    | succ fuel => simp [searchInRangeRecursive, inorder]
  | node l a c r ihl ihr =>
    intro par fuel vec hl hk hf
    obtain ⟨h1, h2, h3, h4, h5, h6, h7⟩ := hl
    obtain ⟨kl, kr, kla, kra⟩ := keyOrdered_node hk
    cases fuel with
    | zero => exact absurd hf (Nat.not_lt_zero _)
    | succ fuel =>
      simp only [Shape.height] at hf
      have hfl : l.height < fuel := by omega
      have hfr : r.height < fuel := by omega
      have kla' : ∀ b ∈ l.addrs, (t.mem b).rideNumber < (t.mem a).rideNumber :=
        fun b hb => kla _ (mem_keys.2 ⟨b, hb, rfl⟩)
      have kra' : ∀ b ∈ r.addrs, (t.mem a).rideNumber < (t.mem b).rideNumber :=
        fun b hb => kra _ (mem_keys.2 ⟨b, hb, rfl⟩)
      -- the left part
      have eL : (if (t.mem a).rideNumber > lo then
            searchInRangeRecursive fuel t (t.getLeft a) lo hi vec else some vec) =
          some (vec ++ (inorder t.mem l).filter (inRange lo hi)) := by
        by_cases c1 : (t.mem a).rideNumber > lo
        · rw [if_pos c1]
          have : t.getLeft a = l.ptr := h3
          rw [this]
          exact ihl a fuel vec h6 kl hfl
        · rw [if_neg c1]
          have : (inorder t.mem l).filter (inRange lo hi) = [] :=
            filter_nil_of_lt (fun b hb => by have := kla' b hb; omega)
          rw [this, List.append_nil]
      -- the right part
      have eR : ∀ v, (if (t.mem a).rideNumber < hi then
            searchInRangeRecursive fuel t (t.getRight a) lo hi v else some v) =
          some (v ++ (inorder t.mem r).filter (inRange lo hi)) := by
        intro v
        by_cases c1 : (t.mem a).rideNumber < hi
        · rw [if_pos c1]
          have : t.getRight a = r.ptr := h4
          rw [this]
          exact ihr a fuel v h7 kr hfr
        · rw [if_neg c1]
          have : (inorder t.mem r).filter (inRange lo hi) = [] :=
            filter_nil_of_gt (fun b hb => by have := kra' b hb; omega)
          rw [this, List.append_nil]
      have eM : ∀ v, (if (t.mem a).rideNumber ≥ lo ∧ (t.mem a).rideNumber ≤ hi
            then v ++ [t.mem a] else v) = v ++ [t.mem a].filter (inRange lo hi) := by
        intro v
        by_cases c1 : (t.mem a).rideNumber ≥ lo ∧ (t.mem a).rideNumber ≤ hi
        · rw [if_pos c1]
          have : inRange lo hi (t.mem a) = true := by
            simp only [inRange, decide_eq_true_eq]; exact c1
          simp [List.filter, this]
        · rw [if_neg c1]
          have : inRange lo hi (t.mem a) = false := by
            simp only [inRange, decide_eq_false_iff_not]; exact c1
          simp [List.filter, this]
      show searchInRangeRecursive (fuel + 1) t a lo hi vec = _
      unfold searchInRangeRecursive
      rw [if_neg h1, eL]
      simp only []
      rw [eM, eR]
      have hcons : (t.mem a :: List.map t.mem r.addrs) = [t.mem a] ++ List.map t.mem r.addrs :=
        rfl
      simp only [inorder, Shape.addrs_node, List.map_append, List.map_cons, hcons,
        List.filter_append, List.append_assoc]

/-- Specification of rbTree::searchInRange on a key-ordered tree. -/
theorem searchInRange_spec {t : rbTree} {sh : Shape} {fuel : Nat} (lo hi : Int)
    (ht : IsTree t sh) (hk : KeyOrdered t.mem sh) (hf : sh.height < fuel) :
    searchInRange fuel t lo hi = some ((inorder t.mem sh).filter (inRange lo hi)) := by
  unfold searchInRange
  rw [ht.root, searchInRangeRecursive_spec t lo hi sh NIL fuel [] ht.layout hk hf]
  rfl

/-- The function GetNextRide on a state that satisfies the invariant and has a live heap
cell: it returns the line of the cell at position 1, the tree node that this cell refers to
is removed from the tree, the cell from the heap, and the invariant holds again. -/
theorem getNextRide_nonempty {s : State} {sh : Shape} (hi : InvSh s sh)
    (hsz : 2 ≤ s.myHeap.size) :
    ∃ s' sh' a, GetNextRide s = some (s', (s.myHeap.heap 1).print) ∧ InvSh s' sh' ∧
      a ∈ sh.addrs ∧
      (s.myTree.mem a).record = ((s.myHeap.heap 1).rideNumber, (s.myHeap.heap 1).rideCost,
        (s.myHeap.heap 1).tripDuration) ∧
      (∃ l1 l2, sh.addrs = l1 ++ a :: l2 ∧ sh'.addrs = l1 ++ l2) ∧
      (∀ b, (s'.myTree.mem b).record = (s.myTree.mem b).record) ∧
      s'.myHeap.size + 1 = s.myHeap.size := by
  obtain ⟨h', m', a, eh, ra, hsz', hsync', hcore, hrefs⟩ :=
    @heap_removeMin_spec s.myHeap s.myTree.mem hi.sync hsz
  have ha : a ∈ sh.addrs := (hi.refs a).1 ⟨1, le_refl 1, by omega, ra⟩
  have hfuel := height_lt_fuel hi
  have ht1 : IsTree { s.myTree with mem := m' } sh := isTree_sameCore hcore rfl hi.tree
  obtain ⟨t', sh', e, ⟨l1, l2, hs1, hs2⟩, ht', hdata, hsent, hrb, hnrr, hbal⟩ :=
    @deleteNode_spec { s.myTree with mem := m' } sh a s.fuel ht1
      (by show (m' NIL).color = _; rw [color_sameCore hcore NIL]; exact hi.sentinel)
      hi.rootBlack hi.noRedRed hi.balanced ha (by simp only [State.fuel]; omega)
  have hrec : ∀ b, (t'.mem b).record = (s.myTree.mem b).record :=
    fun b => (record_of_data (hdata b)).trans (record_of_core (hcore b))
  have hnd : (l1 ++ a :: l2).Nodup := hs1 ▸ hi.tree.nodup
  have hmem' : ∀ b, b ∈ sh'.addrs ↔ (b ∈ sh.addrs ∧ b ≠ a) := by
    intro b; rw [hs1, hs2]; exact mem_split_erase hnd
  have hlink : (s.myTree.mem a).record = ((s.myHeap.heap 1).rideNumber,
      (s.myHeap.heap 1).rideCost, (s.myHeap.heap 1).tripDuration) := by
    obtain ⟨_, _, b, hb, hd⟩ := hi.sync.2 1 (le_refl 1) (by omega)
    rw [ra] at hb
    cases hb
    simp only [rbNode.data, Prod.mk.injEq] at hd
    simp only [rbNode.record, Prod.mk.injEq]
    exact ⟨hd.1, hd.2.1, hd.2.2.1⟩
  refine ⟨{ s with myTree := t', myHeap := h' }, sh', a, ?_, ?_, ha, hlink,
    ⟨l1, l2, hs1, hs2⟩, hrec, ?_⟩
  · unfold GetNextRide
    rw [eh]
    simp only [ra]
    show (match deleteNode s.fuel { s.myTree with mem := m' } (some a) with
      | none => none
      | some (Except.error (msg, t)) => _
      | some (Except.ok t) => _) = _
    rw [e]
  · refine ⟨ht', keyOrdered_remove hi.ordered hs1 hs2 hrec, hsent, hrb, hnrr, hbal,
      hi.nextPos, ?_, ?_, ?_, ?_, ?_, ?_, ?_⟩
    · intro b hb
      exact hi.below b ((hmem' b).1 hb).1
    · intro b hb
      show (t'.mem b).rideNumber ≠ -1
      have := hrec b
      simp only [rbNode.record, Prod.mk.injEq] at this
      rw [this.1]
      exact hi.keyNe b ((hmem' b).1 hb).1
    · show 1 ≤ h'.size
      omega
    · exact hsync'.congr (fun b _ => hdata b)
    · intro b
      show Ref h' h'.size b ↔ _
      rw [hrefs b, hmem' b, hi.refs b]
    · show sh'.addrs.length + 1 = h'.size
      rw [hsz', ← hi.count, hs1, hs2]
      simp only [List.length_append, List.length_cons]
      omega
    · show h'.size ≤ minHeap.capacity
      have := hi.cap
      omega
  · show h'.size + 1 = s.myHeap.size
    omega

/-! ### The properties C11 to C20 -/

theorem eq_okState {o : Option (Except (String × State) State)} (h : isOk o = true) :
    o = some (Except.ok (okState o)) := by
  cases o with
  | none => simp [isOk] at h
  | some r =>
    cases r with
    | error e => simp [isOk] at h
    | ok s => rfl

theorem getNextRide_eq {s : State} {x : String} (h : nextLine s = some x) :
    GetNextRide s = some (nextState s, x) := by
  unfold nextLine at h
  unfold nextState
  cases hg : GetNextRide s with
  | none => rw [hg] at h; cases h
  | some r =>
    obtain ⟨s', out⟩ := r
    rw [hg] at h
    cases h
    rfl

theorem remove_of_check (o : Option (minHeap × Mem)) (p : minHeap → Bool)
    (h : (match o with
      | some (h', _) => p h'
      | none => false) = true) : ∃ h' m', o = some (h', m') ∧ p h' = true := by
  cases o with
  | none => simp at h
  | some r => exact ⟨r.1, r.2, rfl, h⟩

/-- The no-op branch of CancelRide and UpdateTrip. -/
theorem noop_of_absent {s : State} {id : Int} (h : Absent s id) :
    CancelRide s id = some (Except.ok s) ∧ ∀ n, UpdateTrip s id n = some (Except.ok s) := by
  rw [absent_search] at h
  constructor
  · unfold CancelRide
    rw [h]
  · intro n
    unfold UpdateTrip
    rw [h]

/-- C11, as stated, fails: after Insert(7,10,10) and UpdateTrip(7,15) from the empty state,
the call UpdateTrip(7,25) returns a state in which the lookup of the ride number 7 does not
return absent (25 is not greater than twice the current duration 15). -/
theorem C11_counterexample :
    ∃ s1 s2 s3, Insert State.empty 7 10 10 = some (Except.ok s1) ∧
      UpdateTrip s1 7 15 = some (Except.ok s2) ∧
      UpdateTrip s2 7 25 = some (Except.ok s3) ∧ ¬ Absent s3 7 :=
  ⟨okState (Insert State.empty 7 10 10),
    okState (UpdateTrip (okState (Insert State.empty 7 10 10)) 7 15),
    okState (UpdateTrip (okState (UpdateTrip (okState (Insert State.empty 7 10 10)) 7 15)) 7 25),
    eq_okState (by decide), eq_okState (by decide), eq_okState (by decide), by decide⟩

/-- C11, amended: starting from the empty state, after Insert(7,10,10) and UpdateTrip(7,15)
the lookup of 7 returns (7,20,15); after a further UpdateTrip(7,25) the record is kept with
the cost raised by 10 once more, and the lookup of 7 returns (7,30,25). -/
theorem C11_update_scenario :
    ∃ s1 s2 s3, Insert State.empty 7 10 10 = some (Except.ok s1) ∧
      UpdateTrip s1 7 15 = some (Except.ok s2) ∧ Lookup s2 7 20 15 ∧
      UpdateTrip s2 7 25 = some (Except.ok s3) ∧ Lookup s3 7 30 25 :=
  ⟨okState (Insert State.empty 7 10 10),
    okState (UpdateTrip (okState (Insert State.empty 7 10 10)) 7 15),
    okState (UpdateTrip (okState (UpdateTrip (okState (Insert State.empty 7 10 10)) 7 15)) 7 25),
    eq_okState (by decide), eq_okState (by decide), by decide, eq_okState (by decide),
    by decide⟩

/-- C12: GetNextRide removes the extracted record from both structures.  For every
reachable state with a live heap cell, GetNextRide returns and writes the record
(id, c, d) of the heap cell at position 1; this record was found by the lookup of id
before; afterwards the lookup of id returns absent, the heap has one live cell less, the
tree has one node less, and a record with another ride number is found by the lookup
afterwards exactly if it was found before, with the same values. -/
theorem C12_getNextRide_removes_record (s : State) (hr : Reachable s)
    (hne : s.myHeap.isEmpty = false) :
    ∃ s', GetNextRide s = some (s', (s.myHeap.heap 1).print) ∧
      Lookup s (s.myHeap.heap 1).rideNumber (s.myHeap.heap 1).rideCost
        (s.myHeap.heap 1).tripDuration ∧
      Absent s' (s.myHeap.heap 1).rideNumber ∧
      s'.myHeap.size + 1 = s.myHeap.size ∧
      (∃ sh sh', IsTree s.myTree sh ∧ IsTree s'.myTree sh' ∧
        sh'.addrs.length + 1 = sh.addrs.length) ∧
      ∀ id2 c2 d2, id2 ≠ (s.myHeap.heap 1).rideNumber →
        (Lookup s' id2 c2 d2 ↔ Lookup s id2 c2 d2) := by
  obtain ⟨sh, hi⟩ := reachable_inv hr
  have hsz : 2 ≤ s.myHeap.size := by
    simp only [minHeap.isEmpty, decide_eq_false_iff_not] at hne
    omega
  obtain ⟨s', sh', a, e, hi', ha, hlink, ⟨l1, l2, hs1, hs2⟩, hrec, hsize⟩ :=
    getNextRide_nonempty hi hsz
  have hnd : (l1 ++ a :: l2).Nodup := hs1 ▸ hi.tree.nodup
  have hmem' : ∀ b, b ∈ sh'.addrs ↔ (b ∈ sh.addrs ∧ b ≠ a) := by
    intro b; rw [hs1, hs2]; exact mem_split_erase hnd
  have hkey : (s.myTree.mem a).rideNumber = (s.myHeap.heap 1).rideNumber := by
    simp only [rbNode.record, Prod.mk.injEq] at hlink
    exact hlink.1
  have hkey' : ∀ b, (s'.myTree.mem b).rideNumber = (s.myTree.mem b).rideNumber := by
    intro b
    have := hrec b
    simp only [rbNode.record, Prod.mk.injEq] at this
    exact this.1
  refine ⟨s', e, (lookup_iff hi _ _ _).2 ⟨a, ha, hlink⟩, ?_, hsize,
    ⟨sh, sh', hi.tree, hi'.tree, ?_⟩, ?_⟩
  · rw [absent_iff hi']
    intro hk
    obtain ⟨b, hb, hkb⟩ := mem_keys.1 hk
    obtain ⟨hb1, hb2⟩ := (hmem' b).1 hb
    apply hb2
    apply key_inj hi hb1 ha
    rw [← hkey' b, hkb, hkey]
  · rw [hs1, hs2]
    simp only [List.length_append, List.length_cons]
    omega
  · intro id2 c2 d2 hne2
    rw [lookup_iff hi', lookup_iff hi]
    constructor
    · rintro ⟨b, hb, hrb⟩
      exact ⟨b, ((hmem' b).1 hb).1, by rw [← hrec b]; exact hrb⟩
    · rintro ⟨b, hb, hrb⟩
      refine ⟨b, (hmem' b).2 ⟨hb, ?_⟩, by rw [hrec b]; exact hrb⟩
      intro hba
      subst hba
      apply hne2
      simp only [rbNode.record, Prod.mk.injEq] at hrb
      rw [← hrb.1, hkey]

theorem C12_getNextRide_removes_record_witness :
    Reachable (stateAfter threeRun) ∧
    ∃ s', GetNextRide (stateAfter threeRun) =
        some (s', ((stateAfter threeRun).myHeap.heap 1).print) ∧
      Lookup (stateAfter threeRun) ((stateAfter threeRun).myHeap.heap 1).rideNumber
        ((stateAfter threeRun).myHeap.heap 1).rideCost
        ((stateAfter threeRun).myHeap.heap 1).tripDuration ∧
      Absent s' ((stateAfter threeRun).myHeap.heap 1).rideNumber ∧
      s'.myHeap.size + 1 = (stateAfter threeRun).myHeap.size ∧
      (∃ sh sh', IsTree (stateAfter threeRun).myTree sh ∧ IsTree s'.myTree sh' ∧
        sh'.addrs.length + 1 = sh.addrs.length) ∧
      ∀ id2 c2 d2, id2 ≠ ((stateAfter threeRun).myHeap.heap 1).rideNumber →
        (Lookup s' id2 c2 d2 ↔ Lookup (stateAfter threeRun) id2 c2 d2) :=
  ⟨reachable_stateAfter (by decide) (by decide),
    C12_getNextRide_removes_record (stateAfter threeRun)
      (reachable_stateAfter (by decide) (by decide)) (by decide)⟩

/-- C13: minHeap::removeMin returns a minimum.  On a non-empty heap that satisfies the heap
ordering, every slot returned by removeMin is the cell at position 1, and its
(cost, duration) is lexicographically less than or equal to that of every live cell; and
removeMin returns when every live cell is linked with a tree node. -/
theorem C13_removeMin_returns_minimum (h : minHeap) (hne : h.isEmpty = false)
    (ho : HeapOrdered h) :
    (∀ m x h' m', h.removeMin m = some (Except.ok (x, h', m')) →
      x = h.heap 1 ∧ ∀ i, 1 ≤ i → i < h.size → x.le (h.heap i)) ∧
    (∀ m, HeapSync h m h.size →
      ∃ h' m', h.removeMin m = some (Except.ok (h.heap 1, h', m'))) := by
  constructor
  · intro m x h' m' e
    obtain ⟨e1, _⟩ := removeMin_ord e ho
    subst e1
    exact ⟨rfl, root_le_all ho⟩
  · intro m hs
    have hsz : 2 ≤ h.size := by
      simp only [minHeap.isEmpty, decide_eq_false_iff_not] at hne
      omega
    obtain ⟨h', m', a, e, _⟩ := heap_removeMin_spec hs hsz
    exact ⟨h', m', e⟩

theorem C13_removeMin_returns_minimum_witness :
    HeapOrdered (stateAfter threeRun).myHeap ∧
    ∀ m x h' m', (stateAfter threeRun).myHeap.removeMin m = some (Except.ok (x, h', m')) →
      x = (stateAfter threeRun).myHeap.heap 1 ∧
        ∀ i, 1 ≤ i → i < (stateAfter threeRun).myHeap.size →
          x.le ((stateAfter threeRun).myHeap.heap i) :=
  ⟨by decide,
    (C13_removeMin_returns_minimum (stateAfter threeRun).myHeap (by decide) (by decide)).1⟩

/-- C14, as stated, fails for insert: the heap fullHeap has non-negative fields in its live
cells 1 .. 2004, the guard entry in cell 0, and no live cell is less than its parent; all
2005 cells of the buffer are in use, so that minHeap::insert would write the cell 2005 past
the buffer: it has no result, and no ordered heap comes out of it. -/
theorem C14_counterexample :
    HeapOrdered fullHeap ∧ CostsNonneg fullHeap ∧
      fullHeap.heap 0 = heapNode.init (-1) (-1) (-1) ∧ fullHeap.size = minHeap.capacity ∧
      fullHeap.insert State.empty.myTree.mem (heapNode.init 2005 0 0) = none := by
  refine ⟨?_, ?_, rfl, rfl, insert_full _ _ _ (le_refl _)⟩
  · intro i h2 hn
    have hp1 : 1 ≤ minHeap.getParent i := by
      simp only [minHeap.getParent]
      omega
    have hp2 : minHeap.getParent i < fullHeap.size := by
      simp only [minHeap.getParent]
      omega
    rw [fullHeap_cell i (by omega) hn, fullHeap_cell _ hp1 hp2]
    simp [heapNode.lt, heapNode.init]
  · intro i h1 hn
    rw [fullHeap_cell i h1 hn]
    simp [heapNode.init]

/-- C14 (amended): the heap ordering is preserved by removeMin and, below the capacity of
the buffer, by insert.  On a heap in which every live cell other than the root is not less
than its parent, every result of minHeap::removeMin is again such a heap, and so is every
result of minHeap::insert of a node with a non-negative cost when the live cells have
non-negative costs and cell 0 holds the guard entry of cost -1 that the constructor writes;
removeMin returns when in addition every live cell is linked with a tree node, and insert
returns when moreover the new cell is linked and the size is below the 2005 cells of the
buffer. -/
theorem C14_heap_order_preserved (h : minHeap) (ho : HeapOrdered h) :
    (∀ m node h' m', (h.heap 0).rideCost = -1 → CostsNonneg h → 0 ≤ node.rideCost →
      h.insert m node = some (h', m') → HeapOrdered h') ∧
    (∀ m x h' m', h.removeMin m = some (Except.ok (x, h', m')) → HeapOrdered h') ∧
    (∀ m, HeapSync h m h.size → 1 ≤ h.size →
      (∀ node a, h.size < minHeap.capacity → 0 ≤ node.rideCost → node.rbNodeRef = some a →
        (m a).data = (node.rideNumber, node.rideCost, node.tripDuration, some h.size) →
        ∃ h' m', h.insert m node = some (h', m') ∧ HeapOrdered h') ∧
      (2 ≤ h.size → ∃ h' m', h.removeMin m = some (Except.ok (h.heap 1, h', m')) ∧
        HeapOrdered h')) := by
  refine ⟨fun m node h' m' hg hn hc e => insert_ord e hg hn hc ho,
    fun m x h' m' e => (removeMin_ord e ho).2, fun m hs h1 => ⟨?_, ?_⟩⟩
  · intro node a hcap hc hr hd
    obtain ⟨h', m', e, _⟩ := heap_insert_spec hs h1 hc hr hd hcap
    have hn : CostsNonneg h := fun i i1 i2 => (hs.2 i i1 i2).2.1
    exact ⟨h', m', e, insert_ord e hs.1 hn hc ho⟩
  · intro h2
    obtain ⟨h', m', a, e, _⟩ := heap_removeMin_spec hs h2
    exact ⟨h', m', e, (removeMin_ord e ho).2⟩

theorem C14_heap_order_preserved_witness :
    HeapOrdered (stateAfter sevenRun).myHeap ∧
    ((stateAfter sevenRun).myHeap.heap 0).rideCost = -1 ∧
    CostsNonneg (stateAfter sevenRun).myHeap ∧
    (∀ m node h' m', 0 ≤ node.rideCost →
      (stateAfter sevenRun).myHeap.insert m node = some (h', m') → HeapOrdered h') ∧
    ∀ m x h' m', (stateAfter sevenRun).myHeap.removeMin m = some (Except.ok (x, h', m')) →
      HeapOrdered h' :=
  ⟨by decide, by decide, by decide,
    fun m node h' m' hc e =>
      (C14_heap_order_preserved (stateAfter sevenRun).myHeap (by decide)).1 m node h' m'
        (by decide) (by decide) hc e,
    (C14_heap_order_preserved (stateAfter sevenRun).myHeap (by decide)).2.1⟩

/-- C15 fails on the code: the heap after the inserts (1,1,0), (10,10,0), (2,2,0),
(11,11,0), (12,12,0), (30,30,0), (5,5,0) belongs to a reachable state and satisfies the heap
ordering, the position 4 is valid, and minHeap::remove(4) returns a heap in which the cell
at position 4 (cost 5) is less than its parent at position 2 (cost 10); the same heap is
left by CancelRide(11). -/
theorem C15_remove_breaks_order :
    Reachable (stateAfter sevenRun) ∧ HeapOrdered (stateAfter sevenRun).myHeap ∧
    4 < (stateAfter sevenRun).myHeap.size ∧
    (∃ h' m', (stateAfter sevenRun).myHeap.remove (stateAfter sevenRun).myTree.mem 4 =
        some (h', m') ∧ (h'.heap 4).lt (h'.heap 2) = true ∧ ¬ HeapOrdered h') ∧
    ∃ s', CancelRide (stateAfter sevenRun) 11 = some (Except.ok s') ∧
      ¬ HeapOrdered s'.myHeap := by
  refine ⟨reachable_stateAfter (by decide) (by decide), by decide, by decide, ?_, ?_⟩
  · obtain ⟨h', m', e, p⟩ := remove_of_check
      ((stateAfter sevenRun).myHeap.remove (stateAfter sevenRun).myTree.mem 4)
      (fun h' => (h'.heap 4).lt (h'.heap 2) && decide (¬ HeapOrdered h')) (by decide)
    simp only [Bool.and_eq_true, decide_eq_true_eq] at p
    exact ⟨h', m', e, p.1, p.2⟩
  · exact ⟨okState (CancelRide (stateAfter sevenRun) 11), eq_okState (by decide), by decide⟩

/-- C16: range lookup.  For every key-ordered tree and all integers lo and hi,
searchInRange(lo, hi) returns the in-order traversal of the tree filtered by
lo <= id <= hi: its elements are exactly the nodes of the tree whose ride number lies in
the range, the ride numbers of the result are strictly increasing (so every node occurs
once), and the result is empty when no node matches, in particular when hi < lo. -/
theorem C16_range_lookup (t : rbTree) (sh : Shape) (fuel : Nat) (lo hi : Int)
    (ht : IsTree t sh) (hk : KeyOrdered t.mem sh) (hf : sh.height < fuel) :
    ∃ res, searchInRange fuel t lo hi = some res ∧
      res = (inorder t.mem sh).filter (inRange lo hi) ∧
      (∀ n, n ∈ res ↔ (∃ a ∈ sh.addrs, t.mem a = n) ∧ lo ≤ n.rideNumber ∧ n.rideNumber ≤ hi) ∧
      (res.map (fun n => n.rideNumber)).Pairwise (fun x y => x < y) ∧
      ((∀ a ∈ sh.addrs, ¬ (lo ≤ (t.mem a).rideNumber ∧ (t.mem a).rideNumber ≤ hi)) →
        res = []) ∧
      (hi < lo → res = []) := by
  have hmem : ∀ n, n ∈ (inorder t.mem sh).filter (inRange lo hi) ↔
      (∃ a ∈ sh.addrs, t.mem a = n) ∧ lo ≤ n.rideNumber ∧ n.rideNumber ≤ hi := by
    intro n
    simp only [inorder, List.mem_filter, List.mem_map, inRange, decide_eq_true_eq]
  have hnil : (∀ a ∈ sh.addrs, ¬ (lo ≤ (t.mem a).rideNumber ∧ (t.mem a).rideNumber ≤ hi)) →
      (inorder t.mem sh).filter (inRange lo hi) = [] := by
    intro hno
    rw [List.eq_nil_iff_forall_not_mem]
    intro n hn
    obtain ⟨⟨a, ha, rfl⟩, h2⟩ := (hmem n).1 hn
    exact hno a ha h2
  refine ⟨_, searchInRange_spec lo hi ht hk hf, rfl, hmem, ?_, hnil, ?_⟩
  · have hs : ((inorder t.mem sh).filter (inRange lo hi)).Sublist (inorder t.mem sh) :=
      List.filter_sublist _
    have hk' : ((inorder t.mem sh).map (fun n => n.rideNumber)).Pairwise (fun x y => x < y) := by
      have : (inorder t.mem sh).map (fun n => n.rideNumber) = keys t.mem sh := by
        simp [inorder, keys]
      rw [this]
      exact hk
    exact hk'.sublist (hs.map _)
  · intro hlt
    apply hnil
    intro a _ h2
    omega

theorem C16_range_lookup_witness :
    IsTree fiveTree fiveShape ∧
    (keys fiveTree.mem fiveShape = [1, 3, 5, 7, 9]) ∧
    ∃ res, searchInRange 7 fiveTree 2 8 = some res ∧
      res.map rbNode.record = [(3, 0, 0), (5, 0, 0), (7, 0, 0)] := by
  obtain ⟨res, e, hr, _⟩ := C16_range_lookup fiveTree fiveShape 7 2 8 (by decide) (by decide)
    (by decide)
  refine ⟨by decide, by decide, res, e, ?_⟩
  rw [hr]
  decide

/-- C17: point lookup.  For every key-ordered tree and every integer id, rbTree::search(id)
returns the node whose rideNumber equals id if the tree has such a node, and it returns
nullptr if and only if no node of the tree has that id. -/
theorem C17_point_lookup (t : rbTree) (sh : Shape) (fuel : Nat) (id : Int)
    (ht : IsTree t sh) (hk : KeyOrdered t.mem sh) (hf : sh.height < fuel) :
    (∀ a ∈ sh.addrs, (t.mem a).rideNumber = id → search fuel t id = some (some a)) ∧
    (search fuel t id = some none ↔ ∀ a ∈ sh.addrs, (t.mem a).rideNumber ≠ id) := by
  obtain ⟨h1, h2⟩ := search_spec id ht hk hf
  refine ⟨h1, ?_, ?_⟩
  · intro e a ha hka
    rw [h1 a ha hka] at e
    cases e
  · intro hno
    apply h2
    intro hmem
    obtain ⟨a, ha, hka⟩ := mem_keys.1 hmem
    exact hno a ha hka

theorem C17_point_lookup_witness :
    (∀ a ∈ threeShape.addrs, (threeTree.mem a).rideNumber = 3 →
      search 5 threeTree 3 = some (some a)) ∧
    (search 5 threeTree 3 = some none ↔
      ∀ a ∈ threeShape.addrs, (threeTree.mem a).rideNumber ≠ 3) :=
  C17_point_lookup threeTree threeShape 5 3 (by decide) (by decide) (by decide)

/-- C18: extraction scenario.  Starting from the empty state, Insert(1,5,10), Insert(2,3,20)
and Insert(3,3,5) return, and four successive calls of GetNextRide write (3,3,5), then
(2,3,20), then (1,5,10), and the fourth writes the message of the empty store. -/
theorem C18_extraction_scenario :
    ∃ s1 s2 s3 t1 t2 t3 t4, Insert State.empty 1 5 10 = some (Except.ok s1) ∧
      Insert s1 2 3 20 = some (Except.ok s2) ∧ Insert s2 3 3 5 = some (Except.ok s3) ∧
      GetNextRide s3 = some (t1, "(3,3,5)") ∧ GetNextRide t1 = some (t2, "(2,3,20)") ∧
      GetNextRide t2 = some (t3, "(1,5,10)") ∧
      GetNextRide t3 = some (t4, "No active ride requests") :=
  ⟨okState (Insert State.empty 1 5 10),
    okState (Insert (okState (Insert State.empty 1 5 10)) 2 3 20),
    okState (Insert (okState (Insert (okState (Insert State.empty 1 5 10)) 2 3 20)) 3 3 5),
    nextState (okState (Insert (okState (Insert (okState (Insert State.empty 1 5 10)) 2 3 20))
      3 3 5)),
    nextState (nextState (okState (Insert (okState (Insert (okState
      (Insert State.empty 1 5 10)) 2 3 20)) 3 3 5))),
    nextState (nextState (nextState (okState (Insert (okState (Insert (okState
      (Insert State.empty 1 5 10)) 2 3 20)) 3 3 5)))),
    nextState (nextState (nextState (nextState (okState (Insert (okState (Insert (okState
      (Insert State.empty 1 5 10)) 2 3 20)) 3 3 5))))),
    eq_okState (by decide), eq_okState (by decide), eq_okState (by decide),
    getNextRide_eq (by decide), getNextRide_eq (by decide), getNextRide_eq (by decide),
    getNextRide_eq (by decide)⟩

/-- C19: an unknown id is a silent no-op.  In every state in which the lookup of id returns
absent, CancelRide(id) and UpdateTrip(id, n) for every n return without an error and with
the state unchanged (tree, heap and allocator position); and the lookup returns absent, so
that the same holds, in every state whose tree is a key-ordered tree within the allocator
bound that has no node with that id. -/
theorem C19_unknown_id_noop (s : State) (id : Int) :
    (Absent s id →
      CancelRide s id = some (Except.ok s) ∧ ∀ n, UpdateTrip s id n = some (Except.ok s)) ∧
    (∀ sh, IsTree s.myTree sh → KeyOrdered s.myTree.mem sh → sh.height < s.fuel →
      (∀ a ∈ sh.addrs, (s.myTree.mem a).rideNumber ≠ id) →
      CancelRide s id = some (Except.ok s) ∧ ∀ n, UpdateTrip s id n = some (Except.ok s)) := by
  refine ⟨noop_of_absent, fun sh ht hk hf hno => noop_of_absent ?_⟩
  rw [absent_search]
  apply (search_spec id ht hk hf).2
  intro hmem
  obtain ⟨a, ha, hka⟩ := mem_keys.1 hmem
  exact hno a ha hka

theorem C19_unknown_id_noop_witness :
    Absent (stateAfter threeRun) 9 ∧
    CancelRide (stateAfter threeRun) 9 = some (Except.ok (stateAfter threeRun)) ∧
    ∀ n, UpdateTrip (stateAfter threeRun) 9 n = some (Except.ok (stateAfter threeRun)) :=
  ⟨by decide, (C19_unknown_id_noop (stateAfter threeRun) 9).1 (by decide)⟩

/-- C20: the empty store.  minHeap::removeMin ends with an error if and only if the heap
has no live cell (size <= 1, counting the guard); the error is then the message
"No active ride requests" and the heap is unchanged; and GetNextRide in a state with such a
heap writes this message and leaves the whole state, the tree included, unchanged. -/
theorem C20_empty_store (h : minHeap) (m : Mem) :
    ((∃ e, h.removeMin m = some (Except.error e)) ↔ h.size ≤ 1) ∧
    (h.size ≤ 1 → h.removeMin m = some (Except.error ("No active ride requests", h))) ∧
    (∀ s : State, s.myHeap = h → h.size ≤ 1 →
      GetNextRide s = some (s, "No active ride requests")) := by
  have hemp : h.size ≤ 1 → h.removeMin m = some (Except.error ("No active ride requests", h)) := by
    intro hs
    unfold minHeap.removeMin
    have : h.isEmpty = true := by simp [minHeap.isEmpty, hs]
    rw [if_pos this]
  refine ⟨⟨?_, fun hs => ⟨_, hemp hs⟩⟩, hemp, ?_⟩
  · rintro ⟨e, he⟩
    by_contra hs
    unfold minHeap.removeMin at he
    have : ¬ h.isEmpty = true := by simp [minHeap.isEmpty]; omega
    rw [if_neg this] at he
    simp only at he
    cases hsw : h.swap m 1 (h.size - 1) with
    | none => rw [hsw] at he; cases he
    | some q =>
      obtain ⟨h1, m1⟩ := q
      rw [hsw] at he
      simp only at he
      cases hd : minHeap.heapifyDown (h1.size - 1 + 1) { h1 with size := h1.size - 1 } m1 1 with
      | none => simp [hd] at he
      | some r => simp [hd] at he
  · intro s hsh hs
    subst hsh
    unfold GetNextRide minHeap.removeMin
    have : s.myHeap.isEmpty = true := by simp [minHeap.isEmpty, hs]
    simp only [this, if_true]

theorem C20_empty_store_witness :
    State.empty.myHeap.size ≤ 1 ∧
    State.empty.myHeap.removeMin State.empty.myTree.mem =
      some (Except.error ("No active ride requests", State.empty.myHeap)) ∧
    GetNextRide State.empty = some (State.empty, "No active ride requests") :=
  ⟨by decide, (C20_empty_store State.empty.myHeap State.empty.myTree.mem).2.1 (by decide),
    (C20_empty_store State.empty.myHeap State.empty.myTree.mem).2.2 State.empty rfl
      (by decide)⟩

/-! ### Print formats, the comparison of heap nodes and remove outside the bounds (C21 to C24) -/

theorem printRange_cons2 (r r2 : rbNode) (rs : List rbNode) :
    printRange (r :: r2 :: rs) = r.print ++ "," ++ printRange (r2 :: rs) := rfl

theorem joinWith_cons2 (sep a b : String) (l : List String) :
    joinWith sep (a :: b :: l) = a ++ sep ++ joinWith sep (b :: l) := rfl

/-- The loop of the range print writes the records joined by single commas, followed by one
blank. -/
theorem printRange_eq : ∀ (res : List rbNode), res ≠ [] →
    printRange res = joinWith "," (res.map rbNode.print) ++ " "
  | [], h => absurd rfl h
  | [r], _ => rfl
  | r :: r2 :: rs, _ => by
    rw [printRange_cons2, printRange_eq (r2 :: rs) (List.cons_ne_nil _ _)]
    simp only [List.map_cons, joinWith_cons2, String.append_assoc]

/-- The decimal digits of a natural number are not empty, and a longer accumulator gives a
longer result. -/
theorem toDigitsCore_length_ge (b : Nat) : ∀ (f n : Nat) (ds : List Char),
    ds.length ≤ (Nat.toDigitsCore b f n ds).length := by
  intro f
  induction f with
  | zero => intro n ds; simp [Nat.toDigitsCore]
  | succ f ih =>
    intro n ds
    simp only [Nat.toDigitsCore]
    split_ifs
    · simp
    · have := ih (n / b) (Nat.digitChar (n % b) :: ds)
      simp only [List.length_cons] at this
      omega

theorem natRepr_data (n : Nat) : (toString n).data = Nat.toDigits 10 n := rfl

theorem toDigits_ne_nil (n : Nat) : Nat.toDigits 10 n ≠ [] := by
  unfold Nat.toDigits
  simp only [Nat.toDigitsCore]
  split_ifs
  · simp
  · intro h
    have := toDigitsCore_length_ge 10 n (n / 10) [Nat.digitChar (n % 10)]
    rw [h] at this
    simp at this

theorem toDigits_zero_of_single (n : Nat) (h : Nat.toDigits 10 n = ['0']) : n = 0 := by
  unfold Nat.toDigits at h
  simp only [Nat.toDigitsCore] at h
  split_ifs at h with h0
  · have hn : n < 10 := by omega
    have hm : n % 10 = n := Nat.mod_eq_of_lt hn
    rw [hm] at h
    interval_cases n <;> first | rfl | (exfalso; revert h; decide)
  · have := toDigitsCore_length_ge 10 n (n / 10) [Nat.digitChar (n % 10)]
    rw [h] at this
    have h1 : (Nat.toDigitsCore 10 n (n / 10) [Nat.digitChar (n % 10)]).length = 1 := by
      rw [h]; rfl
    cases n with
    | zero => simp at h0
    | succ k =>
      simp only [Nat.toDigitsCore] at h1
      split_ifs at h1
      · simp at h1
      · have h2 := toDigitsCore_length_ge 10 k ((k + 1) / 10 / 10)
          [Nat.digitChar ((k + 1) / 10 % 10), Nat.digitChar ((k + 1) % 10)]
        simp only [List.length_cons, List.length_nil] at h2
        omega

theorem intRepr_data_ne_nil (a : Int) : (toString a).data ≠ [] := by
  cases a with
  | ofNat n => exact toDigits_ne_nil n
  | negSucc n =>
    show ("-" ++ toString (n + 1)).data ≠ []
    simp [String.data_append]

theorem intRepr_zero_of_single (a : Int) (h : (toString a).data = ['0']) : a = 0 := by
  cases a with
  | ofNat n =>
    have : n = 0 := toDigits_zero_of_single n h
    subst this
    rfl
  | negSucc n =>
    exfalso
    have h' : ("-" ++ toString (n + 1)).data = ['0'] := h
    have hl := congrArg List.length h'
    have hne := toDigits_ne_nil (n + 1)
    rw [← natRepr_data] at hne
    simp only [String.data_append, List.length_append, List.length_cons,
      List.length_nil] at hl
    have : 1 ≤ (toString (n + 1)).data.length := List.length_pos.2 hne
    have h1 : ("-" : String).data.length = 1 := rfl
    omega

/-- A printed record that reads (0,0,0) is the record (0,0,0). -/
theorem print_zero {n : rbNode} (h : n.print = "(0,0,0)") :
    n.rideNumber = 0 ∧ n.rideCost = 0 ∧ n.tripDuration = 0 := by
  have hd := congrArg String.data h
  simp only [rbNode.print, String.data_append] at hd
  have ha := intRepr_data_ne_nil n.rideNumber
  have hb := intRepr_data_ne_nil n.rideCost
  have hc := intRepr_data_ne_nil n.tripDuration
  have za := intRepr_zero_of_single n.rideNumber
  have zb := intRepr_zero_of_single n.rideCost
  have zc := intRepr_zero_of_single n.tripDuration
  generalize (toString n.rideNumber).data = A at hd ha za
  generalize (toString n.rideCost).data = B at hd hb zb
  generalize (toString n.tripDuration).data = C at hd hc zc
  have hl := congrArg List.length hd
  simp only [List.length_append, List.length_cons, List.length_nil] at hl
  have la : 1 ≤ A.length := List.length_pos.2 ha
  have lb : 1 ≤ B.length := List.length_pos.2 hb
  have lc : 1 ≤ C.length := List.length_pos.2 hc
  have la1 : A.length = 1 := by omega
  have lb1 : B.length = 1 := by omega
  have lc1 : C.length = 1 := by omega
  obtain ⟨x, rfl⟩ := List.length_eq_one.1 la1
  obtain ⟨y, rfl⟩ := List.length_eq_one.1 lb1
  obtain ⟨z, rfl⟩ := List.length_eq_one.1 lc1
  simp only [List.cons_append, List.nil_append, List.cons.injEq, and_true, true_and] at hd
  exact ⟨za (by simp [hd]), zb (by simp [hd]), zc (by simp [hd])⟩

/-- The node that search returns carries the ride number that was searched. -/
theorem searchRecursive_key : ∀ (fuel : Nat) (t : rbTree) (root : Nat) (id : Int) (a : Nat),
    searchRecursive fuel t root id = some (some a) → (t.mem a).rideNumber = id := by
  intro fuel
  induction fuel with
  | zero => intro t root id a e; simp [searchRecursive] at e
  | succ fuel ih =>
    intro t root id a e
    unfold searchRecursive at e
    split_ifs at e with h0 h1 h2
    · cases e
    · simp only [Option.some.injEq] at e
      subst e
      exact h1
    · exact ih _ _ _ _ e
    · exact ih _ _ _ _ e

/-- C22, as stated, fails: after the inserts of the ride numbers 5, 1, 9, 3, 7 the range
search from 2 to 8 returns the records of 3, 5 and 7, and Print(2, 8) writes them joined by
single commas and followed by a blank, which is not the line of the specification, joined
by comma and blank with nothing after the last record. -/
theorem C22_counterexample :
    Reachable (stateAfter fiveRun) ∧
    (∃ res, searchInRange (stateAfter fiveRun).fuel (stateAfter fiveRun).myTree 2 8 =
        some res ∧ res.map rbNode.record = [(3, 0, 0), (5, 0, 0), (7, 0, 0)] ∧
      rangeLineSpec res = "(3,0,0), (5,0,0), (7,0,0)") ∧
    PrintRange (stateAfter fiveRun) 2 8 = some "(3,0,0),(5,0,0),(7,0,0) " ∧
    "(3,0,0),(5,0,0),(7,0,0) " ≠ "(3,0,0), (5,0,0), (7,0,0)" := by
  refine ⟨reachable_stateAfter (by decide) (by decide), ?_, by decide, by decide⟩
  cases hres : searchInRange (stateAfter fiveRun).fuel (stateAfter fiveRun).myTree 2 8 with
  | none => exact absurd hres (by decide)
  | some res =>
    have h1 : (match searchInRange (stateAfter fiveRun).fuel (stateAfter fiveRun).myTree 2 8
        with
        | some r => decide (r.map rbNode.record = [(3, 0, 0), (5, 0, 0), (7, 0, 0)]) &&
            decide (rangeLineSpec r = "(3,0,0), (5,0,0), (7,0,0)")
        | none => false) = true := by decide
    rw [hres] at h1
    simp only [Bool.and_eq_true, decide_eq_true_eq] at h1
    exact ⟨res, rfl, h1.1, h1.2⟩

/-- C22, amended: in every reachable state and for all integers lo and hi, Print(lo, hi)
returns; with the matching records r1..rk (the in-order sequence of the tree filtered by
lo <= id <= hi) not empty it writes them, each formatted as (id,cost,duration), joined by
the one-character separator comma and followed by one blank before the end of line; for an
empty match list it writes (0,0,0). -/
theorem C22_range_print_format (s : State) (hr : Reachable s) (lo hi : Int) :
    ∃ sh, IsTree s.myTree sh ∧
      PrintRange s lo hi = some
        (if (inorder s.myTree.mem sh).filter (inRange lo hi) = [] then "(0,0,0)"
          else joinWith "," (((inorder s.myTree.mem sh).filter (inRange lo hi)).map
            rbNode.print) ++ " ") := by
  obtain ⟨sh, hi'⟩ := reachable_inv hr
  have hf := height_lt_fuel hi'
  refine ⟨sh, hi'.tree, ?_⟩
  unfold PrintRange
  rw [searchInRange_spec lo hi hi'.tree hi'.ordered (by simp only [State.fuel]; omega)]
  simp only
  by_cases he : (inorder s.myTree.mem sh).filter (inRange lo hi) = []
  · rw [he]
    rfl
  · rw [if_neg he, printRange_eq _ he]
    have : ((inorder s.myTree.mem sh).filter (inRange lo hi)).isEmpty = false := by
      cases hl : (inorder s.myTree.mem sh).filter (inRange lo hi) with
      | nil => exact absurd hl he
      | cons _ _ => rfl
    rw [this]
    rfl

theorem C22_range_print_format_witness :
    Reachable (stateAfter fiveRun) ∧
    ∃ sh, IsTree (stateAfter fiveRun).myTree sh ∧
      PrintRange (stateAfter fiveRun) 2 8 = some
        (if (inorder (stateAfter fiveRun).myTree.mem sh).filter (inRange 2 8) = []
          then "(0,0,0)"
          else joinWith "," (((inorder (stateAfter fiveRun).myTree.mem sh).filter
            (inRange 2 8)).map rbNode.print) ++ " ") :=
  ⟨reachable_stateAfter (by decide) (by decide),
    C22_range_print_format (stateAfter fiveRun) (reachable_stateAfter (by decide) (by decide))
      2 8⟩

/-- C23, as stated, fails: after Insert(0,0,0) the ride number 0 is live, with the record
(0,0,0), and Print(0) writes the line (0,0,0), the line of a ride number that is not
live. -/
theorem C23_counterexample :
    Reachable (stateAfter zeroRun) ∧ Lookup (stateAfter zeroRun) 0 0 0 ∧
    ¬ Absent (stateAfter zeroRun) 0 ∧ Print (stateAfter zeroRun) 0 = some "(0,0,0)" :=
  ⟨reachable_stateAfter (by decide) (by decide), by decide, by decide, by decide⟩

/-- C23, amended: in every reachable state and for every id, Print(id) returns: the ride
number is either live or absent; if it is live with the record (id, c, d), the line is
(id,c,d) with the decimal values; if it is not live, the line is (0,0,0); and the line is
(0,0,0) only if id is not live or the live record is (0,0,0) itself. -/
theorem C23_single_print_format (s : State) (hr : Reachable s) (id : Int) :
    (Absent s id ∨ ∃ c d, Lookup s id c d) ∧
    (∀ c d, Lookup s id c d → Print s id =
      some ("(" ++ toString id ++ "," ++ toString c ++ "," ++ toString d ++ ")")) ∧
    (Absent s id → Print s id = some "(0,0,0)") ∧
    (Print s id = some "(0,0,0)" → Absent s id ∨ (id = 0 ∧ Lookup s 0 0 0)) := by
  obtain ⟨sh, hi⟩ := reachable_inv hr
  obtain ⟨h1, h2⟩ := inv_search hi id
  refine ⟨?_, ?_, ?_, ?_⟩
  · by_cases hk : id ∈ keys s.myTree.mem sh
    · obtain ⟨a, ha, hka⟩ := mem_keys.1 hk
      right
      refine ⟨(s.myTree.mem a).rideCost, (s.myTree.mem a).tripDuration, ?_⟩
      rw [lookup_search]
      exact ⟨a, h1 a ha hka, by simp [rbNode.record, hka]⟩
    · left
      exact (absent_search s id).2 (h2 hk)
  · intro c d hl
    obtain ⟨a, e, hrec⟩ := (lookup_search s id c d).1 hl
    simp only [rbNode.record, Prod.mk.injEq] at hrec
    unfold Print
    rw [e]
    simp only [rbNode.print, hrec.1, hrec.2.1, hrec.2.2]
  · intro ha
    unfold Print
    rw [(absent_search s id).1 ha]
  · intro hp
    unfold Print at hp
    cases hs : s.myTree.search s.fuel id with
    | none => rw [hs] at hp; cases hp
    | some o =>
      cases o with
      | none => exact Or.inl ((absent_search s id).2 hs)
      | some a =>
        rw [hs] at hp
        simp only [Option.some.injEq] at hp
        obtain ⟨z1, z2, z3⟩ := print_zero hp
        have hk := searchRecursive_key _ _ _ _ _ hs
        have hid : id = 0 := by rw [← hk, z1]
        subst hid
        right
        refine ⟨rfl, ?_⟩
        rw [lookup_search]
        exact ⟨a, hs, by simp [rbNode.record, z1, z2, z3]⟩

theorem C23_single_print_format_witness :
    Lookup (stateAfter fiveRun) 3 0 0 ∧
    Print (stateAfter fiveRun) 3 = some "(3,0,0)" :=
  ⟨by decide,
    (C23_single_print_format (stateAfter fiveRun)
      (reachable_stateAfter (by decide) (by decide)) 3).2.1 0 0 (by decide)⟩

/-- C24: the priority comparison is the strict lexicographic order on (cost, duration).
For all heap nodes a and b, a < b holds exactly if a.cost < b.cost, or a.cost = b.cost and
a.duration < b.duration; replacing the ride number, the back-reference and the position of
either node does not change the result; and the relation is irreflexive, transitive, and
total up to equal (cost, duration) pairs. -/
theorem C24_priority_comparison :
    (∀ a b : heapNode, a.lt b = true ↔
      (a.rideCost < b.rideCost ∨
        (a.rideCost = b.rideCost ∧ a.tripDuration < b.tripDuration))) ∧
    (∀ (a b : heapNode) (i1 i2 : Int) (r1 r2 : Option Nat) (p1 p2 : Nat),
      heapNode.lt { a with rideNumber := i1, rbNodeRef := r1, pos := p1 }
        { b with rideNumber := i2, rbNodeRef := r2, pos := p2 } = a.lt b) ∧
    (∀ a : heapNode, a.lt a = false) ∧
    (∀ a b c : heapNode, a.lt b = true → b.lt c = true → a.lt c = true) ∧
    (∀ a b : heapNode, a.lt b = true ∨ b.lt a = true ∨
      (a.rideCost = b.rideCost ∧ a.tripDuration = b.tripDuration)) := by
  have key : ∀ a b : heapNode, a.lt b = true ↔
      (a.rideCost < b.rideCost ∨
        (a.rideCost = b.rideCost ∧ a.tripDuration < b.tripDuration)) := by
    intro a b
    unfold heapNode.lt
    by_cases e : a.rideCost = b.rideCost
    · rw [if_pos e]
      simp only [decide_eq_true_eq]
      constructor
      · intro k; exact Or.inr ⟨e, k⟩
      · rintro (k | ⟨_, k⟩)
        · omega
        · exact k
    · rw [if_neg e]
      simp only [decide_eq_true_eq]
      constructor
      · intro k; exact Or.inl k
      · rintro (k | ⟨k, _⟩)
        · exact k
        · exact absurd k e
  refine ⟨key, fun a b i1 i2 r1 r2 p1 p2 => rfl, ?_, ?_, ?_⟩
  · intro a
    cases h : a.lt a
    · rfl
    · have := (key a a).1 h
      omega
  · intro a b c h1 h2
    have k1 := (key a b).1 h1
    have k2 := (key b c).1 h2
    apply (key a c).2
    omega
  · intro a b
    rw [key a b, key b a]
    omega

theorem C24_priority_comparison_witness :
    heapNode.lt (heapNode.init 1 3 5) (heapNode.init 3 5 0) = true :=
  C24_priority_comparison.2.2.2.1 (heapNode.init 1 3 5) (heapNode.init 2 3 20)
    (heapNode.init 3 5 0) (by decide) (by decide)

/-! ### Rearrangements of the heap cells and the properties C25, C27 and C29 -/

theorem rearr_refl (n : Nat) (h : minHeap) : Rearr n h h :=
  ⟨rfl, fun _ _ => rfl, Equiv.refl _, fun _ _ => rfl, fun _ => rfl⟩

theorem rearr_trans {n : Nat} {h1 h2 h3 : minHeap} (r1 : Rearr n h1 h2) (r2 : Rearr n h2 h3) :
    Rearr n h1 h3 := by
  obtain ⟨s1, o1, σ1, f1, c1⟩ := r1
  obtain ⟨s2, o2, σ2, f2, c2⟩ := r2
  refine ⟨s2.trans s1, fun j hj => (o2 j hj).trans (o1 j hj), σ2.trans σ1, ?_, ?_⟩
  · intro j hj
    simp only [Equiv.trans_apply, f2 j hj, f1 j hj]
  · intro j
    simp only [Equiv.trans_apply]
    rw [c2 j, c1]

/-- A rearrangement maps the positions 1 .. n - 1 to themselves. -/
theorem rearr_range {n : Nat} {σ : Equiv.Perm Nat} (f : ∀ j, ¬ (1 ≤ j ∧ j < n) → σ j = j)
    (j : Nat) : (1 ≤ σ j ∧ σ j < n) ↔ (1 ≤ j ∧ j < n) := by
  constructor
  · intro hj
    by_contra hc
    rw [f j hc] at hj
    exact hc hj
  · intro hj
    by_contra hc
    have := f (σ j) hc
    have := σ.injective this
    rw [this] at hc
    exact hc hj

theorem swap_rearr {n : Nat} {h h2 : minHeap} {m m2 : Mem} {i1 i2 : Nat}
    (e : h.swap m i1 i2 = some (h2, m2)) (b1 : 1 ≤ i1 ∧ i1 < n) (b2 : 1 ≤ i2 ∧ i2 < n) :
    Rearr n h h2 := by
  obtain ⟨hs, hh⟩ := swap_heap e
  refine ⟨hs, ?_, Equiv.swap i1 i2, ?_, ?_⟩
  · intro j hj
    have a1 : j ≠ i1 := by rintro rfl; exact hj b1
    have a2 : j ≠ i2 := by rintro rfl; exact hj b2
    rw [hh, if_neg a2, if_neg a1]
  · intro j hj
    have a1 : j ≠ i1 := by rintro rfl; exact hj b1
    have a2 : j ≠ i2 := by rintro rfl; exact hj b2
    exact Equiv.swap_apply_of_ne_of_ne a1 a2
  · intro j
    rw [hh]
    by_cases a2 : j = i2
    · subst a2
      rw [if_pos rfl, Equiv.swap_apply_right]
      rfl
    · rw [if_neg a2]
      by_cases a1 : j = i1
      · subst a1
        rw [if_pos rfl, Equiv.swap_apply_left]
        rfl
      · rw [if_neg a1, Equiv.swap_apply_of_ne_of_ne a1 a2]

/-- Sift-up rearranges the live cells: a swap with cell 0 would dereference the null
back-reference of the guard entry. -/
theorem heapifyUp_rearr (n : Nat) :
    ∀ (fuel : Nat) (h : minHeap) (m : Mem) (p : Nat) (h2 : minHeap) (m2 : Mem),
      minHeap.heapifyUp fuel h m p = some (h2, m2) → 1 ≤ p → p < n →
      (h.heap 0).rbNodeRef = none → Rearr n h h2 := by
  intro fuel
  induction fuel with
  | zero => intro h m p h2 m2 e; simp [minHeap.heapifyUp] at e
  | succ fuel ih =>
    intro h m p h2 m2 e hp hpn hg
    unfold minHeap.heapifyUp at e
    split_ifs at e with hlt
    · cases hsw : h.swap m p (minHeap.getParent p) with
      | none => rw [hsw] at e; simp at e
      | some q =>
        obtain ⟨h1, m1⟩ := q
        rw [hsw] at e
        simp only at e
        have hpar : 1 ≤ minHeap.getParent p := by
          by_contra hc
          have h0 : minHeap.getParent p = 0 := by omega
          rw [h0] at hsw
          unfold minHeap.swap at hsw
          rw [hg] at hsw
          cases hr : (h.heap p).rbNodeRef <;> rw [hr] at hsw <;> simp at hsw
        have hlt2 : minHeap.getParent p < p := by
          unfold minHeap.getParent at hpar ⊢
          omega
        have r1 := @swap_rearr n _ _ _ _ _ _ hsw ⟨hp, hpn⟩ ⟨hpar, by omega⟩
        have hg1 : (h1.heap 0).rbNodeRef = none := by
          rw [r1.2.1 0 (by omega)]
          exact hg
        exact rearr_trans r1 (ih h1 m1 _ h2 m2 e hpar (by omega) hg1)
    · obtain ⟨rfl, rfl⟩ := Prod.mk.inj (Option.some.inj e)
      exact rearr_refl _ _

/-- The child that heapifyDown compares with is the left child or, when valid, the right
child. -/
theorem minChildOf_cases (h : minHeap) (p : Nat) :
    minChildOf h p = 2 * p ∨
      (minChildOf h p = 2 * p + 1 ∧ h.isValidIndex (2 * p + 1) = true) := by
  unfold minChildOf minHeap.getLeftChild minHeap.getRightChild
  split_ifs <;> first | exact Or.inl rfl | exact Or.inr ⟨rfl, by assumption⟩

theorem minChildOf_valid {h : minHeap} {p : Nat}
    (hv : h.isValidIndex (minHeap.getLeftChild p) = true) :
    1 ≤ minChildOf h p ∧ minChildOf h p < h.size ∧ minChildOf h p / 2 = p := by
  simp only [minHeap.isValidIndex, minHeap.getLeftChild, decide_eq_true_eq] at hv
  rcases minChildOf_cases h p with e | ⟨e, hr⟩
  · rw [e]; omega
  · simp only [minHeap.isValidIndex, decide_eq_true_eq] at hr
    rw [e]; omega

theorem heapifyDown_unfold (fuel : Nat) (h : minHeap) (m : Mem) (p : Nat) :
    minHeap.heapifyDown (fuel + 1) h m p =
      if h.isValidIndex (minHeap.getLeftChild p) = true then
        if (h.heap (minChildOf h p)).lt (h.heap p) = true then
          match h.swap m p (minChildOf h p) with
          | none => none
          | some (h1, m1) => minHeap.heapifyDown fuel h1 m1 (minChildOf h p)
        else some (h, m)
      else some (h, m) := by
  conv_lhs => unfold minHeap.heapifyDown
  rfl

/-- Sift-down rearranges the live cells. -/
theorem heapifyDown_rearr :
    ∀ (fuel : Nat) (h : minHeap) (m : Mem) (p : Nat) (h2 : minHeap) (m2 : Mem),
      minHeap.heapifyDown fuel h m p = some (h2, m2) → 1 ≤ p → Rearr h.size h h2 := by
  intro fuel
  induction fuel with
  | zero => intro h m p h2 m2 e; simp [minHeap.heapifyDown] at e
  | succ fuel ih =>
    intro h m p h2 m2 e hp
    rw [heapifyDown_unfold] at e
    by_cases hv : h.isValidIndex (minHeap.getLeftChild p) = true
    · rw [if_pos hv] at e
      obtain ⟨c1, c2, c3⟩ := minChildOf_valid hv
      by_cases hlt : (h.heap (minChildOf h p)).lt (h.heap p) = true
      · rw [if_pos hlt] at e
        cases hsw : h.swap m p (minChildOf h p) with
        | none => rw [hsw] at e; simp at e
        | some q =>
          obtain ⟨h1, m1⟩ := q
          rw [hsw] at e
          simp only at e
          have r1 := @swap_rearr h.size _ _ _ _ _ _ hsw ⟨hp, by omega⟩ ⟨c1, c2⟩
          have r2 := ih h1 m1 _ h2 m2 e c1
          rw [r1.1] at r2
          exact rearr_trans r1 r2
      · rw [if_neg hlt] at e
        obtain ⟨rfl, rfl⟩ := Prod.mk.inj (Option.some.inj e)
        exact rearr_refl _ _
    · rw [if_neg hv] at e
      obtain ⟨rfl, rfl⟩ := Prod.mk.inj (Option.some.inj e)
      exact rearr_refl _ _

/-- A rearrangement keeps the list of the cells 1 .. n - 1 up to the order. -/
theorem rearr_perm {n : Nat} {h h2 : minHeap} (r : Rearr n h h2) :
    ((List.range' 1 (n - 1)).map (fun i => (h2.heap i).slot)).Perm
      ((List.range' 1 (n - 1)).map (fun i => (h.heap i).slot)) := by
  obtain ⟨_, _, σ, f, c⟩ := r
  have e1 : (List.range' 1 (n - 1)).map (fun i => (h2.heap i).slot) =
      ((List.range' 1 (n - 1)).map σ).map (fun i => (h.heap i).slot) := by
    rw [List.map_map]
    apply List.map_congr_left
    intro j _
    exact c j
  rw [e1]
  apply List.Perm.map
  rw [List.perm_ext_iff_of_nodup ((List.nodup_range' 1 (n - 1)).map σ.injective)
    (List.nodup_range' 1 (n - 1))]
  intro a
  simp only [List.mem_map, List.mem_range'_1]
  constructor
  · rintro ⟨j, hj, rfl⟩
    have := (rearr_range f j).2 ⟨hj.1, by omega⟩
    omega
  · intro ha
    refine ⟨σ.symm a, ?_, by simp⟩
    have := (rearr_range f (σ.symm a)).1 (by simp; omega)
    omega

theorem range'_succ_last (n : Nat) (hn : 1 ≤ n) :
    List.range' 1 n = List.range' 1 (n - 1) ++ [n] := by
  obtain ⟨k, rfl⟩ : ∃ k, n = k + 1 := ⟨n - 1, by omega⟩
  rw [List.range'_concat]
  simp [Nat.add_comm]

/-- The accounting of minHeap::remove with a valid index. -/
theorem remove_slots {h h2 : minHeap} {m m2 : Mem} {p : Nat}
    (e : h.remove m p = some (h2, m2)) (hp1 : 1 ≤ p) (hp2 : p < h.size) :
    h2.size + 1 = h.size ∧ h2.heap 0 = h.heap 0 ∧
      h.slots.Perm ((h.heap p).slot :: h2.slots) := by
  unfold minHeap.remove at e
  cases hsw : h.swap m p (h.size - 1) with
  | none => rw [hsw] at e; cases e
  | some q =>
    obtain ⟨h1, m1⟩ := q
    rw [hsw] at e
    simp only at e
    obtain ⟨hs1, hh1⟩ := swap_heap hsw
    have r1 := @swap_rearr h.size _ _ _ _ _ _ hsw ⟨hp1, hp2⟩ ⟨by omega, by omega⟩
    have r2 := heapifyDown_rearr _ _ _ _ _ _ e hp1
    have p1 := rearr_perm r1
    have p2 := rearr_perm r2
    have hsz2 : h2.size = h.size - 1 := by rw [r2.1]; simp [hs1]
    have hcut : ({ h1 with size := h1.size - 1 } : minHeap).size = h.size - 1 := by
      simp [hs1]
    rw [hcut] at p2
    refine ⟨by omega, ?_, ?_⟩
    · rw [r2.2.1 0 (by omega)]
      exact r1.2.1 0 (by omega)
    · have hlast : (h1.heap (h.size - 1)).slot = (h.heap p).slot := by
        rw [hh1, if_pos rfl]
        rfl
      have hsplit : List.range' 1 (h.size - 1) =
          List.range' 1 (h.size - 1 - 1) ++ [h.size - 1] :=
        range'_succ_last (h.size - 1) (by omega)
      have p1' : ((List.range' 1 (h.size - 1 - 1)).map (fun i => (h1.heap i).slot) ++
          [(h.heap p).slot]).Perm h.slots := by
        have := p1
        rw [hsplit, List.map_append, List.map_singleton, hlast, ← hsplit] at this
        exact this
      have p2' : h2.slots.Perm
          ((List.range' 1 (h.size - 1 - 1)).map (fun i => (h1.heap i).slot)) := by
        unfold minHeap.slots
        rw [hsz2]
        exact p2
      refine p1'.symm.trans ?_
      refine (List.perm_append_comm).trans ?_
      simp only [List.singleton_append]
      exact List.Perm.cons _ p2'.symm

/-- The accounting of minHeap::removeMin. -/
theorem removeMin_slots {h h2 : minHeap} {m m2 : Mem} {x : heapNode}
    (e : h.removeMin m = some (Except.ok (x, h2, m2))) :
    x = h.heap 1 ∧ 2 ≤ h.size ∧ h.remove m 1 = some (h2, m2) := by
  unfold minHeap.removeMin at e
  by_cases hemp : h.isEmpty = true
  · rw [if_pos hemp] at e
    cases e
  · rw [if_neg hemp] at e
    have hsz : 2 ≤ h.size := by
      simp only [minHeap.isEmpty, decide_eq_true_eq] at hemp
      omega
    unfold minHeap.remove
    simp only at e
    cases hsw : h.swap m 1 (h.size - 1) with
    | none => rw [hsw] at e; cases e
    | some q =>
      obtain ⟨h1, m1⟩ := q
      rw [hsw] at e
      simp only at e ⊢
      cases hd : minHeap.heapifyDown (h1.size - 1 + 1) { h1 with size := h1.size - 1 } m1 1 with
      | none => simp [hd] at e
      | some r =>
        obtain ⟨h3, m3⟩ := r
        simp only [hd, Option.some.injEq, Except.ok.injEq, Prod.mk.injEq] at e
        obtain ⟨e1, e2, e3⟩ := e
        subst e2 e3
        exact ⟨e1.symm, hsz, rfl⟩

/-- The accounting of minHeap::insert on a heap whose cell 0 is the guard entry. -/
theorem insert_slots {h h2 : minHeap} {m m2 : Mem} {node : heapNode}
    (e : h.insert m node = some (h2, m2)) (hsz : 1 ≤ h.size)
    (hg : (h.heap 0).rbNodeRef = none) :
    h2.size = h.size + 1 ∧ h2.heap 0 = h.heap 0 ∧ h2.slots.Perm (node.slot :: h.slots) := by
  have key : ∀ H0 : minHeap, H0 = (h.put h.size node).put h.size
      { (h.put h.size node).heap h.size with pos := h.size } →
      (match minHeap.heapifyUp (h.size + 1) H0 m h.size with
        | none => none
        | some (h, m) => some (({ h with size := h.size + 1 } : minHeap), m)) = some (h2, m2) →
      h2.size = h.size + 1 ∧ h2.heap 0 = h.heap 0 ∧ h2.slots.Perm (node.slot :: h.slots) := by
    intro H0 hH0 e2
    have hcell : ∀ j, H0.heap j =
        if j = h.size then { node with pos := h.size } else h.heap j := by
      intro j
      rw [hH0]
      by_cases hj : j = h.size
      · simp [minHeap.put, hj]
      · simp [minHeap.put, hj]
    have hsz0 : H0.size = h.size := by rw [hH0]; rfl
    cases hu : minHeap.heapifyUp (h.size + 1) H0 m h.size with
    | none => rw [hu] at e2; cases e2
    | some q =>
      obtain ⟨h1, m1⟩ := q
      rw [hu] at e2
      cases e2
      have hz : (0 : Nat) ≠ h.size := by omega
      have hg0 : (H0.heap 0).rbNodeRef = none := by
        rw [hcell 0, if_neg hz]
        exact hg
      have r := heapifyUp_rearr (h.size + 1) _ _ _ _ _ _ hu hsz (by omega) hg0
      have hs1 : h1.size = h.size := r.1.trans hsz0
      refine ⟨by simp [hs1], ?_, ?_⟩
      · show h1.heap 0 = h.heap 0
        rw [r.2.1 0 (by omega), hcell 0, if_neg hz]
      · have p := rearr_perm r
        simp only [Nat.add_sub_cancel] at p
        have e1 : ({ h1 with size := h1.size + 1 } : minHeap).slots =
            (List.range' 1 h.size).map (fun i => (h1.heap i).slot) := by
          unfold minHeap.slots
          simp [hs1]
        rw [e1]
        refine p.trans ?_
        rw [range'_succ_last h.size hsz, List.map_append, List.map_singleton, hcell,
          if_pos rfl]
        have e2 : (List.range' 1 (h.size - 1)).map (fun i => (H0.heap i).slot) = h.slots := by
          unfold minHeap.slots
          apply List.map_congr_left
          intro j hj
          rw [List.mem_range'_1] at hj
          rw [hcell, if_neg (by omega)]
        rw [e2]
        refine (List.perm_append_comm).trans ?_
        exact List.Perm.refl _
  have hcap := insert_cap e
  unfold minHeap.insert at e
  rw [if_pos hcap] at e
  exact key _ rfl e

/-- Sift-down stops at once when no valid child is less than the cell. -/
theorem heapifyDown_stay {h : minHeap} {m : Mem} {p : Nat} (fuel : Nat)
    (hc : ∀ c, h.isValidIndex c = true → c / 2 = p → (h.heap c).lt (h.heap p) = false) :
    minHeap.heapifyDown (fuel + 1) h m p = some (h, m) := by
  rw [heapifyDown_unfold]
  by_cases hv : h.isValidIndex (minHeap.getLeftChild p) = true
  · rw [if_pos hv]
    obtain ⟨c1, c2, c3⟩ := minChildOf_valid hv
    have := hc (minChildOf h p) (by simp [minHeap.isValidIndex]; omega) c3
    rw [this]
    simp
  · rw [if_neg hv]

/-- The heap ordering after minHeap::remove of a position that is valid and not the last
one: it holds exactly if the position is 1 or the last cell is not less than the parent of
the position. -/
theorem remove_ord_iff {h h2 : minHeap} {m m2 : Mem} {p : Nat}
    (e : h.remove m p = some (h2, m2)) (ho : HeapOrdered h) (hp1 : 1 ≤ p)
    (hp2 : p < h.size - 1) :
    HeapOrdered h2 ↔
      (p = 1 ∨ (h.heap (h.size - 1)).lt (h.heap (minHeap.getParent p)) = false) := by
  unfold minHeap.remove at e
  cases hsw : h.swap m p (h.size - 1) with
  | none => rw [hsw] at e; cases e
  | some q =>
    obtain ⟨h1, m1⟩ := q
    rw [hsw] at e
    simp only at e
    obtain ⟨hs1, hh1⟩ := swap_heap hsw
    have hk := swap_key hsw
    have hoK := (heapOrderedTo_iff h h.size).1 ho
    have hpar : minHeap.getParent p = p / 2 := rfl
    rw [hpar]
    constructor
    · intro ho2
      by_contra hc
      simp only [not_or] at hc
      obtain ⟨hne1, hlt⟩ := hc
      have hlt' : (h.heap (h.size - 1)).lt (h.heap (p / 2)) = true := by
        cases hv : (h.heap (h.size - 1)).lt (h.heap (p / 2))
        · exact absurd hv hlt
        · rfl
      have hp2' : 2 ≤ p := by omega
      have hstay : minHeap.heapifyDown (h1.size - 1 + 1) { h1 with size := h1.size - 1 } m1 p =
          some ({ h1 with size := h1.size - 1 }, m1) := by
        apply heapifyDown_stay
        intro c hcv hcp
        simp only [minHeap.isValidIndex, decide_eq_true_eq, hs1] at hcv
        show (h1.heap c).lt (h1.heap p) = false
        rw [lt_false_iff]
        have a1 : c ≠ h.size - 1 := by omega
        have a2 : c ≠ p := by omega
        have a3 : p ≠ h.size - 1 := by omega
        have k1 : (h1.heap c).key = (h.heap c).key := by
          have := hk c
          rw [if_neg a1, if_neg a2] at this
          exact this
        have k2 : (h1.heap p).key = (h.heap (h.size - 1)).key := by
          have := hk p
          rw [if_neg a3, if_pos rfl] at this
          exact this
        rw [k1, k2]
        have t1 : kle (h.heap (h.size - 1)).key (h.heap (p / 2)).key := lt_true_kle hlt'
        have t2 : kle (h.heap (p / 2)).key (h.heap p).key := hoK p hp2' (by omega)
        have t3 : kle (h.heap p).key (h.heap c).key := by
          have := hoK c (by omega) (by omega)
          rw [hcp] at this
          exact this
        exact kle_trans t1 (kle_trans t2 t3)
      rw [hstay] at e
      obtain ⟨rfl, rfl⟩ := Prod.mk.inj (Option.some.inj e)
      have hbad := ho2 p hp2' (by show p < h1.size - 1; rw [hs1]; exact hp2)
      rw [hpar] at hbad
      have b1 : (h1.heap p).lt (h1.heap (p / 2)) = (h.heap (h.size - 1)).lt (h.heap (p / 2)) := by
        have a3 : p ≠ h.size - 1 := by omega
        have a4 : p / 2 ≠ h.size - 1 := by omega
        have a5 : p / 2 ≠ p := by omega
        rw [hh1 p, hh1 (p / 2), if_neg a3, if_pos rfl, if_neg a4, if_neg a5]
        rfl
      have b2 : (h1.heap p).lt (h1.heap (p / 2)) = false := hbad
      rw [b1, hlt'] at b2
      cases b2
    · intro hcond
      obtain ⟨r1, _⟩ := heapifyDown_ord _ _ _ _ _ _ e (by
        show DownInv (keyArray h1) (h1.size - 1) p
        rw [hs1]
        constructor
        · intro i i1 i2 i3
          have a1 : i ≠ h.size - 1 := by omega
          have a3 : i / 2 ≠ h.size - 1 := by omega
          rw [hk i, hk (i / 2), if_neg a1, if_neg a3, if_neg i3]
          by_cases a2 : i = p
          · rw [if_pos a2]
            subst a2
            rcases hcond with c1 | c2
            · omega
            · exact (lt_false_iff _ _).1 c2
          · rw [if_neg a2]
            exact hoK i i1 (by omega)
        · intro i i1 i2 i3 i4
          have a1 : i ≠ h.size - 1 := by omega
          have a2 : i ≠ p := by omega
          have a3 : p / 2 ≠ h.size - 1 := by omega
          have a4 : p / 2 ≠ p := by omega
          rw [hk i, hk (p / 2), if_neg a1, if_neg a2, if_neg a3, if_neg a4]
          have t2 : kle (keyArray h (p / 2)) (keyArray h p) := hoK p i4 (by omega)
          have t3 : kle (keyArray h p) (keyArray h i) := by
            have := hoK i i1 (by omega)
            rw [i3] at this
            exact this
          exact kle_trans t2 t3)
      exact (heapOrderedTo_iff _ _).2 r1

/-- The invariant of the reachable heaps: the guard entry in cell 0, a size that counts
it, and non-negative costs in the live cells. -/
theorem heapReachable_inv {h : minHeap} (hr : HeapReachable h) :
    h.heap 0 = heapNode.init (-1) (-1) (-1) ∧ 1 ≤ h.size ∧ CostsNonneg h := by
  induction hr with
  | init => exact ⟨rfl, le_refl 1, fun i i1 i2 => by
      have : State.empty.myHeap.size = 1 := rfl
      omega⟩
  | @insert h h2 m m2 node _ hc _ e ih =>
    obtain ⟨g, s1, cn⟩ := ih
    have hg : (h.heap 0).rbNodeRef = none := by rw [g]; rfl
    obtain ⟨e1, e2, pm⟩ := insert_slots e s1 hg
    refine ⟨e2.trans g, by omega, ?_⟩
    intro i i1 i2
    have hmem : (h2.heap i).slot ∈ h2.slots :=
      List.mem_map.2 ⟨i, List.mem_range'_1.2 ⟨i1, by omega⟩, rfl⟩
    rcases List.mem_cons.1 (pm.subset hmem) with hx | hx
    · simp only [heapNode.slot, Prod.mk.injEq] at hx
      rw [hx.2.1]
      exact hc
    · obtain ⟨j, hj, hje⟩ := List.mem_map.1 hx
      rw [List.mem_range'_1] at hj
      simp only [heapNode.slot, Prod.mk.injEq] at hje
      rw [← hje.2.1]
      exact cn j hj.1 (by omega)
  | @removeMin h h2 m m2 x _ e ih =>
    obtain ⟨g, s1, cn⟩ := ih
    obtain ⟨_, hsz, e'⟩ := removeMin_slots e
    obtain ⟨e1, e2, pm⟩ := remove_slots e' (le_refl 1) (by omega)
    refine ⟨e2.trans g, by omega, ?_⟩
    intro i i1 i2
    have hmem : (h2.heap i).slot ∈ (h.heap 1).slot :: h2.slots :=
      List.mem_cons_of_mem _ (List.mem_map.2 ⟨i, List.mem_range'_1.2 ⟨i1, by omega⟩, rfl⟩)
    obtain ⟨j, hj, hje⟩ := List.mem_map.1 (pm.symm.subset hmem)
    rw [List.mem_range'_1] at hj
    simp only [heapNode.slot, Prod.mk.injEq] at hje
    rw [← hje.2.1]
    exact cn j hj.1 (by omega)
  | @remove h h2 m m2 p _ hv e ih =>
    obtain ⟨g, s1, cn⟩ := ih
    simp only [minHeap.isValidIndex, decide_eq_true_eq] at hv
    obtain ⟨e1, e2, pm⟩ := remove_slots e hv.1 hv.2
    refine ⟨e2.trans g, by omega, ?_⟩
    intro i i1 i2
    have hmem : (h2.heap i).slot ∈ (h.heap p).slot :: h2.slots :=
      List.mem_cons_of_mem _ (List.mem_map.2 ⟨i, List.mem_range'_1.2 ⟨i1, by omega⟩, rfl⟩)
    obtain ⟨j, hj, hje⟩ := List.mem_map.1 (pm.symm.subset hmem)
    rw [List.mem_range'_1] at hj
    simp only [heapNode.slot, Prod.mk.injEq] at hje
    rw [← hje.2.1]
    exact cn j hj.1 (by omega)

theorem some_of_isSome (o : Option (minHeap × Mem)) (h : o.isSome = true) :
    ∃ h2 m2, o = some (h2, m2) := by
  cases o with
  | none => simp at h
  | some r => exact ⟨r.1, r.2, rfl⟩

/-- From a list that is the slot a followed by the list l up to the order, erasing a
leaves l as a multiset. -/
theorem erase_of_perm {α : Type} [DecidableEq α] {l l2 : List α} {a : α}
    (p : l.Perm (a :: l2)) : (l2 : Multiset α) = (l : Multiset α).erase a := by
  have : (l : Multiset α) = a ::ₘ (l2 : Multiset α) := by
    rw [Multiset.cons_coe]
    exact Multiset.coe_eq_coe.2 p
  rw [this, Multiset.erase_cons_head]

/-- C25: the exact condition for the removal that only sifts down.  For every heap that
satisfies the heap ordering and every valid position p that is not the last occupied one,
any result of minHeap::remove(p) satisfies the heap ordering if and only if p = 1 or the
last cell is not less than the cell at the parent position of p; and remove returns when
every live cell is linked with a tree node. -/
theorem C25_remove_order_condition (h : minHeap) (p : Nat) (ho : HeapOrdered h)
    (hp1 : 1 ≤ p) (hp2 : p < h.size) (hlast : p ≠ h.size - 1) :
    (∀ m h2 m2, h.remove m p = some (h2, m2) →
      (HeapOrdered h2 ↔
        (p = 1 ∨ (h.heap (h.size - 1)).lt (h.heap (minHeap.getParent p)) = false))) ∧
    (∀ m, HeapSync h m h.size → ∃ h2 m2, h.remove m p = some (h2, m2)) := by
  constructor
  · intro m h2 m2 e
    exact remove_ord_iff e ho hp1 (by omega)
  · intro m hs
    obtain ⟨h2, m2, _, e, _⟩ := heap_remove_spec hs hp1 hp2
    exact ⟨h2, m2, e⟩

theorem C25_remove_order_condition_witness :
    HeapOrdered (stateAfter sevenRun).myHeap ∧
    ∀ m h2 m2, (stateAfter sevenRun).myHeap.remove m 4 = some (h2, m2) →
      (HeapOrdered h2 ↔
        (4 = 1 ∨ ((stateAfter sevenRun).myHeap.heap ((stateAfter sevenRun).myHeap.size - 1)).lt
          ((stateAfter sevenRun).myHeap.heap (minHeap.getParent 4)) = false)) :=
  ⟨by decide,
    (C25_remove_order_condition (stateAfter sevenRun).myHeap 4 (by decide) (by decide)
      (by decide) (by decide)).1⟩

/-- A step of heapStep is a step between reachable heaps. -/
theorem heapStep_reachable {hm hm2 : minHeap × Mem} {c : HeapCmd} (hr : HeapReachable hm.1)
    (e : heapStep hm c = some hm2) : HeapReachable hm2.1 := by
  obtain ⟨h2, m2⟩ := hm2
  cases c with
  | insert node =>
    simp only [heapStep] at e
    split_ifs at e with hc
    exact HeapReachable.insert hr hc.1 hc.2 e
  | removeMin =>
    simp only [heapStep] at e
    split at e
    · next x h3 m3 e3 =>
      simp only [Option.some.injEq, Prod.mk.injEq] at e
      obtain ⟨rfl, rfl⟩ := e
      exact HeapReachable.removeMin hr e3
    · cases e
  | remove p =>
    simp only [heapStep] at e
    split_ifs at e with hv
    exact HeapReachable.remove hr hv e

theorem heapRun_reachable : ∀ (cmds : List HeapCmd) (hm hm2 : minHeap × Mem),
    HeapReachable hm.1 → heapRun cmds hm = some hm2 → HeapReachable hm2.1 := by
  intro cmds
  induction cmds with
  | nil =>
    intro hm hm2 hr e
    simp only [heapRun, Option.some.injEq] at e
    exact e ▸ hr
  | cons c cs ih =>
    intro hm hm2 hr e
    simp only [heapRun] at e
    cases hs : heapStep hm c with
    | none => simp [hs] at e
    | some hm1 =>
      simp only [hs] at e
      exact ih hm1 hm2 (heapStep_reachable hr hs) e

/-- The heap after a sequence of calls that runs through from the constructed heap is
reachable. -/
theorem heapReachable_heapAfter {cmds : List HeapCmd}
    (h : (heapRun cmds (State.empty.myHeap, State.empty.myTree.mem)).isSome = true) :
    HeapReachable (heapAfter cmds) := by
  unfold heapAfter
  cases hr : heapRun cmds (State.empty.myHeap, State.empty.myTree.mem) with
  | none => simp [hr] at h
  | some hm => exact heapRun_reachable cmds _ hm HeapReachable.init hr

/-- C27: the guard in cell 0 is always present and never displaced.  After every sequence
of minHeap::insert (records with non-negative cost and duration), minHeap::removeMin and
minHeap::remove (valid index) from the constructed heap, cell 0 still holds the guard entry
(-1,-1,-1), the size counts it, and the live cells have non-negative costs; hence no cell
with a non-negative cost is less than cell 0, and sift-up from position 1, whatever record
of non-negative cost stands there, makes no swap with cell 0 and returns at once. -/
theorem C27_guard_slot (h : minHeap) (hr : HeapReachable h) :
    h.heap 0 = heapNode.init (-1) (-1) (-1) ∧ 1 ≤ h.size ∧
    (∀ i, 1 ≤ i → i < h.size → 0 ≤ (h.heap i).rideCost) ∧
    (∀ x : heapNode, 0 ≤ x.rideCost → x.lt (h.heap 0) = false) ∧
    (∀ (H : minHeap) (m : Mem) (fuel : Nat), H.heap 0 = h.heap 0 → 0 ≤ (H.heap 1).rideCost →
      minHeap.heapifyUp (fuel + 1) H m 1 = some (H, m)) := by
  obtain ⟨g, s1, cn⟩ := heapReachable_inv hr
  have hg : (h.heap 0).rideCost = -1 := by rw [g]; rfl
  refine ⟨g, s1, cn, fun x hx => lt_guard_false hx hg, ?_⟩
  intro H m fuel h0 h1
  unfold minHeap.heapifyUp
  have : minHeap.getParent 1 = 0 := rfl
  rw [this, h0, lt_guard_false h1 hg]
  simp

theorem C27_guard_slot_witness :
    (heapAfter guardRun).size = 4 ∧
      (heapAfter guardRun).heap 0 = heapNode.init (-1) (-1) (-1) ∧
      (∀ i, 1 ≤ i → i < (heapAfter guardRun).size → 0 ≤ ((heapAfter guardRun).heap i).rideCost) ∧
      ∀ m, minHeap.heapifyUp 1 (heapAfter guardRun) m 1 = some (heapAfter guardRun, m) :=
  ⟨by decide, (C27_guard_slot (heapAfter guardRun) (heapReachable_heapAfter (by decide))).1,
    (C27_guard_slot (heapAfter guardRun) (heapReachable_heapAfter (by decide))).2.2.1,
    fun m => (C27_guard_slot (heapAfter guardRun)
      (heapReachable_heapAfter (by decide))).2.2.2.2 (heapAfter guardRun) m 0 rfl (by decide)⟩

/-- C29, as stated, fails for insert: in the heap fullHeap the positions are accurate, cell
0 holds the guard entry and all 2005 cells of the buffer are in use, so that
minHeap::insert would write the cell 2005 past the buffer: it has no result, and no heap
with the given node added comes out of it. -/
theorem C29_counterexample :
    PosAcc fullHeap ∧
      fullHeap.heap 0 = heapNode.init (-1) (-1) (-1) ∧ fullHeap.slots.length = 2004 ∧
      fullHeap.size = minHeap.capacity ∧
      fullHeap.insert State.empty.myTree.mem (heapNode.init 2005 0 0) = none :=
  ⟨fun i h1 h2 => by rw [fullHeap_cell i h1 h2], rfl, by simp [minHeap.slots, fullHeap], rfl,
    insert_full _ _ _ (le_refl _)⟩

/-- C29 (amended): heap removal accounting, whether or not the heap ordering holds.  For
every heap and every valid position p, any result of minHeap::remove(p) has the size
decreased by exactly one, and the multiset of its live slots (id, cost, duration,
back-reference) is the multiset before with exactly the slot that was at position p erased;
any result of minHeap::removeMin is the cell at position 1 and a heap whose live slots are
those before with that slot erased; any result of minHeap::insert on a heap whose cell 0 is
the guard entry of the constructor (null back-reference) has the size increased by one and
the live slots before plus exactly the given node; remove and removeMin return when every
live cell is linked with a tree node, and insert returns when moreover the new cell is
linked and the size is below the 2005 cells of the buffer.  Accurate positions are not
needed. -/
theorem C29_heap_accounting (h : minHeap) :
    (∀ m p h2 m2, 1 ≤ p → p < h.size → h.remove m p = some (h2, m2) →
      h2.size + 1 = h.size ∧ (h.heap p).slot ∈ h.slots ∧
      (h2.slots : Multiset (Int × Int × Int × Option Nat)) =
        (h.slots : Multiset (Int × Int × Int × Option Nat)).erase (h.heap p).slot) ∧
    (∀ m x h2 m2, h.removeMin m = some (Except.ok (x, h2, m2)) →
      x = h.heap 1 ∧ h2.size + 1 = h.size ∧ x.slot ∈ h.slots ∧
      (h2.slots : Multiset (Int × Int × Int × Option Nat)) =
        (h.slots : Multiset (Int × Int × Int × Option Nat)).erase x.slot) ∧
    (∀ m node h2 m2, 1 ≤ h.size → (h.heap 0).rbNodeRef = none →
      h.insert m node = some (h2, m2) →
      h2.size = h.size + 1 ∧
      (h2.slots : Multiset (Int × Int × Int × Option Nat)) =
        node.slot ::ₘ (h.slots : Multiset (Int × Int × Int × Option Nat))) ∧
    (∀ m, HeapSync h m h.size →
      (∀ p, 1 ≤ p → p < h.size → ∃ h2 m2, h.remove m p = some (h2, m2)) ∧
      (2 ≤ h.size → ∃ h2 m2, h.removeMin m = some (Except.ok (h.heap 1, h2, m2))) ∧
      (∀ node a, 1 ≤ h.size → h.size < minHeap.capacity → 0 ≤ node.rideCost →
        node.rbNodeRef = some a →
        (m a).data = (node.rideNumber, node.rideCost, node.tripDuration, some h.size) →
        ∃ h2 m2, h.insert m node = some (h2, m2))) := by
  have hmem : ∀ p, 1 ≤ p → p < h.size → (h.heap p).slot ∈ h.slots := fun p p1 p2 =>
    List.mem_map.2 ⟨p, List.mem_range'_1.2 ⟨p1, by omega⟩, rfl⟩
  refine ⟨?_, ?_, ?_, ?_⟩
  · intro m p h2 m2 p1 p2 e
    obtain ⟨e1, _, pm⟩ := remove_slots e p1 p2
    exact ⟨e1, hmem p p1 p2, erase_of_perm pm⟩
  · intro m x h2 m2 e
    obtain ⟨hx, hsz, e2⟩ := removeMin_slots e
    obtain ⟨e1, _, pm⟩ := remove_slots e2 (le_refl 1) (by omega)
    subst hx
    exact ⟨rfl, e1, hmem 1 (le_refl 1) (by omega), erase_of_perm pm⟩
  · intro m node h2 m2 hsz hg e
    obtain ⟨e1, _, pm⟩ := insert_slots e hsz hg
    refine ⟨e1, ?_⟩
    rw [Multiset.cons_coe]
    exact Multiset.coe_eq_coe.2 pm
  · intro m hs
    refine ⟨?_, ?_, ?_⟩
    · intro p p1 p2
      obtain ⟨h2, m2, _, e, _⟩ := heap_remove_spec hs p1 p2
      exact ⟨h2, m2, e⟩
    · intro h2
      obtain ⟨h3, m3, _, e, _⟩ := heap_removeMin_spec hs h2
      exact ⟨h3, m3, e⟩
    · intro node a hsz hcap hc hr hd
      obtain ⟨h2, m2, e, _⟩ := heap_insert_spec hs hsz hc hr hd hcap
      exact ⟨h2, m2, e⟩

theorem C29_heap_accounting_witness :
    ∃ h2 m2, (stateAfter sevenRun).myHeap.remove (stateAfter sevenRun).myTree.mem 4 =
        some (h2, m2) ∧ h2.size + 1 = (stateAfter sevenRun).myHeap.size ∧
      (h2.slots : Multiset (Int × Int × Int × Option Nat)) =
        ((stateAfter sevenRun).myHeap.slots : Multiset (Int × Int × Int × Option Nat)).erase
          ((stateAfter sevenRun).myHeap.heap 4).slot := by
  obtain ⟨h2, m2, e⟩ := some_of_isSome
    ((stateAfter sevenRun).myHeap.remove (stateAfter sevenRun).myTree.mem 4) (by decide)
  obtain ⟨r1, _, r3⟩ := (C29_heap_accounting (stateAfter sevenRun).myHeap).1
    (stateAfter sevenRun).myTree.mem 4 h2 m2 (by decide) (by decide) e
  exact ⟨h2, m2, e, r1, r3⟩

/-! ### Counting the rotations of the delete fix-up (C26) -/

theorem bodyCount_body (t : rbTree) (node : Nat) :
    ((t.DeletionRebalanceBodyCount node).1, (t.DeletionRebalanceBodyCount node).2.1) =
      t.DeletionRebalanceBody node := by
  unfold rbTree.DeletionRebalanceBodyCount rbTree.DeletionRebalanceBody
  simp only
  split_ifs <;> rfl

theorem bodyCount_rot (t : rbTree) (node : Nat) :
    (t.DeletionRebalanceBodyCount node).2.2 =
      if t.isLeftChild node then rotCase1L t node + rotRestL (delCase1L t node).1
        (delCase1L t node).2
      else rotCase1R t node + rotRestR (delCase1R t node).1 (delCase1R t node).2 := by
  unfold rbTree.DeletionRebalanceBodyCount
  by_cases hl : t.isLeftChild node = true
  · rw [if_pos hl, if_pos hl]
    unfold rotCase1L rotRestL delCase1L
    by_cases c1 : t.getColor (t.getRight (t.getParent node)) = nodeColor.RED
    · simp only [c1, if_true]
      split_ifs <;> rfl
    · simp only [c1, if_false]
      split_ifs <;> rfl
  · rw [if_neg hl, if_neg hl]
    unfold rotCase1R rotRestR delCase1R
    by_cases c1 : t.getColor (t.getLeft (t.getParent node)) = nodeColor.RED
    · simp only [c1, if_true]
      split_ifs <;> rfl
    · simp only [c1, if_false]
      split_ifs <;> rfl

theorem rotRestL_le (t : rbTree) (sibling : Nat) : rotRestL t sibling ≤ 2 := by
  unfold rotRestL
  split_ifs <;> omega

theorem rotRestR_le (t : rbTree) (sibling : Nat) : rotRestR t sibling ≤ 2 := by
  unfold rotRestR
  split_ifs <;> omega

/-- The counted fix-up computes the tree of DeletionRebalance. -/
theorem DeletionRebalanceCount_tree : ∀ (fuel : Nat) (t : rbTree) (node : Nat),
    (rbTree.DeletionRebalanceCount fuel t node).map Prod.fst =
      DeletionRebalance fuel t node := by
  intro fuel
  induction fuel with
  | zero => intro t node; rfl
  | succ fuel ih =>
    intro t node
    unfold rbTree.DeletionRebalanceCount DeletionRebalance
    split_ifs with hc
    · have hb := bodyCount_body t node
      rw [← ih, ← hb]
      cases rbTree.DeletionRebalanceCount fuel (t.DeletionRebalanceBodyCount node).1
        (t.DeletionRebalanceBodyCount node).2.1 with
      | none => rfl
      | some r => rfl
    · rfl

/-- The counted deleteNode computes the result of rbTree::deleteNode. -/
theorem deleteNodeCount_tree (fuel : Nat) (t : rbTree) (node : Option Nat) :
    (rbTree.deleteNodeCount fuel t node).map (Except.map Prod.fst) =
      deleteNode fuel t node := by
  have key : ∀ (t2 : rbTree) (x : Nat),
      ((rbTree.DeletionRebalanceCount fuel t2 x).map Except.ok).map
        (Except.map Prod.fst : Except (String × rbTree) (rbTree × Nat) → _) =
      (DeletionRebalance fuel t2 x).map Except.ok := by
    intro t2 x
    rw [← DeletionRebalanceCount_tree]
    cases rbTree.DeletionRebalanceCount fuel t2 x <;> rfl
  cases node with
  | none => rfl
  | some z =>
    unfold rbTree.deleteNodeCount deleteNode
    simp only
    cases getMinimumNode fuel t (t.getRight z) with
    | none => split_ifs <;> first | exact key _ _ | rfl
    | some y =>
      simp only
      split_ifs <;> first | exact key _ _ | rfl

/-- One pass of the counted loop. -/
theorem count_step {fuel : Nat} {t t2 t3 : rbTree} {node n2 r k : Nat}
    (hc : node ≠ t.root ∧ t.getColor node = nodeColor.BLACK)
    (hb : t.DeletionRebalanceBody node = (t2, n2))
    (hr : (t.DeletionRebalanceBodyCount node).2.2 = r)
    (hk : rbTree.DeletionRebalanceCount fuel t2 n2 = some (t3, k)) :
    rbTree.DeletionRebalanceCount (fuel + 1) t node = some (t3, r + k) := by
  have h1 := bodyCount_body t node
  rw [hb] at h1
  obtain ⟨e1, e2⟩ := Prod.mk.inj h1
  unfold rbTree.DeletionRebalanceCount
  rw [if_pos hc, e1, e2, hk, hr]

theorem count_at_root (fuel : Nat) (t : rbTree) :
    rbTree.DeletionRebalanceCount (fuel + 1) t t.root =
      some (t.setColor t.root nodeColor.BLACK, 0) := by
  unfold rbTree.DeletionRebalanceCount
  rw [if_neg (by simp)]

theorem count_exit {t : rbTree} {ctx : List Frame} {s : Shape} (fuel : Nat)
    (hst : DelState t ctx s) (hx : ctx = [] ∨ rootColor s = nodeColor.RED) :
    rbTree.DeletionRebalanceCount (fuel + 1) t s.ptr =
      some (t.setColor s.ptr nodeColor.BLACK, 0) := by
  have : ¬ (s.ptr ≠ t.root ∧ t.getColor s.ptr = nodeColor.BLACK) := by
    rcases hx with rfl | hx
    · have := hst.tree.root
      simp only [plug_nil] at this
      simp [this]
    · obtain ⟨l, a, r, rfl⟩ := rootColor_red_node hx
      have := (isTree_focus hst.tree).2.2.2.2
      simp [this]
  unfold rbTree.DeletionRebalanceCount
  rw [if_neg this]

/-- The colour that case 1 tests, for a left child. -/
theorem rotCase1L_eq {t : rbTree} {rest : List Frame} {s wn wf : Shape} {p ww : Nat}
    {cp cw : nodeColor}
    (h : DelState t ((Frame.L p cp (Shape.node wn ww cw wf)) :: rest) s) :
    rotCase1L t s.ptr = if cw = nodeColor.RED then 1 else 0 := by
  obtain ⟨h1, h2, -⟩ := h
  simp only [ctxPar, Frame.addr] at h2
  have hp := isTree_focus (show IsTree t (plug rest (Shape.node s p cp
    (Shape.node wn ww cw wf))) from h1)
  have hw := isTree_focus (show IsTree t (plug ((Frame.R s p cp) :: rest)
    (Shape.node wn ww cw wf)) from h1)
  simp only [Shape.ptr_node, ctxPar, Frame.addr] at hp hw
  simp [rotCase1L, rbTree.getColor, rbTree.getRight, rbTree.getParent, h2, hp.2.2.1,
    hw.2.2.2.2]

theorem rotCase1R_eq {t : rbTree} {rest : List Frame} {s wn wf : Shape} {p ww : Nat}
    {cp cw : nodeColor}
    (h : DelState t ((Frame.R (Shape.node wf ww cw wn) p cp) :: rest) s) :
    rotCase1R t s.ptr = if cw = nodeColor.RED then 1 else 0 := by
  obtain ⟨h1, h2, -⟩ := h
  simp only [ctxPar, Frame.addr] at h2
  have hp := isTree_focus (show IsTree t (plug rest (Shape.node (Shape.node wf ww cw wn) p cp
    s)) from h1)
  have hw := isTree_focus (show IsTree t (plug ((Frame.L p cp s) :: rest)
    (Shape.node wf ww cw wn)) from h1)
  simp only [Shape.ptr_node, ctxPar, Frame.addr] at hp hw
  simp [rotCase1R, rbTree.getColor, rbTree.getLeft, rbTree.getParent, h2, hp.2.1,
    hw.2.2.2.2]

/-- Case 2 makes no rotation, for a left child. -/
theorem rotRestL_zero {t : rbTree} {rest : List Frame} {s wn wf : Shape} {p ww : Nat}
    {cp : nodeColor}
    (h : DelState t ((Frame.L p cp (Shape.node wn ww nodeColor.BLACK wf)) :: rest) s)
    (hnn : rootColor wn = nodeColor.BLACK) (hnf : rootColor wf = nodeColor.BLACK) :
    rotRestL t ww = 0 := by
  obtain ⟨h1, h2, h3, -⟩ := h
  have hw := isTree_focus (show IsTree t (plug ((Frame.R s p cp) :: rest)
    (Shape.node wn ww nodeColor.BLACK wf)) from h1)
  simp only [Shape.ptr_node, ctxPar, Frame.addr] at hw
  have hlw := ((isTree_plug_iff _ _ _).1 (show IsTree t (plug ((Frame.R s p cp) :: rest)
    (Shape.node wn ww nodeColor.BLACK wf)) from h1)).2.2.1
  have hcn : (t.mem wn.ptr).color = rootColor wn := getColor_ptr h3 hlw.2.2.2.2.2.1
  have hcf : (t.mem wf.ptr).color = rootColor wf := getColor_ptr h3 hlw.2.2.2.2.2.2
  unfold rotRestL
  rw [if_pos]
  simp only [rbTree.getColor, rbTree.getLeft, rbTree.getRight, hw.2.1, hw.2.2.1, hcn, hcf]
  exact ⟨hnn, hnf⟩

theorem rotRestR_zero {t : rbTree} {rest : List Frame} {s wn wf : Shape} {p ww : Nat}
    {cp : nodeColor}
    (h : DelState t ((Frame.R (Shape.node wf ww nodeColor.BLACK wn) p cp) :: rest) s)
    (hnn : rootColor wn = nodeColor.BLACK) (hnf : rootColor wf = nodeColor.BLACK) :
    rotRestR t ww = 0 := by
  obtain ⟨h1, h2, h3, -⟩ := h
  have hw := isTree_focus (show IsTree t (plug ((Frame.L p cp s) :: rest)
    (Shape.node wf ww nodeColor.BLACK wn)) from h1)
  simp only [Shape.ptr_node, ctxPar, Frame.addr] at hw
  have hlw := ((isTree_plug_iff _ _ _).1 (show IsTree t (plug ((Frame.L p cp s) :: rest)
    (Shape.node wf ww nodeColor.BLACK wn)) from h1)).2.2.1
  have hcn : (t.mem wn.ptr).color = rootColor wn := getColor_ptr h3 hlw.2.2.2.2.2.2
  have hcf : (t.mem wf.ptr).color = rootColor wf := getColor_ptr h3 hlw.2.2.2.2.2.1
  unfold rotRestR
  rw [if_pos]
  simp only [rbTree.getColor, rbTree.getLeft, rbTree.getRight, hw.2.1, hw.2.2.1, hcn, hcf]
  exact ⟨hnn, hnf⟩

theorem delCase4L_root (t : rbTree) (node sibling : Nat) :
    delCase4L t node sibling =
      ((delCase4L t node sibling).1, (delCase4L t node sibling).1.root) := rfl

theorem delCase4R_root (t : rbTree) (node sibling : Nat) :
    delCase4R t node sibling =
      ((delCase4R t node sibling).1, (delCase4R t node sibling).1.root) := rfl

/-- The counted delete fix-up returns, and all its passes together make at most three
rotations: a pass that rotates is the last one. -/
theorem DeletionRebalanceCount_loop (fuel : Nat) :
    ∀ (t : rbTree) (ctx : List Frame) (s : Shape), DelState t ctx s →
      (if rootColor s = nodeColor.RED then 0 else ctx.length) < fuel →
      ∃ t2 k, rbTree.DeletionRebalanceCount fuel t s.ptr = some (t2, k) ∧ k ≤ 3 := by
  induction fuel with
  | zero => intro t ctx s _ hf; exact absurd hf (Nat.not_lt_zero _)
  | succ fuel ih =>
    intro t ctx s hst hf
    by_cases hx : ctx = [] ∨ rootColor s = nodeColor.RED
    · exact ⟨_, 0, count_exit fuel hst hx, by omega⟩
    · simp only [not_or] at hx
      have hsb : rootColor s = nodeColor.BLACK := by
        rcases color_cases (rootColor s) with h | h
        · exact absurd h hx.2
        · exact h
      have hlay := (isTree_plug_iff _ _ _).1 hst.tree
      have hcond : s.ptr ≠ t.root ∧ t.getColor s.ptr = nodeColor.BLACK := by
        constructor
        · rw [hlay.1]
          intro e
          have hm := ctxRoot_mem hx.1 s.ptr
          rw [← e] at hm
          rcases (ptr_mem_or : s.ptr = NIL ∧ s = Shape.leaf ∨ s.ptr ∈ s.addrs) with hs0 | hs0
          · rw [hs0.1] at hm
            exact layoutCtx_zero_not_mem hlay.2.1 hm
          · exact hlay.2.2.2.2.2 _ hs0 hm
        · simp only [rbTree.getColor]
          rw [getColor_ptr hst.sentinel hlay.2.2.1]
          exact hsb
      cases ctx with
      | nil => exact absurd rfl hx.1
      | cons f rest =>
      have hf2 : rest.length + 1 < fuel + 1 := by simpa [hsb] using hf
      clear hf
      obtain ⟨fuel2, rfl⟩ : ∃ f2, fuel = f2 + 1 := ⟨fuel - 1, by omega⟩
      have hrot := bodyCount_rot t s.ptr
      have hbody := DeletionRebalanceBody_eq t s.ptr
      cases f with
      | L p cp w =>
        have hwpos : 0 < bheight w := by
          have hb1 := hst.balC.1
          simp only [Frame.sibling] at hb1
          omega
        obtain ⟨wn, ww, cw, wf, rfl⟩ := bheight_pos_node hwpos
        have hp := isTree_focus (show IsTree t (plug rest (Shape.node s p cp
          (Shape.node wn ww cw wf))) from hst.tree)
        simp only [Shape.ptr_node, ctxPar, Frame.addr] at hp
        have hil : t.isLeftChild s.ptr = true := by
          simp [hst.par, ctxPar, Frame.addr, hp.2.1]
        rw [if_pos hil] at hrot hbody
        have h1 := rotCase1L_eq hst
        rcases color_cases cw with hcw | hcw
        · subst hcw
          obtain ⟨t1, e1, st1, d1, hbn, hcp⟩ := del_case1L hst
          have hpos : 0 < bheight wn := by
            have hb1 := st1.balC.1
            simp only [Frame.sibling] at hb1
            omega
          obtain ⟨wnn, a, ca, wnf, rfl⟩ := bheight_pos_node hpos
          simp only [rootColor] at hbn
          subst hbn
          rw [e1] at hrot hbody
          simp only [Shape.ptr_node] at hrot hbody
          rw [h1] at hrot
          by_cases hb2 : rootColor wnn = nodeColor.BLACK ∧ rootColor wnf = nodeColor.BLACK
          · obtain ⟨e2, st2⟩ := del_case2L st1 hsb hb2.1 hb2.2
            rw [rotRestL_zero st1 hb2.1 hb2.2] at hrot
            rw [e2] at hbody
            have hk := count_exit fuel2 st2 (Or.inr rfl)
            exact ⟨_, _, count_step hcond hbody hrot hk, by simp⟩
          · rw [delRestL_else st1 hb2, delCase4L_root] at hbody
            have hk := count_at_root fuel2 (delCase4L (delCase3L t1 s.ptr a).1 s.ptr
              (delCase3L t1 s.ptr a).2).1
            refine ⟨_, _, count_step hcond hbody hrot hk, ?_⟩
            have := rotRestL_le t1 a
            simp only [if_true]
            omega
        · subst hcw
          have e1 := del_case1L_noop hst
          rw [e1] at hrot hbody
          simp only at hrot hbody
          rw [h1] at hrot
          by_cases hb2 : rootColor wn = nodeColor.BLACK ∧ rootColor wf = nodeColor.BLACK
          · obtain ⟨e2, st2⟩ := del_case2L hst hsb hb2.1 hb2.2
            rw [rotRestL_zero hst hb2.1 hb2.2] at hrot
            rw [e2] at hbody
            obtain ⟨t3, k, hk, hk3⟩ := ih _ rest _ st2 (by
              simp only [rootColor]
              split_ifs <;> omega)
            exact ⟨t3, _, count_step hcond hbody hrot hk, by simpa using hk3⟩
          · rw [delRestL_else hst hb2, delCase4L_root] at hbody
            have hk := count_at_root fuel2 (delCase4L (delCase3L t s.ptr ww).1 s.ptr
              (delCase3L t s.ptr ww).2).1
            refine ⟨_, _, count_step hcond hbody hrot hk, ?_⟩
            have := rotRestL_le t ww
            simp only [if_neg (show ¬ (nodeColor.BLACK = nodeColor.RED) by simp)]
            omega
      | R w p cp =>
        have hwpos : 0 < bheight w := by
          have hb1 := hst.balC.1
          simp only [Frame.sibling] at hb1
          omega
        obtain ⟨wf, ww, cw, wn, rfl⟩ := bheight_pos_node hwpos
        have hp := isTree_focus (show IsTree t (plug rest (Shape.node (Shape.node wf ww cw wn)
          p cp s)) from hst.tree)
        have hw0 := (isTree_focus (show IsTree t (plug ((Frame.L p cp s) :: rest)
          (Shape.node wf ww cw wn)) from hst.tree)).1
        simp only [Shape.ptr_node, ctxPar, Frame.addr] at hp
        have hil : t.isLeftChild s.ptr = false := by
          have hne : s.ptr ≠ ww := by
            rcases (ptr_mem_or : s.ptr = NIL ∧ s = Shape.leaf ∨ s.ptr ∈ s.addrs) with hs0 | hs0
            · rw [hs0.1]; exact Ne.symm hw0
            · intro e
              have := (isTree_not_mem_sibling hst.tree) _ hs0
              simp only [Frame.sibling, Shape.addrs_node, List.mem_append, List.mem_cons,
                not_or] at this
              exact this.1.2.1 e
          simp [hst.par, ctxPar, Frame.addr, hp.2.1, hne]
        have hil2 : ¬ t.isLeftChild s.ptr = true := by rw [hil]; exact Bool.false_ne_true
        rw [if_neg hil2] at hrot hbody
        have h1 := rotCase1R_eq hst
        rcases color_cases cw with hcw | hcw
        · subst hcw
          obtain ⟨t1, e1, st1, d1, hbn, hcp⟩ := del_case1R hst
          have hpos : 0 < bheight wn := by
            have hb1 := st1.balC.1
            simp only [Frame.sibling] at hb1
            omega
          obtain ⟨wnf, a, ca, wnn, rfl⟩ := bheight_pos_node hpos
          simp only [rootColor] at hbn
          subst hbn
          rw [e1] at hrot hbody
          simp only [Shape.ptr_node] at hrot hbody
          rw [h1] at hrot
          by_cases hb2 : rootColor wnn = nodeColor.BLACK ∧ rootColor wnf = nodeColor.BLACK
          · obtain ⟨e2, st2⟩ := del_case2R st1 hsb hb2.1 hb2.2
            rw [rotRestR_zero st1 hb2.1 hb2.2] at hrot
            rw [e2] at hbody
            have hk := count_exit fuel2 st2 (Or.inr rfl)
            exact ⟨_, _, count_step hcond hbody hrot hk, by simp⟩
          · rw [delRestR_else st1 hb2, delCase4R_root] at hbody
            have hk := count_at_root fuel2 (delCase4R (delCase3R t1 s.ptr a).1 s.ptr
              (delCase3R t1 s.ptr a).2).1
            refine ⟨_, _, count_step hcond hbody hrot hk, ?_⟩
            have := rotRestR_le t1 a
            simp only [if_true]
            omega
        · subst hcw
          have e1 := del_case1R_noop hst
          rw [e1] at hrot hbody
          simp only at hrot hbody
          rw [h1] at hrot
          by_cases hb2 : rootColor wn = nodeColor.BLACK ∧ rootColor wf = nodeColor.BLACK
          · obtain ⟨e2, st2⟩ := del_case2R hst hsb hb2.1 hb2.2
            rw [rotRestR_zero hst hb2.1 hb2.2] at hrot
            rw [e2] at hbody
            obtain ⟨t3, k, hk, hk3⟩ := ih _ rest _ st2 (by
              simp only [rootColor]
              split_ifs <;> omega)
            exact ⟨t3, _, count_step hcond hbody hrot hk, by simpa using hk3⟩
          · rw [delRestR_else hst hb2, delCase4R_root] at hbody
            have hk := count_at_root fuel2 (delCase4R (delCase3R t s.ptr ww).1 s.ptr
              (delCase3R t s.ptr ww).2).1
            refine ⟨_, _, count_step hcond hbody hrot hk, ?_⟩
            have := rotRestR_le t ww
            simp only [if_neg (show ¬ (nodeColor.BLACK = nodeColor.RED) by simp)]
            omega

/-- The end of the counted deleteNode, as del_finish for rbTree::deleteNode. -/
theorem del_finish_count {tF : rbTree} {ctx0 ctxX : List Frame} {l r sX : Shape} {x : Nat}
    {c : nodeColor} {fuel : Nat}
    (hnrr : NoRedRed (plug ctx0 (Shape.node l x c r)))
    (hrootb : rootColor (plug ctx0 (Shape.node l x c r)) = nodeColor.BLACK)
    (hbal : Balanced (plug ctx0 (Shape.node l x c r)))
    (hcase : (l = Shape.leaf ∧ sX = r) ∨ (r = Shape.leaf ∧ sX = l))
    (hX : IsTree tF (plug ctxX sX)) (hpar : (tF.mem sX.ptr).parent = ctxPar ctxX)
    (hsent : (tF.mem NIL).color = nodeColor.BLACK)
    (hre : CtxNRR ctxX ↔ CtxNRR ctx0) (hbe : ∀ k, CtxBal ctxX k ↔ CtxBal ctx0 k)
    (hlen : ctxX.length < fuel) :
    ∃ t2 k, (if c = nodeColor.BLACK then
        (rbTree.DeletionRebalanceCount fuel tF sX.ptr).map Except.ok
        else some (Except.ok (tF, 0))) =
        some (Except.ok (t2, k) : Except (String × rbTree) (rbTree × Nat)) ∧ k ≤ 3 := by
  obtain ⟨hN, hC, hpr⟩ := (noRedRed_plug ctx0 _).1 ⟨hnrr, fun _ => hrootb⟩
  obtain ⟨bN, bC⟩ := (balanced_plug ctx0 _).1 hbal
  have fX : NoRedRed sX ∧ Balanced sX ∧
      bheight (Shape.node l x c r) = bheight sX + (if c = nodeColor.BLACK then 1 else 0) := by
    rcases hcase with ⟨rfl, rfl⟩ | ⟨rfl, rfl⟩
    · simp only [NoRedRed, Balanced, bheight] at hN bN ⊢
      exact ⟨hN.2.2, bN.2.2, by rw [bN.1]⟩
    · simp only [NoRedRed, Balanced, bheight] at hN bN ⊢
      exact ⟨hN.2.1, bN.2.1, trivial⟩
  obtain ⟨nX, bX, hbh⟩ := fX
  rw [hbh] at bC
  rcases color_cases c with rfl | rfl
  · exact ⟨tF, 0, by simp, by omega⟩
  · simp only [if_true] at bC ⊢
    obtain ⟨t2, k, e, hk⟩ := DeletionRebalanceCount_loop fuel tF ctxX sX
      ⟨hX, hpar, hsent, nX.below, hre.2 hC, bX, (hbe _).2 bC⟩ (by split_ifs <;> omega)
    exact ⟨t2, k, by rw [e]; rfl, hk⟩

/-- The cases of the counted deleteNode in which the node has at most one child. -/
theorem deleteNode_one_child_count {t : rbTree} {ctx : List Frame} {l r sX : Shape} {z : Nat}
    {cz : nodeColor} {fuel : Nat}
    (ht : IsTree t (plug ctx (Shape.node l z cz r)))
    (hs : (t.mem NIL).color = nodeColor.BLACK)
    (hrb : rootColor (plug ctx (Shape.node l z cz r)) = nodeColor.BLACK)
    (hnr : NoRedRed (plug ctx (Shape.node l z cz r)))
    (hb : Balanced (plug ctx (Shape.node l z cz r)))
    (hcase : (l = Shape.leaf ∧ sX = r) ∨ (r = Shape.leaf ∧ sX = l))
    (hf : ctx.length < fuel) :
    ∃ t2 k, (if cz = nodeColor.BLACK then
        (rbTree.DeletionRebalanceCount fuel (t.UpdateParentChildLink (ctxPar ctx) z sX.ptr)
          sX.ptr).map Except.ok
        else some (Except.ok (t.UpdateParentChildLink (ctxPar ctx) z sX.ptr, 0))) =
        some (Except.ok (t2, k) : Except (String × rbTree) (rbTree × Nat)) ∧ k ≤ 3 := by
  have hlay := (isTree_plug_iff _ _ _).1 ht
  obtain ⟨hroot, hctx, hN, hnd, hcnd, hdisj⟩ := hlay
  obtain ⟨hz0, hzp, hzl, hzr, hzc, hL, hR⟩ := hN
  rw [nodup_node] at hnd
  obtain ⟨hzl2, hzr2, ndl, ndr, dlr⟩ := hnd
  have hzc2 : z ∉ ctxAddrs ctx := hdisj z (by simp)
  have hX : Layout t.mem z sX ∧ sX.addrs.Nodup ∧ z ∉ sX.addrs ∧
      ∀ a ∈ sX.addrs, a ∉ ctxAddrs ctx := by
    rcases hcase with ⟨_, rfl⟩ | ⟨_, rfl⟩
    · exact ⟨hR, ndr, hzr2, fun a ha => hdisj a (by simp [ha])⟩
    · exact ⟨hL, ndl, hzl2, fun a ha => hdisj a (by simp [ha])⟩
  obtain ⟨k1, k2, k3⟩ := @splice_spec t ctx z sX hroot hctx hz0 hzp hzc2 hcnd hX.1 hX.2.1
    hX.2.2.1 hX.2.2.2
  have hcd := UPCL_color_data t (ctxPar ctx) z sX.ptr
  exact @del_finish_count _ ctx ctx l r sX z cz fuel
    hnr hrb hb hcase k1 k2 (by rw [(hcd NIL).1]; exact hs) Iff.rfl (fun _ => Iff.rfl) hf

/-- The counted deleteNode, with the two-children case written with deleteNodeDetach and
replaceTail. -/
theorem deleteNodeCount_eq (fuel : Nat) (t : rbTree) (z : Nat) :
    rbTree.deleteNodeCount fuel t (some z) =
      if t.getLeft z = NIL then
        (if t.getColor z = nodeColor.BLACK then
          (rbTree.DeletionRebalanceCount fuel
            (t.UpdateParentChildLink (t.getParent z) z (t.getRight z))
            (t.getRight z)).map Except.ok
        else some (Except.ok (t.UpdateParentChildLink (t.getParent z) z (t.getRight z), 0)))
      else if t.getRight z = NIL then
        (if t.getColor z = nodeColor.BLACK then
          (rbTree.DeletionRebalanceCount fuel
            (t.UpdateParentChildLink (t.getParent z) z (t.getLeft z))
            (t.getLeft z)).map Except.ok
        else some (Except.ok (t.UpdateParentChildLink (t.getParent z) z (t.getLeft z), 0)))
      else
        match getMinimumNode fuel t (t.getRight z) with
        | none => none
        | some y =>
          if t.getColor y = nodeColor.BLACK then
            (rbTree.DeletionRebalanceCount fuel (replaceTail (deleteNodeDetach t z y) z y)
              (t.getRight y)).map Except.ok
          else some (Except.ok (replaceTail (deleteNodeDetach t z y) z y, 0)) := by
  rfl

/-- The counted deleteNode on a red-black tree returns, and its fix-up makes at most three
rotations. -/
theorem deleteNodeCount_spec {t : rbTree} {sh : Shape} {z : Nat} {fuel : Nat}
    (ht : IsTree t sh) (hs : (t.mem NIL).color = nodeColor.BLACK)
    (hrb : rootColor sh = nodeColor.BLACK) (hnr : NoRedRed sh) (hb : Balanced sh)
    (hz : z ∈ sh.addrs) (hf : sh.height ≤ fuel) :
    ∃ t2 k, rbTree.deleteNodeCount fuel t (some z) = some (Except.ok (t2, k)) ∧ k ≤ 3 := by
  obtain ⟨ctx, l, cz, r, rfl⟩ := mem_addrs_plug hz
  obtain ⟨hz0, hzl, hzr, hzp, hzc⟩ := isTree_focus ht
  obtain ⟨-, -, -, -, -, hL, hR⟩ := ((isTree_plug_iff _ _ _).1 ht).2.2.1
  have hht := height_plug_ge ctx (Shape.node l z cz r)
  simp only [Shape.height] at hht
  have hmaxl := le_max_left l.height r.height
  have hmaxr := le_max_right l.height r.height
  rw [deleteNodeCount_eq]
  simp only [getLeft, getRight, getParent, getColor, hzl, hzr, hzp, hzc]
  by_cases hl : l = Shape.leaf
  · subst hl
    rw [if_pos (show Shape.leaf.ptr = NIL from rfl)]
    exact @deleteNode_one_child_count t ctx Shape.leaf r r z cz fuel ht hs
      hrb hnr hb (Or.inl ⟨rfl, rfl⟩) (by omega)
  · rw [if_neg (fun h => hl ((ptr_eq_zero_iff hL).1 h))]
    by_cases hr : r = Shape.leaf
    · subst hr
      rw [if_pos (show Shape.leaf.ptr = NIL from rfl)]
      exact @deleteNode_one_child_count t ctx l Shape.leaf l z cz fuel ht
        hs hrb hnr hb (Or.inr ⟨rfl, rfl⟩) (by omega)
    · rw [if_neg (fun h => hr ((ptr_eq_zero_iff hR).1 h))]
      obtain ⟨cR, y, cy, yr, er, hcl, hlen, hmin⟩ :=
        getMinimumNode_spec t r z fuel hR hr (by omega)
      subst er
      rw [hmin]
      have e0 : ∀ (x : Nat) (s : Shape), plug (cR ++ Frame.R l x cz :: ctx) s =
          plug ctx (Shape.node l x cz (plug cR s)) := fun x s => by rw [plug_append]; rfl
      have hY : IsTree t (plug (cR ++ Frame.R l z cz :: ctx)
          (Shape.node Shape.leaf y cy yr)) := by rw [e0]; exact ht
      obtain ⟨hy0, -, hyr, -, hyc⟩ := isTree_focus hY
      simp only [getRight, getColor, hyc, hyr]
      obtain ⟨k1, k2, k3, k4⟩ :
          IsTree (replaceTail (deleteNodeDetach t z y) z y)
            (plug ctx (Shape.node l y cz (plug cR yr))) ∧
          ((replaceTail (deleteNodeDetach t z y) z y).mem yr.ptr).parent =
            ctxPar (cR ++ Frame.R l y cz :: ctx) ∧
          (∀ a, ((replaceTail (deleteNodeDetach t z y) z y).mem a).data = (t.mem a).data) ∧
          (∀ a, a ≠ y → ((replaceTail (deleteNodeDetach t z y) z y).mem a).color =
            (t.mem a).color) := by
        cases cR with
        | nil => exact detach_direct ht hl
        | cons f cR => exact detach_deep ht hl
      obtain ⟨r1, r2, r3⟩ := ctx_readdr cR ctx l z y cz
      exact @del_finish_count (replaceTail (deleteNodeDetach t z y) z y)
        (cR ++ Frame.R l z cz :: ctx)
        (cR ++ Frame.R l y cz :: ctx) Shape.leaf yr yr y cy fuel
        (by rw [e0]; exact hnr) (by rw [e0]; exact hrb) (by rw [e0]; exact hb)
        (Or.inl ⟨rfl, rfl⟩) (by rw [e0]; exact k1) k2
        (by rw [k4 NIL (Ne.symm hy0)]; exact hs) r1 r2
        (by
          simp only [List.length_append, List.length_cons]
          have := height_plug_ge cR (Shape.node Shape.leaf y cy yr)
          simp only [Shape.height] at this
          omega)

theorem count_of_check (o : Option (Except (String × rbTree) (rbTree × Nat))) (n : Nat)
    (h : (match o with
      | some (Except.ok (_, k)) => decide (k = n)
      | _ => false) = true) : ∃ t2, o = some (Except.ok (t2, n)) := by
  cases o with
  | none => simp at h
  | some r =>
    cases r with
    | error e => simp at h
    | ok q =>
      obtain ⟨t2, k⟩ := q
      simp only [decide_eq_true_eq] at h
      subst h
      exact ⟨t2, rfl⟩

/-- C26, as stated, fails: the tree built by inserting the ride numbers 6, 1, 5, 2, 3, 4
is a red-black tree, the node at address 3 (ride 5, the root) belongs to it, and the
fix-up run by deleteNode of this node makes three rotations (case 1 rotates the RED
sibling away, then the near nephew is rotated up, then the parent is rotated). -/
theorem C26_counterexample :
    IsTree sixTree sixShape ∧ RedBlack sixTree sixShape ∧ 3 ∈ sixShape.addrs ∧
    ∃ t2, rbTree.deleteNodeCount 6 sixTree (some 3) = some (Except.ok (t2, 3)) ∧
      deleteNode 6 sixTree (some 3) = some (Except.ok t2) := by
  refine ⟨by decide, by decide, by decide, ?_⟩
  obtain ⟨t2, e⟩ := count_of_check (rbTree.deleteNodeCount 6 sixTree (some 3)) 3 (by decide)
  refine ⟨t2, e, ?_⟩
  rw [← deleteNodeCount_tree, e]
  rfl

/-- C26, amended: for every valid red-black tree and every node of it, deleteNode returns
and the double-black fix-up run by it (DeletionRebalance) performs at most three rotations
in total before it terminates. -/
theorem C26_rotation_bound {t : rbTree} {sh : Shape} {z fuel : Nat}
    (ht : IsTree t sh) (hrb : RedBlack t sh) (hz : z ∈ sh.addrs) (hf : sh.height ≤ fuel) :
    ∃ t2 k, rbTree.deleteNodeCount fuel t (some z) = some (Except.ok (t2, k)) ∧
      deleteNode fuel t (some z) = some (Except.ok t2) ∧ k ≤ 3 := by
  obtain ⟨t2, k, e, hk⟩ := deleteNodeCount_spec ht hrb.sentinel hrb.rootBlack hrb.noRedRed
    hrb.balanced hz hf
  refine ⟨t2, k, e, ?_, hk⟩
  rw [← deleteNodeCount_tree, e]
  rfl

theorem C26_rotation_bound_witness :
    ∃ t2 k, rbTree.deleteNodeCount 6 sixTree (some 3) = some (Except.ok (t2, k)) ∧
      deleteNode 6 sixTree (some 3) = some (Except.ok t2) ∧ k ≤ 3 :=
  @C26_rotation_bound sixTree sixShape 3 6 (by decide) (by decide) (by decide) (by decide)

/-! ### Reachable trees and the properties C28, C30, C31 and C32 -/

/-- A red-black tree has at least 2 ^ bheight - 1 nodes. -/
theorem rb_size : ∀ (sh : Shape), Balanced sh → 2 ^ bheight sh ≤ sh.addrs.length + 1 := by
  intro sh
  induction sh with
  | leaf => intro _; simp [bheight]
  | node l a c r ihl ihr =>
    intro hb
    obtain ⟨e, bl, br⟩ := hb
    have h1 := ihl bl
    have h2 := ihr br
    rw [← e] at h2
    simp only [bheight, Shape.addrs_node, List.length_append, List.length_cons]
    have h3 : 2 ^ (bheight l + (if c = nodeColor.BLACK then 1 else 0)) ≤ 2 ^ (bheight l + 1) :=
      Nat.pow_le_pow_right (by omega) (by split_ifs <;> omega)
    have h4 : 2 ^ (bheight l + 1) = 2 ^ bheight l + 2 ^ bheight l := by
      rw [pow_succ]; omega
    omega

/-- The height of a red-black tree is at most twice its black height (plus one below a
RED root). -/
theorem rb_height : ∀ (sh : Shape), NoRedRed sh → Balanced sh →
    sh.height ≤ 2 * bheight sh + (if rootColor sh = nodeColor.RED then 1 else 0) := by
  intro sh
  induction sh with
  | leaf => intro _ _; simp [Shape.height]
  | node l a c r ihl ihr =>
    intro hn hb
    obtain ⟨e, bl, br⟩ := hb
    obtain ⟨hc, nl, nr⟩ := hn
    have h1 := ihl nl bl
    have h2 := ihr nr br
    rw [← e] at h2
    simp only [Shape.height, bheight, rootColor]
    rcases color_cases c with rfl | rfl
    · obtain ⟨c1, c2⟩ := hc rfl
      rw [c1] at h1
      rw [c2] at h2
      simp only [if_neg (show ¬ (nodeColor.BLACK = nodeColor.RED) by simp), add_zero] at h1 h2
      simp only [if_true, if_neg (show ¬ (nodeColor.RED = nodeColor.BLACK) by simp)]
      have := max_le h1 h2
      omega
    · simp only [if_true, if_neg (show ¬ (nodeColor.BLACK = nodeColor.RED) by simp)]
      have k1 : l.height ≤ 2 * bheight l + 1 := by split_ifs at h1 <;> omega
      have k2 : r.height ≤ 2 * bheight l + 1 := by split_ifs at h2 <;> omega
      have := max_le k1 k2
      omega

/-- The logarithmic bound on the height of a red-black tree. -/
theorem rb_height_log {t : rbTree} {sh : Shape} (hrb : RedBlack t sh) :
    sh.height ≤ 2 * Nat.log 2 (sh.addrs.length + 1) := by
  have h1 := rb_height sh hrb.noRedRed hrb.balanced
  rw [hrb.rootBlack] at h1
  simp only [if_neg (show ¬ (nodeColor.BLACK = nodeColor.RED) by simp), add_zero] at h1
  have h2 := rb_size sh hrb.balanced
  have h3 : bheight sh ≤ Nat.log 2 (sh.addrs.length + 1) :=
    Nat.le_log_of_pow_le (by omega) h2
  omega

theorem addrs_eq_nil {sh : Shape} (h : sh.addrs = []) : sh = Shape.leaf := by
  cases sh with
  | leaf => rfl
  | node l a c r => simp [Shape.addrs] at h

/-- The links of a laid-out tree are consistent. -/
theorem layout_links {m : Mem} : ∀ (sh : Shape) (par : Nat), Layout m par sh →
    ∀ x ∈ sh.addrs, x ≠ NIL ∧
      ((m x).left ≠ NIL → (m x).left ∈ sh.addrs ∧ (m ((m x).left)).parent = x) ∧
      ((m x).right ≠ NIL → (m x).right ∈ sh.addrs ∧ (m ((m x).right)).parent = x) ∧
      ((x = sh.ptr ∧ (m x).parent = par) ∨ ((m x).parent ∈ sh.addrs ∧
        ((m ((m x).parent)).left = x ∨ (m ((m x).parent)).right = x))) := by
  intro sh
  induction sh with
  | leaf => intro par _ x hx; simp [Shape.addrs] at hx
  | node l a c r ihl ihr =>
    intro par hl x hx
    obtain ⟨h1, h2, h3, h4, h5, h6, h7⟩ := hl
    have child : ∀ (s : Shape), Layout m a s → s.ptr ≠ NIL →
        s.ptr ∈ s.addrs ∧ (m s.ptr).parent = a := by
      intro s hs hne
      cases s with
      | leaf => exact absurd rfl hne
      | node l2 b c2 r2 => exact ⟨by simp [Shape.addrs], hs.2.1⟩
    rw [mem_addrs_node] at hx
    rcases hx with hx | rfl | hx
    · obtain ⟨k1, k2, k3, k4⟩ := ihl a h6 x hx
      refine ⟨k1, fun h => ?_, fun h => ?_, ?_⟩
      · exact ⟨by rw [mem_addrs_node]; exact Or.inl (k2 h).1, (k2 h).2⟩
      · exact ⟨by rw [mem_addrs_node]; exact Or.inl (k3 h).1, (k3 h).2⟩
      · right
        rcases k4 with ⟨e1, e2⟩ | ⟨e1, e2⟩
        · rw [e2]
          exact ⟨by rw [mem_addrs_node]; exact Or.inr (Or.inl rfl), Or.inl (by rw [h3, e1])⟩
        · exact ⟨by rw [mem_addrs_node]; exact Or.inl e1, e2⟩
    · refine ⟨h1, fun h => ?_, fun h => ?_, Or.inl ⟨rfl, h2⟩⟩
      · rw [h3] at h ⊢
        obtain ⟨q1, q2⟩ := child l h6 h
        exact ⟨by rw [mem_addrs_node]; exact Or.inl q1, q2⟩
      · rw [h4] at h ⊢
        obtain ⟨q1, q2⟩ := child r h7 h
        exact ⟨by rw [mem_addrs_node]; exact Or.inr (Or.inr q1), q2⟩
    · obtain ⟨k1, k2, k3, k4⟩ := ihr a h7 x hx
      refine ⟨k1, fun h => ?_, fun h => ?_, ?_⟩
      · exact ⟨by rw [mem_addrs_node]; exact Or.inr (Or.inr (k2 h).1), (k2 h).2⟩
      · exact ⟨by rw [mem_addrs_node]; exact Or.inr (Or.inr (k3 h).1), (k3 h).2⟩
      · right
        rcases k4 with ⟨e1, e2⟩ | ⟨e1, e2⟩
        · rw [e2]
          exact ⟨by rw [mem_addrs_node]; exact Or.inr (Or.inl rfl), Or.inr (by rw [h4, e1])⟩
        · exact ⟨by rw [mem_addrs_node]; exact Or.inr (Or.inr e1), e2⟩

theorem isTree_links {t : rbTree} {sh : Shape} (ht : IsTree t sh) : LinksConsistent t sh := by
  intro x hx
  obtain ⟨k1, k2, k3, k4⟩ := layout_links sh NIL ht.layout x hx
  refine ⟨k1, k2, k3, ?_⟩
  rcases k4 with ⟨e1, _⟩ | k4
  · left; rw [ht.root]; exact e1
  · right; exact k4

/-- The parent pointer of the root of a tree that is not empty. -/
theorem isTree_root_parent {t : rbTree} {sh : Shape} (ht : IsTree t sh)
    (hne : sh ≠ Shape.leaf) : (t.mem t.root).parent = NIL := by
  cases sh with
  | leaf => exact absurd rfl hne
  | node l a c r =>
    rw [ht.root]
    exact ht.layout.2.1

theorem rbInv_empty : RBInv State.empty.myTree Shape.leaf 1 :=
  ⟨⟨rfl, trivial, List.nodup_nil⟩, List.Pairwise.nil, ⟨rfl, rfl, trivial, trivial⟩,
    le_refl 1, fun a ha => by simp [Shape.addrs] at ha, fun _ => rfl⟩

/-- The insert step keeps the invariant. -/
theorem rbInv_insert {t t2 : rbTree} {sh : Shape} {next : Nat} {id c d : Int}
    (hi : RBInv t sh next) (hpos : 0 < id) (hk : id ∉ keys t.mem sh)
    (e : rbTree.insert (next + 2)
      { t with mem := Mem.write t.mem next (rbNode.init id c d) } (some next) =
      some (Except.ok t2)) :
    ∃ sh2, RBInv t2 sh2 (next + 1) := by
  have hnext0 : next ≠ NIL := by have := hi.nextPos; simp only [NIL]; omega
  have hfresh : next ∉ sh.addrs := fun h => Nat.lt_irrefl _ (hi.below _ h)
  have hm1 : ∀ b ∈ sh.addrs, Mem.write t.mem next (rbNode.init id c d) b = t.mem b :=
    fun b hb => Mem.write_ne _ _ (by rintro rfl; exact hfresh hb)
  have ht1 : IsTree { t with mem := Mem.write t.mem next (rbNode.init id c d) } sh :=
    ⟨hi.tree.root, layout_congr hm1 hi.tree.layout, hi.tree.nodup⟩
  have hkeys1 : keys (Mem.write t.mem next (rbNode.init id c d)) sh = keys t.mem sh := by
    unfold keys
    exact List.map_congr_left (fun b hb => by rw [hm1 b hb])
  have hlen := length_le_of_nodup_lt hi.tree.nodup (layout_zero_not_mem hi.tree.layout)
    hi.nextPos hi.below
  have hh := height_le_length sh
  have hsent1 : (Mem.write t.mem next (rbNode.init id c d) NIL).color = nodeColor.BLACK := by
    rw [Mem.write_ne _ _ (Ne.symm hnext0)]; exact hi.rb.sentinel
  obtain ⟨t3, sh2, e3, ht2, ⟨l1, l2, hs1, hs2⟩, hko, hdata, hsent, hrb, hnrr, hbal⟩ :=
    @insert_spec { t with mem := Mem.write t.mem next (rbNode.init id c d) } sh next
      (next + 2) ht1 (by unfold KeyOrdered; rw [hkeys1]; exact hi.ordered)
      hsent1 hi.rb.rootBlack hi.rb.noRedRed hnext0 hfresh (by simp [rbNode.init])
      (by simp [rbNode.init])
      (by show (Mem.write t.mem next (rbNode.init id c d) next).rideNumber ∉
            keys (Mem.write t.mem next (rbNode.init id c d)) sh
          rw [hkeys1, Mem.write_same]
          exact hk)
      (by omega)
  rw [e3] at e
  have e4 : t3 = t2 := by
    simp only [Option.some.injEq, Except.ok.injEq] at e
    exact e
  subst e4
  have hne : id ≠ -1 := by omega
  refine ⟨sh2, ht2, hko, ⟨by rw [hsent]; exact hsent1, hrb, hnrr, ?_⟩, by omega, ?_, ?_⟩
  · apply hbal _ hi.rb.balanced
    show (Mem.write t.mem next (rbNode.init id c d) next).color = nodeColor.RED
    rw [Mem.write_same]
    simp [rbNode.init, hne]
  · intro a ha
    rw [hs2] at ha
    rcases List.mem_append.1 ha with h | h
    · have := hi.below a (by rw [hs1]; exact List.mem_append_left _ h)
      omega
    · rcases List.mem_cons.1 h with rfl | h
      · omega
      · have := hi.below a (by rw [hs1]; exact List.mem_append_right _ h)
        omega
  · intro h0
    exfalso
    rw [ht2.root] at h0
    have := (ptr_eq_zero_iff ht2.layout).1 h0
    rw [this] at hs2
    simp [Shape.addrs] at hs2

/-- The delete step keeps the invariant. -/
theorem rbInv_delete {t t2 : rbTree} {sh : Shape} {next z : Nat}
    (hi : RBInv t sh next) (hz : z ∈ sh.addrs)
    (e : deleteNode (next + 2) t (some z) = some (Except.ok t2)) :
    ∃ sh2, RBInv t2 sh2 next := by
  have hlen := length_le_of_nodup_lt hi.tree.nodup (layout_zero_not_mem hi.tree.layout)
    hi.nextPos hi.below
  have hh := height_le_length sh
  obtain ⟨t3, sh2, e3, ⟨l1, l2, hs1, hs2⟩, ht2, hdata, hsent, hrb, hnrr, hbal⟩ :=
    @deleteNode_spec t sh z (next + 2) hi.tree hi.rb.sentinel hi.rb.rootBlack hi.rb.noRedRed
      hi.rb.balanced hz (by omega)
  rw [e3] at e
  have e4 : t3 = t2 := by
    simp only [Option.some.injEq, Except.ok.injEq] at e
    exact e
  subst e4
  refine ⟨sh2, ht2, keyOrdered_remove hi.ordered hs1 hs2 (fun a => record_of_data (hdata a)),
    ⟨hsent, hrb, hnrr, hbal⟩, hi.nextPos, ?_, ?_⟩
  · intro a ha
    apply hi.below
    rw [hs2] at ha
    rw [hs1]
    rcases List.mem_append.1 ha with h | h
    · exact List.mem_append_left _ h
    · exact List.mem_append_right _ (List.mem_cons_of_mem _ h)
  · intro h0
    rw [ht2.root] at h0
    have hleaf := (ptr_eq_zero_iff ht2.layout).1 h0
    rw [hleaf] at hs2
    simp only [Shape.addrs] at hs2
    have hl1 : l1 = [] := (List.append_eq_nil.1 hs2.symm).1
    have hl2 : l2 = [] := (List.append_eq_nil.1 hs2.symm).2
    subst hl1 hl2
    simp only [List.nil_append] at hs1
    cases hsh : sh with
    | leaf => rw [hsh] at hs1; simp [Shape.addrs] at hs1
    | node l a c r =>
      rw [hsh] at hs1
      simp only [Shape.addrs] at hs1
      have hla : l.addrs = [] := by
        cases hl : l.addrs with
        | nil => rfl
        | cons b bs =>
          rw [hl] at hs1
          have := congrArg List.length hs1
          simp at this
      rw [hla] at hs1
      simp only [List.nil_append, List.cons.injEq] at hs1
      obtain ⟨rfl, hra⟩ := hs1
      have hl := addrs_eq_nil hla
      have hr := addrs_eq_nil hra
      subst hl hr
      have htree := hi.tree
      rw [hsh] at htree
      have hrb0 := hi.rb.rootBlack
      rw [hsh] at hrb0
      simp only [rootColor] at hrb0
      obtain ⟨-, hp, hl, hr, hc, -, -⟩ := htree.layout
      simp only [Shape.ptr] at hl hr
      rw [deleteNode_eq] at e3
      simp only [getLeft, getRight, getParent, getColor, hl, hr, hp, hc, hrb0, if_true,
        DeletionRebalance, UpdateParentChildLink] at e3
      simp only [ne_eq, not_true_eq_false, false_and, if_false, Option.map_some',
        Option.some.injEq, Except.ok.injEq] at e3
      rw [← e3]
      simp [rbTree.setParent, Mem.write_same]

/-- Every reachable tree satisfies the invariant. -/
theorem treeReachable_inv {t : rbTree} {next : Nat} (hr : TreeReachable t next) :
    ∃ sh, RBInv t sh next := by
  induction hr with
  | empty => exact ⟨Shape.leaf, rbInv_empty⟩
  | insert _ hpos hfresh e ih =>
    obtain ⟨sh, hi⟩ := ih
    exact rbInv_insert hi hpos (hfresh sh hi.tree) e
  | delete _ hz e ih =>
    obtain ⟨sh, hi⟩ := ih
    exact rbInv_delete hi (hz sh hi.tree) e

/-- The node at which the descent of insert stops differs in its ride number from the
key. -/
theorem insertDescend_ok : ∀ (fuel : Nat) (t : rbTree) (key : Int) (X Y Y2 : Nat),
    (Y = NIL ∨ key < (t.mem Y).rideNumber ∨ key > (t.mem Y).rideNumber) →
    insertDescend fuel t key X Y = some (Except.ok Y2) →
    (Y2 = NIL ∨ key < (t.mem Y2).rideNumber ∨ key > (t.mem Y2).rideNumber) := by
  intro fuel
  induction fuel with
  | zero => intro t key X Y Y2 _ e; simp [insertDescend] at e
  | succ fuel ih =>
    intro t key X Y Y2 hY e
    unfold insertDescend at e
    split_ifs at e with h0 h1 h2
    · exact ih t key _ X Y2 (Or.inr (Or.inl h1)) e
    · exact ih t key _ X Y2 (Or.inr (Or.inr h2)) e
    · cases e
    · simp only [Option.some.injEq, Except.ok.injEq] at e
      subst e
      exact hY

/-- The only error of the descent of insert is the duplicate message. -/
theorem insertDescend_error : ∀ (fuel : Nat) (t : rbTree) (key : Int) (X Y : Nat) (msg : String),
    insertDescend fuel t key X Y = some (Except.error msg) → msg = "Duplicate RideNumber\n" := by
  intro fuel
  induction fuel with
  | zero => intro t key X Y msg e; simp [insertDescend] at e
  | succ fuel ih =>
    intro t key X Y msg e
    unfold insertDescend at e
    split_ifs at e with h0 h1 h2
    · exact ih t key _ X msg e
    · exact ih t key _ X msg e
    · simp only [Option.some.injEq, Except.error.injEq] at e
      exact e.symm
    · cases e

theorem tree_of_check (o : Option (Except (String × rbTree) rbTree)) (p : rbTree → Bool)
    (h : (match o with
      | some (Except.ok t) => p t
      | _ => false) = true) : ∃ t, o = some (Except.ok t) ∧ p t = true := by
  cases o with
  | none => simp at h
  | some r =>
    cases r with
    | error e => simp at h
    | ok t => exact ⟨t, rfl, h⟩

/-- The shape of a pointer tree is determined by the node store and the root pointer. -/
theorem layout_unique {m : Mem} : ∀ (s1 s2 : Shape) (p1 p2 : Nat), Layout m p1 s1 →
    Layout m p2 s2 → s1.ptr = s2.ptr → s1 = s2 := by
  intro s1
  induction s1 with
  | leaf =>
    intro s2 p1 p2 _ h2 hp
    exact ((ptr_eq_zero_iff h2).1 hp.symm).symm
  | node l a c r ihl ihr =>
    intro s2 p1 p2 h1 h2 hp
    cases s2 with
    | leaf => exact absurd hp h1.1
    | node l2 a2 c2 r2 =>
      have ha : a = a2 := hp
      subst ha
      obtain ⟨_, _, hl1, hr1, hc1, hll1, hlr1⟩ := h1
      obtain ⟨_, _, hl2, hr2, hc2, hll2, hlr2⟩ := h2
      rw [ihl l2 a a hll1 hll2 (hl1.symm.trans hl2), ihr r2 a a hlr1 hlr2 (hr1.symm.trans hr2),
        hc1.symm.trans hc2]

theorem isTree_unique {t : rbTree} {s1 s2 : Shape} (h1 : IsTree t s1) (h2 : IsTree t s2) :
    s1 = s2 :=
  layout_unique s1 s2 NIL NIL h1.layout h2.layout (h1.root.symm.trans h2.root)

/-- A step of treeStep is a step between reachable trees. -/
theorem treeStep_reachable {tn tn2 : rbTree × Nat} {c : TreeCmd}
    (hr : TreeReachable tn.1 tn.2) (e : treeStep tn c = some tn2) :
    TreeReachable tn2.1 tn2.2 := by
  obtain ⟨sh, hi⟩ := treeReachable_inv hr
  have hlen := length_le_of_nodup_lt hi.tree.nodup (layout_zero_not_mem hi.tree.layout)
    hi.nextPos hi.below
  have hh := height_le_length sh
  have hf : sh.height < tn.2 + 2 := by omega
  cases c with
  | insert id c d =>
    simp only [treeStep] at e
    split_ifs at e with hpos
    cases hs : search (tn.2 + 2) tn.1 id with
    | none => simp [hs] at e
    | some r =>
      cases r with
      | some z => simp [hs] at e
      | none =>
        simp only [hs] at e
        cases hin : rbTree.insert (tn.2 + 2)
            { tn.1 with mem := Mem.write tn.1.mem tn.2 (rbNode.init id c d) } (some tn.2) with
        | none => simp [hin] at e
        | some q =>
          cases q with
          | error x => simp [hin] at e
          | ok t2 =>
            simp only [hin, Option.some.injEq] at e
            subst e
            refine TreeReachable.insert hr hpos ?_ hin
            intro sh2 ht2 hk
            have := isTree_unique ht2 hi.tree
            subst this
            obtain ⟨a, ha, hka⟩ := mem_keys.1 hk
            have hfound := (search_spec id hi.tree hi.ordered hf).1 a ha hka
            rw [hs] at hfound
            cases hfound
  | delete id =>
    simp only [treeStep] at e
    cases hs : search (tn.2 + 2) tn.1 id with
    | none => simp [hs] at e
    | some r =>
      cases r with
      | none => simp [hs] at e
      | some z =>
        simp only [hs] at e
        cases hd : deleteNode (tn.2 + 2) tn.1 (some z) with
        | none => simp [hd] at e
        | some q =>
          cases q with
          | error x => simp [hd] at e
          | ok t2 =>
            simp only [hd, Option.some.injEq] at e
            subst e
            refine TreeReachable.delete hr ?_ hd
            intro sh2 ht2
            have := isTree_unique ht2 hi.tree
            subst this
            by_cases hk : id ∈ keys tn.1.mem sh2
            · obtain ⟨a, ha, hka⟩ := mem_keys.1 hk
              have hfound := (search_spec id hi.tree hi.ordered hf).1 a ha hka
              rw [hs] at hfound
              simp only [Option.some.injEq] at hfound
              exact hfound ▸ ha
            · have hnone := (search_spec id hi.tree hi.ordered hf).2 hk
              rw [hs] at hnone
              cases hnone

theorem treeRun_reachable : ∀ (cmds : List TreeCmd) (tn tn2 : rbTree × Nat),
    TreeReachable tn.1 tn.2 → treeRun cmds tn = some tn2 → TreeReachable tn2.1 tn2.2 := by
  intro cmds
  induction cmds with
  | nil =>
    intro tn tn2 hr e
    simp only [treeRun, Option.some.injEq] at e
    exact e ▸ hr
  | cons c cs ih =>
    intro tn tn2 hr e
    simp only [treeRun] at e
    cases hs : treeStep tn c with
    | none => simp [hs] at e
    | some tn1 =>
      simp only [hs] at e
      exact ih tn1 tn2 (treeStep_reachable hr hs) e

/-- The tree after a sequence of calls that runs through from the empty tree is
reachable. -/
theorem treeReachable_treeAfter {cmds : List TreeCmd}
    (h : (treeRun cmds (State.empty.myTree, 1)).isSome = true) :
    TreeReachable (treeAfter cmds).1 (treeAfter cmds).2 := by
  unfold treeAfter
  cases hr : treeRun cmds (State.empty.myTree, 1) with
  | none => simp [hr] at h
  | some tn => exact treeRun_reachable cmds _ tn TreeReachable.empty hr

/-- C28: logarithmic height.  Every tree reachable from the empty tree by rbTree::insert
(newly constructed nodes with distinct positive ride numbers) and rbTree::deleteNode (nodes
of the tree) is a pointer tree of a shape with n nodes whose longest path from the root to
the sentinel has at most 2 * log2 (n + 1) nodes (log2 rounded down); hence rbTree::search
for every ride number and the descent loop of rbTree::insert for every key return within
that many levels (one more call or test reaches the sentinel). -/
theorem C28_logarithmic_height (t : rbTree) (next : Nat) (hr : TreeReachable t next) :
    ∃ sh, IsTree t sh ∧ sh.height ≤ 2 * Nat.log 2 (sh.addrs.length + 1) ∧
      (∀ id, ∃ r, search (2 * Nat.log 2 (sh.addrs.length + 1) + 1) t id = some r) ∧
      (∀ key, ∃ r, insertDescend (2 * Nat.log 2 (sh.addrs.length + 1) + 1) t key t.root NIL =
        some r) := by
  obtain ⟨sh, hi⟩ := treeReachable_inv hr
  have hlog := rb_height_log hi.rb
  refine ⟨sh, hi.tree, hlog, ?_, ?_⟩
  · intro id
    obtain ⟨h1, h2⟩ := @search_spec t sh (2 * Nat.log 2 (sh.addrs.length + 1) + 1) id hi.tree
      hi.ordered (by omega)
    by_cases hk : id ∈ keys t.mem sh
    · obtain ⟨a, ha, hka⟩ := mem_keys.1 hk
      exact ⟨_, h1 a ha hka⟩
    · exact ⟨_, h2 hk⟩
  · intro key
    obtain ⟨h1, h2⟩ := insertDescend_spec t key sh NIL
      (2 * Nat.log 2 (sh.addrs.length + 1) + 1) hi.tree.layout hi.ordered (by omega)
    rw [hi.tree.root]
    by_cases hk : key ∈ keys t.mem sh
    · exact ⟨_, h1 hk⟩
    · obtain ⟨c, _, e, _⟩ := h2 hk
      exact ⟨_, e⟩

theorem C28_logarithmic_height_witness :
    IsTree (treeAfter heightRun).1 heightShape ∧ heightShape.addrs.length = 8 ∧
      heightShape.height = 4 ∧
      ∃ sh, IsTree (treeAfter heightRun).1 sh ∧
        sh.height ≤ 2 * Nat.log 2 (sh.addrs.length + 1) ∧
        (∀ id, ∃ r, search (2 * Nat.log 2 (sh.addrs.length + 1) + 1) (treeAfter heightRun).1 id =
          some r) ∧
        (∀ key, ∃ r, insertDescend (2 * Nat.log 2 (sh.addrs.length + 1) + 1)
          (treeAfter heightRun).1 key (treeAfter heightRun).1.root NIL = some r) :=
  ⟨by decide, by decide, by decide,
    C28_logarithmic_height (treeAfter heightRun).1 (treeAfter heightRun).2
      (treeReachable_treeAfter (by decide))⟩

/-- C30: the ride number -1 is confused with the sentinel at construction.  The constructor
colours a node BLACK exactly when its ride number is -1 and RED otherwise; and there is a
valid non-empty red-black tree (one BLACK node with the ride number 1) and a newly
constructed node with the ride number -1 such that rbTree::insert of this node returns a
tree (the new BLACK node is the left child of the root) in which the paths from the root to
the sentinel do not all contain the same number of BLACK nodes. -/
theorem C30_sentinel_id_confusion :
    (∀ id c d : Int, (rbNode.init id c d).color =
      if id = -1 then nodeColor.BLACK else nodeColor.RED) ∧
    ∃ (t : rbTree) (sh : Shape) (n : Nat), IsTree t sh ∧ KeyOrdered t.mem sh ∧
      RedBlack t sh ∧ sh ≠ Shape.leaf ∧ n ≠ NIL ∧ n ∉ sh.addrs ∧
      t.mem n = rbNode.init (-1) 0 0 ∧
      ∃ t2 sh2, rbTree.insert 4 t (some n) = some (Except.ok t2) ∧ IsTree t2 sh2 ∧
        ¬ Balanced sh2 := by
  refine ⟨fun id c d => rfl, sentinelIdTree,
    Shape.node Shape.leaf 1 nodeColor.BLACK Shape.leaf, 2, by decide, by decide, by decide,
    by decide, by decide, by decide, by decide, ?_⟩
  obtain ⟨t2, e, p⟩ := tree_of_check (rbTree.insert 4 sentinelIdTree (some 2))
    (fun t2 => decide (IsTree t2 (Shape.node (Shape.node Shape.leaf 2 nodeColor.BLACK
      Shape.leaf) 1 nodeColor.BLACK Shape.leaf))) (by decide)
  simp only [decide_eq_true_eq] at p
  exact ⟨t2, _, e, p, by decide⟩

/-- C31: parent-link consistency.  Every tree reachable from the empty tree by
rbTree::insert and rbTree::deleteNode is, when the operation has returned, a pointer tree in
which the parent of the root is the sentinel and, for every node x of the tree, x is not
the sentinel, each child of x that is not the sentinel is a node of the tree and has x as
its parent, and x is the root or the left or the right child of its own parent. -/
theorem C31_parent_link_consistency (t : rbTree) (next : Nat) (hr : TreeReachable t next) :
    ∃ sh, IsTree t sh ∧ (t.mem t.root).parent = NIL ∧ LinksConsistent t sh := by
  obtain ⟨sh, hi⟩ := treeReachable_inv hr
  refine ⟨sh, hi.tree, ?_, isTree_links hi.tree⟩
  by_cases hl : sh = Shape.leaf
  · have h0 : t.root = NIL := by rw [hi.tree.root, hl]; rfl
    rw [h0]
    exact hi.emptyPar h0
  · exact isTree_root_parent hi.tree hl

theorem C31_parent_link_consistency_witness :
    IsTree (treeAfter linkRun).1 linkShape ∧ linkShape.addrs = [2, 5, 6, 1] ∧
      ∃ sh, IsTree (treeAfter linkRun).1 sh ∧
        ((treeAfter linkRun).1.mem (treeAfter linkRun).1.root).parent = NIL ∧
        LinksConsistent (treeAfter linkRun).1 sh :=
  ⟨by decide, by decide,
    C31_parent_link_consistency (treeAfter linkRun).1 (treeAfter linkRun).2
      (treeReachable_treeAfter (by decide))⟩

/-- C32: the second duplicate check of rbTree::insert is unreachable.  For every tree and
every node that is not null: whenever the descent loop finishes without throwing, at the
node Y, the tree is empty (Y is the sentinel) or the ride number of the new node is
smaller or larger than the one of Y, so insert takes one of the first three branches of
the attach step and goes on to the rebalancing; and every error that insert raises is the
one of the descent loop, with the tree exactly as it was before the call. -/
theorem C32_second_duplicate_check_unreachable (fuel : Nat) (t : rbTree) (node : Nat) :
    (∀ Y, insertDescend fuel t (t.mem node).rideNumber t.root NIL = some (Except.ok Y) →
      (Y = NIL ∨ (t.mem node).rideNumber < (t.mem Y).rideNumber ∨
        (t.mem node).rideNumber > (t.mem Y).rideNumber) ∧
      rbTree.insert fuel t (some node) =
        (insertionRebalance fuel
          (if Y = NIL then { t.setParent node Y with root := node }
            else if (t.mem node).rideNumber < (t.mem Y).rideNumber
              then (t.setParent node Y).setLeft Y node
              else (t.setParent node Y).setRight Y node) node).map Except.ok) ∧
    (∀ msg t2, rbTree.insert fuel t (some node) = some (Except.error (msg, t2)) →
      t2 = t ∧ msg = "Duplicate RideNumber\n" ∧
      insertDescend fuel t (t.mem node).rideNumber t.root NIL =
        some (Except.error "Duplicate RideNumber\n")) := by
  have key : ∀ Y, insertDescend fuel t (t.mem node).rideNumber t.root NIL =
      some (Except.ok Y) →
      (Y = NIL ∨ (t.mem node).rideNumber < (t.mem Y).rideNumber ∨
        (t.mem node).rideNumber > (t.mem Y).rideNumber) ∧
      rbTree.insert fuel t (some node) =
        (insertionRebalance fuel
          (if Y = NIL then { t.setParent node Y with root := node }
            else if (t.mem node).rideNumber < (t.mem Y).rideNumber
              then (t.setParent node Y).setLeft Y node
              else (t.setParent node Y).setRight Y node) node).map Except.ok := by
    intro Y e
    have hY := insertDescend_ok fuel t _ _ NIL Y (Or.inl rfl) e
    refine ⟨hY, ?_⟩
    unfold rbTree.insert
    simp only [e, rbTree.setParent_rideNumber]
    by_cases h0 : Y = NIL
    · simp only [h0, if_true]
    · simp only [h0, if_false]
      by_cases h1 : (t.mem node).rideNumber < (t.mem Y).rideNumber
      · simp only [h1, if_true]
      · simp only [h1, if_false]
        have h2 : (t.mem node).rideNumber > (t.mem Y).rideNumber := by
          rcases hY with h | h | h
          · exact absurd h h0
          · exact absurd h h1
          · exact h
        simp only [h2, if_true]
  refine ⟨key, ?_⟩
  intro msg t2 e
  cases hd : insertDescend fuel t (t.mem node).rideNumber t.root NIL with
  | none =>
    unfold rbTree.insert at e
    simp [hd] at e
  | some r =>
    cases r with
    | error m =>
      have hm := insertDescend_error _ _ _ _ _ _ hd
      unfold rbTree.insert at e
      simp only [hd, Option.some.injEq, Except.error.injEq, Prod.mk.injEq] at e
      obtain ⟨e1, e2⟩ := e
      subst hm
      exact ⟨e2.symm, e1.symm, rfl⟩
    | ok Y =>
      exfalso
      rw [(key Y hd).2] at e
      cases hq : insertionRebalance fuel
          (if Y = NIL then { t.setParent node Y with root := node }
            else if (t.mem node).rideNumber < (t.mem Y).rideNumber
              then (t.setParent node Y).setLeft Y node
              else (t.setParent node Y).setRight Y node) node with
      | none => rw [hq] at e; cases e
      | some q => rw [hq] at e; cases e

theorem C32_second_duplicate_check_unreachable_witness :
    ((1 : Nat) = NIL ∨ (twoNodeTree.mem 2).rideNumber < (twoNodeTree.mem 1).rideNumber ∨
      (twoNodeTree.mem 2).rideNumber > (twoNodeTree.mem 1).rideNumber) ∧
    rbTree.insert 4 twoNodeTree (some 2) =
      (insertionRebalance 4
        (if (1 : Nat) = NIL then { twoNodeTree.setParent 2 1 with root := 2 }
          else if (twoNodeTree.mem 2).rideNumber < (twoNodeTree.mem 1).rideNumber
            then (twoNodeTree.setParent 2 1).setLeft 1 2
            else (twoNodeTree.setParent 2 1).setRight 1 2) 2).map Except.ok :=
  (C32_second_duplicate_check_unreachable 4 twoNodeTree 2).1 1 rfl

end GatorTaxi
